import Mathlib

/-! Red-black tree engine of cppBabySTL (`src/src/rb_tree.h`).

The engine is pointer code: every node carries `parent`, `left` and `right`
links, the tree owns a sentinel `header_`, and all operations mutate nodes in
place.  The embedding keeps that shape.  A tree state is the sentinel, the
counter `cnt_`, the comparator and a free store mapping addresses to node
records; every C++ statement that reads or writes through a pointer becomes a
read or write of the store, and every operation returns `Except Err _` so that
dereferencing `nullptr`, a deleted node or the sentinel as a payload node is an
explicit error instead of undefined behaviour.  Recursive functions and loops
take a fuel argument that decreases by one per call or iteration.
-/

namespace BabySTL

/-- Colour tag of a node (`enum RBTreeColor`). -/
inductive RBTreeColor where
  | kRed
  | kBlack
deriving DecidableEq

/-- A `NodeBase *`: `nullptr`, the address of the sentinel `header_` of the
tree, or the address of a node created by `new`. -/
inductive Ptr where
  | null
  | header
  | node (a : Nat)
deriving DecidableEq

/-- Ways in which an operation can fail to complete.  `nullDeref`, `dangling`
and `notANode` stand for undefined behaviour (a read or write through
`nullptr`, through a deleted node, or of a payload field of the sentinel);
`invalidArgument` is the `std::invalid_argument` thrown by the engine;
`outOfFuel` is reported when the fuel of a recursive function is used up. -/
inductive Err where
  | nullDeref
  | dangling
  | notANode
  | invalidArgument
  | outOfFuel
deriving DecidableEq

/-- The linkage record `struct NodeBase`. -/
structure NodeBase where
  parent : Ptr
  left : Ptr
  right : Ptr
deriving DecidableEq

/-- The payload node `struct RBTreeMapNode : public NodeBase` (colour, key and
value).  `RBTreeSetNode` is the same record without `val`; it is obtained with
`V := Unit`, for which `replace_val` and the value half of `swap` do nothing. -/
structure RBTreeMapNode (K V : Type) extends NodeBase where
  color : RBTreeColor
  key : K
  val : V

/-- The `class RBTree`: sentinel, node count, comparator, together with the
free store (`heap a = some n` when address `a` holds a live node) and the next
address `new` will hand out.  `cnt_` is a `std::size_t`; it is kept as a
natural number because it only counts live nodes, and the wrap-around of
`cnt_--` at zero is written out in `destroy_node_`. -/
structure RBTree (K V : Type) where
  header_ : NodeBase
  cnt_ : Nat
  cmp_ : K → K → Bool
  heap : Nat → Option (RBTreeMapNode K V)
  next : Nat

variable {K V : Type}

/-- The default-constructed tree: `NodeBase()` gives the sentinel an absent
parent and `left = right = this`; `cnt_` is zero and nothing is allocated. -/
def RBTree.empty (cmp : K → K → Bool) : RBTree K V :=
  { header_ := { parent := .null, left := .header, right := .header },
    cnt_ := 0, cmp_ := cmp, heap := fun _ => none, next := 0 }

/-- Read the `NodeBase` part behind a pointer. -/
def RBTree.baseAt (t : RBTree K V) : Ptr → Except Err NodeBase
  | .null => .error .nullDeref
  | .header => .ok t.header_
  | .node a =>
    match t.heap a with
    | some n => .ok n.toNodeBase
    | none => .error .dangling

/-- Read the payload node behind a pointer (after `static_cast<NodeType *>`). -/
def RBTree.nodeAt (t : RBTree K V) : Ptr → Except Err (RBTreeMapNode K V)
  | .null => .error .nullDeref
  | .header => .error .notANode
  | .node a =>
    match t.heap a with
    | some n => .ok n
    | none => .error .dangling

/-- Overwrite the node stored at address `a`. -/
def RBTree.store (t : RBTree K V) (a : Nat) (n : RBTreeMapNode K V) : RBTree K V :=
  { t with heap := fun x => if x = a then some n else t.heap x }

/-- Write to the `NodeBase` part behind a pointer. -/
def RBTree.setBase (t : RBTree K V) (p : Ptr) (f : NodeBase → NodeBase) :
    Except Err (RBTree K V) :=
  match p with
  | .null => .error .nullDeref
  | .header => .ok { t with header_ := f t.header_ }
  | .node a =>
    match t.heap a with
    | some n => .ok (t.store a { n with toNodeBase := f n.toNodeBase })
    | none => .error .dangling

/-- Write to the payload node behind a pointer. -/
def RBTree.setNode (t : RBTree K V) (p : Ptr)
    (f : RBTreeMapNode K V → RBTreeMapNode K V) : Except Err (RBTree K V) :=
  match p with
  | .null => .error .nullDeref
  | .header => .error .notANode
  | .node a =>
    match t.heap a with
    | some n => .ok (t.store a (f n))
    | none => .error .dangling

/-- Value of `p->parent`. -/
def RBTree.parentOf (t : RBTree K V) (p : Ptr) : Except Err Ptr :=
  (t.baseAt p).map (·.parent)

/-- Value of `p->left`. -/
def RBTree.leftOf (t : RBTree K V) (p : Ptr) : Except Err Ptr :=
  (t.baseAt p).map (·.left)

/-- Value of `p->right`. -/
def RBTree.rightOf (t : RBTree K V) (p : Ptr) : Except Err Ptr :=
  (t.baseAt p).map (·.right)

/-- Value of `p->color`. -/
def RBTree.colorOf (t : RBTree K V) (p : Ptr) : Except Err RBTreeColor :=
  (t.nodeAt p).map (·.color)

/-- Value of `p->key`. -/
def RBTree.keyOf (t : RBTree K V) (p : Ptr) : Except Err K :=
  (t.nodeAt p).map (·.key)

/-- Assignment `p->parent = v`. -/
def RBTree.setParent (t : RBTree K V) (p v : Ptr) : Except Err (RBTree K V) :=
  t.setBase p (fun b => { b with parent := v })

/-- Assignment `p->left = v`. -/
def RBTree.setLeft (t : RBTree K V) (p v : Ptr) : Except Err (RBTree K V) :=
  t.setBase p (fun b => { b with left := v })

/-- Assignment `p->right = v`. -/
def RBTree.setRight (t : RBTree K V) (p v : Ptr) : Except Err (RBTree K V) :=
  t.setBase p (fun b => { b with right := v })

/-- Assignment `p->color = c`. -/
def RBTree.setColor (t : RBTree K V) (p : Ptr) (c : RBTreeColor) : Except Err (RBTree K V) :=
  t.setNode p (fun n => { n with color := c })

/-- The statement `p->color = p->color == kRed ? kBlack : kRed`. -/
def RBTree.flipColor (t : RBTree K V) (p : Ptr) : Except Err (RBTree K V) :=
  t.setNode p (fun n => { n with color := if n.color = .kRed then .kBlack else .kRed })

/-- The method `NodeBase::get_parent(header)`: the parent link, with the
sentinel reported as `nullptr`. -/
def get_parent (t : RBTree K V) (this : Ptr) : Except Err Ptr :=
  (t.parentOf this).bind fun p =>
  if p = .header then .ok .null else .ok p

/-- The method `NodeBase::get_uncle(header)`.  Both branches of the final test
return `grandpa->right`, as in the source. -/
def get_uncle (t : RBTree K V) (this : Ptr) : Except Err Ptr :=
  (get_parent t this).bind fun p =>
  if p = .null then .ok .null else
  (get_parent t p).bind fun grandpa =>
  if grandpa = .null then .ok .null else
  (t.leftOf grandpa).bind fun gl =>
  if gl = p then t.rightOf grandpa else t.rightOf grandpa

/-- The method `NodeBase::get_sibling(header)`. -/
def get_sibling (t : RBTree K V) (this : Ptr) : Except Err Ptr :=
  (get_parent t this).bind fun p =>
  if p = .null then .ok .null else
  (t.leftOf p).bind fun pl =>
  if pl = this then t.rightOf p else t.leftOf p

/-- The function `RBTree::rotate_left_`. -/
def rotate_left_ (t : RBTree K V) (node : Ptr) : Except Err (RBTree K V) :=
  if node = .null then .error .invalidArgument else
  (t.rightOf node).bind fun r_son =>
  if r_son = .null then .error .invalidArgument else
  (get_parent t node).bind fun parent =>
  (if parent = .null then
      (t.setParent .header r_son).bind fun t1 => t1.setParent r_son .header
    else
      (t.leftOf parent).bind fun pl =>
      (if pl = node then t.setLeft parent r_son else t.setRight parent r_son).bind fun t1 =>
      t1.setParent r_son parent).bind fun t2 =>
  (t2.leftOf r_son).bind fun rl =>
  (t2.setRight node rl).bind fun t3 =>
  (t3.leftOf r_son).bind fun rl2 =>
  (if rl2 ≠ .null then t3.setParent rl2 node else .ok t3).bind fun t4 =>
  (t4.setLeft r_son node).bind fun t5 =>
  t5.setParent node r_son

/-- The function `RBTree::rotate_right_`. -/
def rotate_right_ (t : RBTree K V) (node : Ptr) : Except Err (RBTree K V) :=
  if node = .null then .error .invalidArgument else
  (t.leftOf node).bind fun l_son =>
  if l_son = .null then .error .invalidArgument else
  (get_parent t node).bind fun parent =>
  (if parent = .null then
      (t.setParent .header l_son).bind fun t1 => t1.setParent l_son .header
    else
      (t.leftOf parent).bind fun pl =>
      (if pl = node then t.setLeft parent l_son else t.setRight parent l_son).bind fun t1 =>
      t1.setParent l_son parent).bind fun t2 =>
  (t2.rightOf l_son).bind fun lr =>
  (t2.setLeft node lr).bind fun t3 =>
  (t3.rightOf l_son).bind fun lr2 =>
  (if lr2 ≠ .null then t3.setParent lr2 node else .ok t3).bind fun t4 =>
  (t4.setRight l_son node).bind fun t5 =>
  t5.setParent node l_son

/-- The function `RBTree::rebalance_after_insert_`.  The conjunctions in the
shape tests are evaluated left to right and stop at the first false operand. -/
def rebalance_after_insert_ : Nat → RBTree K V → Ptr → Except Err (RBTree K V)
  | 0, _, _ => .error .outOfFuel
  | fuel + 1, t, node =>
    if node = .null then .ok t else
    if t.header_.parent = node then t.setColor node .kBlack else
    (get_parent t node).bind fun parent =>
    (get_parent t parent).bind fun grandpa =>
    (get_uncle t node).bind fun uncle =>
    (t.colorOf parent).bind fun pc =>
    if pc = .kBlack then .ok t else
    (if uncle = .null then .ok true
      else (t.colorOf uncle).map fun uc => decide (uc = .kBlack)).bind fun uncleBlack =>
    if uncleBlack then
      (t.flipColor parent).bind fun t1 =>
      (t1.flipColor grandpa).bind fun t2 =>
      (t2.leftOf grandpa).bind fun gl =>
      (if gl = parent then (t2.leftOf parent).map fun pl => decide (pl = node)
        else .ok false).bind fun ll =>
      if ll then rotate_right_ t2 grandpa else
      (t2.rightOf grandpa).bind fun gr =>
      (if gr = parent then (t2.rightOf parent).map fun pr => decide (pr = node)
        else .ok false).bind fun rr =>
      if rr then rotate_left_ t2 grandpa else
      (t2.leftOf grandpa).bind fun gl2 =>
      (if gl2 = parent then (t2.rightOf parent).map fun pr => decide (pr = node)
        else .ok false).bind fun lr =>
      if lr then (rotate_left_ t2 parent).bind fun t3 => rotate_right_ t3 grandpa
      else (rotate_right_ t2 parent).bind fun t3 => rotate_left_ t3 grandpa
    else
      (t.flipColor uncle).bind fun t1 =>
      (t1.flipColor parent).bind fun t2 =>
      (t2.flipColor grandpa).bind fun t3 =>
      rebalance_after_insert_ fuel t3 grandpa

/-- The static function `RBTreeMapNode::create_node`: `new` hands out the
address `next`; the constructor leaves `parent`, `left` and `right` absent and
the colour red, and stores the key and the value. -/
def create_node (t : RBTree K V) (key : K) (val : V) : RBTree K V × Ptr :=
  ({ t.store t.next { parent := .null, left := .null, right := .null,
                      color := .kRed, key := key, val := val } with
     next := t.next + 1 }, .node t.next)

/-- The method `RBTreeMapNode::replace_val`. -/
def replace_val (t : RBTree K V) (node : Ptr) (val : V) : Except Err (RBTree K V) :=
  t.setNode node (fun n => { n with val := val })

/-- The function `RBTree::insert_`.  The nested call of
`rebalance_after_insert_` gets one unit of fuel per address handed out so far,
plus one. -/
def insert_ [DecidableEq K] :
    Nat → RBTree K V → Ptr → Bool → K → V → Except Err (RBTree K V × Ptr)
  | 0, _, _, _, _, _ => .error .outOfFuel
  | fuel + 1, t, node, replace, key, val =>
    if node = .null then .error .invalidArgument else
    (t.nodeAt node).bind fun n =>
    if n.key = key ∧ replace = true then
      (replace_val t node val).map fun t1 => (t1, node)
    else if t.cmp_ key n.key = true then
      if n.left = .null then
        let c := create_node t key val
        (c.1.setLeft node c.2).bind fun t1 =>
        (t1.leftOf node).bind fun nl =>
        (t1.setParent nl node).bind fun t2 =>
        (rebalance_after_insert_ (t2.next + 1) t2 c.2).bind fun t3 =>
        let t4 := { t3 with cnt_ := t3.cnt_ + 1 }
        (if t4.header_.left = node then
            (t4.leftOf node).map fun nl2 =>
              { t4 with header_ := { t4.header_ with left := nl2 } }
          else .ok t4).map fun t5 => (t5, c.2)
      else insert_ fuel t n.left replace key val
    else
      if n.right = .null then
        let c := create_node t key val
        (c.1.setRight node c.2).bind fun t1 =>
        (t1.rightOf node).bind fun nr =>
        (t1.setParent nr node).bind fun t2 =>
        (rebalance_after_insert_ (t2.next + 1) t2 c.2).bind fun t3 =>
        let t4 := { t3 with cnt_ := t3.cnt_ + 1 }
        (if t4.header_.right = node then
            (t4.rightOf node).map fun nr2 =>
              { t4 with header_ := { t4.header_ with right := nr2 } }
          else .ok t4).map fun t5 => (t5, c.2)
      else insert_ fuel t n.right replace key val

/-- The public `RBTree::insert(replace, key, args...)`; the iterator it returns
is identified with the node pointer it holds. -/
def insert [DecidableEq K] (t : RBTree K V) (replace : Bool) (key : K) (val : V) :
    Except Err (RBTree K V × Ptr) :=
  if t.header_.parent = .null then
    let c := create_node t key val
    (c.1.setParent c.2 .header).bind fun t1 =>
    (t1.setColor c.2 .kBlack).bind fun t2 =>
    .ok ({ t2 with header_ := { parent := c.2, left := c.2, right := c.2 },
                   cnt_ := t2.cnt_ + 1 }, c.2)
  else insert_ (t.next + 1) t t.header_.parent replace key val

/-- The static function `RBTreeMapNode::destroy_node`: clear the child slot of
the parent that holds `node`, then `delete node`. -/
def destroy_node (t : RBTree K V) (node : Ptr) : Except Err (RBTree K V) :=
  (get_parent t node).bind fun p =>
  (if p ≠ .null then
      (t.leftOf p).bind fun pl =>
      (if pl = node then t.setLeft p .null else .ok t).bind fun t1 =>
      (t1.rightOf p).bind fun pr =>
      if pr = node then t1.setRight p .null else .ok t1
    else .ok t).bind fun t2 =>
  match node with
  | .null => .error .nullDeref
  | .header => .error .notANode
  | .node a =>
    match t2.heap a with
    | some _ => .ok { t2 with heap := fun x => if x = a then none else t2.heap x }
    | none => .error .dangling

/-- The function `RBTree::destroy_node_`; `cnt_--` on a `std::size_t` wraps
from zero to `2^64 - 1`. -/
def destroy_node_ (t : RBTree K V) (node : Ptr) : Except Err (RBTree K V) :=
  if node = .null then .error .invalidArgument else
  (destroy_node t node).map fun t1 =>
  { t1 with cnt_ := if t1.cnt_ = 0 then 2 ^ 64 - 1 else t1.cnt_ - 1 }

/-- The function `RBTree::clear_`: post-order teardown of the subtree at `node`. -/
def clear_ : Nat → RBTree K V → Ptr → Except Err (RBTree K V)
  | 0, _, _ => .error .outOfFuel
  | fuel + 1, t, node =>
    if node = .null then .ok t else
    (t.leftOf node).bind fun l =>
    (clear_ fuel t l).bind fun t1 =>
    (t1.rightOf node).bind fun r =>
    (clear_ fuel t1 r).bind fun t2 =>
    destroy_node_ t2 node

/-- The public `RBTree::clear()`. -/
def clear (t : RBTree K V) : Except Err (RBTree K V) :=
  (clear_ (t.next + 1) t t.header_.parent).map fun t1 =>
  { t1 with header_ := { parent := .null, left := .header, right := .header }, cnt_ := 0 }

/-- The pair `(close_nephew, distant_nephew)` as computed in
`rebalance_after_remove_` from `parent`, `node` and `sibling`. -/
def nephews (t : RBTree K V) (parent node sibling : Ptr) : Except Err (Ptr × Ptr) :=
  (t.leftOf parent).bind fun pl =>
  if pl = node then
    (t.leftOf sibling).bind fun c => (t.rightOf sibling).map fun d => (c, d)
  else
    (t.rightOf sibling).bind fun c => (t.leftOf sibling).map fun d => (c, d)

/-- The test `p != nullptr && p->color == kRed`. -/
def isRed (t : RBTree K V) (p : Ptr) : Except Err Bool :=
  if p = .null then .ok false else (t.colorOf p).map fun c => decide (c = .kRed)

/-- The statement `if (parent->left == node) rotate_left_(parent); else
rotate_right_(parent);`. -/
def rotate_toward (t : RBTree K V) (parent node : Ptr) : Except Err (RBTree K V) :=
  (t.leftOf parent).bind fun pl =>
  if pl = node then rotate_left_ t parent else rotate_right_ t parent

/-- The function `RBTree::rebalance_after_remove_`. -/
def rebalance_after_remove_ : Nat → RBTree K V → Ptr → Except Err (RBTree K V)
  | 0, _, _ => .error .outOfFuel
  | fuel + 1, t, node =>
    if t.header_.parent = node then .ok t else
    (get_sibling t node).bind fun sibling0 =>
    (t.colorOf sibling0).bind fun sc =>
    (if sc = .kRed then
        (get_parent t node).bind fun parent =>
        (rotate_toward t parent node).bind fun t1 =>
        (t1.setColor parent .kRed).bind fun t2 =>
        (t2.setColor sibling0 .kBlack).bind fun t3 =>
        (get_sibling t3 node).map fun sibling1 => (t3, sibling1)
      else .ok (t, sibling0)).bind fun ts =>
    let t4 := ts.1
    let sibling := ts.2
    (get_parent t4 node).bind fun parent =>
    (nephews t4 parent node sibling).bind fun cd =>
    (isRed t4 cd.1).bind fun closeRed =>
    (isRed t4 cd.2).bind fun distantRed =>
    if (!closeRed && !distantRed) = true then
      (t4.colorOf parent).bind fun pc =>
      if pc = .kRed then
        (t4.setColor parent .kBlack).bind fun t5 => t5.setColor sibling .kRed
      else
        (t4.setColor sibling .kRed).bind fun t5 => rebalance_after_remove_ fuel t5 parent
    else
      (if closeRed = true then
          (t4.leftOf parent).bind fun pl =>
          (if pl = sibling then rotate_left_ t4 sibling
            else rotate_right_ t4 sibling).bind fun t5 =>
          (t5.setColor sibling .kRed).bind fun t6 =>
          (t6.setColor cd.1 .kBlack).bind fun t7 =>
          (get_sibling t7 node).bind fun sibling2 =>
          (nephews t7 parent node sibling2).map fun cd2 => (t7, sibling2, cd2.2)
        else .ok (t4, sibling, cd.2)).bind fun r =>
      let t8 := r.1
      let sibling3 := r.2.1
      let distant := r.2.2
      (rotate_toward t8 parent node).bind fun t9 =>
      (t9.colorOf parent).bind fun pc =>
      (t9.setColor sibling3 pc).bind fun t10 =>
      (t10.setColor parent .kBlack).bind fun t11 =>
      if distant ≠ .null then t11.setColor distant .kBlack else .ok t11

/-- The loop `while (tmp->left != nullptr) tmp = tmp->left;`. -/
def leftmost : Nat → RBTree K V → Ptr → Except Err Ptr
  | 0, _, _ => .error .outOfFuel
  | fuel + 1, t, tmp =>
    (t.leftOf tmp).bind fun l =>
    if l ≠ .null then leftmost fuel t l else .ok tmp

/-- The method `RBTreeMapNode::swap`: exchange key and value of two nodes. -/
def swap (t : RBTree K V) (this other : Ptr) : Except Err (RBTree K V) :=
  (t.nodeAt this).bind fun a =>
  (t.nodeAt other).bind fun b =>
  (t.setNode this fun n => { n with key := b.key, val := b.val }).bind fun t1 =>
  t1.setNode other fun n => { n with key := a.key, val := a.val }

/-- The part of `RBTree::remove_` that follows the key test: `node` holds the
key to erase. -/
def remove_found (t : RBTree K V) (node0 : Ptr) : Except Err (RBTree K V × Bool) :=
  if t.cnt_ = 1 then (clear t).map fun t1 => (t1, true) else
  (t.leftOf node0).bind fun l0 =>
  (if l0 ≠ .null then (t.rightOf node0).map fun r0 => decide (r0 ≠ .null)
    else .ok false).bind fun two =>
  (if two = true then
      (t.rightOf node0).bind fun tmp =>
      (leftmost (t.next + 1) t tmp).bind fun successor =>
      (swap t successor node0).map fun t1 => (t1, successor)
    else .ok (t, node0)).bind fun tn =>
  let t2 := tn.1
  let node := tn.2
  (t2.leftOf node).bind fun l =>
  (if l ≠ .null then .ok true else (t2.rightOf node).map fun r => decide (r ≠ .null)).bind fun one =>
  if one = true then
    (t2.leftOf node).bind fun l1 =>
    (if l1 = .null then t2.rightOf node else t2.leftOf node).bind fun sub_tree =>
    (get_parent t2 node).bind fun parent =>
    (if parent = .null then
        (t2.setParent .header sub_tree).bind fun t3 => t3.setParent sub_tree .header
      else
        (t2.leftOf parent).bind fun pl =>
        (if pl = node then t2.setLeft parent sub_tree
          else t2.setRight parent sub_tree).bind fun t3 =>
        t3.setParent sub_tree parent).bind fun t4 =>
    (t4.setColor sub_tree .kBlack).bind fun t5 =>
    let t6 := if t5.header_.left = node
      then { t5 with header_ := { t5.header_ with left := sub_tree } } else t5
    let t7 := if t6.header_.right = node
      then { t6 with header_ := { t6.header_ with right := sub_tree } } else t6
    (destroy_node_ t7 node).map fun t8 => (t8, true)
  else
    (t2.colorOf node).bind fun c =>
    (if c = .kBlack then rebalance_after_remove_ (t2.next + 1) t2 node else .ok t2).bind fun t3 =>
    (t3.parentOf node).bind fun parent =>
    let t4 := if t3.header_.left = node
      then { t3 with header_ := { t3.header_ with left := parent } } else t3
    let t5 := if t4.header_.right = node
      then { t4 with header_ := { t4.header_ with right := parent } } else t4
    (destroy_node_ t5 node).map fun t6 => (t6, true)

/-- The function `RBTree::remove_`: descend to a node holding `key`, then
erase it (`remove_found`). -/
def remove_ [DecidableEq K] : Nat → RBTree K V → Ptr → K → Except Err (RBTree K V × Bool)
  | 0, _, _, _ => .error .outOfFuel
  | fuel + 1, t, node, key =>
    if node = .null then .ok (t, false) else
    (t.nodeAt node).bind fun n =>
    if key ≠ n.key then
      if t.cmp_ key n.key = true then remove_ fuel t n.left key
      else remove_ fuel t n.right key
    else remove_found t node

/-- The public `RBTree::remove(key)`. -/
def remove [DecidableEq K] (t : RBTree K V) (key : K) : Except Err (RBTree K V × Bool) :=
  remove_ (t.next + 1) t t.header_.parent key

/-- The function `RBTree::find_`. -/
def find_ [DecidableEq K] : Nat → RBTree K V → Ptr → K → Except Err Ptr
  | 0, _, _, _ => .error .outOfFuel
  | fuel + 1, t, node, key =>
    if node = .null then .ok .null else
    (t.nodeAt node).bind fun n =>
    if key = n.key then .ok node
    else if t.cmp_ key n.key = true then find_ fuel t n.left key
    else find_ fuel t n.right key

/-- The public `RBTree::find(key)`; the result is the node pointer held by the
returned iterator, `Ptr.header` standing for `end()`. -/
def find [DecidableEq K] (t : RBTree K V) (key : K) : Except Err Ptr :=
  if t.cnt_ = 0 then .ok .header else
  (find_ (t.next + 1) t t.header_.parent key).map fun node =>
  if node = .null then .header else node

/-- The public `RBTree::get_or_insert(key)`; a missing key is inserted with a
value-initialised `Value()`. -/
def get_or_insert [DecidableEq K] [Inhabited V] (t : RBTree K V) (key : K) :
    Except Err (RBTree K V × Ptr) :=
  if t.cnt_ = 0 then .ok (t, .header) else
  (find_ (t.next + 1) t t.header_.parent key).bind fun node =>
  if node = .null then insert_ (t.next + 1) t t.header_.parent true key default
  else .ok (t, node)

/-! ## Sequences of public operations -/

/-- One call of the public interface of the engine. -/
inductive Op (K V : Type) where
  | insert (replace : Bool) (key : K) (val : V)
  | get_or_insert (key : K)
  | remove (key : K)
  | clear

/-- Perform one public call and keep the resulting tree. -/
def Op.apply [DecidableEq K] [Inhabited V] (t : RBTree K V) : Op K V → Except Err (RBTree K V)
  | .insert replace key val => (BabySTL.insert t replace key val).map (·.1)
  | .get_or_insert key => (BabySTL.get_or_insert t key).map (·.1)
  | .remove key => (BabySTL.remove t key).map (·.1)
  | .clear => BabySTL.clear t

/-- Perform a sequence of public calls, stopping at the first that fails. -/
def runFrom [DecidableEq K] [Inhabited V] (t : RBTree K V) : List (Op K V) → Except Err (RBTree K V)
  | [] => .ok t
  | op :: ops => (op.apply t).bind fun t1 => runFrom t1 ops

/-- Perform a sequence of public calls on the default-constructed tree. -/
def run [DecidableEq K] [Inhabited V] (cmp : K → K → Bool) (ops : List (Op K V)) :
    Except Err (RBTree K V) :=
  runFrom (RBTree.empty cmp) ops

/-! ## Observations on a tree state -/

/-- Addresses met by an in-order walk along `left` and `right` links from `p`. -/
def inorder : Nat → RBTree K V → Ptr → List Nat
  | 0, _, _ => []
  | _ + 1, _, .null => []
  | _ + 1, _, .header => []
  | fuel + 1, t, .node a =>
    match t.heap a with
    | some n => inorder fuel t n.left ++ a :: inorder fuel t n.right
    | none => []

/-- Addresses of the nodes reachable from the root, in in-order. -/
def RBTree.nodes (t : RBTree K V) : List Nat :=
  inorder (t.next + 1) t t.header_.parent

/-- The in-order key sequence. -/
def RBTree.keys (t : RBTree K V) : List K :=
  t.nodes.filterMap fun a => (t.heap a).map (·.key)

/-- The in-order sequence of (key, value) pairs. -/
def RBTree.entries (t : RBTree K V) : List (K × V) :=
  t.nodes.filterMap fun a => (t.heap a).map fun n => (n.key, n.val)

/-- The value of `size()`. -/
def RBTree.size (t : RBTree K V) : Nat := t.cnt_

/-- Whether the pointer designates a live red node. -/
def RBTree.redAt (t : RBTree K V) : Ptr → Bool
  | .node a =>
    match t.heap a with
    | some n => decide (n.color = .kRed)
    | none => false
  | _ => false

/-- Invariant 1: the root, if present, is black. -/
def RBTree.rootBlack (t : RBTree K V) : Bool :=
  !t.redAt t.header_.parent

/-- Invariant 2: no reachable red node has a red child. -/
def RBTree.noRedRed (t : RBTree K V) : Bool :=
  t.nodes.all fun a =>
    match t.heap a with
    | some n => !(decide (n.color = .kRed) && (t.redAt n.left || t.redAt n.right))
    | none => true

/-- Number of black nodes on every path from `p` down to an absent child, when
that number is the same for all of them. -/
def blackHeight : Nat → RBTree K V → Ptr → Option Nat
  | 0, _, _ => none
  | _ + 1, _, .null => some 0
  | _ + 1, _, .header => none
  | fuel + 1, t, .node a =>
    match t.heap a with
    | some n =>
      match blackHeight fuel t n.left, blackHeight fuel t n.right with
      | some hl, some hr =>
        if hl = hr then some (hl + if n.color = .kBlack then 1 else 0) else none
      | _, _ => none
    | none => none

/-- Invariant 3: all paths from the root (hence from every node) to absent
children cross the same number of black nodes. -/
def RBTree.blackBalanced (t : RBTree K V) : Bool :=
  (blackHeight (t.next + 1) t t.header_.parent).isSome

/-- The comparator on natural numbers used in the concrete scenarios
(`std::less<int>` on small non-negative keys). -/
def natLess (a b : Nat) : Bool := decide (a < b)

/-- Invariant 6: the cached `header_.left` / `header_.right` are the first and
the last node of the in-order walk, and the sentinel itself for an empty tree. -/
def RBTree.cachesExact (t : RBTree K V) : Bool :=
  decide (t.header_.left = (match t.nodes.head? with
                            | some a => Ptr.node a
                            | none => Ptr.header)) &&
  decide (t.header_.right = (match t.nodes.getLast? with
                             | some a => Ptr.node a
                             | none => Ptr.header))

/-- The error an operation ended with, if it did not complete. -/
def failure {α : Type} : Except Err α → Option Err
  | .ok _ => none
  | .error e => some e

/-- Evaluate an observation on the tree an operation sequence produced. -/
def observe {α : Type} (r : Except Err (RBTree K V)) (f : RBTree K V → α) : Option α :=
  match r with
  | .ok t => some (f t)
  | .error _ => none

/-! ## Bounds and iterators -/

/-- The function `RBTree::lower_bound_`: `satisfy_node` is the last node met
whose key is not less than `key`. -/
def lower_bound_ : Nat → RBTree K V → Ptr → K → Ptr → Except Err Ptr
  | 0, _, _, _, _ => .error .outOfFuel
  | fuel + 1, t, node, key, satisfy_node =>
    if node = .null then .ok satisfy_node else
    (t.nodeAt node).bind fun n =>
    if (!t.cmp_ n.key key) = true then lower_bound_ fuel t n.left key node
    else lower_bound_ fuel t n.right key satisfy_node

/-- The public `RBTree::lower_bound(key)`; `Ptr.header` stands for `end()`. -/
def lower_bound (t : RBTree K V) (key : K) : Except Err Ptr :=
  if t.cnt_ = 0 then .ok .header else
  (lower_bound_ (t.next + 1) t t.header_.parent key .null).map fun node =>
  if node = .null then .header else node

/-- The function `RBTree::upper_bound_`: `satisfy_node` is the last node met
whose key is not greater than `key`. -/
def upper_bound_ : Nat → RBTree K V → Ptr → K → Ptr → Except Err Ptr
  | 0, _, _, _, _ => .error .outOfFuel
  | fuel + 1, t, node, key, satisfy_node =>
    if node = .null then .ok satisfy_node else
    (t.nodeAt node).bind fun n =>
    if (!t.cmp_ key n.key) = true then upper_bound_ fuel t n.right key node
    else upper_bound_ fuel t n.left key satisfy_node

/-- The node `begin()` designates: the cached `header_.left`. -/
def RBTree.begin (t : RBTree K V) : Ptr := t.header_.left

/-- The node `end()` designates: the sentinel. -/
def RBTree.end_ (_t : RBTree K V) : Ptr := .header

/-- The loop `while (tmp->right != nullptr) tmp = tmp->right` of `operator--`. -/
def rightmost : Nat → RBTree K V → Ptr → Except Err Ptr
  | 0, _, _ => .error .outOfFuel
  | fuel + 1, t, tmp =>
    (t.rightOf tmp).bind fun r =>
    if r ≠ .null then rightmost fuel t r else .ok tmp

/-- The prefix `Iterator::operator++`, on the node pointer the iterator holds:
the leftmost node of the right subtree when there is one; otherwise the parent
when the node is its left child; otherwise the sentinel. -/
def Iterator.increment (t : RBTree K V) (node : Ptr) : Except Err Ptr :=
  (t.rightOf node).bind fun r =>
  if r ≠ .null then leftmost (t.next + 1) t r else
  (get_parent t node).bind fun p =>
  (if p ≠ .null then (t.leftOf p).map fun pl => decide (pl = node) else .ok false).bind fun up =>
  if up = true then .ok p else .ok .header

/-- The prefix `Iterator::operator--`, on the node pointer the iterator holds:
the rightmost node of the left subtree when there is one; otherwise the parent
when the node is its right child; otherwise the sentinel. -/
def Iterator.decrement (t : RBTree K V) (node : Ptr) : Except Err Ptr :=
  (t.leftOf node).bind fun l =>
  if l ≠ .null then rightmost (t.next + 1) t l else
  (get_parent t node).bind fun p =>
  (if p ≠ .null then (t.rightOf p).map fun pr => decide (pr = node) else .ok false).bind fun up =>
  if up = true then .ok p else .ok .header

/-- The postfix `Iterator::operator--(int)`: `tmp = *this; ++*this; return tmp`.
The result is the pair of the returned copy and the position the iterator is
left at. -/
def Iterator.post_decrement (t : RBTree K V) (node : Ptr) : Except Err (Ptr × Ptr) :=
  (Iterator.increment t node).map fun moved => (node, moved)

/-- The public `RBTree::upper_bound(key)`; `Ptr.header` stands for `end()`. -/
def upper_bound [DecidableEq K] (t : RBTree K V) (key : K) : Except Err Ptr :=
  if t.cnt_ = 0 then .ok .header else
  (upper_bound_ (t.next + 1) t t.header_.parent key .null).bind fun node =>
  if node = .null then .ok t.begin else
  (t.keyOf node).bind fun k =>
  if k = key then .ok node else Iterator.increment t node

/-- The counting loop `while (beg != end) { ++cnt; ++beg; }` the multi-key
containers run over a range of iterators: the number of `++` steps that take
`beg` to `stop`. -/
def count_steps : Nat → RBTree K V → Ptr → Ptr → Except Err Nat
  | 0, _, _, _ => .error .outOfFuel
  | fuel + 1, t, beg, stop =>
    if beg = stop then .ok 0 else
    (Iterator.increment t beg).bind fun nxt =>
    (count_steps fuel t nxt stop).map (· + 1)

/-- The nodes visited by the loop `while (beg != end) { ...; ++beg; }`. -/
def visit_range : Nat → RBTree K V → Ptr → Ptr → Except Err (List Ptr)
  | 0, _, _, _ => .error .outOfFuel
  | fuel + 1, t, beg, stop =>
    if beg = stop then .ok [] else
    (Iterator.increment t beg).bind fun nxt =>
    (visit_range fuel t nxt stop).map (beg :: ·)

/-! ## Further observations and the multi-key façade -/

/-- Number of nodes on the longest path from `p` down to a leaf. -/
def heightFrom : Nat → RBTree K V → Ptr → Nat
  | 0, _, _ => 0
  | _ + 1, _, .null => 0
  | _ + 1, _, .header => 0
  | fuel + 1, t, .node a =>
    match t.heap a with
    | some n => max (heightFrom fuel t n.left) (heightFrom fuel t n.right) + 1
    | none => 0

/-- Number of nodes on the longest root-to-leaf path of the tree. -/
def RBTree.height (t : RBTree K V) : Nat :=
  heightFrom (t.next + 1) t t.header_.parent

/-- The methods `BMultiMap::count` and `BMultiSet::count` on the tree of the
container: zero when `lower_bound(key)` is `end()` or designates another key,
and otherwise one more than the number of `++` steps from `lower_bound(key)`
to `upper_bound(key)`.  `fuel` bounds the iterations of the counting loop. -/
def BMultiMap.count [DecidableEq K] (fuel : Nat) (t : RBTree K V) (key : K) : Except Err Nat :=
  (lower_bound t key).bind fun beg =>
  (if beg = t.end_ then .ok true
    else (t.keyOf beg).map fun k => decide (k ≠ key)).bind fun absent =>
  if absent = true then .ok 0 else
  (upper_bound t key).bind fun stop =>
  (count_steps fuel t beg stop).map fun cnt => cnt + 1

/-- Invariant 4 on a concrete tree: no key of the in-order sequence is less than
its predecessor. -/
def RBTree.keysSorted (t : RBTree K V) : Bool :=
  (t.keys.zip t.keys.tail).all fun p => !t.cmp_ p.2 p.1

/-- Invariants 1 to 6 on a concrete tree. -/
def RBTree.invariants (t : RBTree K V) : Bool :=
  t.rootBlack && t.noRedRed && t.blackBalanced && t.keysSorted &&
    decide (t.size = t.nodes.length) && t.cachesExact

end BabySTL

namespace BabySTL

variable {K V : Type}

/-! ## Shapes: the tree a set of linked nodes forms -/

/-- A binary tree of node addresses. -/
inductive Shape where
  | nil
  | node (l : Shape) (a : Nat) (r : Shape)

/-- Addresses of a shape in in-order. -/
def Shape.ids : Shape → List Nat
  | .nil => []
  | .node l a r => l.ids ++ a :: r.ids

/-- Pointer to the root of a shape. -/
def Shape.root : Shape → Ptr
  | .nil => .null
  | .node _ a _ => .node a

/-- Number of nodes on the longest path from the root down. -/
def Shape.height : Shape → Nat
  | .nil => 0
  | .node l _ r => max l.height r.height + 1

/-- A shape with a hole: the path from the hole up to the root, each step
recording the node above the hole and the sibling subtree. -/
inductive Ctx where
  | top
  | left (up : Ctx) (a : Nat) (r : Shape)
  | right (up : Ctx) (l : Shape) (a : Nat)

/-- Fill the hole of a context. -/
def Ctx.plug : Ctx → Shape → Shape
  | .top, s => s
  | .left up a r, s => up.plug (.node s a r)
  | .right up l a, s => up.plug (.node l a s)

/-- Addresses that precede the hole in in-order. -/
def Ctx.before : Ctx → List Nat
  | .top => []
  | .left up _ _ => up.before
  | .right up l a => up.before ++ l.ids ++ [a]

/-- Addresses that follow the hole in in-order. -/
def Ctx.after : Ctx → List Nat
  | .top => []
  | .left up a r => a :: r.ids ++ up.after
  | .right up _ _ => up.after

/-- Value of the `parent` field of the node in the hole. -/
def Ctx.parentPtr : Ctx → Ptr
  | .top => .header
  | .left _ a _ => .node a
  | .right _ _ a => .node a

/-- Result of `get_parent` for the node in the hole. -/
def Ctx.getParent : Ctx → Ptr
  | .top => .null
  | .left _ a _ => .node a
  | .right _ _ a => .node a

/-- Number of nodes above the hole. -/
def Ctx.depth : Ctx → Nat
  | .top => 0
  | .left up _ _ => up.depth + 1
  | .right up _ _ => up.depth + 1

/-- The subtree at pointer `p`, whose root has parent field `par`, has shape
`s` in the store `h`. -/
def Repr (h : Nat → Option (RBTreeMapNode K V)) : Ptr → Ptr → Shape → Prop
  | _, p, .nil => p = .null
  | par, p, .node l a r =>
    p = .node a ∧ ∃ n, h a = some n ∧ n.parent = par ∧
      Repr h (.node a) n.left l ∧ Repr h (.node a) n.right r

/-- The nodes of context `c` are linked as `c` says, from the root pointer `hp`
down to the hole, whose slot holds pointer `p`. -/
def ReprC (h : Nat → Option (RBTreeMapNode K V)) (hp : Ptr) : Ctx → Ptr → Prop
  | .top, p => hp = p
  | .left up a r, p =>
    ∃ n, h a = some n ∧ n.left = p ∧ n.parent = up.parentPtr ∧
      Repr h (.node a) n.right r ∧ ReprC h hp up (.node a)
  | .right up l a, p =>
    ∃ n, h a = some n ∧ n.right = p ∧ n.parent = up.parentPtr ∧
      Repr h (.node a) n.left l ∧ ReprC h hp up (.node a)

/-- The nodes reachable from the root of tree `t` form the shape `s`, with
consistent parent links and pairwise distinct addresses. -/
def Rep (t : RBTree K V) (s : Shape) : Prop :=
  Repr t.heap .header t.header_.parent s ∧ s.ids.Nodup

/-- Outcome of a call that either completes with a result satisfying `P` or
stops on a null dereference; it neither throws `std::invalid_argument`, nor
touches a deleted node, nor runs out of fuel. -/
def Outcome {α : Type} (r : Except Err α) (P : α → Prop) : Prop :=
  match r with
  | .ok x => P x
  | .error e => e = .nullDeref

/-- Payload of the node at an address: colour, key and value. -/
def RBTree.dataAt (t : RBTree K V) (a : Nat) : Option (RBTreeColor × K × V) :=
  (t.heap a).map fun n => (n.color, n.key, n.val)

/-- Key and value of the node at an address. -/
def RBTree.entryAt (t : RBTree K V) (a : Nat) : Option (K × V) :=
  (t.heap a).map fun n => (n.key, n.val)

/-- Key of the node at an address. -/
def RBTree.keyAt (t : RBTree K V) (a : Nat) : Option K :=
  (t.heap a).map (·.key)

/-- Everything but links agrees between two states: sentinel caches, count,
comparator, allocation counter and every payload. -/
structure SameData (t t1 : RBTree K V) : Prop where
  hleft : t1.header_.left = t.header_.left
  hright : t1.header_.right = t.header_.right
  cnt : t1.cnt_ = t.cnt_
  cmp : t1.cmp_ = t.cmp_
  next : t1.next = t.next
  data : ∀ a, t1.dataAt a = t.dataAt a

/-- Keys, values, sentinel caches, count, comparator and allocation counter
agree between two states (links and colours may differ). -/
structure SameEntries (t t1 : RBTree K V) : Prop where
  hleft : t1.header_.left = t.header_.left
  hright : t1.header_.right = t.header_.right
  cnt : t1.cnt_ = t.cnt_
  cmp : t1.cmp_ = t.cmp_
  next : t1.next = t.next
  entry : ∀ a, t1.entryAt a = t.entryAt a

/-- The statement block shared by `rotate_left_`, `rotate_right_` and the
one-child branch of `remove_`: `son` takes the place of `node` below `parent`
(below the sentinel when `parent` is absent) and gets its parent link set. -/
def relink (t : RBTree K V) (parent node son : Ptr) : Except Err (RBTree K V) :=
  if parent = .null then
    (t.setParent .header son).bind fun t1 => t1.setParent son .header
  else
    (t.leftOf parent).bind fun pl =>
    (if pl = node then t.setLeft parent son else t.setRight parent son).bind fun t1 =>
    t1.setParent son parent

/-- Result of a rebalancing pass started from `t` whose nodes formed shape `s`:
the nodes still form a tree with the same in-order sequence, and keys, values,
caches and counters are untouched. -/
def Rebalanced (s : Shape) (t t1 : RBTree K V) : Prop :=
  (∃ s1, Rep t1 s1 ∧ s1.ids = s.ids) ∧ SameEntries t t1

/-- The shape dispatch of case 3 of `rebalance_after_insert_`, after parent and
grandparent have been recoloured. -/
def rai_rotate (t2 : RBTree K V) (node parent grandpa : Ptr) : Except Err (RBTree K V) :=
  (t2.leftOf grandpa).bind fun gl =>
  (if gl = parent then (t2.leftOf parent).map fun pl => decide (pl = node)
    else .ok false).bind fun ll =>
  if ll then rotate_right_ t2 grandpa else
  (t2.rightOf grandpa).bind fun gr =>
  (if gr = parent then (t2.rightOf parent).map fun pr => decide (pr = node)
    else .ok false).bind fun rr =>
  if rr then rotate_left_ t2 grandpa else
  (t2.leftOf grandpa).bind fun gl2 =>
  (if gl2 = parent then (t2.rightOf parent).map fun pr => decide (pr = node)
    else .ok false).bind fun lr =>
  if lr then (rotate_left_ t2 parent).bind fun t3 => rotate_right_ t3 grandpa
  else (rotate_right_ t2 parent).bind fun t3 => rotate_left_ t3 grandpa

/-- Comparator outcomes recorded along the search path for `key` from the root
down to the hole of a context: the descent went left at a node only when `key`
compared less than its key, and right only when it did not (and, when `strict`
is set, only when the keys also differed). -/
def PathOK (t : RBTree K V) (key : K) (strict : Bool) : Ctx → Prop
  | .top => True
  | .left up b _ =>
    (∃ n, t.heap b = some n ∧ t.cmp_ key n.key = true) ∧ PathOK t key strict up
  | .right up _ b =>
    (∃ n, t.heap b = some n ∧ t.cmp_ key n.key = false ∧ (strict = true → n.key ≠ key)) ∧
      PathOK t key strict up

/-- What `insert_` achieves on a tree of shape `s`: either an existing node with
the key had its value replaced (unique mode), or a new node at address `next`
now sits at the position the search path for the key ended at. -/
def InsertPost (s : Shape) (t : RBTree K V) (replace : Bool) (key : K) (val : V)
    (r : RBTree K V × Ptr) : Prop :=
  (∃ b nb, b ∈ s.ids ∧ t.heap b = some nb ∧ nb.key = key ∧ replace = true ∧
      r.2 = .node b ∧ r.1 = t.store b { nb with val := val }) ∨
  (∃ c z, PathOK t key replace c ∧ s = c.plug .nil ∧ Rep r.1 z ∧
      z.ids = c.before ++ t.next :: c.after ∧ r.2 = .node t.next ∧
      r.1.next = t.next + 1 ∧ r.1.cnt_ = t.cnt_ + 1 ∧ r.1.cmp_ = t.cmp_ ∧
      r.1.entryAt t.next = some (key, val) ∧ ∀ x, x ≠ t.next → r.1.entryAt x = t.entryAt x)

/-- The structural invariant of a tree state: the nodes reachable from the root
form the shape `s`, `cnt_` counts them, and all of them were handed out by
`new` before. -/
structure Inv (t : RBTree K V) (s : Shape) : Prop where
  rep : Rep t s
  cnt : t.cnt_ = s.ids.length
  fresh : ∀ a ∈ s.ids, a < t.next

/-- What the part of `insert_` after linking the new node achieves. -/
def TailPost (s : Shape) (t2 : RBTree K V) (nw : Nat) (r : RBTree K V × Ptr) : Prop :=
  (∃ z, Rep r.1 z ∧ z.ids = s.ids) ∧ r.2 = .node nw ∧ r.1.next = t2.next ∧
    r.1.cnt_ = t2.cnt_ + 1 ∧ r.1.cmp_ = t2.cmp_ ∧ ∀ x, r.1.entryAt x = t2.entryAt x

/-- First part of `rebalance_after_remove_`: fetch the sibling and, when it is
red, rotate the parent toward `node`, recolour, and fetch the new sibling. -/
def rar_step1 (t : RBTree K V) (node : Ptr) : Except Err (RBTree K V × Ptr) :=
  (get_sibling t node).bind fun sibling0 =>
  (t.colorOf sibling0).bind fun sc =>
  (if sc = .kRed then
      (get_parent t node).bind fun parent =>
      (rotate_toward t parent node).bind fun t1 =>
      (t1.setColor parent .kRed).bind fun t2 =>
      (t2.setColor sibling0 .kBlack).bind fun t3 =>
      (get_sibling t3 node).map fun sibling1 => (t3, sibling1)
    else .ok (t, sibling0))

/-- Last part of `rebalance_after_remove_` (cases 4 and 5): some nephew is red. -/
def rar_fix (t4 : RBTree K V) (node parent sibling : Ptr) (cd : Ptr × Ptr) (closeRed : Bool) :
    Except Err (RBTree K V) :=
  (if closeRed = true then
      (t4.leftOf parent).bind fun pl =>
      (if pl = sibling then rotate_left_ t4 sibling
        else rotate_right_ t4 sibling).bind fun t5 =>
      (t5.setColor sibling .kRed).bind fun t6 =>
      (t6.setColor cd.1 .kBlack).bind fun t7 =>
      (get_sibling t7 node).bind fun sibling2 =>
      (nephews t7 parent node sibling2).map fun cd2 => (t7, sibling2, cd2.2)
    else .ok (t4, sibling, cd.2)).bind fun r =>
  (rotate_toward r.1 parent node).bind fun t9 =>
  (t9.colorOf parent).bind fun pc =>
  (t9.setColor r.2.1 pc).bind fun t10 =>
  (t10.setColor parent .kBlack).bind fun t11 =>
  if r.2.2 ≠ .null then t11.setColor r.2.2 .kBlack else .ok t11

/-- Middle part of `rebalance_after_remove_`: classify the nephews; `again` is
the recursive call. -/
def rar_step2 (again : RBTree K V → Ptr → Except Err (RBTree K V)) (t4 : RBTree K V)
    (node sibling : Ptr) : Except Err (RBTree K V) :=
  (get_parent t4 node).bind fun parent =>
  (nephews t4 parent node sibling).bind fun cd =>
  (isRed t4 cd.1).bind fun closeRed =>
  (isRed t4 cd.2).bind fun distantRed =>
  if (!closeRed && !distantRed) = true then
    (t4.colorOf parent).bind fun pc =>
    if pc = .kRed then
      (t4.setColor parent .kBlack).bind fun t5 => t5.setColor sibling .kRed
    else
      (t4.setColor sibling .kRed).bind fun t5 => again t5 parent
  else rar_fix t4 node parent sibling cd closeRed

/-- What `rebalance_after_remove_` achieves when started at the root of the
subtree `x` sitting in the hole of context `c`: the subtree is untouched and
still sits in the hole of a context with the same nodes before and after it;
keys, values, caches and counters are unchanged. -/
def RarPost (c : Ctx) (x : Shape) (t t1 : RBTree K V) : Prop :=
  ∃ d : Ctx, Rep t1 (d.plug x) ∧ d.before = c.before ∧ d.after = c.after ∧ SameEntries t t1

/-- First part of `remove_found`: when the node has two children, find its
in-order successor and exchange payloads with it; the node to unlink is the
successor then, and the node itself otherwise. -/
def remove_pick (t : RBTree K V) (node0 : Ptr) : Except Err (RBTree K V × Ptr) :=
  (t.leftOf node0).bind fun l0 =>
  (if l0 ≠ .null then (t.rightOf node0).map fun r0 => decide (r0 ≠ .null)
    else .ok false).bind fun two =>
  (if two = true then
      (t.rightOf node0).bind fun tmp =>
      (leftmost (t.next + 1) t tmp).bind fun successor =>
      (swap t successor node0).map fun t1 => (t1, successor)
    else .ok (t, node0))

/-- Case 2 of `remove_` once the child is known: `sub_tree` takes the place of
`node`, is painted black, the caches are redirected and `node` is destroyed. -/
def splice_at (t2 : RBTree K V) (node sub_tree : Ptr) : Except Err (RBTree K V × Bool) :=
  (get_parent t2 node).bind fun parent =>
  (relink t2 parent node sub_tree).bind fun t4 =>
  (t4.setColor sub_tree .kBlack).bind fun t5 =>
  let t6 := if t5.header_.left = node
    then { t5 with header_ := { t5.header_ with left := sub_tree } } else t5
  let t7 := if t6.header_.right = node
    then { t6 with header_ := { t6.header_ with right := sub_tree } } else t6
  (destroy_node_ t7 node).map fun t8 => (t8, true)

/-- Case 2 of `remove_`: the node has one child, which takes its place. -/
def remove_splice (t2 : RBTree K V) (node : Ptr) : Except Err (RBTree K V × Bool) :=
  (t2.leftOf node).bind fun l1 =>
  (if l1 = .null then t2.rightOf node else t2.leftOf node).bind fun sub_tree =>
  splice_at t2 node sub_tree

/-- Case 3 of `remove_`: the node is a leaf. -/
def remove_leaf (t2 : RBTree K V) (node : Ptr) : Except Err (RBTree K V × Bool) :=
  (t2.colorOf node).bind fun c =>
  (if c = .kBlack then rebalance_after_remove_ (t2.next + 1) t2 node else .ok t2).bind fun t3 =>
  (t3.parentOf node).bind fun parent =>
  let t4 := if t3.header_.left = node
    then { t3 with header_ := { t3.header_ with left := parent } } else t3
  let t5 := if t4.header_.right = node
    then { t4 with header_ := { t4.header_ with right := parent } } else t4
  (destroy_node_ t5 node).map fun t6 => (t6, true)

/-- Second part of `remove_found`: unlink a node that has at most one child. -/
def remove_node (t2 : RBTree K V) (node : Ptr) : Except Err (RBTree K V × Bool) :=
  (t2.leftOf node).bind fun l =>
  (if l ≠ .null then .ok true else (t2.rightOf node).map fun r => decide (r ≠ .null)).bind fun one =>
  if one = true then remove_splice t2 node else remove_leaf t2 node

/-- What unlinking node `n` achieves: the remaining nodes form a tree whose
in-order sequence is `l1 ++ l2` (the old one without `n`), the count went down
by one, and no other payload changed. -/
def Unlinked (t : RBTree K V) (l1 l2 : List Nat) (n : Nat) (r : RBTree K V × Bool) : Prop :=
  r.2 = true ∧ (∃ z, Rep r.1 z ∧ z.ids = l1 ++ l2) ∧
    r.1.cnt_ = (if t.cnt_ = 0 then 2 ^ 64 - 1 else t.cnt_ - 1) ∧
    r.1.next = t.next ∧ r.1.cmp_ = t.cmp_ ∧ ∀ y, y ≠ n → r.1.entryAt y = t.entryAt y

/-- The comparator is a strict weak order whose equivalence is `==`:
irreflexive, transitive, and two keys neither of which is less than the other
are equal. -/
structure StrictOrder (cmp : K → K → Bool) : Prop where
  irrefl : ∀ a, cmp a a = false
  trans : ∀ a b c, cmp a b = true → cmp b c = true → cmp a c = true
  eq_of_incomp : ∀ a b, cmp a b = false → cmp b a = false → a = b

/-- The keys stored at the addresses of a list never decrease along the list:
no later key is less than an earlier one under the comparator of the tree. -/
def SortedIds (t : RBTree K V) (l : List Nat) : Prop :=
  l.Pairwise fun x y => ∀ kx ky, t.keyAt x = some kx → t.keyAt y = some ky → t.cmp_ ky kx = false

/-- What every public operation keeps: the structural invariant for some shape,
the comparator, and (for a comparator that is a strict order) sortedness of the
in-order key sequence. -/
def Preserved (t : RBTree K V) (s : Shape) (t1 : RBTree K V) : Prop :=
  ∃ z, Inv t1 z ∧ t1.cmp_ = t.cmp_ ∧
    (StrictOrder t.cmp_ → SortedIds t s.ids → SortedIds t1 z.ids)

/-- What erasing the node at `n0` from a tree of shape `s` achieves: the call
reports success, the remaining nodes form a tree, and the in-order sequence of
(key, value) pairs is the old one with the pair of `n0` taken out; the count
went down by one. -/
def Erased (t : RBTree K V) (s : Shape) (n0 : Nat) (r : RBTree K V × Bool) : Prop :=
  r.2 = true ∧ ∃ (z : Shape) (X Y : List Nat), Rep r.1 z ∧ s.ids = X ++ n0 :: Y ∧
    z.ids.map r.1.entryAt = (X ++ Y).map t.entryAt ∧ (∀ x ∈ z.ids, x ∈ s.ids) ∧
    r.1.cnt_ = t.cnt_ - 1 ∧ r.1.next = t.next ∧ r.1.cmp_ = t.cmp_

/-- What `remove(key)` achieves on a tree of shape `s`: either the search path
for the key ended at an absent child, the tree is untouched and the call
reports "not found"; or a node holding the key was erased. -/
def RemovePost (t : RBTree K V) (s : Shape) (key : K) (r : RBTree K V × Bool) : Prop :=
  (r.2 = false ∧ r.1 = t ∧ ∃ d : Ctx, PathOK t key true d ∧ s = d.plug .nil) ∨
  (∃ a na, a ∈ s.ids ∧ t.heap a = some na ∧ na.key = key ∧ Erased t s a r)

/-- The state reached by a sequence of public calls is well-formed and, for a
comparator that is a strict order, sorted. -/
def Good (t : RBTree K V) : Prop :=
  ∃ s, Inv t s ∧ (StrictOrder t.cmp_ → SortedIds t s.ids)

/-- A strict weak order in the sense of the C++ `Compare` requirements:
irreflexive, transitive, and with a transitive incomparability relation. -/
structure StrictWeakOrder (cmp : K → K → Bool) : Prop where
  irrefl : ∀ a, cmp a a = false
  trans : ∀ a b c, cmp a b = true → cmp b c = true → cmp a c = true
  incomp_trans : ∀ a b c, cmp a b = false → cmp b a = false → cmp b c = false →
    cmp c b = false → cmp a c = false ∧ cmp c a = false

/-- A comparator on natural numbers that orders by the tens and ignores the
units: a strict weak order under which distinct keys can be equivalent. -/
def tensLess (a b : Nat) : Bool := decide (a / 10 < b / 10)

/-- The keys stored at the addresses of a list are related by `R` along the
list: every earlier key is `R`-related to every later one. -/
def KeysRel (t : RBTree K V) (R : K → K → Prop) (l : List Nat) : Prop :=
  l.Pairwise fun x y => ∀ kx ky, t.keyAt x = some kx → t.keyAt y = some ky → R kx ky

/-- The keys stored at the addresses of a list strictly increase along the list
under the comparator of the tree. -/
def StrictSortedIds (t : RBTree K V) (l : List Nat) : Prop :=
  KeysRel t (fun a b => t.cmp_ a b = true) l

/-- The calls a unique-key container issues: every public call except the
multi-mode `insert(false, ...)`. -/
def Op.uniqueMode : Op K V → Bool
  | .insert replace _ _ => replace
  | .get_or_insert _ => true
  | .remove _ => true
  | .clear => true

/-- Effect of one public call on the in-order key sequence of a tree of shape
`s`: the comparator is kept, the result is well-formed, and either its key
sequence is a subsequence of the old one (nothing inserted), or one new node,
at address `next` and holding `key`, was put where the search path for `key`
ended; the path was a strict one (no equal key met on it) when the call is a
unique-mode call. -/
def KeyEffect (t : RBTree K V) (s : Shape) (op : Op K V) (t1 : RBTree K V) : Prop :=
  t1.cmp_ = t.cmp_ ∧ ∃ z, Inv t1 z ∧
    ((z.ids.map t1.keyAt).Sublist (s.ids.map t.keyAt) ∨
      ∃ (c : Ctx) (key : K) (strict : Bool), PathOK t key strict c ∧
        (op.uniqueMode = true → strict = true) ∧ s.ids = c.before ++ c.after ∧
        z.ids = c.before ++ t.next :: c.after ∧ t1.keyAt t.next = some key ∧
        ∀ x ∈ s.ids, t1.keyAt x = t.keyAt x)

/-- The candidate `satisfy_node` carried by `lower_bound_` relative to the
in-order sequence `l` that follows the current position: absent when nothing
follows, and otherwise the first node of `l`, whose key is not less than `key`. -/
def Candidate (t : RBTree K V) (key : K) (l : List Nat) (p : Ptr) : Prop :=
  match l with
  | [] => p = .null
  | y :: _ => p = .node y ∧ ∃ n, t.heap y = some n ∧ t.cmp_ n.key key = false

end BabySTL

namespace BabySTL

/-! ## The doubly linked list `BList` (`src/src/baby_list.h`)

Nodes live in a store of their own; a `NodeBase *` of the list is either the
address of the sentinel `head_` or the address of a node.  Loops take a fuel
argument. -/

/-- A `NodeBase *` inside a `BList`: the sentinel `head_` or a node. -/
inductive LPtr where
  | head
  | node (a : Nat)
deriving DecidableEq

/-- The record `BList::NodeBase`. -/
structure ListNodeBase where
  prev : LPtr
  next : LPtr
deriving DecidableEq

/-- The record `BList::Node`. -/
structure ListNode (T : Type) extends ListNodeBase where
  data : T

/-- The class `BList`: sentinel, element count, and the store of its nodes with
the next address `new` hands out. -/
structure BList (T : Type) where
  head_ : ListNodeBase
  size_ : Nat
  heap : Nat → Option (ListNode T)
  fresh : Nat

variable {T : Type}

/-- The default-constructed list: the sentinel points at itself. -/
def BList.empty : BList T :=
  { head_ := { prev := .head, next := .head }, size_ := 0, heap := fun _ => none, fresh := 0 }

/-- Read the `NodeBase` part behind a pointer. -/
def BList.baseAt (l : BList T) : LPtr → Except Err ListNodeBase
  | .head => .ok l.head_
  | .node a =>
    match l.heap a with
    | some n => .ok n.toListNodeBase
    | none => .error .dangling

/-- Value of `p->next`. -/
def BList.nextOf (l : BList T) (p : LPtr) : Except Err LPtr :=
  (l.baseAt p).map (·.next)

/-- Value of `p->prev`. -/
def BList.prevOf (l : BList T) (p : LPtr) : Except Err LPtr :=
  (l.baseAt p).map (·.prev)

/-- Value of `static_cast<Node *>(p)->data`. -/
def BList.dataOf (l : BList T) : LPtr → Except Err T
  | .head => .error .notANode
  | .node a =>
    match l.heap a with
    | some n => .ok n.data
    | none => .error .dangling

/-- Write to the `NodeBase` part behind a pointer. -/
def BList.setBase (l : BList T) (p : LPtr) (f : ListNodeBase → ListNodeBase) :
    Except Err (BList T) :=
  match p with
  | .head => .ok { l with head_ := f l.head_ }
  | .node a =>
    match l.heap a with
    | some n =>
      .ok { l with heap := fun x => if x = a then some { n with toListNodeBase := f n.toListNodeBase }
                                    else l.heap x }
    | none => .error .dangling

/-- Assignment `p->next = v`. -/
def BList.setNext (l : BList T) (p v : LPtr) : Except Err (BList T) :=
  l.setBase p fun b => { b with next := v }

/-- Assignment `p->prev = v`. -/
def BList.setPrev (l : BList T) (p v : LPtr) : Except Err (BList T) :=
  l.setBase p fun b => { b with prev := v }

/-- The statements that put node `tmp` in front of `pos`:
`tmp->prev = pos->prev; pos->prev->next = tmp; tmp->next = pos; pos->prev = tmp`. -/
def BList.link_before (l : BList T) (tmp pos : LPtr) : Except Err (BList T) :=
  (l.prevOf pos).bind fun pp =>
  (l.setPrev tmp pp).bind fun l1 =>
  (l1.prevOf pos).bind fun pp1 =>
  (l1.setNext pp1 tmp).bind fun l2 =>
  (l2.setNext tmp pos).bind fun l3 =>
  l3.setPrev pos tmp

/-- The function `BList::insert_`: a new node holding `val` is put in front of
`pos`. -/
def BList.insert_ (l : BList T) (pos : LPtr) (val : T) : Except Err (BList T) :=
  let a := l.fresh
  let l0 : BList T :=
    { l with heap := fun x => if x = a then some { prev := .node a, next := .node a, data := val }
                              else l.heap x,
             fresh := a + 1 }
  (l0.link_before (.node a) pos).map fun l1 => { l1 with size_ := l1.size_ + 1 }

/-- The method `BList::push_back`. -/
def BList.push_back (l : BList T) (val : T) : Except Err (BList T) :=
  l.insert_ .head val

/-- The method `BList::push_front`. -/
def BList.push_front (l : BList T) (val : T) : Except Err (BList T) :=
  l.insert_ l.head_.next val

/-- The list holding the given values in order, as the initializer-list
constructor builds it by `emplace_back`. -/
def BList.ofList (xs : List T) : Except Err (BList T) :=
  xs.foldl (fun r x => r.bind fun l => l.push_back x) (.ok BList.empty)

/-- The loop `for (i = 0; i < merge_len && p != &head_; i++) p = p->next`. -/
def BList.advance (l : BList T) : Nat → LPtr → Except Err LPtr
  | 0, p => .ok p
  | n + 1, p => if p = .head then .ok p else (l.nextOf p).bind fun q => BList.advance l n q

/-- The merge loop of `BList::sort`:
`while (h1 != t1 && h2 != t2)`, taking from the first run when
`cmp(h1->data, h2->data)` and moving the head of the second run in front of `h1`
otherwise. -/
def BList.merge_loop (cmp : T → T → Bool) (t1 t2 : LPtr) :
    Nat → BList T → LPtr → LPtr → Except Err (BList T)
  | 0, _, _, _ => .error .outOfFuel
  | fuel + 1, l, h1, h2 =>
    if h1 ≠ t1 ∧ h2 ≠ t2 then
      (l.dataOf h1).bind fun d1 =>
      (l.dataOf h2).bind fun d2 =>
      if cmp d1 d2 = true then
        (l.nextOf h1).bind fun n1 => BList.merge_loop cmp t1 t2 fuel l n1 h2
      else
        let tmp := h2
        (l.nextOf h2).bind fun h2n =>
        (l.prevOf tmp).bind fun tp =>
        (l.setNext tp h2n).bind fun l1 =>
        (l1.prevOf tmp).bind fun tp1 =>
        (l1.setPrev h2n tp1).bind fun l2 =>
        (l2.link_before tmp h1).bind fun l3 =>
        BList.merge_loop cmp t1 t2 fuel l3 h1 h2n
    else .ok l

/-- One pass of `BList::sort` for a given `merge_len`: the loop
`while (p != &head_)` that cuts two runs and merges them. -/
def BList.sort_pass (cmp : T → T → Bool) (merge_len : Nat) :
    Nat → BList T → LPtr → Except Err (BList T)
  | 0, _, _ => .error .outOfFuel
  | fuel + 1, l, p =>
    if p ≠ .head then
      let h1 := p
      (l.advance merge_len p).bind fun p1 =>
      if p1 = .head then BList.sort_pass cmp merge_len fuel l p1 else
      let t1 := p1
      let h2 := p1
      (l.advance merge_len p1).bind fun p2 =>
      let t2 := p2
      (BList.merge_loop cmp t1 t2 (fuel + 1) l h1 h2).bind fun l1 =>
      BList.sort_pass cmp merge_len fuel l1 p2
    else .ok l

/-- The outer loop of `BList::sort`: `while (merge_len < size_)`, doubling
`merge_len` after each pass. -/
def BList.sort_loop (cmp : T → T → Bool) : Nat → Nat → BList T → Nat → Except Err (BList T)
  | _, 0, _, _ => .error .outOfFuel
  | inner, fuel + 1, l, merge_len =>
    if merge_len < l.size_ then
      (BList.sort_pass cmp merge_len inner l l.head_.next).bind fun l1 =>
      BList.sort_loop cmp inner fuel l1 (merge_len * 2)
    else .ok l

/-- The method `BList::sort(cmp)`; `fuel` bounds the iterations of each loop. -/
def BList.sort (fuel : Nat) (cmp : T → T → Bool) (l : BList T) : Except Err (BList T) :=
  BList.sort_loop cmp fuel fuel l 1

/-- The data met on the first `n` forward steps from `p`; the sentinel is
recorded as `none`. -/
def BList.walk (l : BList T) : Nat → LPtr → List (Option T)
  | 0, _ => []
  | n + 1, p =>
    match p with
    | .head => [none]
    | .node a =>
      match l.heap a with
      | some nd => some nd.data :: BList.walk l n nd.next
      | none => []

/-- The forward traversal from `begin()` to `end()`, when it gets back to the
sentinel within `fuel` steps. -/
def BList.traverse (l : BList T) : Nat → LPtr → Except Err (List T)
  | 0, _ => .error .outOfFuel
  | fuel + 1, p =>
    if p = .head then .ok [] else
    (l.dataOf p).bind fun d =>
    (l.nextOf p).bind fun q =>
    (BList.traverse l fuel q).map (d :: ·)

/-! ## The singly linked list `BForwardList` (`src/src/baby_forwardlist.h`) -/

/-- A `NodeBase *` inside `BForwardList::sort`: `nullptr`, the sentinel
`head_`, one of the two local dummy heads `h1`, `h2`, or a node. -/
inductive FPtr where
  | null
  | head
  | h1
  | h2
  | node (a : Nat)
deriving DecidableEq

/-- The record `BForwardList::Node`. -/
structure FwdNode (T : Type) where
  next : FPtr
  storage : T

/-- The class `BForwardList` together with the store of its nodes; `h1_next`
and `h2_next` are the `next` fields of the local dummy heads of `sort`. -/
structure BForwardList (T : Type) where
  head_next : FPtr
  len_ : Nat
  heap : Nat → Option (FwdNode T)
  fresh : Nat
  h1_next : FPtr
  h2_next : FPtr

/-- The default-constructed forward list. -/
def BForwardList.empty : BForwardList T :=
  { head_next := .null, len_ := 0, heap := fun _ => none, fresh := 0,
    h1_next := .null, h2_next := .null }

/-- Value of `p->next`. -/
def BForwardList.nextOf (l : BForwardList T) : FPtr → Except Err FPtr
  | .null => .error .nullDeref
  | .head => .ok l.head_next
  | .h1 => .ok l.h1_next
  | .h2 => .ok l.h2_next
  | .node a =>
    match l.heap a with
    | some n => .ok n.next
    | none => .error .dangling

/-- Value of `static_cast<Node *>(p)->storage`. -/
def BForwardList.storageOf (l : BForwardList T) : FPtr → Except Err T
  | .null => .error .nullDeref
  | .node a =>
    match l.heap a with
    | some n => .ok n.storage
    | none => .error .dangling
  | _ => .error .notANode

/-- Assignment `p->next = v`. -/
def BForwardList.setNext (l : BForwardList T) (p v : FPtr) : Except Err (BForwardList T) :=
  match p with
  | .null => .error .nullDeref
  | .head => .ok { l with head_next := v }
  | .h1 => .ok { l with h1_next := v }
  | .h2 => .ok { l with h2_next := v }
  | .node a =>
    match l.heap a with
    | some n => .ok { l with heap := fun x => if x = a then some { n with next := v } else l.heap x }
    | none => .error .dangling

/-- The method `BForwardList::emplace_front` (`push_front`). -/
def BForwardList.push_front (l : BForwardList T) (val : T) : BForwardList T :=
  let a := l.fresh
  { l with heap := fun x => if x = a then some { next := l.head_next, storage := val }
                            else l.heap x,
           fresh := a + 1, head_next := .node a, len_ := l.len_ + 1 }

/-- The list holding the given values in order, built by `push_front` from the
last to the first. -/
def BForwardList.ofList : List T → BForwardList T
  | [] => BForwardList.empty
  | x :: xs => (BForwardList.ofList xs).push_front x

/-- The loops `for (i = 0; i < merge_size && p != nullptr; i++)` that hang up to
`merge_size` nodes below a dummy head: `ph->next = p; ph = ph->next;
p = p->next`.  The result is the state, the last node hung (`ph`) and the rest
(`p`). -/
def BForwardList.cut : Nat → BForwardList T → FPtr → FPtr →
    Except Err (BForwardList T × FPtr × FPtr)
  | 0, l, ph, p => .ok (l, ph, p)
  | n + 1, l, ph, p =>
    if p = .null then .ok (l, ph, p) else
    (l.setNext ph p).bind fun l1 =>
    (l1.nextOf ph).bind fun ph1 =>
    (l1.nextOf p).bind fun p1 =>
    BForwardList.cut n l1 ph1 p1

/-- The merge loop of `BForwardList::sort`: `while (p1 != nullptr && p2 !=
nullptr)`, taking `p1` when `cmp(p1->storage, p2->storage)` and `p2` otherwise,
and hanging the node taken behind `pre`. -/
def BForwardList.merge_loop (cmp : T → T → Bool) :
    Nat → BForwardList T → FPtr → FPtr → FPtr → Except Err (BForwardList T × FPtr × FPtr × FPtr)
  | 0, _, _, _, _ => .error .outOfFuel
  | fuel + 1, l, pre, p1, p2 =>
    if p1 ≠ .null ∧ p2 ≠ .null then
      (l.storageOf p1).bind fun d1 =>
      (l.storageOf p2).bind fun d2 =>
      (if cmp d1 d2 = true then (l.nextOf p1).map fun n1 => (p1, n1, p2)
        else (l.nextOf p2).map fun n2 => (p2, p1, n2)).bind fun r =>
      (l.setNext pre r.1).bind fun l1 =>
      (l1.nextOf pre).bind fun pre1 =>
      BForwardList.merge_loop cmp fuel l1 pre1 r.2.1 r.2.2
    else .ok (l, pre, p1, p2)

/-- One pass of `BForwardList::sort` for a given `merge_size`: the loop
`while (p != nullptr)`. -/
def BForwardList.sort_pass (cmp : T → T → Bool) (merge_size : Nat) :
    Nat → BForwardList T → FPtr → FPtr → Except Err (BForwardList T)
  | 0, _, _, _ => .error .outOfFuel
  | fuel + 1, l, pre, p =>
    if p ≠ .null then
      let l0 : BForwardList T := { l with h1_next := .null, h2_next := .null }
      (BForwardList.cut merge_size l0 .h1 p).bind fun c1 =>
      (BForwardList.cut merge_size c1.1 .h2 c1.2.2).bind fun c2 =>
      let ph1 := c1.2.1
      let ph2 := c2.2.1
      let rest := c2.2.2
      (c2.1.setNext ph1 .null).bind fun l1 =>
      (l1.setNext ph2 .null).bind fun l2 =>
      (l2.nextOf .h1).bind fun p1 =>
      (l2.nextOf .h2).bind fun p2 =>
      (BForwardList.merge_loop cmp (fuel + 1) l2 pre p1 p2).bind fun m =>
      (if m.2.2.1 ≠ .null then (m.1.setNext m.2.1 m.2.2.1).map fun l3 => (l3, ph1)
        else .ok (m.1, m.2.1)).bind fun a =>
      (if m.2.2.2 ≠ .null then (a.1.setNext a.2 m.2.2.2).map fun l4 => (l4, ph2)
        else .ok a).bind fun b =>
      BForwardList.sort_pass cmp merge_size fuel b.1 b.2 rest
    else .ok l

/-- The outer loop of `BForwardList::sort`: `while (merge_size < len)`. -/
def BForwardList.sort_loop (cmp : T → T → Bool) (len : Nat) :
    Nat → Nat → BForwardList T → Nat → Except Err (BForwardList T)
  | _, 0, _, _ => .error .outOfFuel
  | inner, fuel + 1, l, merge_size =>
    if merge_size < len then
      (BForwardList.sort_pass cmp merge_size inner l .head l.head_next).bind fun l1 =>
      BForwardList.sort_loop cmp len inner fuel l1 (merge_size * 2)
    else .ok l

/-- The method `BForwardList::sort(cmp)`; `fuel` bounds the iterations of each
loop. -/
def BForwardList.sort (fuel : Nat) (cmp : T → T → Bool) (l : BForwardList T) :
    Except Err (BForwardList T) :=
  BForwardList.sort_loop cmp l.len_ fuel fuel l 1

/-- The elements met from `p` along `next` links up to `nullptr`. -/
def BForwardList.traverse (l : BForwardList T) : Nat → FPtr → Except Err (List T)
  | 0, _ => .error .outOfFuel
  | fuel + 1, p =>
    if p = .null then .ok [] else
    (l.storageOf p).bind fun d =>
    (l.nextOf p).bind fun q =>
    (BForwardList.traverse l fuel q).map (d :: ·)

/-- The elements of the list from `begin()` to `end()`. -/
def BForwardList.toList (l : BForwardList T) : Except Err (List T) :=
  l.traverse (l.fresh + 1) l.head_next

/-- Comparison of pairs on the first component only. -/
def byFirst (x y : Nat × Nat) : Bool := decide (x.1 < y.1)

end BabySTL

namespace BabySTL

/-! ## Several tree objects in one store: the move operations and `BMap::swap`

The move constructor and the move assignment of `RBTree` pass the nodes of one
tree object to another and write the address of the receiving sentinel into the
root.  The state is therefore a family of tree objects over one store of nodes,
and a pointer names the sentinel of a given object. -/

/-- A `NodeBase *` when several trees are in play: `nullptr`, the address of the
sentinel `header_` of the tree object number `i`, or the address of a node. -/
inductive Ref where
  | null
  | sentinel (i : Nat)
  | node (a : Nat)
deriving DecidableEq

/-- The linkage record `struct NodeBase` over `Ref`. -/
structure RefBase where
  parent : Ref
  left : Ref
  right : Ref
deriving DecidableEq

/-- The payload node `struct RBTreeMapNode` over `Ref`. -/
structure RefNode (K V : Type) extends RefBase where
  color : RBTreeColor
  key : K
  val : V

/-- The data members `header_` and `cnt_` of an `RBTree` object.  The member
`cmp_` is left out: the move operations do not touch it. -/
structure TreeObj where
  header_ : RefBase
  cnt_ : Nat
deriving DecidableEq

/-- Tree objects by number, the store of nodes they share, and the next address
`new` will hand out. -/
structure World (K V : Type) where
  objs : Nat → TreeObj
  heap : Nat → Option (RefNode K V)
  next : Nat

variable {K V : Type}

/-- The state of a tree object after `RBTree() = default`: `NodeBase()` gives
the sentinel an absent parent and `left = right = this`; `cnt_{}` is zero. -/
def TreeObj.fresh (i : Nat) : TreeObj :=
  { header_ := { parent := .null, left := .sentinel i, right := .sentinel i }, cnt_ := 0 }

/-- Write to the sentinel of tree object `i`. -/
def World.setHeader (w : World K V) (i : Nat) (f : RefBase → RefBase) : World K V :=
  { w with objs := fun j => if j = i then { w.objs i with header_ := f (w.objs i).header_ }
                            else w.objs j }

/-- Write to the counter of tree object `i`. -/
def World.setCnt (w : World K V) (i : Nat) (c : Nat) : World K V :=
  { w with objs := fun j => if j = i then { w.objs i with cnt_ := c } else w.objs j }

/-- Read the `NodeBase` part behind a pointer. -/
def World.baseAt (w : World K V) : Ref → Except Err RefBase
  | .null => .error .nullDeref
  | .sentinel i => .ok (w.objs i).header_
  | .node a =>
    match w.heap a with
    | some n => .ok n.toRefBase
    | none => .error .dangling

/-- Write to the `NodeBase` part behind a pointer. -/
def World.setBase (w : World K V) (p : Ref) (f : RefBase → RefBase) : Except Err (World K V) :=
  match p with
  | .null => .error .nullDeref
  | .sentinel i => .ok (w.setHeader i f)
  | .node a =>
    match w.heap a with
    | some n =>
      .ok { w with heap := fun x => if x = a then some { n with toRefBase := f n.toRefBase }
                                    else w.heap x }
    | none => .error .dangling

/-- The statements shared by the move constructor and the move assignment, from
`auto p = other.header_.parent` to the reset of the caches of `other`. -/
def World.take_nodes (w : World K V) (self other : Nat) : Except Err (World K V) :=
  let p := (w.objs other).header_.parent
  (w.setBase p fun b => { b with parent := .sentinel self }).map fun w1 =>
  let w2 := w1.setHeader self fun h => { h with parent := p }
  let w3 := w2.setHeader other fun h => { h with parent := .null }
  let w4 := w3.setHeader self fun h => { h with left := (w3.objs other).header_.left }
  let w5 := w4.setHeader self fun h => { h with right := (w4.objs other).header_.right }
  let w6 := w5.setHeader other fun h => { h with left := .sentinel other }
  w6.setHeader other fun h => { h with right := .sentinel other }

/-- The move constructor `RBTree(RBTree &&other)` building the tree object
`self`. -/
def World.move_construct (w : World K V) (self other : Nat) : Except Err (World K V) :=
  let w0 : World K V := { w with objs := fun j => if j = self then TreeObj.fresh self
                                                  else w.objs j }
  if (w0.objs other).header_.parent = .null then .ok w0 else
  (w0.take_nodes self other).map fun w1 =>
  let c := (w1.objs self).cnt_
  (w1.setCnt self (w1.objs other).cnt_).setCnt other c

/-- The move assignment `RBTree::operator=(RBTree &&other)` on the tree object
`self`. -/
def World.move_assign (w : World K V) (self other : Nat) : Except Err (World K V) :=
  if self = other then .ok w else
  if (w.objs other).header_.parent = .null then .ok w else
  (w.take_nodes self other).map fun w1 =>
  (w1.setCnt self (w1.objs other).cnt_).setCnt other 0

/-- The method `NodeBase::get_parent(header)`. -/
def World.get_parent (w : World K V) (node header : Ref) : Except Err Ref :=
  (w.baseAt node).map fun b => if b.parent = header then .null else b.parent

/-- The static function `RBTreeMapNode::destroy_node(node, header)`. -/
def World.destroy_node (w : World K V) (node header : Ref) : Except Err (World K V) :=
  (w.get_parent node header).bind fun p =>
  (if p ≠ .null then
      (w.baseAt p).bind fun bp =>
      (if bp.left = node then w.setBase p fun b => { b with left := .null } else .ok w).bind
        fun w1 =>
      (w1.baseAt p).bind fun bp1 =>
      if bp1.right = node then w1.setBase p fun b => { b with right := .null } else .ok w1
    else .ok w).bind fun w2 =>
  match node with
  | .null => .error .nullDeref
  | .sentinel _ => .error .notANode
  | .node a =>
    match w2.heap a with
    | some _ => .ok { w2 with heap := fun x => if x = a then none else w2.heap x }
    | none => .error .dangling

/-- The function `RBTree::destroy_node_` of tree object `i`. -/
def World.destroy_node_ (w : World K V) (i : Nat) (node : Ref) : Except Err (World K V) :=
  if node = .null then .error .invalidArgument else
  (w.destroy_node node (.sentinel i)).map fun w1 =>
  w1.setCnt i (if (w1.objs i).cnt_ = 0 then 2 ^ 64 - 1 else (w1.objs i).cnt_ - 1)

/-- The function `RBTree::clear_` of tree object `i`. -/
def World.clear_ (i : Nat) : Nat → World K V → Ref → Except Err (World K V)
  | 0, _, _ => .error .outOfFuel
  | fuel + 1, w, node =>
    if node = .null then .ok w else
    (w.baseAt node).bind fun b =>
    (World.clear_ i fuel w b.left).bind fun w1 =>
    (w1.baseAt node).bind fun b1 =>
    (World.clear_ i fuel w1 b1.right).bind fun w2 =>
    w2.destroy_node_ i node

/-- The public `RBTree::clear()` of tree object `i`. -/
def World.clear (w : World K V) (i : Nat) : Except Err (World K V) :=
  (World.clear_ i (w.next + 1) w (w.objs i).header_.parent).map fun w1 =>
  (w1.setHeader i fun _ => { parent := .null, left := .sentinel i, right := .sentinel i }).setCnt
    i 0

/-- The destructor `~RBTree() { this->clear(); }` of tree object `i`. -/
def World.destruct (w : World K V) (i : Nat) : Except Err (World K V) :=
  w.clear i

/-- The method `BMap::swap(other)`, a map being named by its member `tree_`:
`RBTree tmp = std::move(tree_); tree_ = std::move(other.tree_);
other.tree_ = std::move(tmp);`, then the local `tmp` goes out of scope.  `tmp`
is the number of the tree object the local occupies. -/
def BMap.swap (w : World K V) (self other tmp : Nat) : Except Err (World K V) :=
  (w.move_construct tmp self).bind fun w1 =>
  (w1.move_assign self other).bind fun w2 =>
  (w2.move_assign other tmp).bind fun w3 =>
  w3.destruct tmp

/-- Addresses met by an in-order walk along `left` and `right` links from `p`. -/
def World.inorder : Nat → World K V → Ref → List Nat
  | 0, _, _ => []
  | _ + 1, _, .null => []
  | _ + 1, _, .sentinel _ => []
  | fuel + 1, w, .node a =>
    match w.heap a with
    | some n => World.inorder fuel w n.left ++ a :: World.inorder fuel w n.right
    | none => []

/-- Addresses of the nodes reachable from the root of tree object `i`, in
in-order. -/
def World.nodes (w : World K V) (i : Nat) : List Nat :=
  World.inorder (w.next + 1) w (w.objs i).header_.parent

/-- The in-order sequence of (key, value) pairs of tree object `i`. -/
def World.entries (w : World K V) (i : Nat) : List (K × V) :=
  (w.nodes i).filterMap fun a => (w.heap a).map fun n => (n.key, n.val)

/-- The value of `size()` of tree object `i`. -/
def World.size (w : World K V) (i : Nat) : Nat := (w.objs i).cnt_

/-- The tree object `i` is either empty with a zero count, or its root is a live
node. -/
def World.Sound (w : World K V) (i : Nat) : Prop :=
  match (w.objs i).header_.parent with
  | .null => (w.objs i).cnt_ = 0
  | .sentinel _ => False
  | .node a => (w.heap a).isSome = true

instance (w : World K V) (i : Nat) : Decidable (w.Sound i) := by
  unfold World.Sound
  split <;> infer_instance


/-- Two states hold the same nodes up to `parent` links. -/
def SameLinks (w w1 : World K V) : Prop :=
  w1.next = w.next ∧
  ∀ a, (∀ n, w.heap a = some n → ∃ m, w1.heap a = some m ∧ m.left = n.left ∧ m.right = n.right ∧
      m.key = n.key ∧ m.val = n.val ∧ m.color = n.color) ∧
    (w.heap a = none → w1.heap a = none)

/-- The tree object `i` is empty and its count is zero. -/
def World.Hollow (w : World K V) (i : Nat) : Prop :=
  (w.objs i).header_.parent = .null ∧ (w.objs i).cnt_ = 0

/-- Tree object `i` of `w1` has the root and the count that tree object `j` of
`w` had. -/
def Holds (w w1 : World K V) (i j : Nat) : Prop :=
  (w1.objs i).header_.parent = (w.objs j).header_.parent ∧ (w1.objs i).cnt_ = (w.objs j).cnt_

/-- A pointer of a single tree as a pointer of the shared store: the sentinel
becomes the sentinel of object `i`, addresses are shifted by `off`. -/
def Ptr.toRef (i off : Nat) : Ptr → Ref
  | .null => .null
  | .header => .sentinel i
  | .node a => .node (off + a)

/-- A node of a single tree as a node of the shared store. -/
def RBTreeMapNode.toRef (i off : Nat) (n : RBTreeMapNode K V) : RefNode K V :=
  { parent := n.parent.toRef i off, left := n.left.toRef i off, right := n.right.toRef i off,
    color := n.color, key := n.key, val := n.val }

/-- Two trees placed side by side in one store as the tree objects 0 and 1; the
nodes of the second come after those of the first. -/
def World.ofPair (ta tb : RBTree K V) : World K V :=
  { objs := fun j =>
      if j = 0 then
        { header_ := { parent := ta.header_.parent.toRef 0 0, left := ta.header_.left.toRef 0 0,
                       right := ta.header_.right.toRef 0 0 }, cnt_ := ta.cnt_ }
      else if j = 1 then
        { header_ := { parent := tb.header_.parent.toRef 1 ta.next,
                       left := tb.header_.left.toRef 1 ta.next,
                       right := tb.header_.right.toRef 1 ta.next }, cnt_ := tb.cnt_ }
      else TreeObj.fresh j,
    heap := fun x =>
      if x < ta.next then (ta.heap x).map (RBTreeMapNode.toRef 0 0)
      else (tb.heap (x - ta.next)).map (RBTreeMapNode.toRef 1 ta.next),
    next := ta.next + tb.next }

/-- The tree a run produced, or the empty tree when the run failed. -/
def treeOf (cmp : K → K → Bool) (r : Except Err (RBTree K V)) : RBTree K V :=
  match r with
  | .ok t => t
  | .error _ => RBTree.empty cmp

end BabySTL

namespace BabySTL

/-! ## Substring search of `BString` (`src/src/baby_string.h`)

A `char` is kept as its code, a natural number; the code of NUL is 0.  A
`BString` owns a buffer `ptr_` holding its `str_len_` characters followed by a
terminating NUL.  Reads outside an array and loops that use up their fuel give
`none`.  Buffer lengths are kept as natural numbers; the index `find_` returns
is computed modulo `2^64` as `std::size_t` arithmetic does. -/

/-- The class `BString`: its `str_len_` characters. -/
structure BString where
  chars : List Nat

/-- The constant `BString::npos`, `static_cast<SizeType>(-1)`. -/
def BString.npos : Nat := 2 ^ 64 - 1

/-- The method `BString::size`. -/
def BString.size (t : BString) : Nat := t.chars.length

/-- The content of the buffer `ptr_`, up to and including the terminating
NUL. -/
def BString.ptr_ (t : BString) : List Nat := t.chars ++ [0]

/-- The library function `strncpy(dst, src, n)`, as the `n` characters it writes:
the characters of `src` up to the first NUL or up to `n` of them, then NULs. -/
def strncpy (src : List Nat) (n : Nat) : List Nat :=
  ((src.take n).takeWhile fun c => c != 0) ++
    List.replicate (n - ((src.take n).takeWhile fun c => c != 0).length) 0

/-- The loop `while (j > 0 && str[i] != str[j]) j = pi[j - 1]` of the prefix
function. -/
def fallback (str pi : List Nat) (i : Nat) : Nat → Nat → Option Nat
  | 0, _ => none
  | fuel + 1, j =>
    if j = 0 then some j else
    (str[i]?).bind fun ci =>
    (str[j]?).bind fun cj =>
    if ci ≠ cj then (pi[j - 1]?).bind fun j1 => fallback str pi i fuel j1 else some j

/-- The body of the `for` loop of the prefix function for index `i`; the array
`pi` is kept as the list of the `i` slots written so far. -/
def prefix_step (str pi : List Nat) (i : Nat) : Option (List Nat) :=
  (pi[i - 1]?).bind fun j0 =>
  (fallback str pi i (i + 1) j0).bind fun j =>
  (str[i]?).bind fun ci =>
  (str[j]?).bind fun cj =>
  some (pi ++ [if ci = cj then j + 1 else j])

/-- The loop `for (i = 1; i < n; i++)` of the prefix function, with `k`
iterations left. -/
def prefix_loop (str : List Nat) : Nat → Nat → List Nat → Option (List Nat)
  | 0, _, pi => some pi
  | k + 1, i, pi => (prefix_step str pi i).bind fun pi1 => prefix_loop str k (i + 1) pi1

/-- The lambda `prefix_func(str, n)` inside `BString::find_`. -/
def prefix_func (str : List Nat) (n : Nat) : Option (List Nat) :=
  if n = 0 then none else prefix_loop str (n - 1) 1 [0]

/-- The loop `for (i = n + 1; i <= m + n; i++) if (lps[i] == n) return
i - 2 * n + beg;` followed by `return npos`, with `k` iterations left. -/
def scan (lps : List Nat) (n beg : Nat) : Nat → Nat → Option Nat
  | 0, _ => some BString.npos
  | k + 1, i =>
    (lps[i]?).bind fun v =>
    if v = n then some (((i : Int) - 2 * (n : Int) + (beg : Int)) % 2 ^ 64).toNat
    else scan lps n beg k (i + 1)

/-- The function `BString::find_(beg, end, s, n)`; `s` is the content behind
the pointer `s`. -/
def BString.find_ (t : BString) (beg end_ : Nat) (s : List Nat) (n : Nat) : Option Nat :=
  if n = 0 then some beg else
  if n > end_ - beg then some BString.npos else
  let m := end_ - beg
  let cur := strncpy s n ++ [0] ++ strncpy (t.ptr_.drop beg) m
  (prefix_func cur (m + 1 + n)).bind fun lps =>
  scan lps n beg m (n + 1)

/-- The method `BString::find(b_str, idx)`. -/
def BString.find (t b_str : BString) (idx : Nat) : Option Nat :=
  if idx ≥ t.size then some BString.npos else
  t.find_ idx t.size b_str.ptr_ b_str.size

/-- The character of `str` at index `i`, NUL outside the list. -/
def chr (str : List Nat) (i : Nat) : Nat := str.getD i 0

/-- The first `i + 1` characters of `str` end with a copy of the first `k`
characters, `k <= i`. -/
def Border (str : List Nat) (i k : Nat) : Prop :=
  k ≤ i ∧ ∀ x, x < k → chr str x = chr str (i + 1 - k + x)

/-- The number `k` is the greatest border length at index `i`. -/
def LongestBorder (str : List Nat) (i k : Nat) : Prop :=
  Border str i k ∧ ∀ k1, Border str i k1 → k1 ≤ k

/-- Every slot of `pi` holds the greatest border length of its index. -/
def PrefixTable (str pi : List Nat) : Prop :=
  ∀ x, x < pi.length → LongestBorder str x (pi.getD x 0)

end BabySTL

namespace BabySTL

variable {K V : Type}

/-! ## Coloured shapes: the red-black invariants on the tree a store forms -/

/-- A binary tree of node addresses with the colour of every node. -/
inductive CShape where
  | nil
  | node (l : CShape) (a : Nat) (k : RBTreeColor) (r : CShape)

/-- The shape without the colours. -/
def CShape.erase : CShape → Shape
  | .nil => .nil
  | .node l a _ r => .node l.erase a r.erase

/-- Addresses and colours of a coloured shape in in-order. -/
def CShape.pairs : CShape → List (Nat × RBTreeColor)
  | .nil => []
  | .node l a k r => l.pairs ++ (a, k) :: r.pairs

/-- The root is absent or black. -/
def CShape.isBlack : CShape → Prop
  | .nil => True
  | .node _ _ k _ => k = .kBlack

/-- Number of black nodes on the leftmost path. -/
def CShape.bh : CShape → Nat
  | .nil => 0
  | .node l _ k _ => l.bh + (if k = .kBlack then 1 else 0)

/-- Invariants 2 and 3 on a subtree: no red node has a red child, and at every
node both subtrees have the same number of black nodes on their paths. -/
def CShape.RB : CShape → Prop
  | .nil => True
  | .node l _ k r => l.RB ∧ r.RB ∧ l.bh = r.bh ∧ (k = .kRed → l.isBlack ∧ r.isBlack)

/-- Invariants 1 to 3 on a whole tree. -/
def CShape.Valid (s : CShape) : Prop := s.RB ∧ s.isBlack

/-- A coloured shape with a hole. -/
inductive CCtx where
  | top
  | left (up : CCtx) (a : Nat) (k : RBTreeColor) (r : CShape)
  | right (up : CCtx) (l : CShape) (a : Nat) (k : RBTreeColor)

/-- Fill the hole of a coloured context. -/
def CCtx.plug : CCtx → CShape → CShape
  | .top, s => s
  | .left up a k r, s => up.plug (.node s a k r)
  | .right up l a k, s => up.plug (.node l a k s)

/-- The context without the colours. -/
def CCtx.erase : CCtx → Ctx
  | .top => .top
  | .left up a _ r => .left up.erase a r.erase
  | .right up l a _ => .right up.erase l.erase a

/-- Addresses and colours that precede the hole in in-order. -/
def CCtx.pbefore : CCtx → List (Nat × RBTreeColor)
  | .top => []
  | .left up _ _ _ => up.pbefore
  | .right up l a k => up.pbefore ++ l.pairs ++ [(a, k)]

/-- Addresses and colours that follow the hole in in-order. -/
def CCtx.pafter : CCtx → List (Nat × RBTreeColor)
  | .top => []
  | .left up a k r => (a, k) :: r.pairs ++ up.pafter
  | .right up _ _ _ => up.pafter

/-- There is a node right above the hole and it is black. -/
def CCtx.aboveBlack : CCtx → Prop
  | .top => False
  | .left _ _ k _ => k = .kBlack
  | .right _ _ _ k => k = .kBlack

/-- The context is that of a red-black tree whose hole takes a subtree with `h`
black nodes on its paths: every sibling subtree along the way up satisfies
invariants 2 and 3 with the matching number of black nodes, a red node has a
black sibling-side child and a black node above it, and the topmost node is
black. -/
def CCtx.OK : CCtx → Nat → Prop
  | .top, _ => True
  | .left up _ k r, h =>
    r.RB ∧ r.bh = h ∧ (k = .kRed → r.isBlack ∧ up.aboveBlack) ∧
      up.OK (h + (if k = .kBlack then 1 else 0))
  | .right up l _ k, h =>
    l.RB ∧ l.bh = h ∧ (k = .kRed → l.isBlack ∧ up.aboveBlack) ∧
      up.OK (h + (if k = .kBlack then 1 else 0))

/-- Colour of the node at an address. -/
def RBTree.colorAt (t : RBTree K V) (a : Nat) : Option RBTreeColor :=
  (t.heap a).map (·.color)

/-- The nodes reachable from the root of tree `t` form the coloured shape `s`:
they form the shape, and every node has the colour the shape gives it. -/
def CRep (t : RBTree K V) (s : CShape) : Prop :=
  Rep t s.erase ∧ ∀ p ∈ s.pairs, t.colorAt p.1 = some p.2

/-- A shape with the colours its nodes have in the store. -/
def Shape.paint (t : RBTree K V) : Shape → CShape
  | .nil => .nil
  | .node l a r => .node (l.paint t) a ((t.colorAt a).getD .kBlack) (r.paint t)

/-- The pointer a cache of the sentinel holds for a first or last address: the
node, or the sentinel itself when there is none. -/
def ptrOf : Option Nat → Ptr
  | some a => .node a
  | none => .header

/-- Invariant 6 relative to the in-order sequence `l`: `header_.left` and
`header_.right` designate its first and its last node. -/
def Caches (t : RBTree K V) (l : List Nat) : Prop :=
  t.header_.left = ptrOf l.head? ∧ t.header_.right = ptrOf l.getLast?

end BabySTL

namespace BabySTL

/-! ## Array-backed containers

`BArray` (`src/src/baby_array.h`), `BVector` (`src/src/baby_vector.h`),
`BPriorityQueue` (`src/src/baby_priorityqueue.h`) and `BDeque`
(`src/src/baby_deque.h`).  A pointer into an array is the offset from its first
element; an access outside the constructed elements is a `Fault`.  Loops take a
fuel argument. -/

/-- What stops a call on an array-backed container: an access outside the
constructed elements, or a loop that used up its fuel. -/
inductive Fault where
  | outOfRange
  | outOfFuel
deriving DecidableEq

variable {Tp : Type}

/-! ### `BArray` -/

/-- The class template `BArray<Tp, Nm>`: its only member `elems`, an array of
`Nm` objects. -/
structure BArray (Tp : Type) (Nm : Nat) where
  elems : Fin Nm → Tp

/-- The method `BArray::data`: the pointer to `elems[0]`, offset zero. -/
def BArray.data {Nm : Nat} (_a : BArray Tp Nm) : Nat := 0

/-- The method `BArray::size`. -/
def BArray.size {Nm : Nat} (_a : BArray Tp Nm) : Nat := Nm

/-- The method `BArray::operator[]`: the reference `this->data()[idx]`, given
as the offset of the object it designates. -/
def BArray.subscript {Nm : Nat} (a : BArray Tp Nm) (idx : Nat) : Nat := a.data + idx

/-- The method `BArray::front`: the reference `*this->data()`. -/
def BArray.front {Nm : Nat} (a : BArray Tp Nm) : Nat := a.data

/-- The method `BArray::back`: the reference `*(this->data() + Nm)`. -/
def BArray.back {Nm : Nat} (a : BArray Tp Nm) : Nat := a.data + Nm

/-- Reading through a reference into the array: the objects of `elems` sit at
the offsets below `Nm`. -/
def BArray.read {Nm : Nat} (a : BArray Tp Nm) (off : Nat) : Except Fault Tp :=
  if h : off < Nm then .ok (a.elems ⟨off, h⟩) else .error .outOfRange

/-! ### `BVector` -/

/-- The class `BVector`: `elems` are the objects in `[start_, finish_)` and
`spare` is `end_of_storage_ - finish_`, the number of slots of the storage
that hold no object. -/
structure BVector (Tp : Type) where
  elems : List Tp
  spare : Nat

/-- The default-constructed vector: the three pointers are null. -/
def BVector.empty : BVector Tp := { elems := [], spare := 0 }

/-- The method `BVector::size`, `finish_ - start_`. -/
def BVector.size (v : BVector Tp) : Nat := v.elems.length

/-- The method `BVector::capacity`, `end_of_storage_ - start_`. -/
def BVector.capacity (v : BVector Tp) : Nat := v.elems.length + v.spare

/-- The method `BVector::adjust_capacity_`: a storage of
`max(new_capacity, 2 * old_capacity)` slots receives the `size()` objects. -/
def BVector.adjust_capacity_ (v : BVector Tp) (new_capacity old_capacity : Nat) : BVector Tp :=
  let new_capacity := if new_capacity < 2 * old_capacity then 2 * old_capacity else new_capacity
  { elems := v.elems, spare := new_capacity - v.size }

/-- The method `BVector::push_back`, that is `insert(size(), 1, val)`: the
index is `size()`, so nothing is moved; the storage grows when it is full, the
object is constructed at `finish_`, and `finish_` advances. -/
def BVector.push_back (v : BVector Tp) (val : Tp) : BVector Tp :=
  let len := v.size + 1
  let v1 := if len > v.capacity then v.adjust_capacity_ len v.capacity else v
  { elems := v1.elems ++ [val], spare := v1.spare - 1 }

/-- The method `BVector::pop_back`, that is `erase(size() - 1)`: on an empty
vector the index wraps to the largest `size_t` and `erase` returns at once;
otherwise the last object is destroyed and `finish_` steps back. -/
def BVector.pop_back (v : BVector Tp) : BVector Tp :=
  if v.size = 0 then v else { elems := v.elems.dropLast, spare := v.spare + 1 }

/-- The method `BVector::operator[]`, read: `*(start_ + idx)`. -/
def BVector.subscript (v : BVector Tp) (idx : Nat) : Except Fault Tp :=
  match v.elems[idx]? with
  | some x => .ok x
  | none => .error .outOfRange

/-- The method `BVector::front`, `operator[](0)`. -/
def BVector.front (v : BVector Tp) : Except Fault Tp := v.subscript 0

/-- The call `std::swap(v[i], v[j])`. -/
def BVector.swap_elems (v : BVector Tp) (i j : Nat) : Except Fault (BVector Tp) :=
  (v.subscript i).bind fun a =>
  (v.subscript j).bind fun b =>
  .ok { elems := (v.elems.set i b).set j a, spare := v.spare }

/-! ### `BPriorityQueue` -/

/-- The class `BPriorityQueue` over its default container `BVector`. -/
structure BPriorityQueue (Tp : Type) where
  container_ : BVector Tp
  cmp_ : Tp → Tp → Bool

/-- The default-constructed queue with comparator `cmp`. -/
def BPriorityQueue.empty (cmp : Tp → Tp → Bool) : BPriorityQueue Tp :=
  { container_ := BVector.empty, cmp_ := cmp }

/-- The method `BPriorityQueue::size`. -/
def BPriorityQueue.size (q : BPriorityQueue Tp) : Nat := q.container_.size

/-- The method `BPriorityQueue::top`, `container_.front()`. -/
def BPriorityQueue.top (q : BPriorityQueue Tp) : Except Fault Tp := q.container_.front

/-- The method `BPriorityQueue::adjust_up_`; one unit of fuel per round of the
loop. -/
def BPriorityQueue.adjust_up_ : Nat → BPriorityQueue Tp → Nat → Except Fault (BPriorityQueue Tp)
  | 0, _, _ => .error .outOfFuel
  | fuel + 1, q, idx =>
    if idx > 0 then
      let p_idx := (idx - 1) / 2
      (q.container_.subscript idx).bind fun a =>
      (q.container_.subscript p_idx).bind fun b =>
      if q.cmp_ a b = true then .ok q else
      (q.container_.swap_elems idx p_idx).bind fun c =>
      BPriorityQueue.adjust_up_ fuel { container_ := c, cmp_ := q.cmp_ } p_idx
    else .ok q

/-- The loop of `BPriorityQueue::adjust_down_`, `len` being read before it; one
unit of fuel per round.  The conjunction that selects the right child is
evaluated left to right. -/
def BPriorityQueue.adjust_down_loop :
    Nat → BPriorityQueue Tp → Nat → Nat → Except Fault (BPriorityQueue Tp)
  | 0, _, _, _ => .error .outOfFuel
  | fuel + 1, q, len, idx =>
    if 2 * idx + 1 < len then
      let swap_idx := 2 * idx + 1
      (if swap_idx + 1 < len then
          (q.container_.subscript swap_idx).bind fun a =>
          (q.container_.subscript (swap_idx + 1)).map fun b => q.cmp_ a b
        else .ok false).bind fun right =>
      let swap_idx := if right = true then swap_idx + 1 else swap_idx
      (q.container_.subscript idx).bind fun a =>
      (q.container_.subscript swap_idx).bind fun b =>
      if (!q.cmp_ a b) = true then .ok q else
      (q.container_.swap_elems idx swap_idx).bind fun c =>
      BPriorityQueue.adjust_down_loop fuel { container_ := c, cmp_ := q.cmp_ } len swap_idx
    else .ok q

/-- The method `BPriorityQueue::adjust_down_`. -/
def BPriorityQueue.adjust_down_ (q : BPriorityQueue Tp) (idx : Nat) :
    Except Fault (BPriorityQueue Tp) :=
  BPriorityQueue.adjust_down_loop (q.container_.size + 1) q q.container_.size idx

/-- The method `BPriorityQueue::push`. -/
def BPriorityQueue.push (q : BPriorityQueue Tp) (val : Tp) : Except Fault (BPriorityQueue Tp) :=
  let c := q.container_.push_back val
  BPriorityQueue.adjust_up_ (c.size + 1) { container_ := c, cmp_ := q.cmp_ } (c.size - 1)

/-- The method `BPriorityQueue::pop`.  On an empty queue `n - 1` wraps to the
largest `size_t`; with the truncated subtraction used here the index is 0; in
both readings it is not below `size()` and the access is a fault. -/
def BPriorityQueue.pop (q : BPriorityQueue Tp) : Except Fault (BPriorityQueue Tp) :=
  let n := q.container_.size
  (q.container_.swap_elems 0 (n - 1)).bind fun c =>
  BPriorityQueue.adjust_down_ { container_ := c.pop_back, cmp_ := q.cmp_ } 0

/-- One call on a priority queue. -/
inductive QueueOp (Tp : Type) where
  | push (val : Tp)
  | pop

/-- Perform one call. -/
def QueueOp.apply (q : BPriorityQueue Tp) : QueueOp Tp → Except Fault (BPriorityQueue Tp)
  | .push val => q.push val
  | .pop => q.pop

/-- Perform a sequence of calls, stopping at the first fault. -/
def BPriorityQueue.runFrom (q : BPriorityQueue Tp) :
    List (QueueOp Tp) → Except Fault (BPriorityQueue Tp)
  | [] => .ok q
  | op :: ops => (op.apply q).bind fun q1 => BPriorityQueue.runFrom q1 ops

/-- Perform a sequence of calls on the empty queue with comparator `cmp`. -/
def BPriorityQueue.run (cmp : Tp → Tp → Bool) (ops : List (QueueOp Tp)) :
    Except Fault (BPriorityQueue Tp) :=
  BPriorityQueue.runFrom (BPriorityQueue.empty cmp) ops

/-- Whether every `pop` of a sequence of calls meets a non-empty queue, when
the sequence starts on a queue of `n` elements. -/
def QueueOp.popsNonEmpty : Nat → List (QueueOp Tp) → Bool
  | _, [] => true
  | n, .push _ :: ops => QueueOp.popsNonEmpty (n + 1) ops
  | n, .pop :: ops => decide (0 < n) && QueueOp.popsNonEmpty (n - 1) ops

/-- The heap order of an array under a comparator: no element at an index
`i > 0` is greater than the element at the parent index `(i - 1) / 2`. -/
def HeapOrdered (cmp : Tp → Tp → Bool) (l : List Tp) : Prop :=
  ∀ i x p, 0 < i → l[i]? = some x → l[(i - 1) / 2]? = some p → cmp p x = false

/-- The heap order with the element at index `k` exempt from the comparison
with its parent; its children are ordered against that parent instead (the
array during `adjust_up_`). -/
def HeapAbove (cmp : Tp → Tp → Bool) (l : List Tp) (k : Nat) : Prop :=
  (∀ i x p, 0 < i → i ≠ k → l[i]? = some x → l[(i - 1) / 2]? = some p → cmp p x = false) ∧
  (∀ c x g, 0 < k → 0 < c → (c - 1) / 2 = k → l[c]? = some x → l[(k - 1) / 2]? = some g →
    cmp g x = false)

/-- The heap order with the children of index `k` exempt from the comparison
with it; they are ordered against the parent of `k` instead (the array during
`adjust_down_`). -/
def HeapBelow (cmp : Tp → Tp → Bool) (l : List Tp) (k : Nat) : Prop :=
  (∀ i x p, 0 < i → (i - 1) / 2 ≠ k → l[i]? = some x → l[(i - 1) / 2]? = some p →
    cmp p x = false) ∧
  (∀ c x g, 0 < k → 0 < c → (c - 1) / 2 = k → l[c]? = some x → l[(k - 1) / 2]? = some g →
    cmp g x = false)

/-! ### `BDeque` -/

/-- The function `deque_buf_size`, with `DEQUE_BUF_SIZE` at its default 512. -/
def deque_buf_size (size : Nat) : Nat :=
  if size < 512 then 512 / size else 1

/-- A non-null `Tp *` into the buffers of a deque: the buffer, named by the
slot of `map_` that holds it, and the offset in it. -/
structure BufPtr where
  buf : Nat
  off : Nat
deriving DecidableEq

/-- The record `BDeque::Iterator`; `none` is the null pointer, and `node` is an
index into `map_`. -/
structure DequeIterator where
  cur : Option BufPtr
  first : Option BufPtr
  last : Option BufPtr
  node : Option Nat
deriving DecidableEq

/-- The class `BDeque`: `elem_size` is `sizeof(Tp)`; a slot of `map_` is null
or holds a buffer of `deque_buf_size(sizeof(Tp))` objects. -/
structure BDeque (Tp : Type) where
  elem_size : Nat
  map_ : List (Option (List Tp))
  map_size_ : Nat
  start_ : DequeIterator
  finish_ : DequeIterator

/-- The method `Iterator::set_node`: `first = *new_node`, and `last` follows. -/
def BDeque.set_node (dq : BDeque Tp) (it : DequeIterator) (new_node : Nat) :
    Except Fault DequeIterator :=
  match dq.map_[new_node]? with
  | none => .error .outOfRange
  | some none => .ok { cur := it.cur, first := none, last := none, node := some new_node }
  | some (some _) =>
    .ok { cur := it.cur, first := some { buf := new_node, off := 0 },
          last := some { buf := new_node, off := deque_buf_size dq.elem_size },
          node := some new_node }

/-- The method `Iterator::operator*`, read: `*cur`. -/
def BDeque.deref (dq : BDeque Tp) (it : DequeIterator) : Except Fault Tp :=
  match it.cur with
  | none => .error .outOfRange
  | some p =>
    match dq.map_[p.buf]? with
    | some (some b) =>
      match b[p.off]? with
      | some x => .ok x
      | none => .error .outOfRange
    | _ => .error .outOfRange

/-- The placement `new(it.cur) Tp(val)`. -/
def BDeque.construct_at (dq : BDeque Tp) (it : DequeIterator) (val : Tp) :
    Except Fault (BDeque Tp) :=
  match it.cur with
  | none => .error .outOfRange
  | some p =>
    match dq.map_[p.buf]? with
    | some (some b) =>
      if p.off < b.length then
        .ok { dq with map_ := dq.map_.set p.buf (some (b.set p.off val)) }
      else .error .outOfRange
    | _ => .error .outOfRange

/-- The method `Iterator::operator++` (prefix). -/
def BDeque.increment (dq : BDeque Tp) (it : DequeIterator) : Except Fault DequeIterator :=
  match it.cur, it.node with
  | some p, some n =>
    let it1 := { it with cur := some { buf := p.buf, off := p.off + 1 } }
    if it1.cur = it1.last then
      (dq.set_node it1 (n + 1)).map fun it2 => { it2 with cur := it2.first }
    else .ok it1
  | _, _ => .error .outOfRange

/-- The method `Iterator::operator+=` for an offset `n` that is not negative,
as `operator[]` passes it. -/
def BDeque.advance (dq : BDeque Tp) (it : DequeIterator) (n : Nat) : Except Fault DequeIterator :=
  match it.cur, it.first, it.node with
  | some c, some f, some nd =>
    let offset := c.off + n - f.off
    let buff_len := deque_buf_size dq.elem_size
    let buff_offset := (offset % buff_len + buff_len) % buff_len
    let node_offset := offset / buff_len
    (dq.set_node it (nd + node_offset)).map fun it1 =>
      { it1 with cur := it1.first.map fun p => { buf := p.buf, off := p.off + buff_offset } }
  | _, _, _ => .error .outOfRange

/-- The method `BDeque::operator[]`, read: `*((start_ + idx).cur)`. -/
def BDeque.subscript (dq : BDeque Tp) (idx : Nat) : Except Fault Tp :=
  (dq.advance dq.start_ idx).bind fun it => dq.deref it

/-- The method `BDeque::size`. -/
def BDeque.size (dq : BDeque Tp) : Nat :=
  match dq.start_.node, dq.finish_.node with
  | some sn, some fn =>
    let buff_size := deque_buf_size dq.elem_size
    let total_buff_cnt := (fn - sn + 1) * buff_size
    let off := fun (p : Option BufPtr) => (p.map (·.off)).getD 0
    total_buff_cnt - (off dq.start_.cur - off dq.start_.first)
      - (off dq.finish_.last - off dq.finish_.cur)
  | _, _ => 0

/-- The method `BDeque::begin`. -/
def BDeque.begin (dq : BDeque Tp) : DequeIterator := dq.start_

/-- The method `BDeque::end`. -/
def BDeque.end_ (dq : BDeque Tp) : DequeIterator := dq.finish_

/-- The loop of `BDeque::initialize_map_` that creates the buffers of the
slots `beg`, ..., `beg + n_nodes - 1`. -/
def BDeque.create_buffs [Inhabited Tp] (elem_size : Nat) :
    Nat → Nat → List (Option (List Tp)) → List (Option (List Tp))
  | 0, _, m => m
  | n_nodes + 1, slot, m =>
    BDeque.create_buffs elem_size n_nodes (slot + 1)
      (m.set slot (some (List.replicate (deque_buf_size elem_size) default)))

/-- The method `BDeque::initialize_map_` on a deque under construction. -/
def BDeque.initialize_map_ [Inhabited Tp] (elem_size n_elems : Nat) : Except Fault (BDeque Tp) :=
  let n_nodes := n_elems / deque_buf_size elem_size + 1
  let map_size := max (n_nodes + 2) 8
  let beg := (map_size - n_nodes) / 2
  let end_ := beg + n_nodes
  let m := BDeque.create_buffs elem_size n_nodes beg (List.replicate map_size none)
  let blank : DequeIterator := { cur := none, first := none, last := none, node := none }
  let dq : BDeque Tp :=
    { elem_size := elem_size, map_ := m, map_size_ := map_size, start_ := blank, finish_ := blank }
  (dq.set_node blank beg).bind fun s =>
  (dq.set_node blank (end_ - 1)).map fun f =>
  { dq with
    start_ := { s with cur := s.first }
    finish_ := { f with cur := f.first.map fun p =>
      { buf := p.buf, off := p.off + n_elems % deque_buf_size elem_size } } }

/-- The loop of `BDeque::construct_range_`; it returns the deque and the
iterator that becomes `finish_`. -/
def BDeque.construct_loop : BDeque Tp → DequeIterator → List Tp →
    Except Fault (BDeque Tp × DequeIterator)
  | dq, iter, [] => .ok (dq, iter)
  | dq, iter, x :: rest =>
    (dq.construct_at iter x).bind fun dq1 =>
    (dq1.increment iter).bind fun iter1 =>
    BDeque.construct_loop dq1 iter1 rest

/-- The method `BDeque::construct_range_`. -/
def BDeque.construct_range_ (dq : BDeque Tp) (ilist : List Tp) : Except Fault (BDeque Tp) :=
  (BDeque.construct_loop dq dq.start_ ilist).map fun r => { r.1 with finish_ := r.2 }

/-- The constructor `BDeque(std::initializer_list<Tp>)`. -/
def BDeque.ofList [Inhabited Tp] (elem_size : Nat) (ilist : List Tp) : Except Fault (BDeque Tp) :=
  (BDeque.initialize_map_ elem_size ilist.length).bind fun dq => dq.construct_range_ ilist

/-- The loop of `operator==` on two deques; the comparisons of iterators are
`Iterator::operator!=`, which compares the `cur` fields.  One unit of fuel per
round. -/
def BDeque.eq_loop [DecidableEq Tp] : Nat → BDeque Tp → BDeque Tp → DequeIterator →
    DequeIterator → Except Fault Bool
  | 0, _, _, _, _ => .error .outOfFuel
  | fuel + 1, dq1, dq2, iter1, iter2 =>
    if iter1.cur ≠ dq1.end_.cur ∧ iter2.cur ≠ dq2.end_.cur then
      (dq1.deref iter1).bind fun a =>
      (dq1.deref iter1).bind fun b =>
      if a ≠ b then .ok false else
      (dq1.increment iter1).bind fun i1 =>
      (dq2.increment iter2).bind fun i2 =>
      BDeque.eq_loop fuel dq1 dq2 i1 i2
    else .ok true

/-- The function `operator==(const BDeque &, const BDeque &)`. -/
def BDeque.operator_eq [DecidableEq Tp] (dq1 dq2 : BDeque Tp) : Except Fault Bool :=
  if dq1.size ≠ dq2.size then .ok false else
  BDeque.eq_loop (dq1.size + 1) dq1 dq2 dq1.begin dq2.begin

end BabySTL

namespace BabySTL

variable {K V : Type}

/-! ## The effect of a rotation -/

/-- What a rotation at node `n` that lifts its child `r` achieves from state `t`
to state `t1`: the in-order sequence of nodes, every payload with its colour,
the allocation counter and the count are unchanged; `r` has taken the parent of
`n` and its slot in that parent (or in the sentinel); `n` hangs below `r`; and
every child of a node of the tree names that node as its parent. -/
structure Rotated (t t1 : RBTree K V) (n r : Nat) : Prop where
  nodes : t1.nodes = t.nodes
  data : ∀ a, t1.dataAt a = t.dataAt a
  next : t1.next = t.next
  cnt : t1.cnt_ = t.cnt_
  up : t1.parentOf (.node r) = t.parentOf (.node n)
  down : t1.parentOf (.node n) = .ok (.node r)
  slot : (t.header_.parent = .node n ∧ t1.header_.parent = .node r) ∨
    ∃ p, t.parentOf (.node n) = .ok (.node p) ∧
      ((t.leftOf (.node p) = .ok (.node n) ∧ t1.leftOf (.node p) = .ok (.node r)) ∨
       (t.rightOf (.node p) = .ok (.node n) ∧ t1.rightOf (.node p) = .ok (.node r)))
  links : ∀ a ∈ t1.nodes, ∀ c,
    t1.leftOf (.node a) = .ok (.node c) ∨ t1.rightOf (.node a) = .ok (.node c) →
    t1.parentOf (.node c) = .ok (.node a)

end BabySTL

namespace BabySTL

variable {K V : Type}

/-! ## Shapes and contexts -/

theorem Ctx.ids_plug (c : Ctx) (s : Shape) :
    (c.plug s).ids = c.before ++ s.ids ++ c.after := by
  induction c generalizing s with
  | top => simp [Ctx.plug, Ctx.before, Ctx.after]
  | left up a r ih => simp [Ctx.plug, Ctx.before, Ctx.after, ih, Shape.ids]
  | right up l a ih => simp [Ctx.plug, Ctx.before, Ctx.after, ih, Shape.ids]

/-- Put context `c` inside the hole of context `o`. -/
theorem Ctx.exists_comp (o c : Ctx) : ∃ d : Ctx, ∀ s, d.plug s = o.plug (c.plug s) := by
  induction c with
  | top => exact ⟨o, fun s => rfl⟩
  | left up a r ih =>
    obtain ⟨d, hd⟩ := ih
    exact ⟨.left d a r, fun s => by simp [Ctx.plug, hd]⟩
  | right up l a ih =>
    obtain ⟨d, hd⟩ := ih
    exact ⟨.right d l a, fun s => by simp [Ctx.plug, hd]⟩

theorem Shape.exists_ctx_of_mem {s : Shape} {a : Nat} (h : a ∈ s.ids) :
    ∃ c l r, s = Ctx.plug c (.node l a r) := by
  induction s with
  | nil => simp [Shape.ids] at h
  | node l b r ihl ihr =>
    simp only [Shape.ids, List.mem_append, List.mem_cons] at h
    rcases h with h | h | h
    · obtain ⟨c, l1, r1, hc⟩ := ihl h
      obtain ⟨d, hd⟩ := Ctx.exists_comp (.left .top b r) c
      exact ⟨d, l1, r1, by rw [hd, ← hc]; rfl⟩
    · subst h
      exact ⟨.top, l, r, rfl⟩
    · obtain ⟨c, l1, r1, hc⟩ := ihr h
      obtain ⟨d, hd⟩ := Ctx.exists_comp (.right .top l b) c
      exact ⟨d, l1, r1, by rw [hd, ← hc]; rfl⟩

theorem Shape.height_le_length (s : Shape) : s.height ≤ s.ids.length := by
  induction s with
  | nil => simp [Shape.height]
  | node l a r ihl ihr =>
    simp only [Shape.height, Shape.ids, List.length_append, List.length_cons]
    omega

theorem Ctx.depth_add_height_le (c : Ctx) (s : Shape) :
    c.depth + s.height ≤ (c.plug s).height := by
  induction c generalizing s with
  | top => simp [Ctx.plug, Ctx.depth]
  | left up a r ih =>
    have := ih (.node s a r)
    simp only [Ctx.plug, Ctx.depth, Shape.height] at this ⊢
    omega
  | right up l a ih =>
    have := ih (.node l a s)
    simp only [Ctx.plug, Ctx.depth, Shape.height] at this ⊢
    omega

/-! ## Representation of shapes in the store -/

theorem Repr.root_eq {h : Nat → Option (RBTreeMapNode K V)} {par p : Ptr} {s : Shape}
    (hr : Repr h par p s) : p = s.root := by
  cases s with
  | nil => simpa [Repr, Shape.root] using hr
  | node l a r => exact hr.1

theorem Repr.congr {h h1 : Nat → Option (RBTreeMapNode K V)} {par p : Ptr} {s : Shape}
    (hr : Repr h par p s) (hag : ∀ a ∈ s.ids, h1 a = h a) : Repr h1 par p s := by
  induction s generalizing par p with
  | nil => simpa [Repr] using hr
  | node l a r ihl ihr =>
    obtain ⟨hp, n, hn, hpar, hl, hrr⟩ := hr
    refine ⟨hp, n, ?_, hpar, ihl hl ?_, ihr hrr ?_⟩
    · rw [hag a (by simp [Shape.ids])]; exact hn
    · intro x hx; exact hag x (by simp [Shape.ids, hx])
    · intro x hx; exact hag x (by simp [Shape.ids, hx])

theorem ReprC.congr_ctx {h h1 : Nat → Option (RBTreeMapNode K V)} {hp p : Ptr} {c : Ctx}
    (hr : ReprC h hp c p) (hag : ∀ a, a ∈ c.before ∨ a ∈ c.after → h1 a = h a) :
    ReprC h1 hp c p := by
  induction c generalizing p with
  | top => simpa [ReprC] using hr
  | left up a r ih =>
    obtain ⟨n, hn, hl, hpar, hrr, hup⟩ := hr
    refine ⟨n, ?_, hl, hpar, hrr.congr ?_, ih hup ?_⟩
    · rw [hag a (by simp [Ctx.after])]; exact hn
    · intro x hx; exact hag x (by simp [Ctx.after, hx])
    · intro x hx
      rcases hx with hx | hx
      · exact hag x (by simp [Ctx.before, hx])
      · exact hag x (by simp [Ctx.after, hx])
  | right up l a ih =>
    obtain ⟨n, hn, hl, hpar, hrr, hup⟩ := hr
    refine ⟨n, ?_, hl, hpar, hrr.congr ?_, ih hup ?_⟩
    · rw [hag a (by simp [Ctx.before])]; exact hn
    · intro x hx; exact hag x (by simp [Ctx.before, hx])
    · intro x hx
      rcases hx with hx | hx
      · exact hag x (by simp [Ctx.before, hx])
      · exact hag x (by simp [Ctx.after, hx])

theorem Repr.plug_iff {h : Nat → Option (RBTreeMapNode K V)} {hp : Ptr} (c : Ctx) (s : Shape) :
    Repr h .header hp (c.plug s) ↔ ∃ p, ReprC h hp c p ∧ Repr h c.parentPtr p s := by
  induction c generalizing s with
  | top => simp [Ctx.plug, ReprC, Ctx.parentPtr]
  | left up a r ih =>
    rw [Ctx.plug, ih]
    constructor
    · rintro ⟨p, hup, hp1, n, hn, hpar, hl, hr⟩
      subst hp1
      exact ⟨n.left, ⟨n, hn, rfl, hpar, hr, hup⟩, hl⟩
    · rintro ⟨p, ⟨n, hn, hl, hpar, hr, hup⟩, hs⟩
      subst hl
      exact ⟨.node a, hup, rfl, n, hn, hpar, hs, hr⟩
  | right up l a ih =>
    rw [Ctx.plug, ih]
    constructor
    · rintro ⟨p, hup, hp1, n, hn, hpar, hl, hr⟩
      subst hp1
      exact ⟨n.right, ⟨n, hn, rfl, hpar, hl, hup⟩, hr⟩
    · rintro ⟨p, ⟨n, hn, hl, hpar, hr, hup⟩, hs⟩
      subst hl
      exact ⟨.node a, hup, rfl, n, hn, hpar, hr, hs⟩

theorem inorder_eq_ids {t : RBTree K V} {par p : Ptr} {s : Shape} {fuel : Nat}
    (hr : Repr t.heap par p s) (hf : s.height ≤ fuel) : inorder fuel t p = s.ids := by
  induction s generalizing par p fuel with
  | nil =>
    have : p = .null := by simpa [Repr] using hr
    subst this
    cases fuel <;> simp [inorder, Shape.ids]
  | node l a r ihl ihr =>
    obtain ⟨hp, n, hn, hpar, hl, hrr⟩ := hr
    subst hp
    cases fuel with
    | zero => simp [Shape.height] at hf
    | succ fuel =>
      simp only [Shape.height] at hf
      simp only [inorder, hn, Shape.ids]
      rw [ihl hl (by omega), ihr hrr (by omega)]

end BabySTL

namespace BabySTL

variable {K V : Type}

/-! ## Reading and writing nodes of a represented shape -/

@[simp] theorem Shape.root_node (l : Shape) (a : Nat) (r : Shape) :
    (Shape.node l a r).root = .node a := rfl

@[simp] theorem Shape.root_nil : Shape.nil.root = .null := rfl

theorem Shape.mem_of_root {s : Shape} {x : Nat} (h : s.root = .node x) : x ∈ s.ids := by
  cases s with
  | nil => simp [Shape.root] at h
  | node l a r =>
    simp only [Shape.root, Ptr.node.injEq] at h
    subst h
    simp [Shape.ids]

theorem Shape.root_ne_header (s : Shape) : s.root ≠ .header := by
  cases s <;> simp [Shape.root]

theorem Shape.root_ne_of_not_mem {s : Shape} {x : Nat} (h : x ∉ s.ids) : s.root ≠ .node x :=
  fun e => h (Shape.mem_of_root e)

theorem Ctx.getParent_eq (c : Ctx) :
    c.getParent = if c.parentPtr = .header then .null else c.parentPtr := by
  cases c <;> simp [Ctx.getParent, Ctx.parentPtr]

@[simp] theorem RBTree.store_heap (t : RBTree K V) (a : Nat) (n : RBTreeMapNode K V) (x : Nat) :
    (t.store a n).heap x = if x = a then some n else t.heap x := rfl

@[simp] theorem RBTree.store_header (t : RBTree K V) (a : Nat) (n : RBTreeMapNode K V) :
    (t.store a n).header_ = t.header_ := rfl

@[simp] theorem RBTree.store_cnt (t : RBTree K V) (a : Nat) (n : RBTreeMapNode K V) :
    (t.store a n).cnt_ = t.cnt_ := rfl

@[simp] theorem RBTree.store_cmp (t : RBTree K V) (a : Nat) (n : RBTreeMapNode K V) :
    (t.store a n).cmp_ = t.cmp_ := rfl

@[simp] theorem RBTree.store_next (t : RBTree K V) (a : Nat) (n : RBTreeMapNode K V) :
    (t.store a n).next = t.next := rfl

theorem RBTree.leftOf_node {t : RBTree K V} {a : Nat} {n : RBTreeMapNode K V}
    (h : t.heap a = some n) : t.leftOf (.node a) = .ok n.left := by
  simp [RBTree.leftOf, RBTree.baseAt, h, Except.map]

theorem RBTree.rightOf_node {t : RBTree K V} {a : Nat} {n : RBTreeMapNode K V}
    (h : t.heap a = some n) : t.rightOf (.node a) = .ok n.right := by
  simp [RBTree.rightOf, RBTree.baseAt, h, Except.map]

theorem RBTree.parentOf_node {t : RBTree K V} {a : Nat} {n : RBTreeMapNode K V}
    (h : t.heap a = some n) : t.parentOf (.node a) = .ok n.parent := by
  simp [RBTree.parentOf, RBTree.baseAt, h, Except.map]

theorem RBTree.nodeAt_node {t : RBTree K V} {a : Nat} {n : RBTreeMapNode K V}
    (h : t.heap a = some n) : t.nodeAt (.node a) = .ok n := by
  simp [RBTree.nodeAt, h]

theorem RBTree.colorOf_node {t : RBTree K V} {a : Nat} {n : RBTreeMapNode K V}
    (h : t.heap a = some n) : t.colorOf (.node a) = .ok n.color := by
  simp [RBTree.colorOf, RBTree.nodeAt, h, Except.map]

theorem get_parent_node {t : RBTree K V} {a : Nat} {n : RBTreeMapNode K V}
    (h : t.heap a = some n) :
    get_parent t (.node a) = .ok (if n.parent = .header then .null else n.parent) := by
  simp only [get_parent, RBTree.parentOf_node h, Except.bind]
  split <;> rfl

theorem RBTree.setLeft_node {t : RBTree K V} {a : Nat} {n : RBTreeMapNode K V}
    (h : t.heap a = some n) (v : Ptr) :
    t.setLeft (.node a) v = .ok (t.store a { n with left := v }) := by
  simp [RBTree.setLeft, RBTree.setBase, h]

theorem RBTree.setRight_node {t : RBTree K V} {a : Nat} {n : RBTreeMapNode K V}
    (h : t.heap a = some n) (v : Ptr) :
    t.setRight (.node a) v = .ok (t.store a { n with right := v }) := by
  simp [RBTree.setRight, RBTree.setBase, h]

theorem RBTree.setParent_node {t : RBTree K V} {a : Nat} {n : RBTreeMapNode K V}
    (h : t.heap a = some n) (v : Ptr) :
    t.setParent (.node a) v = .ok (t.store a { n with parent := v }) := by
  simp [RBTree.setParent, RBTree.setBase, h]

theorem RBTree.setNode_node {t : RBTree K V} {a : Nat} {n : RBTreeMapNode K V}
    (h : t.heap a = some n) (f : RBTreeMapNode K V → RBTreeMapNode K V) :
    t.setNode (.node a) f = .ok (t.store a (f n)) := by
  simp [RBTree.setNode, h]

theorem RBTree.setColor_node {t : RBTree K V} {a : Nat} {n : RBTreeMapNode K V}
    (h : t.heap a = some n) (c : RBTreeColor) :
    t.setColor (.node a) c = .ok (t.store a { n with color := c }) := by
  simp [RBTree.setColor, RBTree.setNode, h]

theorem RBTree.flipColor_node {t : RBTree K V} {a : Nat} {n : RBTreeMapNode K V}
    (h : t.heap a = some n) :
    t.flipColor (.node a) =
      .ok (t.store a { n with color := if n.color = .kRed then .kBlack else .kRed }) := by
  simp [RBTree.flipColor, RBTree.setNode, h]

/-! ### Frame relations -/

theorem SameData.refl (t : RBTree K V) : SameData t t :=
  ⟨rfl, rfl, rfl, rfl, rfl, fun _ => rfl⟩

theorem SameData.trans {t t1 t2 : RBTree K V} (h1 : SameData t t1) (h2 : SameData t1 t2) :
    SameData t t2 :=
  ⟨h2.hleft.trans h1.hleft, h2.hright.trans h1.hright, h2.cnt.trans h1.cnt,
   h2.cmp.trans h1.cmp, h2.next.trans h1.next, fun a => (h2.data a).trans (h1.data a)⟩

theorem SameData.store {t : RBTree K V} {a : Nat} {n : RBTreeMapNode K V}
    (n1 : RBTreeMapNode K V) (h : t.heap a = some n) (hc : n1.color = n.color) (hk : n1.key = n.key)
    (hv : n1.val = n.val) : SameData t (t.store a n1) := by
  refine ⟨rfl, rfl, rfl, rfl, rfl, fun x => ?_⟩
  simp only [RBTree.dataAt, RBTree.store_heap]
  split
  · next e => subst e; simp [h, hc, hk, hv]
  · rfl

theorem SameData.colorOf {t t1 : RBTree K V} (h : SameData t t1) (a : Nat) :
    t1.colorOf (.node a) = t.colorOf (.node a) := by
  have := h.data a
  simp only [RBTree.dataAt] at this
  simp only [RBTree.colorOf, RBTree.nodeAt]
  cases h1 : t1.heap a <;> cases h0 : t.heap a <;> simp_all [Except.map]

theorem SameEntries.refl_entries (t : RBTree K V) : SameEntries t t :=
  ⟨rfl, rfl, rfl, rfl, rfl, fun _ => rfl⟩

theorem SameEntries.trans_entries {t t1 t2 : RBTree K V} (h1 : SameEntries t t1)
    (h2 : SameEntries t1 t2) : SameEntries t t2 :=
  ⟨h2.hleft.trans h1.hleft, h2.hright.trans h1.hright, h2.cnt.trans h1.cnt,
   h2.cmp.trans h1.cmp, h2.next.trans h1.next, fun a => (h2.entry a).trans (h1.entry a)⟩

theorem SameData.toEntries {t t1 : RBTree K V} (h : SameData t t1) : SameEntries t t1 := by
  refine ⟨h.hleft, h.hright, h.cnt, h.cmp, h.next, fun a => ?_⟩
  have := h.data a
  simp only [RBTree.dataAt] at this
  simp only [RBTree.entryAt]
  cases h1 : t1.heap a <;> cases h0 : t.heap a <;> simp_all

theorem SameEntries.store_entries {t : RBTree K V} {a : Nat} {n : RBTreeMapNode K V}
    (n1 : RBTreeMapNode K V) (h : t.heap a = some n) (hk : n1.key = n.key) (hv : n1.val = n.val) :
    SameEntries t (t.store a n1) := by
  refine ⟨rfl, rfl, rfl, rfl, rfl, fun x => ?_⟩
  simp only [RBTree.entryAt, RBTree.store_heap]
  split
  · next e => subst e; simp [h, hk, hv]
  · rfl

/-! ### Reading through a representation -/

theorem Rep.node_at {t : RBTree K V} {c : Ctx} {A B : Shape} {a : Nat}
    (h : Rep t (c.plug (.node A a B))) :
    ∃ n, t.heap a = some n ∧ n.parent = c.parentPtr ∧ n.left = A.root ∧ n.right = B.root := by
  obtain ⟨p, _, hs⟩ := (Repr.plug_iff c _).mp h.1
  obtain ⟨_, n, hn, hpar, hl, hr⟩ := hs
  exact ⟨n, hn, hpar, hl.root_eq, hr.root_eq⟩

theorem Rep.leftOf {t : RBTree K V} {c : Ctx} {A B : Shape} {a : Nat}
    (h : Rep t (c.plug (.node A a B))) : t.leftOf (.node a) = .ok A.root := by
  obtain ⟨n, hn, _, hl, _⟩ := h.node_at
  rw [RBTree.leftOf_node hn, hl]

theorem Rep.rightOf {t : RBTree K V} {c : Ctx} {A B : Shape} {a : Nat}
    (h : Rep t (c.plug (.node A a B))) : t.rightOf (.node a) = .ok B.root := by
  obtain ⟨n, hn, _, _, hr⟩ := h.node_at
  rw [RBTree.rightOf_node hn, hr]

theorem Rep.parentOf {t : RBTree K V} {c : Ctx} {A B : Shape} {a : Nat}
    (h : Rep t (c.plug (.node A a B))) : t.parentOf (.node a) = .ok c.parentPtr := by
  obtain ⟨n, hn, hp, _, _⟩ := h.node_at
  rw [RBTree.parentOf_node hn, hp]

theorem Rep.get_parent {t : RBTree K V} {c : Ctx} {A B : Shape} {a : Nat}
    (h : Rep t (c.plug (.node A a B))) : get_parent t (.node a) = .ok c.getParent := by
  obtain ⟨n, hn, hp, _, _⟩ := h.node_at
  rw [get_parent_node hn, hp, Ctx.getParent_eq]

theorem Rep.store_links {t : RBTree K V} {s : Shape} {a : Nat} {n : RBTreeMapNode K V}
    (n1 : RBTreeMapNode K V) (h : Rep t s) (hn : t.heap a = some n) (hl : n1.toNodeBase = n.toNodeBase) :
    Rep (t.store a n1) s := by
  refine ⟨?_, h.2⟩
  have key : ∀ (s : Shape) (par p : Ptr), Repr t.heap par p s → Repr (t.store a n1).heap par p s := by
    intro s
    induction s with
    | nil => intro par p hr; simpa [Repr] using hr
    | node l b r ihl ihr =>
      intro par p hr
      obtain ⟨hp, m, hm, hpar, hl1, hr1⟩ := hr
      by_cases e : b = a
      · subst e
        rw [hn] at hm
        cases hm
        refine ⟨hp, n1, by simp, ?_, ?_, ?_⟩
        · rw [show n1.parent = n.parent from congrArg NodeBase.parent hl]; exact hpar
        · rw [show n1.left = n.left from congrArg NodeBase.left hl]; exact ihl _ _ hl1
        · rw [show n1.right = n.right from congrArg NodeBase.right hl]; exact ihr _ _ hr1
      · exact ⟨hp, m, by simp [e, hm], hpar, ihl _ _ hl1, ihr _ _ hr1⟩
  exact key s _ _ h.1

end BabySTL

namespace BabySTL

variable {K V : Type}

/-! ## The relinking block and the rotations -/

theorem relink_spec {t : RBTree K V} {c : Ctx} {n r : Nat} {nr : RBTreeMapNode K V}
    (hc : ReprC t.heap t.header_.parent c (.node n)) (hr : t.heap r = some nr)
    (hnd : (c.before ++ c.after).Nodup)
    (hn : n ∉ c.before ∧ n ∉ c.after) (hrc : r ∉ c.before ∧ r ∉ c.after) :
    ∃ t1, relink t c.getParent (.node n) (.node r) = .ok t1 ∧
      ReprC t1.heap t1.header_.parent c (.node r) ∧
      t1.heap r = some { nr with parent := c.parentPtr } ∧
      (∀ x, x ≠ r → x ∉ c.before → x ∉ c.after → t1.heap x = t.heap x) ∧
      SameData t t1 := by
  cases c with
  | top =>
    refine ⟨({ t with header_ := { t.header_ with parent := .node r } } : RBTree K V).store r
              { nr with parent := .header }, ?_, ?_, ?_, ?_, ?_⟩
    · simp [relink, Ctx.getParent, RBTree.setParent, RBTree.setBase, Except.bind, hr]
    · simp [ReprC]
    · simp [Ctx.parentPtr]
    · intro x hx _ _; simp [hx]
    · refine ⟨rfl, rfl, rfl, rfl, rfl, fun x => ?_⟩
      simp only [RBTree.dataAt, RBTree.store_heap]
      split
      · next e => subst e; simp [hr]
      · rfl
  | left up pa R =>
    obtain ⟨npa, hpa, hl, hpar, hR, hup⟩ := hc
    simp only [Ctx.before, Ctx.after] at hnd hn hrc
    have hrpa : r ≠ pa := by rintro rfl; simp at hrc
    have hpaR : pa ∉ R.ids := by
      intro h; simp [List.nodup_append, h] at hnd
    have hpaU : pa ∉ up.before ∧ pa ∉ up.after := by
      constructor <;> intro h <;> simp [List.nodup_append, h] at hnd
    refine ⟨(t.store pa { npa with left := .node r }).store r { nr with parent := .node pa },
      ?_, ?_, ?_, ?_, ?_⟩
    · simp only [relink, Ctx.getParent, RBTree.leftOf_node hpa, hl, Except.bind, if_true]
      simp only [RBTree.setLeft_node hpa]
      rw [RBTree.setParent_node (n := nr) (by simp [hrpa, hr])]
      simp
    · refine ⟨{ npa with left := .node r }, by simp [hrpa.symm], rfl, hpar, ?_, ?_⟩
      · refine hR.congr fun x hx => ?_
        have h1 : x ≠ r := by rintro rfl; simp [hx] at hrc
        have h2 : x ≠ pa := by rintro rfl; exact hpaR hx
        simp [h1, h2]
      · refine hup.congr_ctx fun x hx => ?_
        have h1 : x ≠ r := by rintro rfl; rcases hx with hx | hx <;> simp [hx] at hrc
        have h2 : x ≠ pa := by rintro rfl; rcases hx with hx | hx <;> simp [hx] at hpaU
        simp [h1, h2]
    · simp [Ctx.parentPtr]
    · intro x hx _ hx2
      have h2 : x ≠ pa := by rintro rfl; simp [Ctx.after] at hx2
      simp [hx, h2]
    · exact SameData.trans (SameData.store { npa with left := .node r } hpa rfl rfl rfl)
        (SameData.store (a := r) (n := nr) { nr with parent := .node pa }
          (by simp [hrpa, hr]) rfl rfl rfl)
  | right up L pa =>
    obtain ⟨npa, hpa, hl, hpar, hL, hup⟩ := hc
    simp only [Ctx.before, Ctx.after] at hnd hn hrc
    have hrpa : r ≠ pa := by rintro rfl; simp at hrc
    have hpaL : pa ∉ L.ids := by
      intro h; simp [List.nodup_append, h] at hnd
    have hpaU : pa ∉ up.before ∧ pa ∉ up.after := by
      constructor <;> intro h <;> simp [List.nodup_append, h] at hnd
    have hnl : npa.left ≠ .node n := by
      rw [hL.root_eq]
      exact Shape.root_ne_of_not_mem (by intro h; simp [h] at hn)
    refine ⟨(t.store pa { npa with right := .node r }).store r { nr with parent := .node pa },
      ?_, ?_, ?_, ?_, ?_⟩
    · simp only [relink, Ctx.getParent, RBTree.leftOf_node hpa, hnl, Except.bind, if_false]
      simp only [RBTree.setRight_node hpa]
      rw [RBTree.setParent_node (n := nr) (by simp [hrpa, hr])]
      simp
    · refine ⟨{ npa with right := .node r }, by simp [hrpa.symm], rfl, hpar, ?_, ?_⟩
      · refine hL.congr fun x hx => ?_
        have h1 : x ≠ r := by rintro rfl; simp [hx] at hrc
        have h2 : x ≠ pa := by rintro rfl; exact hpaL hx
        simp [h1, h2]
      · refine hup.congr_ctx fun x hx => ?_
        have h1 : x ≠ r := by rintro rfl; rcases hx with hx | hx <;> simp [hx] at hrc
        have h2 : x ≠ pa := by rintro rfl; rcases hx with hx | hx <;> simp [hx] at hpaU
        simp [h1, h2]
    · simp [Ctx.parentPtr]
    · intro x hx hx1 _
      have h2 : x ≠ pa := by rintro rfl; simp [Ctx.before] at hx1
      simp [hx, h2]
    · exact SameData.trans (SameData.store { npa with right := .node r } hpa rfl rfl rfl)
        (SameData.store (a := r) (n := nr) { nr with parent := .node pa }
          (by simp [hrpa, hr]) rfl rfl rfl)

theorem setParent_root_spec {t : RBTree K V} {par p q : Ptr} {B : Shape}
    (hB : Repr t.heap par p B) (hnd : B.ids.Nodup) :
    ∃ t1, (if p ≠ .null then t.setParent p q else .ok t) = .ok t1 ∧
      Repr t1.heap q p B ∧ (∀ x, x ∉ B.ids → t1.heap x = t.heap x) ∧
      t1.header_ = t.header_ ∧ SameData t t1 := by
  cases B with
  | nil =>
    have : p = .null := by simpa [Repr] using hB
    subst this
    exact ⟨t, by simp, by simp [Repr], fun _ _ => rfl, rfl, SameData.refl t⟩
  | node B1 b B2 =>
    obtain ⟨rfl, nb, hb, _, h1, h2⟩ := hB
    simp only [Shape.ids] at hnd
    have hb1 : b ∉ B1.ids := by intro h; simp [List.nodup_append, h] at hnd
    have hb2 : b ∉ B2.ids := by intro h; simp [List.nodup_append, h] at hnd
    refine ⟨t.store b { nb with parent := q }, ?_, ?_, ?_, rfl, ?_⟩
    · simp [RBTree.setParent_node hb]
    · refine ⟨rfl, { nb with parent := q }, by simp, rfl, ?_, ?_⟩
      · refine h1.congr fun x hx => ?_
        have : x ≠ b := by rintro rfl; exact hb1 hx
        simp [this]
      · refine h2.congr fun x hx => ?_
        have : x ≠ b := by rintro rfl; exact hb2 hx
        simp [this]
    · intro x hx
      have : x ≠ b := by rintro rfl; simp [Shape.ids] at hx
      simp [this]
    · exact SameData.store _ hb rfl rfl rfl

theorem rotate_left_unfold (t : RBTree K V) (node : Ptr) :
    rotate_left_ t node =
      if node = .null then .error .invalidArgument else
      (t.rightOf node).bind fun r_son =>
      if r_son = .null then .error .invalidArgument else
      (get_parent t node).bind fun parent =>
      (relink t parent node r_son).bind fun t2 =>
      (t2.leftOf r_son).bind fun rl =>
      (t2.setRight node rl).bind fun t3 =>
      (t3.leftOf r_son).bind fun rl2 =>
      (if rl2 ≠ .null then t3.setParent rl2 node else .ok t3).bind fun t4 =>
      (t4.setLeft r_son node).bind fun t5 =>
      t5.setParent node r_son := rfl

theorem rotate_left_spec {t : RBTree K V} {c : Ctx} {A B C : Shape} {n r : Nat}
    (h : Rep t (c.plug (.node A n (.node B r C)))) :
    ∃ t1, rotate_left_ t (.node n) = .ok t1 ∧
      Rep t1 (c.plug (.node (.node A n B) r C)) ∧ SameData t t1 := by
  obtain ⟨hrep, hnd⟩ := h
  have hnd1 : (c.plug (.node (.node A n B) r C)).ids.Nodup := by
    rw [Ctx.ids_plug] at hnd ⊢
    simpa [Shape.ids] using hnd
  obtain ⟨p, hc, hs⟩ := (Repr.plug_iff c _).mp hrep
  obtain ⟨rfl, nn, hn, hnpar, hA, hrs⟩ := hs
  obtain ⟨hnr, nr, hr, hrpar, hB, hC⟩ := hrs
  rw [Ctx.ids_plug] at hnd
  simp only [Shape.ids] at hnd
  -- distinctness facts
  have hcount := fun x => List.nodup_iff_count_le_one.mp hnd x
  simp only [List.count_append, List.count_cons, List.count_nil] at hcount
  have hne : n ≠ r := by rintro rfl; have := hcount n; simp at this; omega
  have hnc : n ∉ c.before ∧ n ∉ c.after := by
    constructor <;> intro h <;> have h1 := List.count_pos_iff.mpr h <;>
      have := hcount n <;> simp at this <;> omega
  have hrc : r ∉ c.before ∧ r ∉ c.after := by
    constructor <;> intro h <;> have h1 := List.count_pos_iff.mpr h <;>
      have := hcount r <;> simp at this <;> omega
  have hnB : n ∉ B.ids := by
    intro h; have h1 := List.count_pos_iff.mpr h; have := hcount n; simp at this; omega
  have hrB : r ∉ B.ids := by
    intro h; have h1 := List.count_pos_iff.mpr h; have := hcount r; simp at this; omega
  have hcnd : (c.before ++ c.after).Nodup := by
    rw [List.nodup_iff_count_le_one]; intro x
    have := hcount x; simp only [List.count_append]; omega
  have hBnd : B.ids.Nodup := by
    rw [List.nodup_iff_count_le_one]; intro x
    have := hcount x; omega
  have hAfr : ∀ x ∈ A.ids, x ≠ n ∧ x ≠ r ∧ x ∉ B.ids ∧ x ∉ c.before ∧ x ∉ c.after := by
    intro x hx
    have hx1 := List.count_pos_iff.mpr hx
    have hc := hcount x
    refine ⟨?_, ?_, ?_, ?_, ?_⟩
    · rintro rfl; simp at hc; omega
    · rintro rfl; simp at hc; omega
    all_goals intro h; have h1 := List.count_pos_iff.mpr h; omega
  have hCfr : ∀ x ∈ C.ids, x ≠ n ∧ x ≠ r ∧ x ∉ B.ids ∧ x ∉ c.before ∧ x ∉ c.after := by
    intro x hx
    have hx1 := List.count_pos_iff.mpr hx
    have hc := hcount x
    refine ⟨?_, ?_, ?_, ?_, ?_⟩
    · rintro rfl; simp at hc; omega
    · rintro rfl; simp at hc; omega
    all_goals intro h; have h1 := List.count_pos_iff.mpr h; omega
  have hBfr : ∀ x ∈ B.ids, x ≠ n ∧ x ≠ r ∧ x ∉ c.before ∧ x ∉ c.after := by
    intro x hx
    have hx1 := List.count_pos_iff.mpr hx
    have hc := hcount x
    refine ⟨?_, ?_, ?_, ?_⟩
    · rintro rfl; simp at hc; omega
    · rintro rfl; simp at hc; omega
    all_goals intro h; have h1 := List.count_pos_iff.mpr h; omega
  -- step 1: relink
  obtain ⟨t2, e2, hc2, hr2, hfr2, hsd2⟩ := relink_spec hc hr hcnd hnc hrc
  have hn2 : t2.heap n = some nn := by rw [hfr2 n hne hnc.1 hnc.2]; exact hn
  -- step 2: node->right = r_son->left
  have hB0 := hB.root_eq
  let t3 := t2.store n { nn with right := nr.left }
  have hr3 : t3.heap r = some { nr with parent := c.parentPtr } := by
    simp [t3, hne.symm, hr2]
  -- step 3: reparent the moved subtree
  have hB3 : Repr t3.heap (.node r) nr.left B := by
    refine hB.congr fun x hx => ?_
    obtain ⟨h1, h2, h3, h4⟩ := hBfr x hx
    simp [t3, h1, hfr2 x h2 h3 h4]
  obtain ⟨t4, e4, hB4, hfr4, hh4, hsd4⟩ := setParent_root_spec (q := .node n) hB3 hBnd
  have hr4 : t4.heap r = some { nr with parent := c.parentPtr } := by
    rw [hfr4 r hrB]; exact hr3
  have hn4 : t4.heap n = some { nn with right := nr.left } := by
    rw [hfr4 n hnB]; simp [t3]
  let t5 := t4.store r { nr with parent := c.parentPtr, left := .node n }
  let t6 := t5.store n { nn with right := nr.left, parent := .node r }
  have hfinal : ∀ x, x ≠ n → x ≠ r → x ∉ B.ids → t6.heap x = t2.heap x := by
    intro x h1 h2 h3
    simp [t6, t5, h1, h2, hfr4 x h3, t3]
  refine ⟨t6, ?_, ⟨?_, hnd1⟩, ?_⟩
  · rw [rotate_left_unfold]
    simp only [Rep.get_parent ⟨hrep, by rw [Ctx.ids_plug]; simpa [Shape.ids] using hnd⟩,
      RBTree.rightOf_node hn, hnr, Except.bind, e2, RBTree.leftOf_node hr2,
      RBTree.setRight_node hn2, RBTree.leftOf_node hr3, e4, RBTree.setLeft_node hr4]
    rw [RBTree.setParent_node (n := { nn with right := nr.left }) (by simp [t5, hne, hn4])]
    simp [t6, t5]
  · rw [Repr.plug_iff]
    refine ⟨.node r, ?_, rfl, { nr with parent := c.parentPtr, left := .node n },
      by simp [t6, t5, hne.symm], rfl, ?_, ?_⟩
    · have : t6.header_ = t2.header_ := by simp [t6, t5, hh4, t3]
      rw [this]
      refine hc2.congr_ctx fun x hx => ?_
      have h1 : x ≠ n := by rintro rfl; tauto
      have h2 : x ≠ r := by rintro rfl; tauto
      have h3 : x ∉ B.ids := fun h => by have := hBfr x h; tauto
      exact hfinal x h1 h2 h3
    · refine ⟨rfl, { nn with right := nr.left, parent := .node r }, by simp [t6], rfl, ?_, ?_⟩
      · refine hA.congr fun x hx => ?_
        obtain ⟨h1, h2, h3, h4, h5⟩ := hAfr x hx
        rw [hfinal x h1 h2 h3, hfr2 x h2 h4 h5]
      · refine hB4.congr fun x hx => ?_
        obtain ⟨h1, h2, _, _⟩ := hBfr x hx
        simp [t6, t5, h1, h2]
    · refine hC.congr fun x hx => ?_
      obtain ⟨h1, h2, h3, h4, h5⟩ := hCfr x hx
      rw [hfinal x h1 h2 h3, hfr2 x h2 h4 h5]
  · have s3 : SameData t2 t3 := SameData.store { nn with right := nr.left } hn2 rfl rfl rfl
    have s5 : SameData t4 t5 :=
      SameData.store { nr with parent := c.parentPtr, left := .node n } hr4 rfl rfl rfl
    have s6 : SameData t5 t6 :=
      SameData.store (a := n) (n := { nn with right := nr.left })
        { nn with right := nr.left, parent := .node r } (by simp [t5, hne, hn4]) rfl rfl rfl
    exact hsd2.trans (s3.trans (hsd4.trans (s5.trans s6)))

theorem rotate_right_unfold (t : RBTree K V) (node : Ptr) :
    rotate_right_ t node =
      if node = .null then .error .invalidArgument else
      (t.leftOf node).bind fun l_son =>
      if l_son = .null then .error .invalidArgument else
      (get_parent t node).bind fun parent =>
      (relink t parent node l_son).bind fun t2 =>
      (t2.rightOf l_son).bind fun lr =>
      (t2.setLeft node lr).bind fun t3 =>
      (t3.rightOf l_son).bind fun lr2 =>
      (if lr2 ≠ .null then t3.setParent lr2 node else .ok t3).bind fun t4 =>
      (t4.setRight l_son node).bind fun t5 =>
      t5.setParent node l_son := rfl

theorem rotate_right_spec {t : RBTree K V} {c : Ctx} {A B C : Shape} {n r : Nat}
    (h : Rep t (c.plug (.node (.node A r B) n C))) :
    ∃ t1, rotate_right_ t (.node n) = .ok t1 ∧
      Rep t1 (c.plug (.node A r (.node B n C))) ∧ SameData t t1 := by
  obtain ⟨hrep, hnd⟩ := h
  have hnd1 : (c.plug (.node A r (.node B n C))).ids.Nodup := by
    rw [Ctx.ids_plug] at hnd ⊢
    simpa [Shape.ids] using hnd
  obtain ⟨p, hc, hs⟩ := (Repr.plug_iff c _).mp hrep
  obtain ⟨rfl, nn, hn, hnpar, hrs, hC⟩ := hs
  obtain ⟨hnr, nr, hr, hrpar, hA, hB⟩ := hrs
  rw [Ctx.ids_plug] at hnd
  simp only [Shape.ids] at hnd
  -- distinctness facts
  have hcount := fun x => List.nodup_iff_count_le_one.mp hnd x
  simp only [List.count_append, List.count_cons, List.count_nil] at hcount
  have hne : n ≠ r := by rintro rfl; have := hcount n; simp at this; omega
  have hnc : n ∉ c.before ∧ n ∉ c.after := by
    constructor <;> intro h <;> have h1 := List.count_pos_iff.mpr h <;>
      have := hcount n <;> simp at this <;> omega
  have hrc : r ∉ c.before ∧ r ∉ c.after := by
    constructor <;> intro h <;> have h1 := List.count_pos_iff.mpr h <;>
      have := hcount r <;> simp at this <;> omega
  have hnB : n ∉ B.ids := by
    intro h; have h1 := List.count_pos_iff.mpr h; have := hcount n; simp at this; omega
  have hrB : r ∉ B.ids := by
    intro h; have h1 := List.count_pos_iff.mpr h; have := hcount r; simp at this; omega
  have hcnd : (c.before ++ c.after).Nodup := by
    rw [List.nodup_iff_count_le_one]; intro x
    have := hcount x; simp only [List.count_append]; omega
  have hBnd : B.ids.Nodup := by
    rw [List.nodup_iff_count_le_one]; intro x
    have := hcount x; omega
  have hAfr : ∀ x ∈ A.ids, x ≠ n ∧ x ≠ r ∧ x ∉ B.ids ∧ x ∉ c.before ∧ x ∉ c.after := by
    intro x hx
    have hx1 := List.count_pos_iff.mpr hx
    have hc := hcount x
    refine ⟨?_, ?_, ?_, ?_, ?_⟩
    · rintro rfl; simp at hc; omega
    · rintro rfl; simp at hc; omega
    all_goals intro h; have h1 := List.count_pos_iff.mpr h; omega
  have hCfr : ∀ x ∈ C.ids, x ≠ n ∧ x ≠ r ∧ x ∉ B.ids ∧ x ∉ c.before ∧ x ∉ c.after := by
    intro x hx
    have hx1 := List.count_pos_iff.mpr hx
    have hc := hcount x
    refine ⟨?_, ?_, ?_, ?_, ?_⟩
    · rintro rfl; simp at hc; omega
    · rintro rfl; simp at hc; omega
    all_goals intro h; have h1 := List.count_pos_iff.mpr h; omega
  have hBfr : ∀ x ∈ B.ids, x ≠ n ∧ x ≠ r ∧ x ∉ c.before ∧ x ∉ c.after := by
    intro x hx
    have hx1 := List.count_pos_iff.mpr hx
    have hc := hcount x
    refine ⟨?_, ?_, ?_, ?_⟩
    · rintro rfl; simp at hc; omega
    · rintro rfl; simp at hc; omega
    all_goals intro h; have h1 := List.count_pos_iff.mpr h; omega
  -- step 1: relink
  obtain ⟨t2, e2, hc2, hr2, hfr2, hsd2⟩ := relink_spec hc hr hcnd hnc hrc
  have hn2 : t2.heap n = some nn := by rw [hfr2 n hne hnc.1 hnc.2]; exact hn
  -- step 2: node->right = r_son->left
  have hB0 := hB.root_eq
  let t3 := t2.store n { nn with left := nr.right }
  have hr3 : t3.heap r = some { nr with parent := c.parentPtr } := by
    simp [t3, hne.symm, hr2]
  -- step 3: reparent the moved subtree
  have hB3 : Repr t3.heap (.node r) nr.right B := by
    refine hB.congr fun x hx => ?_
    obtain ⟨h1, h2, h3, h4⟩ := hBfr x hx
    simp [t3, h1, hfr2 x h2 h3 h4]
  obtain ⟨t4, e4, hB4, hfr4, hh4, hsd4⟩ := setParent_root_spec (q := .node n) hB3 hBnd
  have hr4 : t4.heap r = some { nr with parent := c.parentPtr } := by
    rw [hfr4 r hrB]; exact hr3
  have hn4 : t4.heap n = some { nn with left := nr.right } := by
    rw [hfr4 n hnB]; simp [t3]
  let t5 := t4.store r { nr with parent := c.parentPtr, right := .node n }
  let t6 := t5.store n { nn with left := nr.right, parent := .node r }
  have hfinal : ∀ x, x ≠ n → x ≠ r → x ∉ B.ids → t6.heap x = t2.heap x := by
    intro x h1 h2 h3
    simp [t6, t5, h1, h2, hfr4 x h3, t3]
  refine ⟨t6, ?_, ⟨?_, hnd1⟩, ?_⟩
  · rw [rotate_right_unfold]
    simp only [Rep.get_parent ⟨hrep, by rw [Ctx.ids_plug]; simpa [Shape.ids] using hnd⟩,
      RBTree.leftOf_node hn, hnr, Except.bind, e2, RBTree.rightOf_node hr2,
      RBTree.setLeft_node hn2, RBTree.rightOf_node hr3, e4, RBTree.setRight_node hr4]
    rw [RBTree.setParent_node (n := { nn with left := nr.right }) (by simp [t5, hne, hn4])]
    simp [t6, t5]
  · rw [Repr.plug_iff]
    refine ⟨.node r, ?_, rfl, { nr with parent := c.parentPtr, right := .node n },
      by simp [t6, t5, hne.symm], rfl, ?_, ?_⟩
    · have : t6.header_ = t2.header_ := by simp [t6, t5, hh4, t3]
      rw [this]
      refine hc2.congr_ctx fun x hx => ?_
      have h1 : x ≠ n := by rintro rfl; tauto
      have h2 : x ≠ r := by rintro rfl; tauto
      have h3 : x ∉ B.ids := fun h => by have := hBfr x h; tauto
      exact hfinal x h1 h2 h3
    · refine hA.congr fun x hx => ?_
      obtain ⟨h1, h2, h3, h4, h5⟩ := hAfr x hx
      rw [hfinal x h1 h2 h3, hfr2 x h2 h4 h5]
    · refine ⟨rfl, { nn with left := nr.right, parent := .node r }, by simp [t6], rfl, ?_, ?_⟩
      · refine hB4.congr fun x hx => ?_
        obtain ⟨h1, h2, _, _⟩ := hBfr x hx
        simp [t6, t5, h1, h2]
      · refine hC.congr fun x hx => ?_
        obtain ⟨h1, h2, h3, h4, h5⟩ := hCfr x hx
        rw [hfinal x h1 h2 h3, hfr2 x h2 h4 h5]
  · have s3 : SameData t2 t3 := SameData.store { nn with left := nr.right } hn2 rfl rfl rfl
    have s5 : SameData t4 t5 :=
      SameData.store { nr with parent := c.parentPtr, right := .node n } hr4 rfl rfl rfl
    have s6 : SameData t5 t6 :=
      SameData.store (a := n) (n := { nn with left := nr.right })
        { nn with left := nr.right, parent := .node r } (by simp [t5, hne, hn4]) rfl rfl rfl
    exact hsd2.trans (s3.trans (hsd4.trans (s5.trans s6)))


end BabySTL

namespace BabySTL

variable {K V : Type}

/-! ## Outcomes -/

@[simp] theorem Outcome.ok_iff {α : Type} (x : α) (P : α → Prop) :
    Outcome (.ok x : Except Err α) P ↔ P x := Iff.rfl

@[simp] theorem Outcome.error_iff {α : Type} (e : Err) (P : α → Prop) :
    Outcome (.error e : Except Err α) P ↔ e = .nullDeref := Iff.rfl

theorem Outcome.bind {α β : Type} {r : Except Err α} {f : α → Except Err β}
    {P : α → Prop} {Q : β → Prop} (h : Outcome r P) (hf : ∀ x, P x → Outcome (f x) Q) :
    Outcome (r.bind f) Q := by
  cases r with
  | ok x => exact hf x h
  | error e => exact h

theorem Outcome.map {α β : Type} {r : Except Err α} {f : α → β}
    {P : α → Prop} {Q : β → Prop} (h : Outcome r P) (hf : ∀ x, P x → Q (f x)) :
    Outcome (r.map f) Q := by
  cases r with
  | ok x => exact hf x h
  | error e => exact h

theorem Outcome.mono {α : Type} {r : Except Err α} {P Q : α → Prop} (h : Outcome r P)
    (hq : ∀ x, P x → Q x) : Outcome r Q := by
  cases r with
  | ok x => exact hq x h
  | error e => exact h

theorem Outcome.of_eq_ok {α : Type} {r : Except Err α} {x : α} {P : α → Prop}
    (h : r = .ok x) (hp : P x) : Outcome r P := by
  subst h; exact hp

/-! ## More facts read off a representation -/

theorem Ctx.root_plug_mem (c : Ctx) (s : Shape) (hc : c ≠ .top) :
    ∃ x, (c.plug s).root = .node x ∧ (x ∈ c.before ∨ x ∈ c.after) := by
  induction c generalizing s with
  | top => exact absurd rfl hc
  | left up a r ih =>
    by_cases hu : up = .top
    · subst hu
      exact ⟨a, rfl, by simp [Ctx.after]⟩
    · obtain ⟨x, hx, hm⟩ := ih (.node s a r) hu
      refine ⟨x, hx, ?_⟩
      rcases hm with hm | hm
      · left; simpa [Ctx.before] using hm
      · right; simp [Ctx.after, hm]
  | right up l a ih =>
    by_cases hu : up = .top
    · subst hu
      exact ⟨a, rfl, by simp [Ctx.before]⟩
    · obtain ⟨x, hx, hm⟩ := ih (.node l a s) hu
      refine ⟨x, hx, ?_⟩
      rcases hm with hm | hm
      · left; simp [Ctx.before, hm]
      · right; simpa [Ctx.after] using hm

theorem Rep.root_ne {t : RBTree K V} {c : Ctx} {A B : Shape} {a : Nat}
    (h : Rep t (c.plug (.node A a B))) (hc : c ≠ .top) : t.header_.parent ≠ .node a := by
  obtain ⟨x, hx, hm⟩ := Ctx.root_plug_mem c (.node A a B) hc
  rw [h.1.root_eq, hx]
  intro e
  cases e
  have hnd := h.2
  rw [Ctx.ids_plug] at hnd
  have hcount := List.nodup_iff_count_le_one.mp hnd a
  simp only [List.count_append, Shape.ids, List.count_cons, beq_self_eq_true, if_true] at hcount
  rcases hm with hm | hm <;> have := List.count_pos_iff.mpr hm <;> omega

theorem Rep.root_top {t : RBTree K V} {A B : Shape} {a : Nat}
    (h : Rep t (Ctx.plug .top (.node A a B))) : t.header_.parent = .node a :=
  h.1.1

theorem Rep.heap_of_mem {t : RBTree K V} {s : Shape} {a : Nat} (h : Rep t s) (ha : a ∈ s.ids) :
    ∃ n, t.heap a = some n := by
  obtain ⟨c, l, r, rfl⟩ := Shape.exists_ctx_of_mem ha
  obtain ⟨n, hn, _⟩ := h.node_at
  exact ⟨n, hn⟩

theorem Rep.store_color {t : RBTree K V} {s : Shape} {a : Nat} {n : RBTreeMapNode K V}
    (h : Rep t s) (hn : t.heap a = some n) (c : RBTreeColor) :
    Rep (t.store a { n with color := c }) s ∧ SameEntries t (t.store a { n with color := c }) :=
  ⟨h.store_links _ hn rfl, SameEntries.store_entries _ hn rfl rfl⟩

end BabySTL

namespace BabySTL

variable {K V : Type}

/-! ## The insert fix-up keeps the nodes a tree with the same in-order sequence -/

theorem get_uncle_unfold (t : RBTree K V) (this : Ptr) :
    get_uncle t this =
      (get_parent t this).bind fun p =>
      if p = .null then .ok .null else
      (get_parent t p).bind fun grandpa =>
      if grandpa = .null then .ok .null else
      (t.leftOf grandpa).bind fun _ => t.rightOf grandpa := by
  unfold get_uncle
  congr 1; funext p
  split
  · rfl
  · congr 1; funext g
    split
    · rfl
    · congr 1; funext gl
      split <;> rfl

theorem Rep.flipColor {t : RBTree K V} {s : Shape} {a : Nat} (h : Rep t s) (ha : a ∈ s.ids) :
    ∃ t1, t.flipColor (.node a) = .ok t1 ∧ Rep t1 s ∧ SameEntries t t1 := by
  obtain ⟨n, hn⟩ := h.heap_of_mem ha
  exact ⟨_, RBTree.flipColor_node hn, (h.store_color hn _).1, (h.store_color hn _).2⟩

theorem Rebalanced.refl_of_rep {t : RBTree K V} {s : Shape} (h : Rep t s) : Rebalanced s t t :=
  ⟨⟨s, h, rfl⟩, SameEntries.refl_entries t⟩

theorem Rebalanced.of_same {t t1 t2 : RBTree K V} {s : Shape} (h1 : SameEntries t t1)
    (h2 : Rebalanced s t1 t2) : Rebalanced s t t2 :=
  ⟨h2.1, h1.trans_entries h2.2⟩

theorem rai_unfold (fuel : Nat) (t : RBTree K V) (node : Ptr) :
    rebalance_after_insert_ (fuel + 1) t node =
      if node = .null then .ok t else
      if t.header_.parent = node then t.setColor node .kBlack else
      (get_parent t node).bind fun parent =>
      (get_parent t parent).bind fun grandpa =>
      (get_uncle t node).bind fun uncle =>
      (t.colorOf parent).bind fun pc =>
      if pc = .kBlack then .ok t else
      (if uncle = .null then .ok true
        else (t.colorOf uncle).map fun uc => decide (uc = .kBlack)).bind fun uncleBlack =>
      if uncleBlack then
        (t.flipColor parent).bind fun t1 =>
        (t1.flipColor grandpa).bind fun t2 =>
        rai_rotate t2 node parent grandpa
      else
        (t.flipColor uncle).bind fun t1 =>
        (t1.flipColor parent).bind fun t2 =>
        (t2.flipColor grandpa).bind fun t3 =>
        rebalance_after_insert_ fuel t3 grandpa := rfl

theorem rai_rotate_LL {t : RBTree K V} {c : Ctx} {A B R R2 : Shape} {a pa ga : Nat}
    (h : Rep t (c.plug (.node (.node (.node A a B) pa R) ga R2))) :
    ∃ t1, rai_rotate t (.node a) (.node pa) (.node ga) = .ok t1 ∧
      Rep t1 (c.plug (.node (.node A a B) pa (.node R ga R2))) ∧ SameData t t1 := by
  have hpa : Rep t ((c.left ga R2).plug (.node (.node A a B) pa R)) := h
  simp only [rai_rotate, h.leftOf, hpa.leftOf, Shape.root_node, Except.bind, Except.map, if_true,
    decide_True]
  exact rotate_right_spec h

theorem rai_rotate_LR {t : RBTree K V} {c : Ctx} {A B L R2 : Shape} {a pa ga : Nat}
    (h : Rep t (c.plug (.node (.node L pa (.node A a B)) ga R2))) :
    ∃ t1, rai_rotate t (.node a) (.node pa) (.node ga) = .ok t1 ∧
      Rep t1 (c.plug (.node (.node L pa A) a (.node B ga R2))) ∧ SameData t t1 := by
  have hpa : Rep t ((c.left ga R2).plug (.node L pa (.node A a B))) := h
  have hnd := h.2
  rw [Ctx.ids_plug] at hnd
  simp only [Shape.ids] at hnd
  have hcount := fun x => List.nodup_iff_count_le_one.mp hnd x
  simp only [List.count_append, List.count_cons, List.count_nil] at hcount
  have haL : a ∉ L.ids := by
    intro hm; have h1 := List.count_pos_iff.mpr hm; have := hcount a; simp at this; omega
  have hpR : pa ∉ R2.ids := by
    intro hm; have h1 := List.count_pos_iff.mpr hm; have := hcount pa; simp at this; omega
  have e1 : L.root ≠ .node a := Shape.root_ne_of_not_mem haL
  have e2 : R2.root ≠ .node pa := Shape.root_ne_of_not_mem hpR
  obtain ⟨t1, r1, hr1, s1⟩ := rotate_left_spec hpa
  have hr1b : Rep t1 (c.plug (.node (.node (.node L pa A) a B) ga R2)) := hr1
  obtain ⟨t2, r2, hr2, s2⟩ := rotate_right_spec hr1b
  refine ⟨t2, ?_, hr2, s1.trans s2⟩
  simp [rai_rotate, h.leftOf, hpa.leftOf, h.rightOf, hpa.rightOf, Except.bind,
    Except.map, e1, e2, r1, r2]

theorem rai_case3 {t : RBTree K V} {s z : Shape} {a pa ga : Nat} (h : Rep t s)
    (mpa : pa ∈ s.ids) (mga : ga ∈ s.ids) (hids : z.ids = s.ids)
    (hrot : ∀ t2 : RBTree K V, Rep t2 s →
      ∃ t3, rai_rotate t2 (.node a) (.node pa) (.node ga) = .ok t3 ∧ Rep t3 z ∧ SameData t2 t3) :
    Outcome ((t.flipColor (.node pa)).bind fun t1 =>
      (t1.flipColor (.node ga)).bind fun t2 =>
      rai_rotate t2 (.node a) (.node pa) (.node ga)) (Rebalanced s t) := by
  obtain ⟨t1, e1, r1, s1⟩ := h.flipColor mpa
  obtain ⟨t2, e2, r2, s2⟩ := r1.flipColor mga
  obtain ⟨t3, e3, r3, s3⟩ := hrot t2 r2
  simp only [e1, e2, e3, Except.bind]
  exact ⟨⟨_, r3, hids⟩, s1.trans_entries (s2.trans_entries s3.toEntries)⟩

theorem rai_case4 {fuel : Nat} {t : RBTree K V} {c : Ctx} {X Y : Shape} {u pa ga : Nat}
    (ih : ∀ (t : RBTree K V) (c : Ctx) (A B : Shape) (a : Nat),
      Rep t (c.plug (.node A a B)) → c.depth < fuel →
      Outcome (rebalance_after_insert_ fuel t (.node a)) (Rebalanced (c.plug (.node A a B)) t))
    (h : Rep t (c.plug (.node X ga Y))) (hd : c.depth < fuel)
    (mu : u ∈ (c.plug (.node X ga Y)).ids) (mpa : pa ∈ (c.plug (.node X ga Y)).ids) :
    Outcome ((t.flipColor (.node u)).bind fun t1 =>
      (t1.flipColor (.node pa)).bind fun t2 =>
      (t2.flipColor (.node ga)).bind fun t3 =>
      rebalance_after_insert_ fuel t3 (.node ga)) (Rebalanced (c.plug (.node X ga Y)) t) := by
  have mga : ga ∈ (c.plug (.node X ga Y)).ids := by simp [Ctx.ids_plug, Shape.ids]
  obtain ⟨t1, e1, r1, s1⟩ := h.flipColor mu
  obtain ⟨t2, e2, r2, s2⟩ := r1.flipColor mpa
  obtain ⟨t3, e3, r3, s3⟩ := r2.flipColor mga
  simp only [e1, e2, e3, Except.bind]
  exact (ih t3 c X Y ga r3 hd).mono fun x hx => hx.of_same (s1.trans_entries (s2.trans_entries s3))

theorem rai_spec (fuel : Nat) : ∀ (t : RBTree K V) (c : Ctx) (A B : Shape) (a : Nat),
    Rep t (c.plug (.node A a B)) → c.depth < fuel →
    Outcome (rebalance_after_insert_ fuel t (.node a)) (Rebalanced (c.plug (.node A a B)) t) := by
  induction fuel with
  | zero => intro t c A B a _ hf; omega
  | succ fuel ih =>
    intro t c A B a h hf
    rw [rai_unfold]
    simp only [reduceCtorEq, if_false]
    cases c with
    | top =>
      rw [if_pos h.root_top]
      obtain ⟨n, hn, _⟩ := h.node_at
      rw [RBTree.setColor_node hn]
      exact ⟨⟨_, (h.store_color hn _).1, rfl⟩, (h.store_color hn _).2⟩
    | left up pa R =>
      rw [if_neg (h.root_ne (by simp))]
      have hpa : Rep t (up.plug (.node (.node A a B) pa R)) := h
      obtain ⟨npa, hnpa, -, -, -⟩ := hpa.node_at
      have mpa : pa ∈ (Ctx.plug (up.left pa R) (.node A a B)).ids := by
        simp [Ctx.ids_plug, Shape.ids, Ctx.after]
      cases up with
      | top =>
        simp only [get_uncle_unfold, h.get_parent, hpa.get_parent, Ctx.getParent, Except.bind,
          reduceCtorEq, if_false, if_true, RBTree.colorOf_node hnpa]
        by_cases hcol : npa.color = .kBlack
        · rw [if_pos hcol]; exact Rebalanced.refl_of_rep h
        · rw [if_neg hcol]
          simp [RBTree.flipColor, RBTree.setNode, hnpa]
      | left up2 ga R2 =>
        have hga : Rep t (up2.plug (.node (.node (.node A a B) pa R) ga R2)) := h
        have mga : ga ∈ (Ctx.plug ((up2.left ga R2).left pa R) (.node A a B)).ids := by
          simp [Ctx.ids_plug, Shape.ids, Ctx.after]
        simp only [get_uncle_unfold, h.get_parent, hpa.get_parent, Ctx.getParent, Except.bind,
          reduceCtorEq, if_false, if_true, RBTree.colorOf_node hnpa, hga.leftOf, hga.rightOf]
        by_cases hcol : npa.color = .kBlack
        · rw [if_pos hcol]; exact Rebalanced.refl_of_rep h
        · rw [if_neg hcol]
          have c3 := rai_case3 (a := a) h mpa mga
            (z := up2.plug (.node (.node A a B) pa (.node R ga R2)))
            (by simp [Ctx.ids_plug, Shape.ids, Ctx.before, Ctx.after])
            (fun t2 r2 => rai_rotate_LL r2)
          cases R2 with
          | nil => simpa [Except.bind] using c3
          | node R2a u R2b =>
            have mu : u ∈ (Ctx.plug ((up2.left ga (.node R2a u R2b)).left pa R) (.node A a B)).ids := by
              simp [Ctx.ids_plug, Shape.ids, Ctx.after]
            obtain ⟨nu, hnu⟩ := h.heap_of_mem mu
            simp only [Shape.root_node, reduceCtorEq, if_false, RBTree.colorOf_node hnu,
              Except.map]
            by_cases hu : nu.color = .kBlack
            · simpa [Except.bind, hu] using c3
            · simp only [hu, decide_False, Bool.false_eq_true, if_false]
              exact rai_case4 ih hga (by simp [Ctx.depth] at hf; omega) mu mpa
      | right up2 L2 ga =>
        have hga : Rep t (up2.plug (.node L2 ga (.node (.node A a B) pa R))) := h
        simp only [get_uncle_unfold, h.get_parent, hpa.get_parent, Ctx.getParent, Except.bind,
          reduceCtorEq, if_false, if_true, RBTree.colorOf_node hnpa, hga.leftOf, hga.rightOf,
          Shape.root_node, Except.map]
        by_cases hcol : npa.color = .kBlack
        · rw [if_pos hcol]; exact Rebalanced.refl_of_rep h
        · rw [if_neg hcol]
          simp only [hcol, decide_False, Bool.false_eq_true, if_false]
          exact rai_case4 ih hga (by simp [Ctx.depth] at hf; omega) mpa mpa
    | right up L pa =>
      rw [if_neg (h.root_ne (by simp))]
      have hpa : Rep t (up.plug (.node L pa (.node A a B))) := h
      obtain ⟨npa, hnpa, -, -, -⟩ := hpa.node_at
      have mpa : pa ∈ (Ctx.plug (up.right L pa) (.node A a B)).ids := by
        simp [Ctx.ids_plug, Shape.ids, Ctx.before]
      cases up with
      | top =>
        simp only [get_uncle_unfold, h.get_parent, hpa.get_parent, Ctx.getParent, Except.bind,
          reduceCtorEq, if_false, if_true, RBTree.colorOf_node hnpa]
        by_cases hcol : npa.color = .kBlack
        · rw [if_pos hcol]; exact Rebalanced.refl_of_rep h
        · rw [if_neg hcol]
          simp [RBTree.flipColor, RBTree.setNode, hnpa]
      | left up2 ga R2 =>
        have hga : Rep t (up2.plug (.node (.node L pa (.node A a B)) ga R2)) := h
        have mga : ga ∈ (Ctx.plug ((up2.left ga R2).right L pa) (.node A a B)).ids := by
          simp [Ctx.ids_plug, Shape.ids, Ctx.after]
        simp only [get_uncle_unfold, h.get_parent, hpa.get_parent, Ctx.getParent, Except.bind,
          reduceCtorEq, if_false, if_true, RBTree.colorOf_node hnpa, hga.leftOf, hga.rightOf]
        by_cases hcol : npa.color = .kBlack
        · rw [if_pos hcol]; exact Rebalanced.refl_of_rep h
        · rw [if_neg hcol]
          have c3 := rai_case3 (a := a) h mpa mga
            (z := up2.plug (.node (.node L pa A) a (.node B ga R2)))
            (by simp [Ctx.ids_plug, Shape.ids, Ctx.before, Ctx.after])
            (fun t2 r2 => rai_rotate_LR r2)
          cases R2 with
          | nil => simpa [Except.bind] using c3
          | node R2a u R2b =>
            have mu : u ∈ (Ctx.plug ((up2.left ga (.node R2a u R2b)).right L pa) (.node A a B)).ids := by
              simp [Ctx.ids_plug, Shape.ids, Ctx.after]
            obtain ⟨nu, hnu⟩ := h.heap_of_mem mu
            simp only [Shape.root_node, reduceCtorEq, if_false, RBTree.colorOf_node hnu,
              Except.map]
            by_cases hu : nu.color = .kBlack
            · simpa [Except.bind, hu] using c3
            · simp only [hu, decide_False, Bool.false_eq_true, if_false]
              exact rai_case4 ih hga (by simp [Ctx.depth] at hf; omega) mu mpa
      | right up2 L2 ga =>
        have hga : Rep t (up2.plug (.node L2 ga (.node L pa (.node A a B)))) := h
        simp only [get_uncle_unfold, h.get_parent, hpa.get_parent, Ctx.getParent, Except.bind,
          reduceCtorEq, if_false, if_true, RBTree.colorOf_node hnpa, hga.leftOf, hga.rightOf,
          Shape.root_node, Except.map]
        by_cases hcol : npa.color = .kBlack
        · rw [if_pos hcol]; exact Rebalanced.refl_of_rep h
        · rw [if_neg hcol]
          simp only [hcol, decide_False, Bool.false_eq_true, if_false]
          exact rai_case4 ih hga (by simp [Ctx.depth] at hf; omega) mpa mpa

end BabySTL

namespace BabySTL

variable {K V : Type}

/-! ## Insertion -/

theorem length_le_of_fresh {L : List Nat} {n : Nat} (hnd : L.Nodup) (h : ∀ x ∈ L, x < n) :
    L.length ≤ n := by
  have hs : L.Subperm (List.range n) := hnd.subperm fun x hx => List.mem_range.mpr (h x hx)
  simpa using hs.length_le

theorem Rep.congr_state {t t1 : RBTree K V} {s : Shape} (h : Rep t s)
    (hh : t1.heap = t.heap) (hp : t1.header_.parent = t.header_.parent) : Rep t1 s := by
  unfold Rep at h ⊢
  rw [hh, hp]; exact h

theorem Rep.depth_lt {t : RBTree K V} {c : Ctx} {s : Shape} (h : Rep t (c.plug s))
    (hf : ∀ x ∈ (c.plug s).ids, x < t.next) : c.depth + s.height ≤ t.next :=
  (Ctx.depth_add_height_le c s).trans
    ((Shape.height_le_length _).trans (length_le_of_fresh h.2 hf))

/-- Linking a freshly created node as the left child of a node without one. -/
theorem attach_left {t : RBTree K V} {c : Ctx} {B : Shape} {a : Nat} (key : K) (val : V)
    (h : Rep t (c.plug (.node .nil a B))) (hf : ∀ x ∈ (c.plug (.node .nil a B)).ids, x < t.next) :
    ∃ t1 t2, (create_node t key val).1.setLeft (.node a) (.node t.next) = .ok t1 ∧
      t1.leftOf (.node a) = .ok (.node t.next) ∧
      t1.setParent (.node t.next) (.node a) = .ok t2 ∧
      Rep t2 ((c.left a B).plug (.node .nil t.next .nil)) ∧
      t2.next = t.next + 1 ∧ t2.cnt_ = t.cnt_ ∧ t2.cmp_ = t.cmp_ ∧ t2.header_ = t.header_ ∧
      t2.entryAt t.next = some (key, val) ∧ ∀ x, x ≠ t.next → t2.entryAt x = t.entryAt x := by
  obtain ⟨hrep, hnd⟩ := h
  obtain ⟨p, hc, hs⟩ := (Repr.plug_iff c _).mp hrep
  obtain ⟨rfl, na, hna, hpar, hA, hB⟩ := hs
  have hids := Ctx.ids_plug c (.node .nil a B)
  simp only [Shape.ids, List.nil_append] at hids
  rw [hids] at hf hnd
  have han : a ≠ t.next := by
    have := hf a (by simp); omega
  let nw : RBTreeMapNode K V :=
    { parent := .node a, left := .null, right := .null, color := .kRed, key := key, val := val }
  let t2 : RBTree K V :=
    { ((t.store t.next { nw with parent := .null }).store a { na with left := .node t.next }).store
        t.next nw with next := t.next + 1 }
  have hfr : ∀ x, x ≠ a → x ≠ t.next → t2.heap x = t.heap x := by
    intro x h1 h2; simp [t2, h1, h2]
  refine ⟨({ (t.store t.next { nw with parent := .null }) with next := t.next + 1 } :
      RBTree K V).store a { na with left := .node t.next }, t2, ?_, ?_, ?_,
    ⟨?_, ?_⟩, rfl, rfl, rfl, rfl, ?_, ?_⟩
  · simp [create_node, RBTree.setLeft, RBTree.setBase, han, hna, nw, RBTree.store]
  · simp [RBTree.leftOf, RBTree.baseAt, Except.map, RBTree.store]
  · simp [RBTree.setParent, RBTree.setBase, han.symm, t2, nw, RBTree.store]
  · rw [Repr.plug_iff]
    refine ⟨.node t.next, ⟨{ na with left := .node t.next }, by simp [t2, han], rfl, hpar, ?_, ?_⟩,
      rfl, nw, by simp [t2], rfl, by simp [Repr, nw], by simp [Repr, nw]⟩
    · refine hB.congr fun x hx => ?_
      have h1 : x ≠ t.next := by have := hf x (by simp [hx]); omega
      have h2 : x ≠ a := by
        rintro rfl
        have hc := List.nodup_iff_count_le_one.mp hnd x
        have := List.count_pos_iff.mpr hx
        simp [List.count_append] at hc; omega
      exact hfr x h2 h1
    · refine hc.congr_ctx fun x hx => ?_
      have h1 : x ≠ t.next := by
        have := hf x (by rcases hx with hx | hx <;> simp [hx]); omega
      have h2 : x ≠ a := by
        rintro rfl
        have hc := List.nodup_iff_count_le_one.mp hnd x
        simp [List.count_append] at hc
        rcases hx with hx | hx <;> have := List.count_pos_iff.mpr hx <;> omega
      exact hfr x h2 h1
  · rw [Ctx.ids_plug]
    simp only [Shape.ids, Ctx.before, Ctx.after, List.nil_append]
    have hn : t.next ∉ c.before ++ a :: B.ids ++ c.after := fun hm => by
      have := hf _ hm; omega
    rw [List.nodup_iff_count_le_one] at hnd ⊢
    intro x
    have h1 := hnd x
    by_cases e : x = t.next
    · subst e
      have h0 : List.count t.next (c.before ++ a :: B.ids ++ c.after) = 0 :=
        List.count_eq_zero.mpr hn
      simp [List.count_append, List.count_cons, han] at h0 ⊢
      omega
    · have e2 : t.next ≠ x := fun h => e h.symm
      simp [List.count_append, List.count_cons, e2] at h1 ⊢
      omega
  · simp [RBTree.entryAt, t2, nw]
  · intro x hx
    simp only [RBTree.entryAt, t2, RBTree.store_heap, hx, if_false]
    by_cases e : x = a
    · subst e; simp [hna]
    · simp [e]

/-- Linking a freshly created node as the right child of a node without one. -/
theorem attach_right {t : RBTree K V} {c : Ctx} {B : Shape} {a : Nat} (key : K) (val : V)
    (h : Rep t (c.plug (.node B a .nil))) (hf : ∀ x ∈ (c.plug (.node B a .nil)).ids, x < t.next) :
    ∃ t1 t2, (create_node t key val).1.setRight (.node a) (.node t.next) = .ok t1 ∧
      t1.rightOf (.node a) = .ok (.node t.next) ∧
      t1.setParent (.node t.next) (.node a) = .ok t2 ∧
      Rep t2 ((c.right B a).plug (.node .nil t.next .nil)) ∧
      t2.next = t.next + 1 ∧ t2.cnt_ = t.cnt_ ∧ t2.cmp_ = t.cmp_ ∧ t2.header_ = t.header_ ∧
      t2.entryAt t.next = some (key, val) ∧ ∀ x, x ≠ t.next → t2.entryAt x = t.entryAt x := by
  obtain ⟨hrep, hnd⟩ := h
  obtain ⟨p, hc, hs⟩ := (Repr.plug_iff c _).mp hrep
  obtain ⟨rfl, na, hna, hpar, hB, hA⟩ := hs
  have hids := Ctx.ids_plug c (.node B a .nil)
  simp only [Shape.ids] at hids
  rw [hids] at hf hnd
  have han : a ≠ t.next := by
    have := hf a (by simp); omega
  let nw : RBTreeMapNode K V :=
    { parent := .node a, left := .null, right := .null, color := .kRed, key := key, val := val }
  let t2 : RBTree K V :=
    { ((t.store t.next { nw with parent := .null }).store a { na with right := .node t.next }).store
        t.next nw with next := t.next + 1 }
  have hfr : ∀ x, x ≠ a → x ≠ t.next → t2.heap x = t.heap x := by
    intro x h1 h2; simp [t2, h1, h2]
  refine ⟨({ (t.store t.next { nw with parent := .null }) with next := t.next + 1 } :
      RBTree K V).store a { na with right := .node t.next }, t2, ?_, ?_, ?_,
    ⟨?_, ?_⟩, rfl, rfl, rfl, rfl, ?_, ?_⟩
  · simp [create_node, RBTree.setRight, RBTree.setBase, han, hna, nw, RBTree.store]
  · simp [RBTree.rightOf, RBTree.baseAt, Except.map, RBTree.store]
  · simp [RBTree.setParent, RBTree.setBase, han.symm, t2, nw, RBTree.store]
  · rw [Repr.plug_iff]
    refine ⟨.node t.next, ⟨{ na with right := .node t.next }, by simp [t2, han], rfl, hpar, ?_, ?_⟩,
      rfl, nw, by simp [t2], rfl, by simp [Repr, nw], by simp [Repr, nw]⟩
    · refine hB.congr fun x hx => ?_
      have h1 : x ≠ t.next := by have := hf x (by simp [hx]); omega
      have h2 : x ≠ a := by
        rintro rfl
        have hc := List.nodup_iff_count_le_one.mp hnd x
        have := List.count_pos_iff.mpr hx
        simp [List.count_append] at hc; omega
      exact hfr x h2 h1
    · refine hc.congr_ctx fun x hx => ?_
      have h1 : x ≠ t.next := by
        have := hf x (by rcases hx with hx | hx <;> simp [hx]); omega
      have h2 : x ≠ a := by
        rintro rfl
        have hc := List.nodup_iff_count_le_one.mp hnd x
        simp [List.count_append] at hc
        rcases hx with hx | hx <;> have := List.count_pos_iff.mpr hx <;> omega
      exact hfr x h2 h1
  · rw [Ctx.ids_plug]
    simp only [Shape.ids, Ctx.before, Ctx.after, List.nil_append]
    have hn : t.next ∉ c.before ++ (B.ids ++ [a]) ++ c.after := fun hm => by
      have := hf _ hm; omega
    rw [List.nodup_iff_count_le_one] at hnd ⊢
    intro x
    have h1 := hnd x
    by_cases e : x = t.next
    · subst e
      have h0 : List.count t.next (c.before ++ (B.ids ++ [a]) ++ c.after) = 0 :=
        List.count_eq_zero.mpr hn
      simp [List.count_append, List.count_cons, han] at h0 ⊢
      omega
    · have e2 : t.next ≠ x := fun h => e h.symm
      simp [List.count_append, List.count_cons, e2] at h1 ⊢
      omega
  · simp [RBTree.entryAt, t2, nw]
  · intro x hx
    simp only [RBTree.entryAt, t2, RBTree.store_heap, hx, if_false]
    by_cases e : x = a
    · subst e; simp [hna]
    · simp [e]



theorem insert_tail_left {t2 : RBTree K V} {c : Ctx} {a nw : Nat}
    (h : Rep t2 (c.plug (.node .nil nw .nil))) (hd : c.depth < t2.next + 1)
    (ma : a ∈ (c.plug (.node .nil nw .nil)).ids) :
    Outcome ((rebalance_after_insert_ (t2.next + 1) t2 (.node nw)).bind fun t3 =>
        (if ({ t3 with cnt_ := t3.cnt_ + 1 } : RBTree K V).header_.left = .node a then
            (({ t3 with cnt_ := t3.cnt_ + 1 } : RBTree K V).leftOf (.node a)).map fun nl2 =>
              { ({ t3 with cnt_ := t3.cnt_ + 1 } : RBTree K V) with
                header_ := { ({ t3 with cnt_ := t3.cnt_ + 1 } : RBTree K V).header_ with
                  left := nl2 } }
          else .ok { t3 with cnt_ := t3.cnt_ + 1 }).map fun t5 => (t5, Ptr.node nw))
      (TailPost (c.plug (.node .nil nw .nil)) t2 nw) := by
  refine (rai_spec _ t2 c .nil .nil nw h hd).bind ?_
  rintro t3 ⟨⟨z, r3, hids⟩, se⟩
  obtain ⟨na, hna⟩ := r3.heap_of_mem (hids ▸ ma)
  have hl : ({ t3 with cnt_ := t3.cnt_ + 1 } : RBTree K V).leftOf (.node a) = .ok na.left :=
    RBTree.leftOf_node (t := { t3 with cnt_ := t3.cnt_ + 1 }) hna
  rw [hl]
  split
  · exact ⟨⟨z, r3.congr_state rfl rfl, hids⟩, rfl, se.next, by simp [se.cnt], se.cmp, se.entry⟩
  · exact ⟨⟨z, r3.congr_state rfl rfl, hids⟩, rfl, se.next, by simp [se.cnt], se.cmp, se.entry⟩

theorem insert_tail_right {t2 : RBTree K V} {c : Ctx} {a nw : Nat}
    (h : Rep t2 (c.plug (.node .nil nw .nil))) (hd : c.depth < t2.next + 1)
    (ma : a ∈ (c.plug (.node .nil nw .nil)).ids) :
    Outcome ((rebalance_after_insert_ (t2.next + 1) t2 (.node nw)).bind fun t3 =>
        (if ({ t3 with cnt_ := t3.cnt_ + 1 } : RBTree K V).header_.right = .node a then
            (({ t3 with cnt_ := t3.cnt_ + 1 } : RBTree K V).rightOf (.node a)).map fun nr2 =>
              { ({ t3 with cnt_ := t3.cnt_ + 1 } : RBTree K V) with
                header_ := { ({ t3 with cnt_ := t3.cnt_ + 1 } : RBTree K V).header_ with
                  right := nr2 } }
          else .ok { t3 with cnt_ := t3.cnt_ + 1 }).map fun t5 => (t5, Ptr.node nw))
      (TailPost (c.plug (.node .nil nw .nil)) t2 nw) := by
  refine (rai_spec _ t2 c .nil .nil nw h hd).bind ?_
  rintro t3 ⟨⟨z, r3, hids⟩, se⟩
  obtain ⟨na, hna⟩ := r3.heap_of_mem (hids ▸ ma)
  have hl : ({ t3 with cnt_ := t3.cnt_ + 1 } : RBTree K V).rightOf (.node a) = .ok na.right :=
    RBTree.rightOf_node (t := { t3 with cnt_ := t3.cnt_ + 1 }) hna
  rw [hl]
  split
  · exact ⟨⟨z, r3.congr_state rfl rfl, hids⟩, rfl, se.next, by simp [se.cnt], se.cmp, se.entry⟩
  · exact ⟨⟨z, r3.congr_state rfl rfl, hids⟩, rfl, se.next, by simp [se.cnt], se.cmp, se.entry⟩


theorem insert__spec [DecidableEq K] (replace : Bool) (key : K) (val : V) (fuel : Nat) :
    ∀ (t : RBTree K V) (c : Ctx) (A B : Shape) (a : Nat),
    Rep t (c.plug (.node A a B)) → (∀ x ∈ (c.plug (.node A a B)).ids, x < t.next) →
    (Shape.node A a B).height ≤ fuel → PathOK t key replace c →
    Outcome (insert_ fuel t (.node a) replace key val)
      (InsertPost (c.plug (.node A a B)) t replace key val) := by
  induction fuel with
  | zero => intro t c A B a _ _ hh _; simp [Shape.height] at hh
  | succ fuel ih =>
    intro t c A B a h hf hh hpath
    obtain ⟨na, hna, -, hal, har⟩ := h.node_at
    have ma : a ∈ (c.plug (.node A a B)).ids := by simp [Ctx.ids_plug, Shape.ids]
    rw [insert_]
    simp only [reduceCtorEq, if_false, RBTree.nodeAt_node hna, Except.bind]
    by_cases h1 : na.key = key ∧ replace = true
    · rw [if_pos h1]
      rw [replace_val, RBTree.setNode_node hna]
      exact Or.inl ⟨a, na, ma, hna, h1.1, h1.2, rfl, rfl⟩
    · rw [if_neg h1]
      by_cases h2 : t.cmp_ key na.key = true
      · rw [if_pos h2]
        cases A with
        | nil =>
          rw [if_pos (by simpa using hal)]
          obtain ⟨t1, t2, e1, e2, e3, r2, hn2, hc2, hm2, hh2, hen, heo⟩ := attach_left key val h hf
          have hd : (c.left a B).depth < t2.next + 1 := by
            have hmem : ∀ x, x ∈ (Ctx.plug (c.left a B) (.node .nil t.next .nil)).ids →
                x = t.next ∨ x ∈ (c.plug (.node .nil a B)).ids := by
              intro x hx
              simp only [Ctx.ids_plug, Shape.ids, Ctx.before, Ctx.after, List.mem_append,
                List.mem_cons, List.not_mem_nil, false_or, or_false] at hx ⊢
              tauto
            have := Rep.depth_lt (c := c.left a B) (s := .node .nil t.next .nil) r2 (by
              intro x hx
              rw [hn2]
              rcases hmem x hx with e | hx
              · omega
              · have := hf x hx; omega)
            simp only [Shape.height] at this
            omega
          have ma2 : a ∈ (Ctx.plug (c.left a B) (.node .nil t.next .nil)).ids := by
            simp [Ctx.ids_plug, Shape.ids, Ctx.after]
          simp only [create_node] at e1
          simp only [create_node, e1, e2, e3, Except.bind]
          refine (insert_tail_left r2 hd ma2).mono ?_
          rintro r ⟨⟨z, rz, hz⟩, hp, hnx, hcn, hcm, hent⟩
          refine Or.inr ⟨c.left a B, z, ⟨⟨na, hna, h2⟩, hpath⟩, rfl, rz, ?_, hp, ?_, ?_, ?_, ?_, ?_⟩
          · rw [hz, Ctx.ids_plug]; simp [Shape.ids]
          · rw [hnx, hn2]
          · rw [hcn, hc2]
          · rw [hcm, hm2]
          · rw [hent, hen]
          · intro x hx; rw [hent, heo x hx]
        | node A1 a1 A2 =>
          rw [if_neg (by simp [hal])]
          rw [hal]
          simp only [Shape.height] at hh
          exact ih t (c.left a B) A1 A2 a1 h hf (by simp only [Shape.height]; omega)
            ⟨⟨na, hna, h2⟩, hpath⟩
      · rw [if_neg h2]
        have hp2 : t.cmp_ key na.key = false ∧ (replace = true → na.key ≠ key) :=
          ⟨by simpa using h2, fun hr hk => h1 ⟨hk, hr⟩⟩
        cases B with
        | nil =>
          rw [if_pos (by simpa using har)]
          obtain ⟨t1, t2, e1, e2, e3, r2, hn2, hc2, hm2, hh2, hen, heo⟩ := attach_right key val h hf
          have hd : (c.right A a).depth < t2.next + 1 := by
            have hmem : ∀ x, x ∈ (Ctx.plug (c.right A a) (.node .nil t.next .nil)).ids →
                x = t.next ∨ x ∈ (c.plug (.node A a .nil)).ids := by
              intro x hx
              simp only [Ctx.ids_plug, Shape.ids, Ctx.before, Ctx.after, List.mem_append,
                List.mem_cons, List.not_mem_nil, false_or, or_false] at hx ⊢
              tauto
            have := Rep.depth_lt (c := c.right A a) (s := .node .nil t.next .nil) r2 (by
              intro x hx
              rw [hn2]
              rcases hmem x hx with e | hx
              · omega
              · have := hf x hx; omega)
            simp only [Shape.height] at this
            omega
          have ma2 : a ∈ (Ctx.plug (c.right A a) (.node .nil t.next .nil)).ids := by
            simp [Ctx.ids_plug, Shape.ids, Ctx.before]
          simp only [create_node] at e1
          simp only [create_node, e1, e2, e3, Except.bind]
          refine (insert_tail_right r2 hd ma2).mono ?_
          rintro r ⟨⟨z, rz, hz⟩, hp, hnx, hcn, hcm, hent⟩
          refine Or.inr ⟨c.right A a, z, ⟨⟨na, hna, hp2.1, hp2.2⟩, hpath⟩, rfl, rz, ?_, hp, ?_, ?_, ?_, ?_, ?_⟩
          · rw [hz, Ctx.ids_plug]; simp [Shape.ids]
          · rw [hnx, hn2]
          · rw [hcn, hc2]
          · rw [hcm, hm2]
          · rw [hent, hen]
          · intro x hx; rw [hent, heo x hx]
        | node A1 a1 A2 =>
          rw [if_neg (by simp [har])]
          rw [har]
          simp only [Shape.height] at hh
          exact ih t (c.right A a) A1 A2 a1 h hf (by simp only [Shape.height]; omega)
            ⟨⟨na, hna, hp2.1, hp2.2⟩, hpath⟩

end BabySTL

namespace BabySTL

variable {K V : Type}

/-! ## The public insert and the search -/

theorem Rep.shape_nil {t : RBTree K V} {s : Shape} (h : Rep t s)
    (hp : t.header_.parent = .null) : s = .nil := by
  cases s with
  | nil => rfl
  | node l a r => have := h.1.1; rw [hp] at this; cases this

theorem Rep.shape_node {t : RBTree K V} {s : Shape} (h : Rep t s)
    (hp : t.header_.parent ≠ .null) : ∃ l a r, s = .node l a r ∧ t.header_.parent = .node a := by
  cases s with
  | nil => exact absurd (by simpa [Repr] using h.1) hp
  | node l a r => exact ⟨l, a, r, rfl, h.1.1⟩

theorem Inv.height_le {t : RBTree K V} {s : Shape} (h : Inv t s) : s.height ≤ t.next :=
  (Shape.height_le_length s).trans (length_le_of_fresh h.rep.2 h.fresh)

theorem insert_spec [DecidableEq K] {t : RBTree K V} {s : Shape} (h : Inv t s)
    (replace : Bool) (key : K) (val : V) :
    Outcome (insert t replace key val) (InsertPost s t replace key val) := by
  unfold insert
  by_cases hp : t.header_.parent = .null
  · rw [if_pos hp]
    have hs := h.rep.shape_nil hp
    subst hs
    simp only [create_node, RBTree.setParent, RBTree.setBase, RBTree.store_heap, if_true,
      Except.bind, RBTree.setColor, RBTree.setNode, Outcome.ok_iff]
    refine Or.inr ⟨.top, .node .nil t.next .nil, trivial, rfl, ⟨?_, by simp [Shape.ids]⟩,
      by simp [Shape.ids, Ctx.before, Ctx.after], rfl, rfl, rfl, rfl, ?_, ?_⟩
    · let nw : RBTreeMapNode K V :=
        { parent := .header, left := .null, right := .null, color := .kBlack, key := key,
          val := val }
      exact ⟨rfl, nw, by simp [nw], rfl, by simp [Repr, nw], by simp [Repr, nw]⟩
    · simp [RBTree.entryAt]
    · intro x hx; simp [RBTree.entryAt, hx]
  · rw [if_neg hp]
    obtain ⟨l, a, r, rfl, ha⟩ := h.rep.shape_node hp
    rw [ha]
    exact insert__spec replace key val _ t .top l r a h.rep h.fresh
      (h.height_le.trans (Nat.le_succ _)) trivial

theorem find__spec [DecidableEq K] (key : K) (fuel : Nat) :
    ∀ (t : RBTree K V) (c : Ctx) (X : Shape),
    Rep t (c.plug X) → X.height < fuel → PathOK t key true c →
    ∃ r, find_ fuel t X.root key = .ok r ∧
      ((r = .null ∧ ∃ d, PathOK t key true d ∧ c.plug X = d.plug .nil) ∨
       (∃ b nb, r = .node b ∧ b ∈ (c.plug X).ids ∧ t.heap b = some nb ∧ nb.key = key)) := by
  induction fuel with
  | zero => intro t c X _ hh _; omega
  | succ fuel ih =>
    intro t c X h hh hpath
    cases X with
    | nil =>
      exact ⟨.null, by simp [find_], Or.inl ⟨rfl, c, hpath, rfl⟩⟩
    | node A a B =>
      obtain ⟨na, hna, -, hal, har⟩ := h.node_at
      simp only [Shape.height] at hh
      rw [Shape.root_node, find_]
      simp only [reduceCtorEq, if_false, RBTree.nodeAt_node hna, Except.bind]
      by_cases h1 : key = na.key
      · rw [if_pos h1]
        exact ⟨_, rfl, Or.inr ⟨a, na, rfl, by simp [Ctx.ids_plug, Shape.ids], hna, h1.symm⟩⟩
      · rw [if_neg h1]
        by_cases h2 : t.cmp_ key na.key = true
        · rw [if_pos h2, hal]
          exact ih t (c.left a B) A h (by omega) ⟨⟨na, hna, h2⟩, hpath⟩
        · rw [if_neg h2, har]
          exact ih t (c.right A a) B h (by omega)
            ⟨⟨na, hna, by simpa using h2, fun _ e => h1 e.symm⟩, hpath⟩

end BabySTL

namespace BabySTL

variable {K V : Type}

/-! ## Order facts along a search path; insertion keeps the invariant -/

theorem StrictOrder.asymm {cmp : K → K → Bool} (ho : StrictOrder cmp) {a b : K}
    (h : cmp a b = true) : cmp b a = false := by
  cases hb : cmp b a with
  | false => rfl
  | true => have := ho.trans a b a h hb; rw [ho.irrefl] at this; cases this

/-- From `a < b` and `¬ c < b` (that is `b ≤ c`) follows `a < c`. -/
theorem StrictOrder.lt_of_lt_of_le {cmp : K → K → Bool} (ho : StrictOrder cmp) {a b c : K}
    (h1 : cmp a b = true) (h2 : cmp c b = false) : cmp a c = true := by
  cases hbc : cmp b c with
  | true => exact ho.trans a b c h1 hbc
  | false => have := ho.eq_of_incomp b c hbc h2; subst this; exact h1

/-- From `¬ b < a` (that is `a ≤ b`) and `b < c` follows `a < c`. -/
theorem StrictOrder.lt_of_le_of_lt {cmp : K → K → Bool} (ho : StrictOrder cmp) {a b c : K}
    (h1 : cmp b a = false) (h2 : cmp b c = true) : cmp a c = true := by
  cases hab : cmp a b with
  | true => exact ho.trans a b c hab h2
  | false => have := ho.eq_of_incomp a b hab h1; subst this; exact h2

theorem path_bounds {t : RBTree K V} {key : K} {strict : Bool} (ho : StrictOrder t.cmp_)
    (c : Ctx) (hb : SortedIds t c.before) (ha : SortedIds t c.after)
    (hp : PathOK t key strict c) :
    (∀ x ∈ c.before, ∀ kx, t.keyAt x = some kx →
        t.cmp_ key kx = false ∧ (strict = true → kx ≠ key)) ∧
    (∀ y ∈ c.after, ∀ ky, t.keyAt y = some ky → t.cmp_ key ky = true) := by
  induction c with
  | top => simp [Ctx.before, Ctx.after]
  | left up b R ih =>
    obtain ⟨⟨nb, hnb, hlt⟩, hup⟩ := hp
    simp only [Ctx.before, Ctx.after] at hb ha ⊢
    unfold SortedIds at ha
    rw [List.cons_append, List.pairwise_cons, List.pairwise_append] at ha
    obtain ⟨hbR, -, hU, -⟩ := ha
    obtain ⟨ih1, ih2⟩ := ih hb hU hup
    refine ⟨ih1, ?_⟩
    intro y hy ky hky
    have hkb : t.keyAt b = some nb.key := by simp [RBTree.keyAt, hnb]
    simp only [List.mem_cons, List.mem_append] at hy
    rcases hy with (rfl | hy) | hy
    · rw [hkb] at hky; cases hky; exact hlt
    · exact ho.lt_of_lt_of_le hlt (hbR y (by simp [hy]) _ _ hkb hky)
    · exact ih2 y hy ky hky
  | right up L b ih =>
    obtain ⟨⟨nb, hnb, hge, hne⟩, hup⟩ := hp
    simp only [Ctx.before, Ctx.after] at hb ha ⊢
    unfold SortedIds at hb
    rw [List.append_assoc, List.pairwise_append, List.pairwise_append] at hb
    obtain ⟨hU, ⟨-, -, hLb⟩, -⟩ := hb
    obtain ⟨ih1, ih2⟩ := ih hU ha hup
    refine ⟨?_, ih2⟩
    intro x hx kx hkx
    have hkb : t.keyAt b = some nb.key := by simp [RBTree.keyAt, hnb]
    simp only [List.mem_append, List.mem_singleton] at hx
    rcases hx with (hx | hx) | rfl
    · exact ih1 x hx kx hkx
    · have hle : t.cmp_ nb.key kx = false := hLb x hx b (by simp) _ _ hkx hkb
      constructor
      · cases hc : t.cmp_ key kx with
        | false => rfl
        | true => rw [ho.lt_of_lt_of_le hc hle] at hge; cases hge
      · intro hs e
        subst e
        exact hne hs (ho.eq_of_incomp _ _ hle hge)
    · rw [hkb] at hkx; cases hkx; exact ⟨hge, hne⟩

theorem SortedIds.sublist {t : RBTree K V} {l l1 : List Nat} (h : SortedIds t l)
    (hs : l1.Sublist l) : SortedIds t l1 :=
  List.Pairwise.sublist hs h

theorem SortedIds.congr_keys {t t1 : RBTree K V} {l : List Nat} (h : SortedIds t l)
    (hc : t1.cmp_ = t.cmp_) (hk : ∀ x ∈ l, t1.keyAt x = t.keyAt x) : SortedIds t1 l := by
  unfold SortedIds at h ⊢
  refine List.Pairwise.imp_of_mem ?_ h
  intro x y hx hy hxy kx ky h1 h2
  rw [hc]
  exact hxy kx ky (by rw [← hk x hx]; exact h1) (by rw [← hk y hy]; exact h2)

theorem keyAt_of_entryAt {t t1 : RBTree K V} {x : Nat} (h : t1.entryAt x = t.entryAt x) :
    t1.keyAt x = t.keyAt x := by
  simp only [RBTree.entryAt, RBTree.keyAt] at h ⊢
  cases h1 : t1.heap x <;> cases h0 : t.heap x <;> simp_all

theorem InsertPost.preserved {t : RBTree K V} {s : Shape} {replace : Bool} {key : K} {val : V}
    {r : RBTree K V × Ptr} (h : Inv t s) (hp : InsertPost s t replace key val r) :
    Preserved t s r.1 := by
  rcases hp with ⟨b, nb, hb, hnb, hk, -, -, hr⟩ | ⟨c, z, hpath, hs, hz, hids, -, hn, hc, hm, hen, heo⟩
  · rw [hr]
    refine ⟨s, ⟨h.rep.store_links _ hnb rfl, h.cnt, h.fresh⟩, rfl, fun _ hso => ?_⟩
    refine hso.congr_keys rfl fun x _ => ?_
    simp only [RBTree.keyAt, RBTree.store_heap]
    split
    · next e => subst e; simp [hnb]
    · rfl
  · have hsids : s.ids = c.before ++ c.after := by rw [hs, Ctx.ids_plug]; simp [Shape.ids]
    have hfr : ∀ x ∈ c.before ++ c.after, x < t.next := fun x hx => h.fresh x (hsids ▸ hx)
    refine ⟨z, ⟨hz, ?_, ?_⟩, hm, fun ho hso => ?_⟩
    · rw [hc, h.cnt, hids, hsids]; simp; omega
    · intro x hx
      rw [hids] at hx
      rw [hn]
      simp only [List.mem_append, List.mem_cons] at hx
      rcases hx with hx | rfl | hx
      · have := hfr x (by simp [hx]); omega
      · omega
      · have := hfr x (by simp [hx]); omega
    · rw [hsids] at hso
      have hb : SortedIds t c.before := hso.sublist (List.sublist_append_left _ _)
      have ha : SortedIds t c.after := hso.sublist (List.sublist_append_right _ _)
      obtain ⟨b1, b2⟩ := path_bounds ho c hb ha hpath
      have hkeep : ∀ x ∈ c.before ++ c.after, r.1.keyAt x = t.keyAt x := by
        intro x hx
        have : x ≠ t.next := by have := hfr x hx; omega
        exact keyAt_of_entryAt (heo x this)
      have hknew : r.1.keyAt t.next = some key := by
        simp only [RBTree.entryAt, RBTree.keyAt] at hen ⊢
        cases h1 : r.1.heap t.next <;> simp_all
      have hso1 : SortedIds r.1 (c.before ++ c.after) := hso.congr_keys hm hkeep
      rw [hids]
      unfold SortedIds at hso1 ⊢
      rw [List.pairwise_append] at hso1 ⊢
      obtain ⟨p1, p2, p3⟩ := hso1
      refine ⟨p1, List.pairwise_cons.mpr ⟨?_, p2⟩, ?_⟩
      · intro y hy kx ky h1 h2
        rw [hknew] at h1; cases h1
        rw [hm]
        rw [hkeep y (by simp [hy])] at h2
        exact ho.asymm (b2 y hy ky h2)
      · intro x hx y hy
        simp only [List.mem_cons] at hy
        rcases hy with rfl | hy
        · intro kx ky h1 h2
          rw [hknew] at h2; cases h2
          rw [hm]
          rw [hkeep x (by simp [hx])] at h1
          exact (b1 x hx kx h1).1
        · exact p3 x hx y hy

end BabySTL

namespace BabySTL

variable {K V : Type}

/-! ## The remove fix-up moves only nodes around the subtree it started from -/

theorem rar_unfold (fuel : Nat) (t : RBTree K V) (node : Ptr) :
    rebalance_after_remove_ (fuel + 1) t node =
      if t.header_.parent = node then .ok t else
      (rar_step1 t node).bind fun ts =>
      rar_step2 (rebalance_after_remove_ fuel) ts.1 node ts.2 := by
  rw [rebalance_after_remove_]
  split
  · rfl
  · simp only [rar_step1]
    cases get_sibling t node with
    | error e => rfl
    | ok s0 =>
      simp only [Except.bind]
      cases t.colorOf s0 with
      | error e => rfl
      | ok sc => rfl

theorem Rep.setColor {t : RBTree K V} {s : Shape} {a : Nat} (h : Rep t s) (ha : a ∈ s.ids)
    (col : RBTreeColor) :
    ∃ t1, t.setColor (.node a) col = .ok t1 ∧ Rep t1 s ∧ SameEntries t t1 := by
  obtain ⟨n, hn⟩ := h.heap_of_mem ha
  exact ⟨_, RBTree.setColor_node hn col, (h.store_color hn _).1, (h.store_color hn _).2⟩

theorem Rep.colorOf_ok {t : RBTree K V} {s : Shape} {a : Nat} (h : Rep t s) (ha : a ∈ s.ids) :
    ∃ col, t.colorOf (.node a) = .ok col := by
  obtain ⟨n, hn⟩ := h.heap_of_mem ha
  exact ⟨_, RBTree.colorOf_node hn⟩

theorem Rep.ne_of_mem {t : RBTree K V} {c : Ctx} {A B : Shape} {a x : Nat}
    (h : Rep t (c.plug (.node A a B)))
    (hx : x ∈ c.before ∨ x ∈ A.ids ∨ x ∈ B.ids ∨ x ∈ c.after) : x ≠ a := by
  rintro rfl
  have hnd := h.2
  rw [Ctx.ids_plug] at hnd
  have hc := List.nodup_iff_count_le_one.mp hnd x
  simp only [Shape.ids, List.count_append, List.count_cons, beq_self_eq_true, if_true] at hc
  rcases hx with hx | hx | hx | hx <;> have := List.count_pos_iff.mpr hx <;> omega

theorem get_sibling_left {t : RBTree K V} {up : Ctx} {pa : Nat} {R A B : Shape} {x : Nat}
    (h : Rep t ((up.left pa R).plug (.node A x B))) :
    get_sibling t (.node x) = .ok R.root := by
  have hpa : Rep t (up.plug (.node (.node A x B) pa R)) := h
  simp [get_sibling, h.get_parent, Ctx.getParent, Except.bind, hpa.leftOf, hpa.rightOf]

theorem rotate_toward_left {t : RBTree K V} {up : Ctx} {pa s : Nat} {R1 R2 X : Shape}
    (h : Rep t (up.plug (.node X pa (.node R1 s R2)))) (x : Ptr) (hx : X.root = x) :
    ∃ t1, rotate_toward t (.node pa) x = .ok t1 ∧
      Rep t1 (up.plug (.node (.node X pa R1) s R2)) ∧ SameData t t1 := by
  simp only [rotate_toward, h.leftOf, hx, Except.bind, if_true]
  exact rotate_left_spec h

theorem rar_step1_left {t : RBTree K V} {up : Ctx} {pa : Nat} {R A B : Shape} {x : Nat}
    (h : Rep t ((up.left pa R).plug (.node A x B))) :
    Outcome (rar_step1 t (.node x)) (fun ts => ∃ (up4 : Ctx) (Rs : Shape),
      Rep ts.1 ((up4.left pa Rs).plug (.node A x B)) ∧ ts.2 = Rs.root ∧
      up4.before = up.before ∧ Rs.ids ++ up4.after = R.ids ++ up.after ∧
      SameEntries t ts.1 ∧
      (up4.depth = up.depth ∨ ∃ n, ts.1.heap pa = some n ∧ n.color = .kRed)) := by
  have hpa : Rep t (up.plug (.node (.node A x B) pa R)) := h
  rw [rar_step1, get_sibling_left h]
  cases R with
  | nil => simp [Except.bind, RBTree.colorOf, RBTree.nodeAt, Except.map]
  | node R1 s R2 =>
    have hs : Rep t ((up.right (.node A x B) pa).plug (.node R1 s R2)) := h
    obtain ⟨ns, hns, -⟩ := hs.node_at
    simp only [Shape.root_node, RBTree.colorOf_node hns, Except.bind]
    by_cases hcol : ns.color = .kRed
    · rw [if_pos hcol]
      obtain ⟨t1, e1, r1, d1⟩ := rotate_toward_left hpa (.node x) rfl
      have r1a : Rep t1 ((up.left s R2).plug (.node (.node A x B) pa R1)) := r1
      have r1b : Rep t1 (((up.left s R2).left pa R1).plug (.node A x B)) := r1
      obtain ⟨n1, hn1, -⟩ := r1a.node_at
      have hsp : s ≠ pa := r1a.ne_of_mem (by simp [Ctx.after])
      have r1c : Rep t1 (up.plug (.node (.node (.node A x B) pa R1) s R2)) := r1
      obtain ⟨m1, hm1, -⟩ := r1c.node_at
      have e2 := RBTree.setColor_node hn1 .kRed
      have hm2 : (t1.store pa { n1 with color := .kRed }).heap s = some m1 := by
        simp [hsp, hm1]
      have e3 := RBTree.setColor_node hm2 .kBlack
      have r2 := (r1b.store_color hn1 .kRed)
      have r3 := (r2.1.store_color hm2 .kBlack)
      simp only [h.get_parent, Ctx.getParent, Except.bind, e1, e2, e3, get_sibling_left r3.1,
        Except.map, Outcome.ok_iff]
      refine ⟨up.left s R2, R1, r3.1, rfl, rfl, by simp [Ctx.after, Shape.ids],
        d1.toEntries.trans_entries (r2.2.trans_entries r3.2), Or.inr ⟨{ n1 with color := .kRed }, ?_, rfl⟩⟩
      simp [hsp.symm]
    · rw [if_neg hcol]
      exact ⟨up, .node R1 s R2, h, rfl, rfl, rfl, SameEntries.refl_entries t, Or.inl rfl⟩


theorem nephews_left {t : RBTree K V} {up : Ctx} {pa s : Nat} {N1 N2 A B : Shape} {x : Nat}
    (h : Rep t ((up.left pa (.node N1 s N2)).plug (.node A x B))) :
    nephews t (.node pa) (.node x) (.node s) = .ok (N1.root, N2.root) := by
  have hpa : Rep t (up.plug (.node (.node A x B) pa (.node N1 s N2))) := h
  have hs : Rep t ((up.right (.node A x B) pa).plug (.node N1 s N2)) := h
  simp [nephews, hpa.leftOf, hs.leftOf, hs.rightOf, Except.bind, Except.map]

theorem isRed_root {t : RBTree K V} {s : Shape} (N : Shape) (h : Rep t s)
    (hN : ∀ a, N.root = .node a → a ∈ s.ids) :
    ∃ b, isRed t N.root = .ok b ∧ (b = true → N ≠ .nil) := by
  cases N with
  | nil => exact ⟨false, by simp [isRed], by simp⟩
  | node l a r =>
    obtain ⟨col, hcol⟩ := h.colorOf_ok (hN a rfl)
    exact ⟨decide (col = .kRed), by simp [isRed, hcol, Except.map], by simp⟩

theorem rar_fix_left {t : RBTree K V} {up : Ctx} {pa s : Nat} {N1 N2 A B : Shape} {x : Nat}
    (h : Rep t ((up.left pa (.node N1 s N2)).plug (.node A x B))) (closeRed : Bool)
    (hc : closeRed = true → N1 ≠ .nil) :
    Outcome (rar_fix t (.node x) (.node pa) (.node s) (N1.root, N2.root) closeRed)
      (RarPost (up.left pa (.node N1 s N2)) (.node A x B) t) := by
  have hxs : x ≠ s :=
    Rep.ne_of_mem (c := up.right (.node A x B) pa) (A := N1) (B := N2) (x := x) h
      (Or.inl (by simp [Ctx.before, Shape.ids]))
  cases closeRed with
  | true =>
    obtain ⟨E, cn, F, rfl⟩ : ∃ E cn F, N1 = .node E cn F := by
      cases N1 with
      | nil => exact absurd rfl (hc rfl)
      | node E cn F => exact ⟨E, cn, F, rfl⟩
    have hpa : Rep t (up.plug (.node (.node A x B) pa (.node (.node E cn F) s N2))) := h
    have hs : Rep t ((up.right (.node A x B) pa).plug (.node (.node E cn F) s N2)) := h
    obtain ⟨t5, e5, r5, d5⟩ := rotate_right_spec hs
    have ms : s ∈ ((up.right (.node A x B) pa).plug (.node E cn (.node F s N2))).ids := by
      simp [Ctx.ids_plug, Shape.ids]
    have mcn : cn ∈ ((up.right (.node A x B) pa).plug (.node E cn (.node F s N2))).ids := by
      simp [Ctx.ids_plug, Shape.ids]
    have mpa : pa ∈ ((up.right (.node A x B) pa).plug (.node E cn (.node F s N2))).ids := by
      simp [Ctx.ids_plug, Shape.ids, Ctx.before]
    obtain ⟨t6, e6, r6, d6⟩ := r5.setColor ms .kRed
    obtain ⟨t7, e7, r7, d7⟩ := r6.setColor mcn .kBlack
    have r7a : Rep t7 ((up.left pa (.node E cn (.node F s N2))).plug (.node A x B)) := r7
    have r7b : Rep t7 (up.plug (.node (.node A x B) pa (.node E cn (.node F s N2)))) := r7
    obtain ⟨t9, e9, r9, d9⟩ := rotate_toward_left r7b (.node x) rfl
    have mpa9 : pa ∈ (up.plug (.node (.node (.node A x B) pa E) cn (.node F s N2))).ids := by
      simp [Ctx.ids_plug, Shape.ids]
    have mcn9 : cn ∈ (up.plug (.node (.node (.node A x B) pa E) cn (.node F s N2))).ids := by
      simp [Ctx.ids_plug, Shape.ids]
    have ms9 : s ∈ (up.plug (.node (.node (.node A x B) pa E) cn (.node F s N2))).ids := by
      simp [Ctx.ids_plug, Shape.ids]
    obtain ⟨pc, hpc⟩ := r9.colorOf_ok mpa9
    obtain ⟨t10, e10, r10, d10⟩ := r9.setColor mcn9 pc
    obtain ⟨t11, e11, r11, d11⟩ := r10.setColor mpa9 .kBlack
    obtain ⟨t12, e12, r12, d12⟩ := r11.setColor ms9 .kBlack
    have hne : (Ptr.node x = Ptr.node s) = False := by simp [hxs]
    simp only [rar_fix, if_true, hpa.leftOf, Shape.root_node, hne, if_false, Except.bind, e5, e6,
      e7, get_sibling_left r7a, nephews_left r7a, Except.map, e9, hpc, e10, e11, ne_eq,
      reduceCtorEq, not_false_eq_true, e12, Outcome.ok_iff]
    refine ⟨(up.left cn (.node F s N2)).left pa E, r12, rfl, by simp [Ctx.after, Shape.ids], ?_⟩
    exact d5.toEntries.trans_entries (d6.trans_entries (d7.trans_entries (d9.toEntries.trans_entries (d10.trans_entries
      (d11.trans_entries d12)))))
  | false =>
    have hpa : Rep t (up.plug (.node (.node A x B) pa (.node N1 s N2))) := h
    obtain ⟨t9, e9, r9, d9⟩ := rotate_toward_left hpa (.node x) rfl
    have mpa9 : pa ∈ (up.plug (.node (.node (.node A x B) pa N1) s N2)).ids := by
      simp [Ctx.ids_plug, Shape.ids]
    have ms9 : s ∈ (up.plug (.node (.node (.node A x B) pa N1) s N2)).ids := by
      simp [Ctx.ids_plug, Shape.ids]
    obtain ⟨pc, hpc⟩ := r9.colorOf_ok mpa9
    obtain ⟨t10, e10, r10, d10⟩ := r9.setColor ms9 pc
    obtain ⟨t11, e11, r11, d11⟩ := r10.setColor mpa9 .kBlack
    simp only [rar_fix, Bool.false_eq_true, if_false, Except.bind, e9, hpc, e10, e11]
    cases N2 with
    | nil =>
      simp only [Shape.root_nil, ne_eq, not_true_eq_false, if_false, Outcome.ok_iff]
      exact ⟨(up.left s .nil).left pa N1, r11, rfl, by simp [Ctx.after, Shape.ids],
        d9.toEntries.trans_entries (d10.trans_entries d11)⟩
    | node G d H =>
      have md9 : d ∈ (up.plug (.node (.node (.node A x B) pa N1) s (.node G d H))).ids := by
        simp [Ctx.ids_plug, Shape.ids]
      obtain ⟨t12, e12, r12, d12⟩ := r11.setColor md9 .kBlack
      simp only [Shape.root_node, ne_eq, reduceCtorEq, not_false_eq_true, if_true, e12,
        Outcome.ok_iff]
      exact ⟨(up.left s (.node G d H)).left pa N1, r12, rfl, by simp [Ctx.after, Shape.ids],
        d9.toEntries.trans_entries (d10.trans_entries (d11.trans_entries d12))⟩


theorem rar_step2_left {again : RBTree K V → Ptr → Except Err (RBTree K V)} {fuel : Nat}
    (hrec : ∀ (t : RBTree K V) (c : Ctx) (A B : Shape) (a : Nat),
      Rep t (c.plug (.node A a B)) → c.depth < fuel →
      Outcome (again t (.node a)) (RarPost c (.node A a B) t))
    {t : RBTree K V} {up : Ctx} {pa : Nat} {Rs A B : Shape} {x : Nat}
    (h : Rep t ((up.left pa Rs).plug (.node A x B)))
    (hd : up.depth < fuel ∨ ∃ n, t.heap pa = some n ∧ n.color = .kRed) :
    Outcome (rar_step2 again t (.node x) Rs.root)
      (RarPost (up.left pa Rs) (.node A x B) t) := by
  have hpa : Rep t (up.plug (.node (.node A x B) pa Rs)) := h
  obtain ⟨npa, hnpa, -⟩ := hpa.node_at
  rw [rar_step2]
  simp only [h.get_parent, Ctx.getParent, Except.bind]
  cases Rs with
  | nil =>
    simp only [nephews, hpa.leftOf, Shape.root_node, Shape.root_nil, Except.bind, if_true]
    simp [RBTree.leftOf, RBTree.baseAt, Except.map]
  | node N1 s N2 =>
    have hs : Rep t ((up.right (.node A x B) pa).plug (.node N1 s N2)) := h
    have ms : s ∈ ((up.left pa (.node N1 s N2)).plug (.node A x B)).ids := by
      simp [Ctx.ids_plug, Shape.ids, Ctx.after]
    have mpa : pa ∈ ((up.left pa (.node N1 s N2)).plug (.node A x B)).ids := by
      simp [Ctx.ids_plug, Shape.ids, Ctx.after]
    obtain ⟨cr, hcr, hcr1⟩ := isRed_root N1 h (fun a ha => by
      have := Shape.mem_of_root ha
      simp [Ctx.ids_plug, Shape.ids, Ctx.after, this])
    obtain ⟨dr, hdr, -⟩ := isRed_root N2 h (fun a ha => by
      have := Shape.mem_of_root ha
      simp [Ctx.ids_plug, Shape.ids, Ctx.after, this])
    simp only [Shape.root_node, nephews_left h, hcr, hdr, Except.bind]
    by_cases hb : (!cr && !dr) = true
    · rw [if_pos hb]
      simp only [RBTree.colorOf_node hnpa, Except.bind]
      by_cases hcol : npa.color = .kRed
      · rw [if_pos hcol]
        obtain ⟨t5, e5, r5, d5⟩ := h.setColor mpa .kBlack
        obtain ⟨t6, e6, r6, d6⟩ := r5.setColor ms .kRed
        simp only [e5, e6, Except.bind, Outcome.ok_iff]
        exact ⟨up.left pa (.node N1 s N2), r6, rfl, rfl, d5.trans_entries d6⟩
      · rw [if_neg hcol]
        have hdepth : up.depth < fuel := by
          rcases hd with hd | ⟨n, hn, hred⟩
          · exact hd
          · rw [hnpa] at hn; cases hn; exact absurd hred hcol
        obtain ⟨t5, e5, r5, d5⟩ := h.setColor ms .kRed
        simp only [e5, Except.bind]
        have r5a : Rep t5 (up.plug (.node (.node A x B) pa (.node N1 s N2))) := r5
        refine (hrec t5 up _ _ pa r5a hdepth).mono ?_
        rintro t6 ⟨d, rd, hb1, ha1, sd⟩
        exact ⟨d.left pa (.node N1 s N2), rd, by simpa [Ctx.before] using hb1,
          by simp [Ctx.after, ha1], d5.trans_entries sd⟩
    · rw [if_neg hb]
      exact rar_fix_left h cr hcr1


/-! ### The mirror image: the node is a right child -/

theorem get_sibling_right {t : RBTree K V} {up : Ctx} {pa : Nat} {L A B : Shape} {x : Nat}
    (h : Rep t ((up.right L pa).plug (.node A x B))) :
    get_sibling t (.node x) = .ok L.root := by
  have hpa : Rep t (up.plug (.node L pa (.node A x B))) := h
  have hx : x ∉ L.ids := fun hm =>
    (Rep.ne_of_mem (x := x) h (Or.inl (by simp [Ctx.before, hm]))) rfl
  have hne : L.root ≠ .node x := Shape.root_ne_of_not_mem hx
  simp [get_sibling, h.get_parent, Ctx.getParent, Except.bind, hpa.leftOf, hne]

theorem rotate_toward_right {t : RBTree K V} {up : Ctx} {pa s : Nat} {L1 L2 X : Shape}
    (h : Rep t (up.plug (.node (.node L1 s L2) pa X))) (x : Ptr) (hx : Ptr.node s ≠ x) :
    ∃ t1, rotate_toward t (.node pa) x = .ok t1 ∧
      Rep t1 (up.plug (.node L1 s (.node L2 pa X))) ∧ SameData t t1 := by
  simp only [rotate_toward, h.leftOf, Shape.root_node, hx, Except.bind, if_false]
  exact rotate_right_spec h

theorem rar_step1_right {t : RBTree K V} {up : Ctx} {pa : Nat} {L A B : Shape} {x : Nat}
    (h : Rep t ((up.right L pa).plug (.node A x B))) :
    Outcome (rar_step1 t (.node x)) (fun ts => ∃ (up4 : Ctx) (Ls : Shape),
      Rep ts.1 ((up4.right Ls pa).plug (.node A x B)) ∧ ts.2 = Ls.root ∧
      up4.before ++ Ls.ids = up.before ++ L.ids ∧ up4.after = up.after ∧
      SameEntries t ts.1 ∧
      (up4.depth = up.depth ∨ ∃ n, ts.1.heap pa = some n ∧ n.color = .kRed)) := by
  have hpa : Rep t (up.plug (.node L pa (.node A x B))) := h
  rw [rar_step1, get_sibling_right h]
  cases L with
  | nil => simp [Except.bind, RBTree.colorOf, RBTree.nodeAt, Except.map]
  | node L1 s L2 =>
    have hs : Rep t ((up.left pa (.node A x B)).plug (.node L1 s L2)) := h
    obtain ⟨ns, hns, -⟩ := hs.node_at
    have hsx : s ≠ x := Rep.ne_of_mem (x := s) h (Or.inl (by simp [Ctx.before, Shape.ids]))
    simp only [Shape.root_node, RBTree.colorOf_node hns, Except.bind]
    by_cases hcol : ns.color = .kRed
    · rw [if_pos hcol]
      obtain ⟨t1, e1, r1, d1⟩ := rotate_toward_right hpa (.node x) (by simp [hsx])
      have r1a : Rep t1 ((up.right L1 s).plug (.node L2 pa (.node A x B))) := r1
      have r1b : Rep t1 (((up.right L1 s).right L2 pa).plug (.node A x B)) := r1
      obtain ⟨n1, hn1, -⟩ := r1a.node_at
      have hsp : s ≠ pa := r1a.ne_of_mem (by simp [Ctx.before])
      have r1c : Rep t1 (up.plug (.node L1 s (.node L2 pa (.node A x B)))) := r1
      obtain ⟨m1, hm1, -⟩ := r1c.node_at
      have e2 := RBTree.setColor_node hn1 .kRed
      have hm2 : (t1.store pa { n1 with color := .kRed }).heap s = some m1 := by
        simp [hsp, hm1]
      have e3 := RBTree.setColor_node hm2 .kBlack
      have r2 := (r1b.store_color hn1 .kRed)
      have r3 := (r2.1.store_color hm2 .kBlack)
      simp only [h.get_parent, Ctx.getParent, Except.bind, e1, e2, e3, get_sibling_right r3.1,
        Except.map, Outcome.ok_iff]
      refine ⟨up.right L1 s, L2, r3.1, rfl, by simp [Ctx.before, Shape.ids], rfl,
        d1.toEntries.trans_entries (r2.2.trans_entries r3.2), Or.inr ⟨{ n1 with color := .kRed }, ?_, rfl⟩⟩
      simp [hsp.symm]
    · rw [if_neg hcol]
      exact ⟨up, .node L1 s L2, h, rfl, rfl, rfl, SameEntries.refl_entries t, Or.inl rfl⟩

theorem nephews_right {t : RBTree K V} {up : Ctx} {pa s : Nat} {N1 N2 A B : Shape} {x : Nat}
    (h : Rep t ((up.right (.node N1 s N2) pa).plug (.node A x B))) :
    nephews t (.node pa) (.node x) (.node s) = .ok (N2.root, N1.root) := by
  have hpa : Rep t (up.plug (.node (.node N1 s N2) pa (.node A x B))) := h
  have hs : Rep t ((up.left pa (.node A x B)).plug (.node N1 s N2)) := h
  have hsx : s ≠ x := Rep.ne_of_mem (x := s) h (Or.inl (by simp [Ctx.before, Shape.ids]))
  simp [nephews, hpa.leftOf, hs.leftOf, hs.rightOf, Except.bind, Except.map, hsx]

theorem rar_fix_right {t : RBTree K V} {up : Ctx} {pa s : Nat} {N1 N2 A B : Shape} {x : Nat}
    (h : Rep t ((up.right (.node N1 s N2) pa).plug (.node A x B))) (closeRed : Bool)
    (hc : closeRed = true → N2 ≠ .nil) :
    Outcome (rar_fix t (.node x) (.node pa) (.node s) (N2.root, N1.root) closeRed)
      (RarPost (up.right (.node N1 s N2) pa) (.node A x B) t) := by
  have hsx : s ≠ x := Rep.ne_of_mem (x := s) h (Or.inl (by simp [Ctx.before, Shape.ids]))
  have hsx2 : Ptr.node s ≠ Ptr.node x := by simp [hsx]
  cases closeRed with
  | true =>
    obtain ⟨E, cn, F, rfl⟩ : ∃ E cn F, N2 = .node E cn F := by
      cases N2 with
      | nil => exact absurd rfl (hc rfl)
      | node E cn F => exact ⟨E, cn, F, rfl⟩
    have hpa : Rep t (up.plug (.node (.node N1 s (.node E cn F)) pa (.node A x B))) := h
    have hs : Rep t ((up.left pa (.node A x B)).plug (.node N1 s (.node E cn F))) := h
    obtain ⟨t5, e5, r5, d5⟩ := rotate_left_spec hs
    have ms : s ∈ ((up.left pa (.node A x B)).plug (.node (.node N1 s E) cn F)).ids := by
      simp [Ctx.ids_plug, Shape.ids]
    have mcn : cn ∈ ((up.left pa (.node A x B)).plug (.node (.node N1 s E) cn F)).ids := by
      simp [Ctx.ids_plug, Shape.ids]
    obtain ⟨t6, e6, r6, d6⟩ := r5.setColor ms .kRed
    obtain ⟨t7, e7, r7, d7⟩ := r6.setColor mcn .kBlack
    have r7a : Rep t7 ((up.right (.node (.node N1 s E) cn F) pa).plug (.node A x B)) := r7
    have r7b : Rep t7 (up.plug (.node (.node (.node N1 s E) cn F) pa (.node A x B))) := r7
    have hcx : cn ≠ x := Rep.ne_of_mem (x := cn) r7a (Or.inl (by simp [Ctx.before, Shape.ids]))
    obtain ⟨t9, e9, r9, d9⟩ := rotate_toward_right r7b (.node x) (by simp [hcx])
    have mpa9 : pa ∈ (up.plug (.node (.node N1 s E) cn (.node F pa (.node A x B)))).ids := by
      simp [Ctx.ids_plug, Shape.ids]
    have mcn9 : cn ∈ (up.plug (.node (.node N1 s E) cn (.node F pa (.node A x B)))).ids := by
      simp [Ctx.ids_plug, Shape.ids]
    have ms9 : s ∈ (up.plug (.node (.node N1 s E) cn (.node F pa (.node A x B)))).ids := by
      simp [Ctx.ids_plug, Shape.ids]
    obtain ⟨pc, hpc⟩ := r9.colorOf_ok mpa9
    obtain ⟨t10, e10, r10, d10⟩ := r9.setColor mcn9 pc
    obtain ⟨t11, e11, r11, d11⟩ := r10.setColor mpa9 .kBlack
    obtain ⟨t12, e12, r12, d12⟩ := r11.setColor ms9 .kBlack
    have nr := nephews_right r7a
    simp only [Shape.root_node] at nr
    simp only [rar_fix, if_true, hpa.leftOf, Shape.root_node, Except.bind, e5, e6,
      e7, get_sibling_right r7a, nr, Except.map, e9, hpc, e10, e11, ne_eq,
      reduceCtorEq, not_false_eq_true, e12, Outcome.ok_iff]
    refine ⟨(up.right (.node N1 s E) cn).right F pa, r12, by simp [Ctx.before, Shape.ids], rfl, ?_⟩
    exact d5.toEntries.trans_entries (d6.trans_entries (d7.trans_entries (d9.toEntries.trans_entries (d10.trans_entries
      (d11.trans_entries d12)))))
  | false =>
    have hpa : Rep t (up.plug (.node (.node N1 s N2) pa (.node A x B))) := h
    obtain ⟨t9, e9, r9, d9⟩ := rotate_toward_right hpa (.node x) hsx2
    have mpa9 : pa ∈ (up.plug (.node N1 s (.node N2 pa (.node A x B)))).ids := by
      simp [Ctx.ids_plug, Shape.ids]
    have ms9 : s ∈ (up.plug (.node N1 s (.node N2 pa (.node A x B)))).ids := by
      simp [Ctx.ids_plug, Shape.ids]
    obtain ⟨pc, hpc⟩ := r9.colorOf_ok mpa9
    obtain ⟨t10, e10, r10, d10⟩ := r9.setColor ms9 pc
    obtain ⟨t11, e11, r11, d11⟩ := r10.setColor mpa9 .kBlack
    simp only [rar_fix, Bool.false_eq_true, if_false, Except.bind, e9, hpc, e10, e11]
    cases N1 with
    | nil =>
      simp only [Shape.root_nil, ne_eq, not_true_eq_false, if_false, Outcome.ok_iff]
      exact ⟨(up.right .nil s).right N2 pa, r11, by simp [Ctx.before, Shape.ids], rfl,
        d9.toEntries.trans_entries (d10.trans_entries d11)⟩
    | node G d H =>
      have md9 : d ∈ (up.plug (.node (.node G d H) s (.node N2 pa (.node A x B)))).ids := by
        simp [Ctx.ids_plug, Shape.ids]
      obtain ⟨t12, e12, r12, d12⟩ := r11.setColor md9 .kBlack
      simp only [Shape.root_node, ne_eq, reduceCtorEq, not_false_eq_true, if_true, e12,
        Outcome.ok_iff]
      exact ⟨(up.right (.node G d H) s).right N2 pa, r12, by simp [Ctx.before, Shape.ids], rfl,
        d9.toEntries.trans_entries (d10.trans_entries (d11.trans_entries d12))⟩

theorem rar_step2_right {again : RBTree K V → Ptr → Except Err (RBTree K V)} {fuel : Nat}
    (hrec : ∀ (t : RBTree K V) (c : Ctx) (A B : Shape) (a : Nat),
      Rep t (c.plug (.node A a B)) → c.depth < fuel →
      Outcome (again t (.node a)) (RarPost c (.node A a B) t))
    {t : RBTree K V} {up : Ctx} {pa : Nat} {Ls A B : Shape} {x : Nat}
    (h : Rep t ((up.right Ls pa).plug (.node A x B)))
    (hd : up.depth < fuel ∨ ∃ n, t.heap pa = some n ∧ n.color = .kRed) :
    Outcome (rar_step2 again t (.node x) Ls.root)
      (RarPost (up.right Ls pa) (.node A x B) t) := by
  have hpa : Rep t (up.plug (.node Ls pa (.node A x B))) := h
  obtain ⟨npa, hnpa, -⟩ := hpa.node_at
  rw [rar_step2]
  simp only [h.get_parent, Ctx.getParent, Except.bind]
  cases Ls with
  | nil =>
    simp only [nephews, hpa.leftOf, Shape.root_node, Shape.root_nil, Except.bind, reduceCtorEq,
      if_false]
    simp [RBTree.rightOf, RBTree.baseAt, Except.map]
  | node N1 s N2 =>
    have hs : Rep t ((up.left pa (.node A x B)).plug (.node N1 s N2)) := h
    have ms : s ∈ ((up.right (.node N1 s N2) pa).plug (.node A x B)).ids := by
      simp [Ctx.ids_plug, Shape.ids, Ctx.before]
    have mpa : pa ∈ ((up.right (.node N1 s N2) pa).plug (.node A x B)).ids := by
      simp [Ctx.ids_plug, Shape.ids, Ctx.before]
    obtain ⟨cr, hcr, hcr1⟩ := isRed_root N2 h (fun a ha => by
      have := Shape.mem_of_root ha
      simp [Ctx.ids_plug, Shape.ids, Ctx.before, this])
    obtain ⟨dr, hdr, -⟩ := isRed_root N1 h (fun a ha => by
      have := Shape.mem_of_root ha
      simp [Ctx.ids_plug, Shape.ids, Ctx.before, this])
    simp only [Shape.root_node, nephews_right h, hcr, hdr, Except.bind]
    by_cases hb : (!cr && !dr) = true
    · rw [if_pos hb]
      simp only [RBTree.colorOf_node hnpa, Except.bind]
      by_cases hcol : npa.color = .kRed
      · rw [if_pos hcol]
        obtain ⟨t5, e5, r5, d5⟩ := h.setColor mpa .kBlack
        obtain ⟨t6, e6, r6, d6⟩ := r5.setColor ms .kRed
        simp only [e5, e6, Except.bind, Outcome.ok_iff]
        exact ⟨up.right (.node N1 s N2) pa, r6, rfl, rfl, d5.trans_entries d6⟩
      · rw [if_neg hcol]
        have hdepth : up.depth < fuel := by
          rcases hd with hd | ⟨n, hn, hred⟩
          · exact hd
          · rw [hnpa] at hn; cases hn; exact absurd hred hcol
        obtain ⟨t5, e5, r5, d5⟩ := h.setColor ms .kRed
        simp only [e5, Except.bind]
        have r5a : Rep t5 (up.plug (.node (.node N1 s N2) pa (.node A x B))) := r5
        refine (hrec t5 up _ _ pa r5a hdepth).mono ?_
        rintro t6 ⟨d, rd, hb1, ha1, sd⟩
        exact ⟨d.right (.node N1 s N2) pa, rd, by simp [Ctx.before, hb1],
          by simpa [Ctx.after] using ha1, d5.trans_entries sd⟩
    · rw [if_neg hb]
      exact rar_fix_right h cr hcr1

theorem rar_spec (fuel : Nat) : ∀ (t : RBTree K V) (c : Ctx) (A B : Shape) (a : Nat),
    Rep t (c.plug (.node A a B)) → c.depth < fuel →
    Outcome (rebalance_after_remove_ fuel t (.node a)) (RarPost c (.node A a B) t) := by
  induction fuel with
  | zero => intro t c A B a _ hf; omega
  | succ fuel ih =>
    intro t c A B a h hf
    rw [rar_unfold]
    cases c with
    | top =>
      rw [if_pos h.root_top]
      exact ⟨.top, h, rfl, rfl, SameEntries.refl_entries t⟩
    | left up pa R =>
      rw [if_neg (h.root_ne (by simp))]
      refine (rar_step1_left h).bind ?_
      rintro ⟨t4, sib⟩ ⟨up4, Rs, r4, rfl, hb, ha, se, hd⟩
      refine (rar_step2_left ih r4 ?_).mono ?_
      · rcases hd with hd | hd
        · left; simp only [Ctx.depth] at hf; omega
        · exact Or.inr hd
      · rintro t5 ⟨d, rd, hb5, ha5, se5⟩
        refine ⟨d, rd, by simpa [Ctx.before, hb] using hb5, ?_, se.trans_entries se5⟩
        rw [ha5]; simp only [Ctx.after, List.cons_append, List.append_assoc, ha]
    | right up L pa =>
      rw [if_neg (h.root_ne (by simp))]
      refine (rar_step1_right h).bind ?_
      rintro ⟨t4, sib⟩ ⟨up4, Ls, r4, rfl, hb, ha, se, hd⟩
      refine (rar_step2_right ih r4 ?_).mono ?_
      · rcases hd with hd | hd
        · left; simp only [Ctx.depth] at hf; omega
        · exact Or.inr hd
      · rintro t5 ⟨d, rd, hb5, ha5, se5⟩
        refine ⟨d, rd, ?_, by simpa [Ctx.after, ha] using ha5, se.trans_entries se5⟩
        rw [hb5]; simp only [Ctx.before, hb]

end BabySTL

namespace BabySTL

variable {K V : Type}

/-! ## Destroying nodes and clearing the tree -/

/-- Freeing the node at `a`, as `delete node` does. -/
theorem destroy_node_spec {t : RBTree K V} {a : Nat} {na : RBTreeMapNode K V} {par : Ptr}
    (hna : t.heap a = some na) (hpar : na.parent = par)
    (hpo : par = .header ∨ ∃ q nq, par = .node q ∧ t.heap q = some nq ∧ q ≠ a) :
    ∃ t1, destroy_node_ t (.node a) = .ok t1 ∧ t1.heap a = none ∧
      (∀ y, y ≠ a → par ≠ .node y → t1.heap y = t.heap y) ∧
      (∀ q nq, par = .node q → t.heap q = some nq → ∃ nq1, t1.heap q = some nq1 ∧
        nq1.parent = nq.parent ∧
        nq1.left = (if nq.left = .node a then .null else nq.left) ∧
        nq1.right = (if nq.right = .node a then .null else nq.right) ∧
        nq1.color = nq.color ∧ nq1.key = nq.key ∧ nq1.val = nq.val) ∧
      t1.header_ = t.header_ ∧ t1.next = t.next ∧ t1.cmp_ = t.cmp_ ∧
      t1.cnt_ = (if t.cnt_ = 0 then 2 ^ 64 - 1 else t.cnt_ - 1) := by
  let mk : (Nat → Option (RBTreeMapNode K V)) → RBTree K V := fun h =>
    { header_ := t.header_, cnt_ := if t.cnt_ = 0 then 2 ^ 64 - 1 else t.cnt_ - 1,
      cmp_ := t.cmp_, heap := h, next := t.next }
  rcases hpo with rfl | ⟨q, nq, rfl, hnq, hqa⟩
  · refine ⟨mk fun x => if x = a then none else t.heap x, ?_, by simp [mk], ?_, ?_,
      rfl, rfl, rfl, rfl⟩
    · simp [destroy_node_, destroy_node, get_parent_node hna, hpar, Except.bind, hna, Except.map, mk]
    · intro y hy _; simp [hy, mk]
    · intro q nq hq; cases hq
  · by_cases hl : nq.left = .node a
    · by_cases hr : nq.right = .node a
      · refine ⟨mk fun x => if x = a then none else
            if x = q then some { nq with left := .null, right := .null } else t.heap x,
          ?_, by simp [mk], ?_, ?_, rfl, rfl, rfl, rfl⟩
        · simp [destroy_node_, destroy_node, get_parent_node hna, hpar, Except.bind, hna,
            Except.map, RBTree.leftOf, RBTree.rightOf, RBTree.baseAt, hnq, hl, hr,
            RBTree.setLeft, RBTree.setRight, RBTree.setBase, RBTree.store, hqa, Ne.symm hqa, mk]
          funext x; split_ifs <;> rfl
        · intro y hy hq
          have : y ≠ q := fun e => hq (by rw [e])
          simp [hy, this, mk]
        · intro q1 nq1 hq1 hn1
          cases hq1
          rw [hnq] at hn1; cases hn1
          exact ⟨{ nq with left := .null, right := .null }, by simp [hqa, mk], rfl, by simp [hl], by simp [hr], rfl, rfl, rfl⟩
      · refine ⟨mk fun x => if x = a then none else
            if x = q then some { nq with left := .null } else t.heap x,
          ?_, by simp [mk], ?_, ?_, rfl, rfl, rfl, rfl⟩
        · simp [destroy_node_, destroy_node, get_parent_node hna, hpar, Except.bind, hna,
            Except.map, RBTree.leftOf, RBTree.rightOf, RBTree.baseAt, hnq, hl, hr,
            RBTree.setLeft, RBTree.setRight, RBTree.setBase, RBTree.store, hqa, Ne.symm hqa, mk]
        · intro y hy hq
          have : y ≠ q := fun e => hq (by rw [e])
          simp [hy, this, mk]
        · intro q1 nq1 hq1 hn1
          cases hq1
          rw [hnq] at hn1; cases hn1
          exact ⟨{ nq with left := .null }, by simp [hqa, mk], rfl, by simp [hl], by simp [hr], rfl, rfl, rfl⟩
    · by_cases hr : nq.right = .node a
      · refine ⟨mk fun x => if x = a then none else
            if x = q then some { nq with right := .null } else t.heap x,
          ?_, by simp [mk], ?_, ?_, rfl, rfl, rfl, rfl⟩
        · simp [destroy_node_, destroy_node, get_parent_node hna, hpar, Except.bind, hna,
            Except.map, RBTree.leftOf, RBTree.rightOf, RBTree.baseAt, hnq, hl, hr,
            RBTree.setLeft, RBTree.setRight, RBTree.setBase, RBTree.store, hqa, Ne.symm hqa, mk]
        · intro y hy hq
          have : y ≠ q := fun e => hq (by rw [e])
          simp [hy, this, mk]
        · intro q1 nq1 hq1 hn1
          cases hq1
          rw [hnq] at hn1; cases hn1
          exact ⟨{ nq with right := .null }, by simp [hqa, mk], rfl, by simp [hl], by simp [hr], rfl, rfl, rfl⟩
      · refine ⟨mk fun x => if x = a then none else t.heap x, ?_, by simp [mk], ?_, ?_,
          rfl, rfl, rfl, rfl⟩
        · simp [destroy_node_, destroy_node, get_parent_node hna, hpar, Except.bind, hna,
            Except.map, RBTree.leftOf, RBTree.rightOf, RBTree.baseAt, hnq, hl, hr, mk]
        · intro y hy hq
          simp [hy, mk]
        · intro q1 nq1 hq1 hn1
          cases hq1
          rw [hnq] at hn1; cases hn1
          exact ⟨nq, by simp [hqa, hnq, mk], rfl, by simp [hl], by simp [hr], rfl, rfl, rfl⟩


theorem clear__spec (fuel : Nat) : ∀ (t : RBTree K V) (par p : Ptr) (X : Shape),
    Repr t.heap par p X → X.ids.Nodup → X.height < fuel →
    (par = .header ∨ ∃ q nq, par = .node q ∧ t.heap q = some nq ∧ q ∉ X.ids) →
    ∃ t1, clear_ fuel t p = .ok t1 ∧
      (∀ y ∈ X.ids, t1.heap y = none) ∧
      (∀ y, y ∉ X.ids → par ≠ .node y → t1.heap y = t.heap y) ∧
      (∀ q nq, par = .node q → t.heap q = some nq → ∃ nq1, t1.heap q = some nq1 ∧
        nq1.parent = nq.parent ∧
        nq1.left = (if nq.left = p then .null else nq.left) ∧
        nq1.right = (if nq.right = p then .null else nq.right)) ∧
      t1.header_ = t.header_ ∧ t1.next = t.next ∧ t1.cmp_ = t.cmp_ := by
  induction fuel with
  | zero => intro t par p X _ _ hh; omega
  | succ fuel ih =>
    intro t par p X hr hnd hh hpo
    cases X with
    | nil =>
      have : p = .null := by simpa [Repr] using hr
      subst this
      refine ⟨t, by simp [clear_], by simp [Shape.ids], fun _ _ _ => rfl, ?_, rfl, rfl, rfl⟩
      intro q nq _ hq
      refine ⟨nq, hq, rfl, ?_, ?_⟩ <;> split <;> simp_all
    | node A a B =>
      obtain ⟨rfl, na, hna, hpar, hA, hB⟩ := hr
      simp only [Shape.ids] at hnd
      simp only [Shape.height] at hh
      have hcount := fun x => List.nodup_iff_count_le_one.mp hnd x
      simp only [List.count_append, List.count_cons, List.count_nil] at hcount
      have haA : a ∉ A.ids := by
        intro h; have h1 := List.count_pos_iff.mpr h; have := hcount a; simp at this; omega
      have haB : a ∉ B.ids := by
        intro h; have h1 := List.count_pos_iff.mpr h; have := hcount a; simp at this; omega
      have hAB : ∀ y, y ∈ A.ids → y ∉ B.ids := by
        intro y h1 h2
        have := hcount y
        have := List.count_pos_iff.mpr h1
        have := List.count_pos_iff.mpr h2
        omega
      have ndA : A.ids.Nodup := by
        rw [List.nodup_iff_count_le_one]; intro x; have := hcount x; omega
      have ndB : B.ids.Nodup := by
        rw [List.nodup_iff_count_le_one]; intro x; have := hcount x; omega
      -- left subtree
      obtain ⟨t1, e1, a1, b1, c1, h1, n1, m1⟩ :=
        ih t (.node a) na.left A hA ndA (by omega) (Or.inr ⟨a, na, rfl, hna, haA⟩)
      obtain ⟨na1, hna1, hp1, hl1, hr1⟩ := c1 a na rfl hna
      have hr1b : na1.right = na.right := by
        rw [hr1]
        split
        · next e =>
          rw [hA.root_eq] at e
          rw [hB.root_eq] at e ⊢
          cases B with
          | nil => rfl
          | node B1 b B2 =>
            exact absurd (Shape.mem_of_root e.symm) (fun h => hAB b h (by simp [Shape.ids]))
        · rfl
      have hB1 : Repr t1.heap (.node a) na1.right B := by
        rw [hr1b]
        refine hB.congr fun y hy => b1 y (fun h => hAB y h hy) ?_
        intro e; cases e; exact haB hy
      -- right subtree
      obtain ⟨t2, e2, a2, b2, c2, h2, n2, m2⟩ :=
        ih t1 (.node a) na1.right B hB1 ndB (by omega) (Or.inr ⟨a, na1, rfl, hna1, haB⟩)
      obtain ⟨na2, hna2, hp2, -, -⟩ := c2 a na1 rfl hna1
      have hpar2 : na2.parent = par := by rw [hp2, hp1, hpar]
      have hkeep : ∀ y, y ∉ A.ids → y ≠ a → y ∉ B.ids → t2.heap y = t.heap y := by
        intro y h1 h2 h3
        rw [b2 y h3 (by intro e; cases e; exact h2 rfl), b1 y h1 (by intro e; cases e; exact h2 rfl)]
      have hpo2 : par = .header ∨ ∃ q nq, par = .node q ∧ t2.heap q = some nq ∧ q ≠ a := by
        rcases hpo with h | ⟨q, nq, hq, hnq, hqX⟩
        · exact Or.inl h
        · simp only [Shape.ids, List.mem_append, List.mem_cons, not_or] at hqX
          exact Or.inr ⟨q, nq, hq, by rw [hkeep q hqX.1 hqX.2.1 hqX.2.2]; exact hnq, hqX.2.1⟩
      obtain ⟨t3, e3, a3, b3, c3, h3, n3, m3, -⟩ := destroy_node_spec hna2 hpar2 hpo2
      refine ⟨t3, ?_, ?_, ?_, ?_, by rw [h3, h2, h1], by rw [n3, n2, n1], by rw [m3, m2, m1]⟩
      · rw [clear_]
        simp only [reduceCtorEq, if_false, RBTree.leftOf_node hna, Except.bind, e1,
          RBTree.rightOf_node hna1, e2, e3]
      · intro y hy
        simp only [Shape.ids, List.mem_append, List.mem_cons] at hy
        by_cases hya : y = a
        · rw [hya]; exact a3
        · have hpy : par ≠ .node y := by
            rcases hpo with h | ⟨q, nq, hq, hnq, hqX⟩
            · rw [h]; simp
            · rw [hq]; intro e; cases e
              exact hqX (by simp only [Shape.ids, List.mem_append, List.mem_cons]; exact hy)
          rw [b3 y hya hpy]
          rcases hy with hy | hy | hy
          · rw [b2 y (hAB y hy) (by intro e; cases e; exact hya rfl)]; exact a1 y hy
          · exact absurd hy hya
          · exact a2 y hy
      · intro y hy hpy
        simp only [Shape.ids, List.mem_append, List.mem_cons, not_or] at hy
        rw [b3 y hy.2.1 hpy, hkeep y hy.1 hy.2.1 hy.2.2]
      · intro q nq hq hnq
        have hqX : q ∉ (Shape.node A a B).ids := by
          rcases hpo with h | ⟨q1, nq1, hq1, -, hqX⟩
          · rw [h] at hq; cases hq
          · rw [hq1] at hq; cases hq; exact hqX
        simp only [Shape.ids, List.mem_append, List.mem_cons, not_or] at hqX
        have hnq2 : t2.heap q = some nq := by
          rw [hkeep q hqX.1 hqX.2.1 hqX.2.2]; exact hnq
        obtain ⟨nq3, hnq3, hp3, hl3, hr3, -⟩ := c3 q nq hq hnq2
        exact ⟨nq3, hnq3, hp3, hl3, hr3⟩


theorem clear_spec {t : RBTree K V} {s : Shape} (h : Inv t s) :
    ∃ t1, clear t = .ok t1 ∧ Inv t1 .nil ∧ t1.cmp_ = t.cmp_ ∧ t1.next = t.next ∧
      (∀ y ∈ s.ids, t1.heap y = none) ∧ (∀ y, y ∉ s.ids → t1.heap y = t.heap y) ∧
      t1.header_ = { parent := .null, left := .header, right := .header } ∧ t1.cnt_ = 0 := by
  have hh : s.height < t.next + 1 := Nat.lt_succ_of_le h.height_le
  obtain ⟨t1, e1, a1, b1, -, -, n1, m1⟩ :=
    clear__spec (t.next + 1) t .header t.header_.parent s h.rep.1 h.rep.2 hh (Or.inl rfl)
  let hd : NodeBase := { parent := .null, left := .header, right := .header }
  let t2 : RBTree K V := { t1 with header_ := hd, cnt_ := 0 }
  refine ⟨t2, by simp [clear, e1, Except.map, t2, hd], ⟨⟨by simp [Repr, t2, hd],
    by simp [Shape.ids]⟩, by simp [Shape.ids, t2], by simp [Shape.ids]⟩, m1, n1, a1,
    fun y hy => b1 y hy (by simp), rfl, rfl⟩

end BabySTL

namespace BabySTL
variable {K V : Type}

/-! ## Unlinking a node -/

theorem Except.bind_assoc3 {α β γ : Type} (x : Except Err α) (f : α → Except Err β)
    (g : β → Except Err γ) : (x.bind f).bind g = x.bind fun a => (f a).bind g := by
  cases x <;> rfl

theorem remove_found_unfold (t : RBTree K V) (node0 : Ptr) :
    remove_found t node0 =
      if t.cnt_ = 1 then (clear t).map fun t1 => (t1, true) else
      (remove_pick t node0).bind fun tn => remove_node tn.1 tn.2 := by
  unfold remove_found remove_pick
  split
  · rfl
  · simp only [Except.bind_assoc3]
    rfl

/-- Deleting a node that no parent slot points at any more. -/
theorem destroy_node_detached {t : RBTree K V} {a : Nat} {na : RBTreeMapNode K V}
    (hna : t.heap a = some na)
    (hpo : na.parent = .header ∨ ∃ q nq, na.parent = .node q ∧ t.heap q = some nq ∧
      nq.left ≠ .node a ∧ nq.right ≠ .node a) :
    ∃ t1, destroy_node_ t (.node a) = .ok t1 ∧ t1.heap a = none ∧
      (∀ y, y ≠ a → t1.heap y = t.heap y) ∧
      t1.header_ = t.header_ ∧ t1.next = t.next ∧ t1.cmp_ = t.cmp_ ∧
      t1.cnt_ = (if t.cnt_ = 0 then 2 ^ 64 - 1 else t.cnt_ - 1) := by
  let mk : (Nat → Option (RBTreeMapNode K V)) → RBTree K V := fun h =>
    { header_ := t.header_, cnt_ := if t.cnt_ = 0 then 2 ^ 64 - 1 else t.cnt_ - 1,
      cmp_ := t.cmp_, heap := h, next := t.next }
  refine ⟨mk fun x => if x = a then none else t.heap x, ?_, by simp [mk],
    fun y hy => by simp [mk, hy], rfl, rfl, rfl, rfl⟩
  rcases hpo with hp | ⟨q, nq, hp, hnq, hl, hr⟩
  · simp [destroy_node_, destroy_node, get_parent_node hna, hp, Except.bind, hna, Except.map, mk]
  · simp [destroy_node_, destroy_node, get_parent_node hna, hp, Except.bind, hna,
      Except.map, RBTree.leftOf, RBTree.rightOf, RBTree.baseAt, hnq, hl, hr, mk]

theorem leftmost_spec (fuel : Nat) : ∀ (t : RBTree K V) (c : Ctx) (L : Shape) (b : Nat)
    (R : Shape), Rep t (c.plug (.node L b R)) → (Shape.node L b R).height ≤ fuel →
    ∃ (d : Ctx) (m : Nat) (R2 : Shape), leftmost fuel t (.node b) = .ok (.node m) ∧
      d.plug (.node .nil m R2) = c.plug (.node L b R) ∧ d.before = c.before := by
  induction fuel with
  | zero => intro t c L b R _ hh; simp [Shape.height] at hh
  | succ fuel ih =>
    intro t c L b R h hh
    simp only [Shape.height] at hh
    rw [leftmost, h.leftOf]
    cases L with
    | nil => exact ⟨c, b, R, by simp [Except.bind], rfl, rfl⟩
    | node L1 l L2 =>
      simp only [Shape.root_node, Except.bind, ne_eq, reduceCtorEq, not_false_eq_true, if_true]
      obtain ⟨d, m, R2, e, hs, hb⟩ := ih t (c.left b R) L1 l L2 h (by omega)
      exact ⟨d, m, R2, e, hs, hb⟩

theorem swap_spec {t : RBTree K V} {s : Shape} {m a : Nat} (h : Rep t s) (hm : m ∈ s.ids)
    (ha : a ∈ s.ids) :
    ∃ t1, swap t (.node m) (.node a) = .ok t1 ∧ Rep t1 s ∧ t1.cnt_ = t.cnt_ ∧
      t1.next = t.next ∧ t1.cmp_ = t.cmp_ ∧ t1.header_ = t.header_ ∧
      t1.entryAt m = t.entryAt a ∧ t1.entryAt a = t.entryAt m ∧
      ∀ y, y ≠ m → y ≠ a → t1.entryAt y = t.entryAt y := by
  obtain ⟨nm, hnm⟩ := h.heap_of_mem hm
  obtain ⟨na, hna⟩ := h.heap_of_mem ha
  by_cases e : a = m
  · subst e
    rw [hnm] at hna; cases hna
    refine ⟨(t.store a { nm with key := nm.key, val := nm.val }).store a
        { nm with key := nm.key, val := nm.val }, ?_, ?_, rfl, rfl, rfl, rfl, ?_, ?_, ?_⟩
    · simp [swap, RBTree.nodeAt, hnm, Except.bind, RBTree.setNode]
    · exact (h.store_links { nm with key := nm.key, val := nm.val } hnm rfl).store_links (a := a)
        (n := { nm with key := nm.key, val := nm.val })
        { nm with key := nm.key, val := nm.val } (by simp) rfl
    · simp [RBTree.entryAt, hnm]
    · simp [RBTree.entryAt, hnm]
    · intro y hy _; simp [RBTree.entryAt, hy]
  · have e2 : m ≠ a := fun h => e h.symm
    refine ⟨(t.store m { nm with key := na.key, val := na.val }).store a
        { na with key := nm.key, val := nm.val }, ?_, ?_, rfl, rfl, rfl, rfl, ?_, ?_, ?_⟩
    · simp [swap, RBTree.nodeAt, hnm, hna, Except.bind, RBTree.setNode, e]
    · exact (h.store_links { nm with key := na.key, val := na.val } hnm rfl).store_links (a := a)
        (n := na) { na with key := nm.key, val := nm.val } (by simp [e, hna]) rfl
    · simp [RBTree.entryAt, hna, e2]
    · simp [RBTree.entryAt, hnm]
    · intro y hy1 hy2; simp [RBTree.entryAt, hy1, hy2]


theorem splice_at_spec {t : RBTree K V} {d : Ctx} {n r : Nat} {S1 S2 : Shape}
    {nn : RBTreeMapNode K V}
    (hc : ReprC t.heap t.header_.parent d (.node n)) (hn : t.heap n = some nn)
    (hnp : nn.parent = d.parentPtr)
    (hSub : Repr t.heap (.node n) (.node r) (.node S1 r S2))
    (hnd : (n :: (d.before ++ (Shape.node S1 r S2).ids ++ d.after)).Nodup) :
    Outcome (splice_at t (.node n) (.node r))
      (Unlinked t d.before ((Shape.node S1 r S2).ids ++ d.after) n) := by
  obtain ⟨-, nr, hr, -, hS1, hS2⟩ := hSub
  have hcount := fun x => List.nodup_iff_count_le_one.mp hnd x
  simp only [Shape.ids, List.count_append, List.count_cons, List.count_nil] at hcount
  have hnr : n ≠ r := by rintro rfl; have := hcount n; simp at this
  have hnc : n ∉ d.before ∧ n ∉ d.after := by
    constructor <;> intro h <;> have h1 := List.count_pos_iff.mpr h <;>
      have := hcount n <;> simp at this <;> omega
  have hrc : r ∉ d.before ∧ r ∉ d.after := by
    constructor <;> intro h <;> have h1 := List.count_pos_iff.mpr h <;>
      have := hcount r <;> simp at this <;> omega
  have hcnd : (d.before ++ d.after).Nodup := by
    rw [List.nodup_iff_count_le_one]; intro x
    have := hcount x; simp only [List.count_append]; omega
  have hSfr : ∀ x, x ∈ S1.ids ∨ x ∈ S2.ids → x ≠ n ∧ x ≠ r ∧ x ∉ d.before ∧ x ∉ d.after := by
    intro x hx
    have hc := hcount x
    have hx1 : 0 < List.count x S1.ids + List.count x S2.ids := by
      rcases hx with hx | hx <;> have := List.count_pos_iff.mpr hx <;> omega
    refine ⟨?_, ?_, ?_, ?_⟩
    · rintro rfl; simp at hc; omega
    · rintro rfl; simp at hc; omega
    all_goals intro h; have h1 := List.count_pos_iff.mpr h; omega
  have hz : ((d.plug (.node S1 r S2)).ids).Nodup := by
    rw [Ctx.ids_plug, List.nodup_iff_count_le_one]; intro x
    have := hcount x
    simp only [Shape.ids, List.count_append, List.count_cons]
    omega
  obtain ⟨t4, e4, hc4, hr4, hfr4, hsd4⟩ := relink_spec hc hr hcnd hnc hrc
  have gp : get_parent t (.node n) = .ok d.getParent := by
    rw [get_parent_node hn, hnp, Ctx.getParent_eq]
  have e5 := RBTree.setColor_node hr4 .kBlack
  -- the node to destroy is still in the store, detached from its former parent
  have hn4 : t4.heap n = some nn := by rw [hfr4 n hnr hnc.1 hnc.2]; exact hn
  have hdet : ∀ (u : RBTree K V), u.heap = (t4.store r
      { nr with parent := d.parentPtr, color := .kBlack }).heap →
      ∃ t1, destroy_node_ u (.node n) = .ok t1 ∧ t1.heap n = none ∧
        (∀ y, y ≠ n → t1.heap y = u.heap y) ∧ t1.header_ = u.header_ ∧ t1.next = u.next ∧
        t1.cmp_ = u.cmp_ ∧ t1.cnt_ = (if u.cnt_ = 0 then 2 ^ 64 - 1 else u.cnt_ - 1) := by
    intro u hu
    have hun : u.heap n = some nn := by rw [hu]; simp [hnr, hn4]
    refine destroy_node_detached hun ?_
    rw [hnp]
    cases d with
    | top => exact Or.inl rfl
    | left up pa R =>
      obtain ⟨npa, hpa, hl, -, hR, -⟩ := hc4
      have hpr : pa ≠ r := by rintro rfl; simp [Ctx.after] at hrc
      refine Or.inr ⟨pa, npa, rfl, by rw [hu]; simp [hpr, hpa], by rw [hl]; simp [hnr.symm], ?_⟩
      rw [hR.root_eq]
      exact Shape.root_ne_of_not_mem (fun h => hnc.2 (by simp [Ctx.after, h]))
    | right up L pa =>
      obtain ⟨npa, hpa, hl, -, hL, -⟩ := hc4
      have hpr : pa ≠ r := by rintro rfl; simp [Ctx.before] at hrc
      refine Or.inr ⟨pa, npa, rfl, by rw [hu]; simp [hpr, hpa], ?_, by rw [hl]; simp [hnr.symm]⟩
      rw [hL.root_eq]
      exact Shape.root_ne_of_not_mem (fun h => hnc.1 (by simp [Ctx.before, h]))
  have key : ∀ u : RBTree K V,
      u.heap = (t4.store r { nr with parent := d.parentPtr, color := .kBlack }).heap →
      u.header_.parent = t4.header_.parent → u.next = t.next → u.cmp_ = t.cmp_ →
      u.cnt_ = t.cnt_ →
      Outcome ((destroy_node_ u (.node n)).map fun t8 => (t8, true))
        (Unlinked t d.before ((Shape.node S1 r S2).ids ++ d.after) n) := by
    intro u hu hup hun huc huk
    obtain ⟨t8, e8, -, h8f, h8h, h8x, h8c, h8k⟩ := hdet u hu
    have hfr8 : ∀ y, y ≠ n → y ≠ r → t8.heap y = t4.heap y := by
      intro y h1 h2; rw [h8f y h1, hu]; simp [h2]
    have h8r : t8.heap r = some { nr with parent := d.parentPtr, color := .kBlack } := by
      rw [h8f r hnr.symm, hu]; simp
    rw [e8]
    simp only [Except.map, Outcome.ok_iff]
    refine ⟨rfl, ⟨d.plug (.node S1 r S2), ⟨?_, hz⟩, by rw [Ctx.ids_plug]; simp⟩,
      by rw [h8k, huk], by rw [h8x, hun], by rw [h8c, huc], ?_⟩
    · rw [Repr.plug_iff]
      refine ⟨.node r, ?_, rfl, { nr with parent := d.parentPtr, color := .kBlack }, h8r, rfl,
        ?_, ?_⟩
      · rw [h8h, hup]
        refine hc4.congr_ctx fun x hx => ?_
        have h1 : x ≠ n := by rintro rfl; tauto
        have h2 : x ≠ r := by rintro rfl; tauto
        exact hfr8 x h1 h2
      · refine hS1.congr fun x hx => ?_
        obtain ⟨h1, h2, h3, h4⟩ := hSfr x (Or.inl hx)
        rw [hfr8 x h1 h2, hfr4 x h2 h3 h4]
      · refine hS2.congr fun x hx => ?_
        obtain ⟨h1, h2, h3, h4⟩ := hSfr x (Or.inr hx)
        rw [hfr8 x h1 h2, hfr4 x h2 h3 h4]
    · intro y hy
      by_cases e : y = r
      · subst e
        simp [RBTree.entryAt, h8r, hr]
      · have := hsd4.toEntries.entry y
        simp only [RBTree.entryAt] at this ⊢
        rw [hfr8 y hy e]; exact this
  simp only [splice_at, gp, e4, e5, Except.bind]
  refine key _ ?_ ?_ ?_ ?_ ?_
  · split_ifs <;> rfl
  · split_ifs <;> rfl
  · split_ifs <;> simp [hsd4.next]
  · split_ifs <;> simp [hsd4.cmp]
  · split_ifs <;> simp [hsd4.cnt]

theorem Ctx.ne_top_of_before_after {c d : Ctx} (hc : c ≠ .top) (hb : d.before = c.before)
    (ha : d.after = c.after) : d ≠ .top := by
  rintro rfl
  cases c with
  | top => exact hc rfl
  | left up a r => simp [Ctx.after] at ha
  | right up l a => simp [Ctx.before] at hb

/-- Freeing a leaf that hangs below another node. -/
theorem unlink_leaf_spec {t u : RBTree K V} {d : Ctx} {a : Nat}
    (h : Rep t (d.plug (.node .nil a .nil))) (hd : d ≠ .top)
    (hu : u.heap = t.heap) (hup : u.header_.parent = t.header_.parent) :
    ∃ t1, destroy_node_ u (.node a) = .ok t1 ∧ Rep t1 (d.plug .nil) ∧
      t1.cnt_ = (if u.cnt_ = 0 then 2 ^ 64 - 1 else u.cnt_ - 1) ∧ t1.next = u.next ∧
      t1.cmp_ = u.cmp_ ∧ ∀ y, y ≠ a → t1.entryAt y = t.entryAt y := by
  obtain ⟨na, hna, hpa, -, -⟩ := h.node_at
  have hnd := h.2
  cases d with
  | top => exact absurd rfl hd
  | left up q R =>
    have h1 : Rep t (up.plug (.node (.node .nil a .nil) q R)) := h
    obtain ⟨nq, hnq, hqp, hql, hqr⟩ := h1.node_at
    rw [Ctx.ids_plug] at hnd
    have hcount := fun x => List.nodup_iff_count_le_one.mp hnd x
    simp only [Shape.ids, Ctx.before, Ctx.after, List.count_append, List.count_cons, List.count_nil] at hcount
    have hqa : q ≠ a := by rintro rfl; have := hcount q; simp at this; omega
    have hfr0 : ∀ x, x ∈ up.before ∨ x ∈ R.ids ∨ x ∈ up.after → x ≠ a ∧ x ≠ q := by
      intro x hx
      have hc := hcount x
      have hx1 : 0 < List.count x up.before + List.count x R.ids + List.count x up.after := by
        rcases hx with hx | hx | hx <;> have := List.count_pos_iff.mpr hx <;> omega
      constructor
      · rintro rfl; simp at hc; omega
      · rintro rfl; simp at hc; omega
    obtain ⟨t1, e1, -, hfr, hq1, hh, hx, hc, hk⟩ := destroy_node_spec (t := u)
      (by rw [hu]; exact hna) hpa (Or.inr ⟨q, nq, rfl, by rw [hu]; exact hnq, hqa⟩)
    obtain ⟨nq1, hnq1, hp1, hl1, hr1, -, hkey, hval⟩ := hq1 q nq rfl (by rw [hu]; exact hnq)
    have hfr1 : ∀ x, x ≠ a → x ≠ q → t1.heap x = t.heap x := by
      intro x h1 h2
      rw [hfr x h1 (by simp [Ctx.parentPtr]; exact fun e => h2 e.symm), hu]
    refine ⟨t1, e1, ⟨?_, ?_⟩, hk, hx, hc, ?_⟩
    · obtain ⟨p, hC, hS⟩ := (Repr.plug_iff up _).mp h1.1
      obtain ⟨hp, nq2, hnq2, hpar2, hL, hR⟩ := hS
      rw [hnq] at hnq2; cases hnq2
      show Repr t1.heap .header t1.header_.parent (up.plug (.node .nil q R))
      rw [Repr.plug_iff, hh, hup]
      refine ⟨p, hC.congr_ctx fun x hx => ?_, hp, nq1, hnq1, by rw [hp1, hpar2], ?_, ?_⟩
      · exact hfr1 x (hfr0 x (by tauto)).1 (hfr0 x (by tauto)).2
      · rw [hl1, hql]; simp [Repr]
      · rw [hr1, if_neg]
        · exact hR.congr fun x hx => hfr1 x (hfr0 x (by tauto)).1 (hfr0 x (by tauto)).2
        · rw [hqr]
          intro e
          have := Shape.mem_of_root e
          exact (hfr0 a (by tauto)).1 rfl
    · show ((up.plug (.node .nil q R)).ids).Nodup
      rw [Ctx.ids_plug, List.nodup_iff_count_le_one]; intro x
      have := hcount x
      simp only [Shape.ids, Ctx.before, Ctx.after, List.count_append, List.count_cons, List.count_nil]
      omega
    · intro y hy
      by_cases e : y = q
      · subst e
        simp [RBTree.entryAt, hnq1, hnq, hkey, hval]
      · simp only [RBTree.entryAt]; rw [hfr1 y hy e]
  | right up L q =>
    have h1 : Rep t (up.plug (.node L q (.node .nil a .nil))) := h
    obtain ⟨nq, hnq, hqp, hql, hqr⟩ := h1.node_at
    rw [Ctx.ids_plug] at hnd
    have hcount := fun x => List.nodup_iff_count_le_one.mp hnd x
    simp only [Shape.ids, Ctx.before, Ctx.after, List.count_append, List.count_cons, List.count_nil] at hcount
    have hqa : q ≠ a := by rintro rfl; have := hcount q; simp at this; omega
    have hfr0 : ∀ x, x ∈ up.before ∨ x ∈ L.ids ∨ x ∈ up.after → x ≠ a ∧ x ≠ q := by
      intro x hx
      have hc := hcount x
      have hx1 : 0 < List.count x up.before + List.count x L.ids + List.count x up.after := by
        rcases hx with hx | hx | hx <;> have := List.count_pos_iff.mpr hx <;> omega
      constructor
      · rintro rfl; simp at hc; omega
      · rintro rfl; simp at hc; omega
    obtain ⟨t1, e1, -, hfr, hq1, hh, hx, hc, hk⟩ := destroy_node_spec (t := u)
      (by rw [hu]; exact hna) hpa (Or.inr ⟨q, nq, rfl, by rw [hu]; exact hnq, hqa⟩)
    obtain ⟨nq1, hnq1, hp1, hl1, hr1, -, hkey, hval⟩ := hq1 q nq rfl (by rw [hu]; exact hnq)
    have hfr1 : ∀ x, x ≠ a → x ≠ q → t1.heap x = t.heap x := by
      intro x h1 h2
      rw [hfr x h1 (by simp [Ctx.parentPtr]; exact fun e => h2 e.symm), hu]
    refine ⟨t1, e1, ⟨?_, ?_⟩, hk, hx, hc, ?_⟩
    · obtain ⟨p, hC, hS⟩ := (Repr.plug_iff up _).mp h1.1
      obtain ⟨hp, nq2, hnq2, hpar2, hL, hR⟩ := hS
      rw [hnq] at hnq2; cases hnq2
      show Repr t1.heap .header t1.header_.parent (up.plug (.node L q .nil))
      rw [Repr.plug_iff, hh, hup]
      refine ⟨p, hC.congr_ctx fun x hx => ?_, hp, nq1, hnq1, by rw [hp1, hpar2], ?_, ?_⟩
      · exact hfr1 x (hfr0 x (by tauto)).1 (hfr0 x (by tauto)).2
      · rw [hl1, if_neg]
        · exact hL.congr fun x hx => hfr1 x (hfr0 x (by tauto)).1 (hfr0 x (by tauto)).2
        · rw [hql]
          intro e
          have := Shape.mem_of_root e
          exact (hfr0 a (by tauto)).1 rfl
      · rw [hr1, hqr]; simp [Repr]
    · show ((up.plug (.node L q .nil)).ids).Nodup
      rw [Ctx.ids_plug, List.nodup_iff_count_le_one]; intro x
      have := hcount x
      simp only [Shape.ids, Ctx.before, Ctx.after, List.count_append, List.count_cons, List.count_nil]
      omega
    · intro y hy
      by_cases e : y = q
      · subst e
        simp [RBTree.entryAt, hnq1, hnq, hkey, hval]
      · simp only [RBTree.entryAt]; rw [hfr1 y hy e]

/-- Case 3 of `remove_`: a leaf below another node is unlinked. -/
theorem remove_leaf_spec {t : RBTree K V} {c : Ctx} {a : Nat}
    (h : Rep t (c.plug (.node .nil a .nil))) (hc : c ≠ .top)
    (hf : ∀ x ∈ (c.plug (.node .nil a .nil)).ids, x < t.next) :
    Outcome (remove_leaf t (.node a)) (Unlinked t c.before c.after a) := by
  obtain ⟨na, hna, -⟩ := h.node_at
  unfold remove_leaf
  rw [RBTree.colorOf_node hna]
  simp only [Except.bind]
  refine Outcome.bind (P := RarPost c (.node .nil a .nil) t) ?_ ?_
  · split
    · have := h.depth_lt hf
      exact rar_spec (t.next + 1) t c .nil .nil a h (by omega)
    · exact ⟨c, h, rfl, rfl, SameEntries.refl_entries t⟩
  · rintro t3 ⟨d, h3, hb, ha, hse⟩
    have hd := Ctx.ne_top_of_before_after hc hb ha
    rw [h3.parentOf]
    simp only [Except.bind]
    have key : ∀ u : RBTree K V, u.heap = t3.heap → u.header_.parent = t3.header_.parent →
        u.next = t3.next → u.cmp_ = t3.cmp_ → u.cnt_ = t3.cnt_ →
        Outcome ((destroy_node_ u (.node a)).map fun t6 => (t6, true))
          (Unlinked t c.before c.after a) := by
      intro u hu hup hun huc huk
      obtain ⟨t1, e1, hr1, hk1, hx1, hc1, he1⟩ := unlink_leaf_spec h3 hd hu hup
      rw [e1]
      simp only [Except.map, Outcome.ok_iff]
      refine ⟨rfl, ⟨d.plug .nil, hr1, by rw [Ctx.ids_plug, hb, ha]; simp [Shape.ids]⟩,
        by rw [hk1, huk, hse.cnt], by rw [hx1, hun, hse.next], by rw [hc1, huc, hse.cmp], ?_⟩
      intro y hy
      rw [he1 y hy, hse.entry]
    refine key _ ?_ ?_ ?_ ?_ ?_
    · split_ifs <;> rfl
    · split_ifs <;> rfl
    · split_ifs <;> rfl
    · split_ifs <;> rfl
    · split_ifs <;> rfl

/-- Second part of `remove_found`: a node with at most one child is unlinked. -/
theorem remove_node_spec {t : RBTree K V} {c : Ctx} {L R : Shape} {a : Nat}
    (h : Rep t (c.plug (.node L a R))) (hLR : L = .nil ∨ R = .nil)
    (hc : L = .nil → R = .nil → c ≠ .top)
    (hf : ∀ x ∈ (c.plug (.node L a R)).ids, x < t.next) :
    Outcome (remove_node t (.node a)) (Unlinked t c.before (L.ids ++ R.ids ++ c.after) a) := by
  obtain ⟨p, hC, hS⟩ := (Repr.plug_iff c _).mp h.1
  obtain ⟨hp, na, hna, hpar, hL, hR⟩ := hS
  subst hp
  have hnd : (a :: (c.before ++ (L.ids ++ R.ids) ++ c.after)).Nodup := by
    have := h.2
    rw [Ctx.ids_plug] at this
    rw [List.nodup_iff_count_le_one] at this ⊢
    intro x
    have := this x
    simp only [Shape.ids, List.count_append, List.count_cons] at this ⊢
    omega
  unfold remove_node
  rw [h.leftOf, h.rightOf]
  cases L with
  | node S1 r S2 =>
    have hR0 : R = .nil := by rcases hLR with e | e; cases e; exact e
    subst hR0
    have hl : na.left = .node r := hL.1
    simp only [Shape.root_node, Except.bind, ne_eq, reduceCtorEq, not_false_eq_true, if_true,
      remove_splice]
    rw [h.leftOf]
    simp only [Shape.root_node, Except.bind, reduceCtorEq, if_false]
    have := splice_at_spec hC hna hpar (hl ▸ hL) (by simpa [Shape.ids] using hnd)
    simpa [Shape.ids] using this
  | nil =>
    cases R with
    | node S1 r S2 =>
      have hr : na.right = .node r := hR.1
      simp only [Shape.root_node, Shape.root_nil, Except.bind, Except.map, ne_eq, reduceCtorEq,
        not_false_eq_true, not_true_eq_false, if_true, if_false, decide_True, remove_splice]
      rw [h.leftOf, h.rightOf]
      simp only [Shape.root_node, Shape.root_nil, Except.bind, if_true]
      have := splice_at_spec hC hna hpar (hr ▸ hR) (by simpa [Shape.ids] using hnd)
      simpa [Shape.ids] using this
    | nil =>
      simp only [Shape.root_nil, Except.bind, Except.map, ne_eq, not_true_eq_false, if_false,
        decide_False, Bool.false_eq_true]
      have := remove_leaf_spec h (hc rfl rfl) hf
      simpa [Shape.ids] using this

/-- First part of `remove_found`: the node picked for unlinking has at most one
child, and exchanging payloads with the successor keeps the entry sequence. -/
theorem remove_pick_spec {t : RBTree K V} {c : Ctx} {L R : Shape} {a : Nat}
    (h : Rep t (c.plug (.node L a R)))
    (hf : ∀ x ∈ (c.plug (.node L a R)).ids, x < t.next) :
    ∃ (t1 : RBTree K V) (d : Ctx) (m : Nat) (L1 R1 : Shape) (X Y : List Nat),
      remove_pick t (.node a) = .ok (t1, .node m) ∧
      Rep t1 (d.plug (.node L1 m R1)) ∧ d.plug (.node L1 m R1) = c.plug (.node L a R) ∧
      (L1 = .nil ∨ R1 = .nil) ∧ t1.cnt_ = t.cnt_ ∧ t1.next = t.next ∧ t1.cmp_ = t.cmp_ ∧
      (c.plug (.node L a R)).ids = X ++ a :: Y ∧
      (d.before ++ (L1.ids ++ R1.ids ++ d.after)).map t1.entryAt = (X ++ Y).map t.entryAt := by
  have hone : (L = .nil ∨ R = .nil) → remove_pick t (.node a) = .ok (t, .node a) := by
    intro hLR
    unfold remove_pick
    rw [h.leftOf, h.rightOf]
    rcases hLR with e | e
    · subst e; simp [Except.bind]
    · subst e; cases L <;> simp [Except.bind, Except.map]
  have hgen : (L = .nil ∨ R = .nil) → _ := fun hLR =>
    (⟨t, c, a, L, R, c.before ++ L.ids, R.ids ++ c.after, hone hLR, h, rfl, hLR, rfl, rfl, rfl,
      by rw [Ctx.ids_plug]; simp [Shape.ids], by simp⟩ :
    ∃ (t1 : RBTree K V) (d : Ctx) (m : Nat) (L1 R1 : Shape) (X Y : List Nat),
      remove_pick t (.node a) = .ok (t1, .node m) ∧
      Rep t1 (d.plug (.node L1 m R1)) ∧ d.plug (.node L1 m R1) = c.plug (.node L a R) ∧
      (L1 = .nil ∨ R1 = .nil) ∧ t1.cnt_ = t.cnt_ ∧ t1.next = t.next ∧ t1.cmp_ = t.cmp_ ∧
      (c.plug (.node L a R)).ids = X ++ a :: Y ∧
      (d.before ++ (L1.ids ++ R1.ids ++ d.after)).map t1.entryAt = (X ++ Y).map t.entryAt)
  cases L with
  | nil => exact hgen (Or.inl rfl)
  | node La l Lb =>
    cases R with
    | nil => exact hgen (Or.inr rfl)
    | node Lr b Rr =>
      have h1 : Rep t ((c.right (.node La l Lb) a).plug (.node Lr b Rr)) := h
      have hd := h1.depth_lt hf
      obtain ⟨d, m, R2, e, hs, hb⟩ := leftmost_spec (t.next + 1) t (c.right (.node La l Lb) a)
        Lr b Rr h1 (by omega)
      have hs1 : d.plug (.node .nil m R2) = c.plug (.node (.node La l Lb) a (.node Lr b Rr)) := hs
      have hids := congrArg Shape.ids hs1
      rw [Ctx.ids_plug, Ctx.ids_plug, hb] at hids
      have hY : (Shape.node Lr b Rr).ids ++ c.after = m :: (R2.ids ++ d.after) := by
        simp only [Ctx.before, Shape.ids, List.append_assoc, List.cons_append, List.nil_append,
          List.append_cancel_left_eq, List.cons.injEq, true_and] at hids ⊢
        exact hids.symm
      have hsid : (c.plug (.node (.node La l Lb) a (.node Lr b Rr))).ids =
          (c.before ++ (Shape.node La l Lb).ids) ++ a :: m :: (R2.ids ++ d.after) := by
        rw [Ctx.ids_plug, ← hY]; simp [Shape.ids]
      have hnd := h.2
      rw [hsid] at hnd
      have hcount := fun x => List.nodup_iff_count_le_one.mp hnd x
      simp only [List.count_append, List.count_cons] at hcount
      have hne : ∀ x, x ∈ c.before ++ (Shape.node La l Lb).ids ∨ x ∈ R2.ids ++ d.after →
          x ≠ m ∧ x ≠ a := by
        intro x hx
        have hc := hcount x
        have hx1 : 0 < List.count x (c.before ++ (Shape.node La l Lb).ids) +
            List.count x (R2.ids ++ d.after) := by
          rcases hx with hx | hx <;> have := List.count_pos_iff.mpr hx <;> omega
        simp only [List.count_append] at hx1
        constructor
        · rintro rfl; simp at hc; omega
        · rintro rfl; simp at hc; omega
      have hm : m ∈ (c.plug (.node (.node La l Lb) a (.node Lr b Rr))).ids := by
        rw [hsid]; simp
      have ha : a ∈ (c.plug (.node (.node La l Lb) a (.node Lr b Rr))).ids := by
        rw [hsid]; simp
      obtain ⟨t1, e1, hr1, hk1, hx1, hc1, -, -, hea, heo⟩ := swap_spec h hm ha
      refine ⟨t1, d, m, .nil, R2, c.before ++ (Shape.node La l Lb).ids,
        (Shape.node Lr b Rr).ids ++ c.after, ?_, hs1 ▸ hr1, hs1, Or.inl rfl, hk1, hx1, hc1,
        by rw [Ctx.ids_plug]; simp [Shape.ids], ?_⟩
      · unfold remove_pick
        rw [h.leftOf, h.rightOf]
        simp only [Shape.root_node, Except.bind, Except.map, ne_eq, reduceCtorEq,
          not_false_eq_true, if_true, decide_True, e, e1]
      · rw [hY, hb]
        have e2 : (c.right (.node La l Lb) a).before ++ (Shape.nil.ids ++ R2.ids ++ d.after) =
            (c.before ++ (Shape.node La l Lb).ids) ++ a :: (R2.ids ++ d.after) := by
          simp [Ctx.before, Shape.ids]
        have hX : (c.before ++ (Shape.node La l Lb).ids).map t1.entryAt =
            (c.before ++ (Shape.node La l Lb).ids).map t.entryAt :=
          List.map_congr_left fun x hx => heo x (hne x (Or.inl hx)).1 (hne x (Or.inl hx)).2
        have hW : (R2.ids ++ d.after).map t1.entryAt = (R2.ids ++ d.after).map t.entryAt :=
          List.map_congr_left fun x hx => heo x (hne x (Or.inr hx)).1 (hne x (Or.inr hx)).2
        rw [e2, List.map_append, List.map_cons, hX, hW, hea]
        simp only [List.map_append, List.map_cons, List.append_assoc]

/-- The part of `remove_` after the key test: the node found is erased. -/
theorem remove_found_spec {t : RBTree K V} {c : Ctx} {L R : Shape} {a : Nat}
    (h : Inv t (c.plug (.node L a R))) :
    Outcome (remove_found t (.node a)) (Erased t (c.plug (.node L a R)) a) := by
  have hlen := h.cnt
  rw [remove_found_unfold]
  split
  · next hc1 =>
    obtain ⟨t1, e1, hinv, hcmp, hnext, -, -, -, hcnt⟩ := clear_spec h
    rw [e1]
    simp only [Except.map, Outcome.ok_iff]
    refine ⟨rfl, .nil, [], [], hinv.rep, ?_, by simp [Shape.ids], by simp [Shape.ids],
      by rw [hcnt, hc1], hnext, hcmp⟩
    rw [hc1, Ctx.ids_plug] at hlen
    simp only [Shape.ids, List.length_append, List.length_cons] at hlen
    have h1 : c.before = [] := List.length_eq_zero.mp (by omega)
    have h2 : c.after = [] := List.length_eq_zero.mp (by omega)
    have h3 : L.ids = [] := List.length_eq_zero.mp (by omega)
    have h4 : R.ids = [] := List.length_eq_zero.mp (by omega)
    rw [Ctx.ids_plug, h1, h2]
    simp [Shape.ids, h3, h4]
  · next hc1 =>
    obtain ⟨t1, d, m, L1, R1, X, Y, e, hr1, hs, hLR, hk, hx, hc, hids, hmap⟩ :=
      remove_pick_spec h.rep h.fresh
    rw [e]
    simp only [Except.bind]
    have htop : L1 = .nil → R1 = .nil → d ≠ .top := by
      rintro rfl rfl rfl
      rw [← hs] at hlen
      simp [Ctx.plug, Shape.ids] at hlen
      exact hc1 hlen
    have hpos : 0 < t.cnt_ := by
      rw [hlen, hids]; simp
    refine Outcome.mono (remove_node_spec hr1 hLR htop (by rw [hs, hx]; exact h.fresh)) ?_
    rintro r ⟨h2, ⟨z, hz, hzids⟩, hcn, hnx, hcm, hent⟩
    refine ⟨h2, z, X, Y, hz, hids, ?_, ?_, ?_, by rw [hnx, hx], by rw [hcm, hc]⟩
    · rw [hzids, ← hmap]
      refine List.map_congr_left fun x hx => hent x (hr1.ne_of_mem ?_)
      simp only [List.mem_append] at hx
      tauto
    · intro x hx
      rw [hzids] at hx
      rw [← hs, Ctx.ids_plug]
      simp only [List.mem_append, Shape.ids, List.mem_cons] at hx ⊢
      tauto
    · rw [hcn, hk, if_neg (by omega)]

end BabySTL

namespace BabySTL
variable {K V : Type}

/-! ## The public operations keep the invariant -/

theorem remove__spec [DecidableEq K] (key : K) (fuel : Nat) :
    ∀ (t : RBTree K V) (c : Ctx) (X : Shape),
    Inv t (c.plug X) → X.height < fuel → PathOK t key true c →
    Outcome (remove_ fuel t X.root key) (RemovePost t (c.plug X) key) := by
  induction fuel with
  | zero => intro t c X _ hh _; omega
  | succ fuel ih =>
    intro t c X h hh hpath
    cases X with
    | nil =>
      simp only [Shape.root_nil, remove_, if_true, Outcome.ok_iff]
      exact Or.inl ⟨rfl, rfl, c, hpath, rfl⟩
    | node A a B =>
      obtain ⟨na, hna, -, hal, har⟩ := h.rep.node_at
      simp only [Shape.height] at hh
      rw [Shape.root_node, remove_]
      simp only [reduceCtorEq, if_false, RBTree.nodeAt_node hna, Except.bind]
      by_cases h1 : key = na.key
      · rw [if_neg (by simpa using h1)]
        refine Outcome.mono (remove_found_spec h) fun r hr => ?_
        exact Or.inr ⟨a, na, by simp [Ctx.ids_plug, Shape.ids], hna, h1.symm, hr⟩
      · rw [if_pos h1]
        by_cases h2 : t.cmp_ key na.key = true
        · rw [if_pos h2, hal]
          exact ih t (c.left a B) A h (by omega) ⟨⟨na, hna, h2⟩, hpath⟩
        · rw [if_neg h2, har]
          exact ih t (c.right A a) B h (by omega)
            ⟨⟨na, hna, by simpa using h2, fun _ e => h1 e.symm⟩, hpath⟩

/-- The public `remove(key)` on a well-formed tree. -/
theorem remove_spec [DecidableEq K] {t : RBTree K V} {s : Shape} (h : Inv t s) (key : K) :
    Outcome (remove t key) (RemovePost t s key) := by
  unfold remove
  rw [h.rep.1.root_eq]
  exact remove__spec key (t.next + 1) t .top s h (Nat.lt_succ_of_le h.height_le) trivial

theorem RBTree.keyAt_eq_entryAt (t : RBTree K V) (x : Nat) :
    t.keyAt x = (t.entryAt x).map Prod.fst := by
  simp only [RBTree.keyAt, RBTree.entryAt]
  cases t.heap x <;> rfl

theorem SortedIds.of_keys {t t1 : RBTree K V} {l l1 : List Nat} (h : SortedIds t l)
    (hc : t1.cmp_ = t.cmp_) (hk : l1.map t1.keyAt = l.map t.keyAt) : SortedIds t1 l1 := by
  unfold SortedIds at h ⊢
  have e1 := List.pairwise_map (f := t1.keyAt) (l := l1)
    (R := fun ox oy => ∀ kx ky, ox = some kx → oy = some ky → t.cmp_ ky kx = false)
  have e2 := List.pairwise_map (f := t.keyAt) (l := l)
    (R := fun ox oy => ∀ kx ky, ox = some kx → oy = some ky → t.cmp_ ky kx = false)
  rw [hc]
  exact e1.mp (hk ▸ e2.mpr h)

theorem Erased.preserved_erased {t : RBTree K V} {s : Shape} {a : Nat} {r : RBTree K V × Bool}
    (h : Inv t s) (he : Erased t s a r) : Preserved t s r.1 := by
  obtain ⟨-, z, X, Y, hz, hids, hmap, hsub, hcnt, hnext, hcmp⟩ := he
  have hlen := congrArg List.length hmap
  simp only [List.length_map, List.length_append] at hlen
  refine ⟨z, ⟨hz, ?_, fun x hx => hnext ▸ h.fresh x (hsub x hx)⟩, hcmp, fun _ hso => ?_⟩
  · rw [hcnt, h.cnt, hids]; simp; omega
  · have hs1 : SortedIds t (X ++ Y) := by
      refine hso.sublist ?_
      rw [hids]
      exact List.Sublist.append_left (List.sublist_cons_self a Y) X
    refine hs1.of_keys hcmp ?_
    have := congrArg (List.map (Option.map Prod.fst)) hmap
    simpa only [List.map_map, Function.comp_def, ← RBTree.keyAt_eq_entryAt] using this

theorem RemovePost.preserved_removed {t : RBTree K V} {s : Shape} {key : K} {r : RBTree K V × Bool}
    (h : Inv t s) (hp : RemovePost t s key r) : Preserved t s r.1 := by
  rcases hp with ⟨-, hr, -⟩ | ⟨a, na, -, -, -, he⟩
  · rw [hr]; exact ⟨s, h, rfl, fun _ hso => hso⟩
  · exact he.preserved_erased h

theorem Preserved.refl_of_inv {t : RBTree K V} {s : Shape} (h : Inv t s) : Preserved t s t :=
  ⟨s, h, rfl, fun _ hso => hso⟩

/-- The public `get_or_insert(key)` on a well-formed tree. -/
theorem get_or_insert_spec [DecidableEq K] [Inhabited V] {t : RBTree K V} {s : Shape}
    (h : Inv t s) (key : K) :
    Outcome (get_or_insert t key) fun r => Preserved t s r.1 := by
  unfold get_or_insert
  split
  · exact Preserved.refl_of_inv h
  · next hc =>
    have hroot := h.rep.1.root_eq
    obtain ⟨r, e, hr⟩ := find__spec key (t.next + 1) t .top s h.rep
      (Nat.lt_succ_of_le h.height_le) trivial
    rw [hroot, e]
    simp only [Except.bind]
    split
    · cases s with
      | nil => exact absurd (by rw [h.cnt]; rfl) hc
      | node A a B =>
        have := insert__spec true key (default : V) (t.next + 1) t .top A B a h.rep h.fresh
          (Nat.le_succ_of_le h.height_le) trivial
        exact Outcome.mono this fun r hr => hr.preserved h
    · exact Preserved.refl_of_inv h

/-- Every public call keeps the invariant. -/
theorem Op.apply_spec [DecidableEq K] [Inhabited V] {t : RBTree K V} {s : Shape}
    (h : Inv t s) (op : Op K V) : Outcome (op.apply t) (Preserved t s) := by
  cases op with
  | insert replace key val =>
    exact Outcome.map (insert_spec h replace key val) fun r hr => hr.preserved h
  | get_or_insert key => exact Outcome.map (get_or_insert_spec h key) fun r hr => hr
  | remove key => exact Outcome.map (remove_spec h key) fun r hr => hr.preserved_removed h
  | clear =>
    obtain ⟨t1, e1, hinv, hcmp, -⟩ := clear_spec h
    refine Outcome.of_eq_ok e1 ⟨.nil, hinv, hcmp, fun _ _ => ?_⟩
    simp [SortedIds, Shape.ids]

theorem runFrom_spec [DecidableEq K] [Inhabited V] (ops : List (Op K V)) :
    ∀ t : RBTree K V, Good t →
      Outcome (runFrom t ops) fun t1 => Good t1 ∧ t1.cmp_ = t.cmp_ := by
  induction ops with
  | nil => intro t h; exact ⟨h, rfl⟩
  | cons op ops ih =>
    rintro t ⟨s, hinv, hso⟩
    rw [runFrom]
    refine Outcome.bind (Op.apply_spec hinv op) ?_
    rintro t1 ⟨z, hz, hcmp, hsort⟩
    refine Outcome.mono (ih t1 ⟨z, hz, fun ho => hsort (hcmp ▸ ho) (hso (hcmp ▸ ho))⟩) ?_
    rintro t2 ⟨hg, hc2⟩
    exact ⟨hg, hc2.trans hcmp⟩

theorem Good.empty (cmp : K → K → Bool) : Good (RBTree.empty (V := V) cmp) := by
  refine ⟨.nil, ⟨⟨?_, by simp [Shape.ids]⟩, rfl, by simp [Shape.ids]⟩, fun _ => ?_⟩
  · simp [Repr, RBTree.empty]
  · simp [SortedIds, Shape.ids]

theorem run_spec [DecidableEq K] [Inhabited V] (cmp : K → K → Bool) (ops : List (Op K V)) :
    Outcome (run cmp ops) fun t => Good t ∧ t.cmp_ = cmp :=
  runFrom_spec ops _ (Good.empty cmp)

end BabySTL

namespace BabySTL
variable {K V : Type}

/-! ## Reading the observations off the invariant -/

theorem Inv.nodes_eq {t : RBTree K V} {s : Shape} (h : Inv t s) : t.nodes = s.ids :=
  inorder_eq_ids h.rep.1 (Nat.le_succ_of_le h.height_le)

theorem Inv.keys_eq {t : RBTree K V} {s : Shape} (h : Inv t s) :
    t.keys = s.ids.filterMap t.keyAt := by
  unfold RBTree.keys
  rw [h.nodes_eq]
  rfl

theorem Inv.size_eq {t : RBTree K V} {s : Shape} (h : Inv t s) : t.size = t.nodes.length := by
  rw [h.nodes_eq]; exact h.cnt

theorem Inv.keys_sorted {t : RBTree K V} {s : Shape} (h : Inv t s) (hso : SortedIds t s.ids) :
    t.keys.Pairwise fun a b => t.cmp_ b a = false := by
  rw [h.keys_eq, List.pairwise_filterMap]
  refine List.Pairwise.imp ?_ hso
  intro x y hxy kx hx ky hy
  exact hxy kx ky hx hy

theorem Inv.mem_keys {t : RBTree K V} {s : Shape} (h : Inv t s) (k : K) :
    k ∈ t.keys ↔ ∃ a ∈ s.ids, t.keyAt a = some k := by
  rw [h.keys_eq, List.mem_filterMap]

/-- The public `find(key)` on a well-formed, sorted tree. -/
theorem find_spec [DecidableEq K] {t : RBTree K V} {s : Shape} (h : Inv t s)
    (ho : StrictOrder t.cmp_) (hso : SortedIds t s.ids) (k : K) :
    ∃ it, find t k = .ok it ∧ (it = .header ↔ k ∉ t.keys) ∧
      (it ≠ .header → ∃ a n, it = .node a ∧ a ∈ t.nodes ∧ t.heap a = some n ∧ n.key = k) := by
  unfold find
  split
  · next hc =>
    have : s.ids = [] := List.length_eq_zero.mp (by rw [← h.cnt, hc])
    refine ⟨.header, rfl, ?_, fun e => absurd rfl e⟩
    simp [h.keys_eq, this]
  · obtain ⟨r, e, hr⟩ := find__spec k (t.next + 1) t .top s h.rep
      (Nat.lt_succ_of_le h.height_le) trivial
    rw [h.rep.1.root_eq, e]
    rcases hr with ⟨rfl, d, hpath, hs⟩ | ⟨b, nb, rfl, hb, hnb, hk⟩
    · refine ⟨.header, by simp [Except.map], ?_, fun e => absurd rfl e⟩
      simp only [true_iff]
      rw [h.mem_keys]
      rintro ⟨a, ha, hka⟩
      have hids : s.ids = d.before ++ d.after := by
        have := congrArg Shape.ids hs
        simpa [Ctx.plug, Ctx.ids_plug, Shape.ids] using this
      rw [hids] at hso ha
      have hb := path_bounds ho d (hso.sublist (List.sublist_append_left _ _))
        (hso.sublist (List.sublist_append_right _ _)) hpath
      rcases List.mem_append.mp ha with ha | ha
      · exact (hb.1 a ha k hka).2 rfl rfl
      · have := hb.2 a ha k hka
        rw [ho.irrefl] at this
        cases this
    · refine ⟨.node b, by simp [Except.map], ?_, fun _ => ⟨b, nb, rfl, ?_, hnb, hk⟩⟩
      · simp only [reduceCtorEq, false_iff, not_not]
        rw [h.mem_keys]
        exact ⟨b, hb, by simp [RBTree.keyAt, hnb, hk]⟩
      · rw [h.nodes_eq]; exact hb

theorem strictOrder_natLess : StrictOrder natLess where
  irrefl := by intro a; simp [natLess]
  trans := by intro a b c; simp only [natLess, decide_eq_true_eq]; omega
  eq_of_incomp := by intro a b; simp only [natLess, decide_eq_false_iff_not]; omega

theorem strictWeakOrder_tensLess : StrictWeakOrder tensLess where
  irrefl := by intro a; simp [tensLess]
  trans := by intro a b c; simp only [tensLess, decide_eq_true_eq]; omega
  incomp_trans := by
    intro a b c
    simp only [tensLess, decide_eq_false_iff_not]
    omega

theorem Outcome.cases {α : Type} {r : Except Err α} {P : α → Prop} (h : Outcome r P) :
    (∃ x, r = .ok x ∧ P x) ∨ r = .error .nullDeref := by
  cases r with
  | ok x => exact Or.inl ⟨x, rfl, h⟩
  | error e => exact Or.inr (congrArg Except.error h)

theorem ne_error_of_failure {α : Type} {r : Except Err α} (h : failure r = none) (e : Err) :
    r ≠ .error e := by
  rintro rfl
  cases h

end BabySTL

namespace BabySTL
variable {K V : Type}

/-! ## Strict weak orders -/

theorem StrictOrder.toWeak {cmp : K → K → Bool} (ho : StrictOrder cmp) : StrictWeakOrder cmp where
  irrefl := ho.irrefl
  trans := ho.trans
  incomp_trans := by
    intro a b c h1 h2 h3 h4
    have e1 := ho.eq_of_incomp a b h1 h2
    have e2 := ho.eq_of_incomp b c h3 h4
    subst e1; subst e2
    exact ⟨ho.irrefl a, ho.irrefl a⟩

theorem StrictWeakOrder.asymm_weak {cmp : K → K → Bool} (hw : StrictWeakOrder cmp) {a b : K}
    (h : cmp a b = true) : cmp b a = false := by
  cases hb : cmp b a with
  | false => rfl
  | true => have := hw.trans a b a h hb; rw [hw.irrefl] at this; cases this

/-- Negative transitivity: from `a < c` follows `a < b` or `b < c`. -/
theorem StrictWeakOrder.neg_trans {cmp : K → K → Bool} (hw : StrictWeakOrder cmp) {a c : K}
    (b : K) (h : cmp a c = true) : cmp a b = true ∨ cmp b c = true := by
  cases hab : cmp a b with
  | true => exact Or.inl rfl
  | false =>
    cases hbc : cmp b c with
    | true => exact Or.inr rfl
    | false =>
      exfalso
      cases hba : cmp b a with
      | true => rw [hw.trans b a c hba h] at hbc; cases hbc
      | false =>
        cases hcb : cmp c b with
        | true => rw [hw.trans a c b h hcb] at hab; cases hab
        | false =>
          rw [(hw.incomp_trans a b c hab hba hbc hcb).1] at h
          cases h

/-- From `a < b` and `¬ c < b` follows `a < c`. -/
theorem StrictWeakOrder.lt_le_weak {cmp : K → K → Bool} (hw : StrictWeakOrder cmp) {a b c : K}
    (h1 : cmp a b = true) (h2 : cmp c b = false) : cmp a c = true := by
  rcases hw.neg_trans c h1 with h | h
  · exact h
  · rw [h] at h2; cases h2

/-- From `¬ b < a` and `b < c` follows `a < c`. -/
theorem StrictWeakOrder.le_lt_weak {cmp : K → K → Bool} (hw : StrictWeakOrder cmp) {a b c : K}
    (h1 : cmp b a = false) (h2 : cmp b c = true) : cmp a c = true := by
  rcases hw.neg_trans a h2 with h | h
  · rw [h] at h1; cases h1
  · exact h

/-- Along a search path in a sorted tree, under a strict weak order: the key
searched for is not less than any key before the position reached, and less
than every key after it. -/
theorem path_bounds_weak {t : RBTree K V} {key : K} {strict : Bool}
    (hw : StrictWeakOrder t.cmp_) (c : Ctx) (hb : SortedIds t c.before)
    (ha : SortedIds t c.after) (hp : PathOK t key strict c) :
    (∀ x ∈ c.before, ∀ kx, t.keyAt x = some kx → t.cmp_ key kx = false) ∧
    (∀ y ∈ c.after, ∀ ky, t.keyAt y = some ky → t.cmp_ key ky = true) := by
  induction c with
  | top => simp [Ctx.before, Ctx.after]
  | left up b R ih =>
    obtain ⟨⟨nb, hnb, hlt⟩, hup⟩ := hp
    simp only [Ctx.before, Ctx.after] at hb ha ⊢
    unfold SortedIds at ha
    rw [List.cons_append, List.pairwise_cons, List.pairwise_append] at ha
    obtain ⟨hbR, -, hU, -⟩ := ha
    obtain ⟨ih1, ih2⟩ := ih hb hU hup
    refine ⟨ih1, ?_⟩
    intro y hy ky hky
    have hkb : t.keyAt b = some nb.key := by simp [RBTree.keyAt, hnb]
    simp only [List.mem_cons, List.mem_append] at hy
    rcases hy with (rfl | hy) | hy
    · rw [hkb] at hky; cases hky; exact hlt
    · exact hw.lt_le_weak hlt (hbR y (by simp [hy]) _ _ hkb hky)
    · exact ih2 y hy ky hky
  | right up L b ih =>
    obtain ⟨⟨nb, hnb, hge, -⟩, hup⟩ := hp
    simp only [Ctx.before, Ctx.after] at hb ha ⊢
    unfold SortedIds at hb
    rw [List.append_assoc, List.pairwise_append, List.pairwise_append] at hb
    obtain ⟨hU, ⟨-, -, hLb⟩, -⟩ := hb
    obtain ⟨ih1, ih2⟩ := ih hU ha hup
    refine ⟨?_, ih2⟩
    intro x hx kx hkx
    have hkb : t.keyAt b = some nb.key := by simp [RBTree.keyAt, hnb]
    simp only [List.mem_append, List.mem_singleton] at hx
    rcases hx with (hx | hx) | rfl
    · exact ih1 x hx kx hkx
    · have hle : t.cmp_ nb.key kx = false := hLb x hx b (by simp) _ _ hkx hkb
      cases hc : t.cmp_ key kx with
      | false => rfl
      | true => rw [hw.lt_le_weak hc hle] at hge; cases hge
    · rw [hkb] at hkx; cases hkx; exact hge

/-! ## Relations along the key sequence -/

theorem KeysRel.of_keys_sublist {t t1 : RBTree K V} {R : K → K → Prop} {l l1 : List Nat}
    (h : KeysRel t R l) (hk : (l1.map t1.keyAt).Sublist (l.map t.keyAt)) : KeysRel t1 R l1 := by
  unfold KeysRel at h ⊢
  have e1 := List.pairwise_map (f := t1.keyAt) (l := l1)
    (R := fun ox oy => ∀ kx ky, ox = some kx → oy = some ky → R kx ky)
  have e2 := List.pairwise_map (f := t.keyAt) (l := l)
    (R := fun ox oy => ∀ kx ky, ox = some kx → oy = some ky → R kx ky)
  exact e1.mp ((e2.mpr h).sublist hk)

/-- Putting a node between two parts of a related key sequence keeps the
relation when its key fits between them. -/
theorem KeysRel.insert_mid {t t1 : RBTree K V} {R : K → K → Prop} {b a : List Nat} {n : Nat}
    {key : K} (h : KeysRel t R (b ++ a)) (hkeep : ∀ x ∈ b ++ a, t1.keyAt x = t.keyAt x)
    (hnew : t1.keyAt n = some key)
    (hb : ∀ x ∈ b, ∀ kx, t.keyAt x = some kx → R kx key)
    (ha : ∀ y ∈ a, ∀ ky, t.keyAt y = some ky → R key ky) : KeysRel t1 R (b ++ n :: a) := by
  have h1 : KeysRel t1 R (b ++ a) := by
    refine h.of_keys_sublist ?_
    rw [List.map_congr_left hkeep]
  unfold KeysRel at h1 ⊢
  rw [List.pairwise_append] at h1 ⊢
  obtain ⟨p1, p2, p3⟩ := h1
  refine ⟨p1, List.pairwise_cons.mpr ⟨?_, p2⟩, ?_⟩
  · intro y hy kx ky e1 e2
    rw [hnew] at e1; cases e1
    rw [hkeep y (by simp [hy])] at e2
    exact ha y hy ky e2
  · intro x hx y hy
    simp only [List.mem_cons] at hy
    rcases hy with rfl | hy
    · intro kx ky e1 e2
      rw [hnew] at e2; cases e2
      rw [hkeep x (by simp [hx])] at e1
      exact hb x hx kx e1
    · exact p3 x hx y hy

theorem SortedIds.iff_keysRel (t : RBTree K V) (l : List Nat) :
    SortedIds t l ↔ KeysRel t (fun a b => t.cmp_ b a = false) l := Iff.rfl

/-! ## Shapes are determined by the store -/

theorem Repr.unique {h : Nat → Option (RBTreeMapNode K V)} {s : Shape} :
    ∀ {par p : Ptr} {z : Shape}, Repr h par p s → Repr h par p z → s = z := by
  induction s with
  | nil =>
    intro par p z h1 h2
    have hp : p = .null := by simpa [Repr] using h1
    subst hp
    cases z with
    | nil => rfl
    | node l a r => exact absurd h2.1 (by simp)
  | node l a r ihl ihr =>
    intro par p z h1 h2
    obtain ⟨hp, n, hn, -, hl, hr⟩ := h1
    subst hp
    cases z with
    | nil => exact absurd h2 (by simp [Repr])
    | node l2 a2 r2 =>
      obtain ⟨hp2, n2, hn2, -, hl2, hr2⟩ := h2
      cases hp2
      rw [hn] at hn2; cases hn2
      rw [ihl hl hl2, ihr hr hr2]

theorem Rep.shape_unique {t : RBTree K V} {s z : Shape} (h1 : Rep t s) (h2 : Rep t z) : s = z :=
  Repr.unique h1.1 h2.1

/-! ## Effect of the public calls on the key sequence -/

theorem KeyEffect.unchanged {t : RBTree K V} {s : Shape} (h : Inv t s) (op : Op K V) :
    KeyEffect t s op t :=
  ⟨rfl, s, h, Or.inl (List.Sublist.refl _)⟩

theorem InsertPost.keyEffect_insert {t : RBTree K V} {s : Shape} {replace : Bool} {key : K} {val : V}
    {r : RBTree K V × Ptr} (h : Inv t s) (hp : InsertPost s t replace key val r)
    (op : Op K V) (hop : op.uniqueMode = true → replace = true) : KeyEffect t s op r.1 := by
  obtain ⟨z1, hinv, hcmp, -⟩ := hp.preserved h
  rcases hp with ⟨b, nb, hb, hnb, hk, -, -, hr⟩ | ⟨c, z, hpath, hs, hz, hids, -, hn, hc, hm, hen, heo⟩
  · have hz : z1 = s := Rep.shape_unique hinv.rep (hr ▸ h.rep.store_links _ hnb rfl)
    subst hz
    refine ⟨hcmp, z1, hinv, Or.inl ?_⟩
    have : ∀ x ∈ z1.ids, r.1.keyAt x = t.keyAt x := by
      intro x _
      rw [hr]
      simp only [RBTree.keyAt, RBTree.store_heap]
      split
      · next e => subst e; simp [hnb]
      · rfl
    rw [List.map_congr_left this]
  · have hz1 : z1 = z := Rep.shape_unique hinv.rep hz
    subst hz1
    have hsids : s.ids = c.before ++ c.after := by rw [hs, Ctx.ids_plug]; simp [Shape.ids]
    refine ⟨hcmp, z1, hinv, Or.inr ⟨c, key, replace, hpath, hop, hsids, hids, ?_, ?_⟩⟩
    · simp only [RBTree.entryAt, RBTree.keyAt] at hen ⊢
      cases h1 : r.1.heap t.next <;> simp_all
    · intro x hx
      have : x ≠ t.next := by have := h.fresh x hx; omega
      exact keyAt_of_entryAt (heo x this)

theorem RemovePost.keyEffect_remove {t : RBTree K V} {s : Shape} {key : K} {r : RBTree K V × Bool}
    (h : Inv t s) (hp : RemovePost t s key r) (op : Op K V) : KeyEffect t s op r.1 := by
  obtain ⟨z1, hinv, hcmp, -⟩ := hp.preserved_removed h
  rcases hp with ⟨-, hr, -⟩ | ⟨a, na, -, -, -, he⟩
  · rw [hr]; exact KeyEffect.unchanged h op
  · obtain ⟨-, z, X, Y, hz, hids, hmap, -⟩ := he
    have hz1 : z1 = z := Rep.shape_unique hinv.rep hz
    subst hz1
    refine ⟨hcmp, z1, hinv, Or.inl ?_⟩
    have hk : z1.ids.map r.1.keyAt = (X ++ Y).map t.keyAt := by
      have := congrArg (List.map (Option.map Prod.fst)) hmap
      simpa only [List.map_map, Function.comp_def, ← RBTree.keyAt_eq_entryAt] using this
    rw [hk, hids]
    exact List.Sublist.map _ (List.Sublist.append_left (List.sublist_cons_self a Y) X)

/-- What `get_or_insert(key)` does to a well-formed tree: nothing, or the
unique-mode insertion of `key` with a value-initialised value. -/
theorem get_or_insert_post [DecidableEq K] [Inhabited V] {t : RBTree K V} {s : Shape}
    (h : Inv t s) (key : K) :
    Outcome (get_or_insert t key) fun r =>
      r.1 = t ∨ InsertPost s t true key (default : V) r := by
  unfold get_or_insert
  split
  · exact Or.inl rfl
  · next hc =>
    have hroot := h.rep.1.root_eq
    obtain ⟨r, e, hr⟩ := find__spec key (t.next + 1) t .top s h.rep
      (Nat.lt_succ_of_le h.height_le) trivial
    rw [hroot, e]
    simp only [Except.bind]
    split
    · cases s with
      | nil => exact absurd (by rw [h.cnt]; rfl) hc
      | node A a B =>
        have := insert__spec true key (default : V) (t.next + 1) t .top A B a h.rep h.fresh
          (Nat.le_succ_of_le h.height_le) trivial
        exact Outcome.mono this fun r hr => Or.inr hr
    · exact Or.inl rfl

/-- Every public call on a well-formed tree either stops at a null dereference
or has the key-level effect described by `KeyEffect`. -/
theorem Op.apply_effect [DecidableEq K] [Inhabited V] {t : RBTree K V} {s : Shape}
    (h : Inv t s) (op : Op K V) : Outcome (op.apply t) (KeyEffect t s op) := by
  cases op with
  | insert replace key val =>
    exact Outcome.map (insert_spec h replace key val) fun r hr => hr.keyEffect_insert h _ fun e => e
  | get_or_insert key =>
    refine Outcome.map (get_or_insert_post h key) fun r hr => ?_
    rcases hr with hr | hr
    · rw [hr]; exact KeyEffect.unchanged h _
    · exact hr.keyEffect_insert h _ fun _ => rfl
  | remove key => exact Outcome.map (remove_spec h key) fun r hr => hr.keyEffect_remove h _
  | clear =>
    obtain ⟨t1, e1, hinv, hcmp, -⟩ := clear_spec h
    exact Outcome.of_eq_ok e1 ⟨hcmp, .nil, hinv, Or.inl (by simp [Shape.ids])⟩

/-- An invariant kept by every allowed call is kept by every sequence of
allowed calls that completes; a sequence that does not complete stops at a null
dereference. -/
theorem runFrom_invariant [DecidableEq K] [Inhabited V] (I : RBTree K V → Prop)
    (allowed : Op K V → Prop)
    (step : ∀ t op, I t → allowed op → Outcome (op.apply t) I) :
    ∀ (ops : List (Op K V)) (t : RBTree K V), I t → (∀ op ∈ ops, allowed op) →
      Outcome (runFrom t ops) I := by
  intro ops
  induction ops with
  | nil => intro t h _; exact h
  | cons op ops ih =>
    intro t h ha
    rw [runFrom]
    refine Outcome.bind (step t op h (ha op (by simp))) fun t1 h1 => ?_
    exact ih t1 h1 fun o ho => ha o (by simp [ho])

/-- Under a strict weak order every public call keeps the tree well-formed and
its key sequence non-decreasing. -/
theorem Op.apply_sorted [DecidableEq K] [Inhabited V] {cmp : K → K → Bool}
    (hw : StrictWeakOrder cmp) (t : RBTree K V) (op : Op K V)
    (h : t.cmp_ = cmp ∧ ∃ s, Inv t s ∧ SortedIds t s.ids) :
    Outcome (op.apply t) fun t1 => t1.cmp_ = cmp ∧ ∃ s, Inv t1 s ∧ SortedIds t1 s.ids := by
  obtain ⟨hc, s, hinv, hso⟩ := h
  refine Outcome.mono (Op.apply_effect hinv op) ?_
  rintro t1 ⟨hcmp, z, hz, he⟩
  refine ⟨hcmp.trans hc, z, hz, ?_⟩
  have hw1 : StrictWeakOrder t.cmp_ := hc ▸ hw
  rw [SortedIds.iff_keysRel, hcmp]
  rw [SortedIds.iff_keysRel] at hso
  rcases he with he | ⟨c, key, strict, hpath, -, hsids, hzids, hnew, hkeep⟩
  · exact hso.of_keys_sublist he
  · rw [hzids]
    rw [hsids] at hso hkeep
    have hb : SortedIds t c.before := SortedIds.sublist hso (List.sublist_append_left _ _)
    have ha : SortedIds t c.after := SortedIds.sublist hso (List.sublist_append_right _ _)
    obtain ⟨b1, b2⟩ := path_bounds_weak hw1 c hb ha hpath
    exact hso.insert_mid hkeep hnew b1 fun y hy ky hky => hw1.asymm_weak (b2 y hy ky hky)

/-- Under a strict order that agrees with `==`, every unique-mode call keeps the
tree well-formed and its key sequence strictly increasing. -/
theorem Op.apply_strict [DecidableEq K] [Inhabited V] {cmp : K → K → Bool}
    (ho : StrictOrder cmp) (t : RBTree K V) (op : Op K V)
    (h : t.cmp_ = cmp ∧ ∃ s, Inv t s ∧ StrictSortedIds t s.ids) (hop : op.uniqueMode = true) :
    Outcome (op.apply t) fun t1 =>
      t1.cmp_ = cmp ∧ ∃ s, Inv t1 s ∧ StrictSortedIds t1 s.ids := by
  obtain ⟨hc, s, hinv, hso⟩ := h
  refine Outcome.mono (Op.apply_effect hinv op) ?_
  rintro t1 ⟨hcmp, z, hz, he⟩
  refine ⟨hcmp.trans hc, z, hz, ?_⟩
  have ho1 : StrictOrder t.cmp_ := hc ▸ ho
  unfold StrictSortedIds at hso ⊢
  rw [hcmp]
  rcases he with he | ⟨c, key, strict, hpath, hst, hsids, hzids, hnew, hkeep⟩
  · exact hso.of_keys_sublist he
  · rw [hzids]
    rw [hsids] at hso hkeep
    have hso1 : SortedIds t (c.before ++ c.after) := by
      refine List.Pairwise.imp ?_ hso
      intro x y hxy kx ky e1 e2
      exact ho1.asymm (hxy kx ky e1 e2)
    have hb : SortedIds t c.before := hso1.sublist (List.sublist_append_left _ _)
    have ha : SortedIds t c.after := hso1.sublist (List.sublist_append_right _ _)
    obtain ⟨b1, b2⟩ := path_bounds ho1 c hb ha hpath
    refine hso.insert_mid hkeep hnew ?_ b2
    intro x hx kx hkx
    obtain ⟨h1, h2⟩ := b1 x hx kx hkx
    cases hlt : t.cmp_ kx key with
    | true => rfl
    | false => exact absurd (ho1.eq_of_incomp _ _ hlt h1) (h2 (hst hop))

end BabySTL


namespace BabySTL
variable {K V : Type}

/-! ## lower_bound -/

/-- The descent of `lower_bound_` through the subtree in the hole of a context:
when all keys before the hole are less than `key` and `satisfy_node` is the
candidate for what follows the hole, the result splits the whole in-order
sequence into the nodes whose keys are less than `key` and the rest, and is the
candidate for the rest. -/
theorem lower_bound__spec (key : K) (fuel : Nat) :
    ∀ (t : RBTree K V) (c : Ctx) (X : Shape) (sat : Ptr),
    Rep t (c.plug X) → StrictWeakOrder t.cmp_ → SortedIds t (c.plug X).ids → X.height < fuel →
    (∀ x ∈ c.before, ∃ n, t.heap x = some n ∧ t.cmp_ n.key key = true) →
    Candidate t key c.after sat →
    ∃ r pre post, lower_bound_ fuel t X.root key sat = .ok r ∧
      (c.plug X).ids = pre ++ post ∧
      (∀ x ∈ pre, ∃ n, t.heap x = some n ∧ t.cmp_ n.key key = true) ∧
      Candidate t key post r := by
  induction fuel with
  | zero => intro t c X sat _ _ _ hh _ _; omega
  | succ fuel ih =>
    intro t c X sat h hw hso hh hbef hcand
    cases X with
    | nil =>
      refine ⟨sat, c.before, c.after, by simp [lower_bound_], ?_, hbef, hcand⟩
      rw [Ctx.ids_plug]; simp [Shape.ids]
    | node A a B =>
      obtain ⟨na, hna, -, hal, har⟩ := h.node_at
      simp only [Shape.height] at hh
      rw [Shape.root_node, lower_bound_]
      simp only [reduceCtorEq, if_false, RBTree.nodeAt_node hna, Except.bind]
      cases hlt : t.cmp_ na.key key with
      | false =>
        simp only [Bool.not_false, if_true]
        rw [hal]
        exact ih t (c.left a B) A (.node a) h hw hso (by omega) hbef
          ⟨rfl, na, hna, hlt⟩
      | true =>
        simp only [Bool.not_true, Bool.false_eq_true, if_false]
        rw [har]
        refine ih t (c.right A a) B sat h hw hso (by omega) ?_ hcand
        intro x hx
        simp only [Ctx.before, List.mem_append, List.mem_singleton] at hx
        rcases hx with (hx | hx) | rfl
        · exact hbef x hx
        · have hxin : x ∈ (c.plug (.node A a B)).ids := by
            rw [Ctx.ids_plug]; simp [Shape.ids, hx]
          obtain ⟨nx, hnx⟩ := h.heap_of_mem hxin
          refine ⟨nx, hnx, ?_⟩
          rw [Ctx.ids_plug] at hso
          unfold SortedIds at hso
          simp only [Shape.ids] at hso
          rw [List.pairwise_append, List.pairwise_append, List.pairwise_append] at hso
          have hle : t.cmp_ na.key nx.key = false :=
            hso.1.2.1.2.2 x hx a (by simp) nx.key na.key (by simp [RBTree.keyAt, hnx])
              (by simp [RBTree.keyAt, hna])
          exact hw.le_lt_weak hle hlt
        · exact ⟨na, hna, hlt⟩

/-- The public `lower_bound(key)` on a well-formed tree that is sorted under a
strict weak order. -/
theorem lower_bound_spec {t : RBTree K V} {s : Shape} (h : Inv t s)
    (hw : StrictWeakOrder t.cmp_) (hso : SortedIds t s.ids) (k : K) :
    ∃ it pre post, lower_bound t k = .ok it ∧ t.nodes = pre ++ post ∧
      (∀ x ∈ pre, ∃ n, t.heap x = some n ∧ t.cmp_ n.key k = true) ∧
      ((post = [] ∧ it = t.end_) ∨
        ∃ y rest n, post = y :: rest ∧ it = .node y ∧ t.heap y = some n ∧
          t.cmp_ n.key k = false) := by
  unfold lower_bound
  split
  · next hc =>
    have : s.ids = [] := List.length_eq_zero.mp (by rw [← h.cnt, hc])
    exact ⟨.header, [], [], rfl, by rw [h.nodes_eq, this]; rfl, by simp, Or.inl ⟨rfl, rfl⟩⟩
  · obtain ⟨r, pre, post, e, hids, hpre, hcand⟩ :=
      lower_bound__spec k (t.next + 1) t .top s .null h.rep hw hso
        (Nat.lt_succ_of_le h.height_le) (by simp [Ctx.before]) rfl
    rw [h.rep.1.root_eq, e]
    refine ⟨_, pre, post, rfl, by rw [h.nodes_eq]; exact hids, hpre, ?_⟩
    cases post with
    | nil =>
      have hr : r = .null := hcand
      subst hr
      exact Or.inl ⟨rfl, rfl⟩
    | cons y rest =>
      obtain ⟨hr, n, hn, hk⟩ := hcand
      subst hr
      exact Or.inr ⟨y, rest, n, rfl, rfl, hn, hk⟩

/-! ## Invariants of whole runs -/

theorem inv_empty (cmp : K → K → Bool) : Inv (RBTree.empty (V := V) cmp) .nil :=
  ⟨⟨by simp [Repr, RBTree.empty], by simp [Shape.ids]⟩, rfl, by simp [Shape.ids]⟩

/-- Under a strict weak order every run that completes ends in a well-formed
tree with a non-decreasing key sequence. -/
theorem run_sorted [DecidableEq K] [Inhabited V] {cmp : K → K → Bool}
    (hw : StrictWeakOrder cmp) (ops : List (Op K V)) :
    Outcome (run cmp ops) fun t => t.cmp_ = cmp ∧ ∃ s, Inv t s ∧ SortedIds t s.ids := by
  refine runFrom_invariant _ (fun _ => True) (fun t op h _ => Op.apply_sorted hw t op h) ops _
    ⟨rfl, .nil, inv_empty cmp, ?_⟩ fun _ _ => trivial
  simp [SortedIds, Shape.ids]

/-- Under a strict order agreeing with `==` every run of unique-mode calls that
completes ends in a well-formed tree with a strictly increasing key sequence. -/
theorem run_strict [DecidableEq K] [Inhabited V] {cmp : K → K → Bool}
    (ho : StrictOrder cmp) (ops : List (Op K V)) (hu : ∀ op ∈ ops, op.uniqueMode = true) :
    Outcome (run cmp ops) fun t =>
      t.cmp_ = cmp ∧ ∃ s, Inv t s ∧ StrictSortedIds t s.ids := by
  refine runFrom_invariant _ (fun op => op.uniqueMode = true)
    (fun t op h hop => Op.apply_strict ho t op h hop) ops _
    ⟨rfl, .nil, inv_empty cmp, ?_⟩ hu
  simp [StrictSortedIds, KeysRel, Shape.ids]

theorem Inv.keys_rel {t : RBTree K V} {s : Shape} {R : K → K → Prop} (h : Inv t s)
    (hr : KeysRel t R s.ids) : t.keys.Pairwise R := by
  rw [h.keys_eq, List.pairwise_filterMap]
  refine List.Pairwise.imp ?_ hr
  intro x y hxy kx hx ky hy
  exact hxy kx ky hx hy

end BabySTL


namespace BabySTL
variable {K V : Type}

/-! ## Removing the only node -/

theorem filterMap_length_of_some {α β : Type} (f : α → Option β) (l : List α)
    (h : ∀ x ∈ l, ∃ y, f x = some y) : (l.filterMap f).length = l.length := by
  induction l with
  | nil => rfl
  | cons a l ih =>
    obtain ⟨y, hy⟩ := h a (by simp)
    rw [List.filterMap_cons_some hy]
    simp [ih fun x hx => h x (by simp [hx])]

theorem Shape.eq_nil_of_ids {s : Shape} (h : s.ids = []) : s = .nil := by
  cases s with
  | nil => rfl
  | node l a r => simp [Shape.ids] at h

/-- Removing the key of a tree that holds exactly one node empties the tree. -/
theorem remove_single [DecidableEq K] {t : RBTree K V} {s : Shape} (h : Inv t s) {k : K}
    (hk : t.keys = [k]) :
    ∃ t1, remove t k = .ok (t1, true) ∧ t1.size = 0 ∧ t1.begin = t1.end_ ∧
      t1.header_.parent = .null ∧ t1.header_.left = .header ∧ t1.header_.right = .header ∧
      t1.nodes = [] := by
  have hlen : s.ids.length = 1 := by
    have := filterMap_length_of_some t.keyAt s.ids (fun x hx => by
      obtain ⟨n, hn⟩ := h.rep.heap_of_mem hx
      exact ⟨n.key, by simp [RBTree.keyAt, hn]⟩)
    rw [← h.keys_eq, hk] at this
    simpa using this.symm
  cases s with
  | nil => simp [Shape.ids] at hlen
  | node L a R =>
    simp only [Shape.ids, List.length_append, List.length_cons] at hlen
    have hL : L = .nil := Shape.eq_nil_of_ids (List.length_eq_zero.mp (by omega))
    have hR : R = .nil := Shape.eq_nil_of_ids (List.length_eq_zero.mp (by omega))
    subst hL; subst hR
    have hrep : Rep t (Ctx.plug .top (.node .nil a .nil)) := h.rep
    obtain ⟨na, hna, -⟩ := hrep.node_at
    have hkey : na.key = k := by
      have := h.keys_eq
      rw [hk] at this
      simpa [Shape.ids, RBTree.keyAt, hna] using this.symm
    have hcnt : t.cnt_ = 1 := by rw [h.cnt]; simp [Shape.ids]
    obtain ⟨t1, e1, hinv, -, -, -, -, hhd, hc0⟩ := clear_spec h
    refine ⟨t1, ?_, hc0, ?_, by rw [hhd], by rw [hhd], by rw [hhd], ?_⟩
    · unfold remove
      rw [h.rep.1.root_eq, Shape.root_node, remove_]
      simp only [reduceCtorEq, if_false, RBTree.nodeAt_node hna, Except.bind, hkey, ne_eq,
        not_true_eq_false, remove_found, hcnt, if_true, e1, Except.map]
    · simp [RBTree.begin, RBTree.end_, hhd]
    · rw [hinv.nodes_eq]; rfl

theorem eq_ok_of_toOption {α : Type} {r : Except Err α} {x : α} (h : r.toOption = some x) :
    r = .ok x := by
  cases r with
  | ok y => simp [Except.toOption] at h; rw [h]
  | error e => simp [Except.toOption] at h

end BabySTL

namespace BabySTL

variable {K V : Type}

theorem SameLinks.refl_links (w : World K V) : SameLinks w w :=
  ⟨rfl, fun _ => ⟨fun n h => ⟨n, h, rfl, rfl, rfl, rfl, rfl⟩, fun h => h⟩⟩

theorem SameLinks.trans_links {w w1 w2 : World K V} (h1 : SameLinks w w1) (h2 : SameLinks w1 w2) :
    SameLinks w w2 := by
  refine ⟨h2.1.trans h1.1, fun a => ⟨fun n hn => ?_, fun hn => (h2.2 a).2 ((h1.2 a).2 hn)⟩⟩
  obtain ⟨m, hm, e1, e2, e3, e4, e5⟩ := (h1.2 a).1 n hn
  obtain ⟨m2, hm2, f1, f2, f3, f4, f5⟩ := (h2.2 a).1 m hm
  exact ⟨m2, hm2, f1.trans e1, f2.trans e2, f3.trans e3, f4.trans e4, f5.trans e5⟩

theorem SameLinks.of_objs {w : World K V} (f : Nat → TreeObj) :
    SameLinks w { w with objs := f } :=
  ⟨rfl, fun _ => ⟨fun n h => ⟨n, h, rfl, rfl, rfl, rfl, rfl⟩, fun h => h⟩⟩

theorem SameLinks.inorder_eq {w w1 : World K V} (h : SameLinks w w1) (fuel : Nat) (p : Ref) :
    World.inorder fuel w1 p = World.inorder fuel w p := by
  induction fuel generalizing p with
  | zero => rfl
  | succ fuel ih =>
    cases p with
    | null => rfl
    | sentinel i => rfl
    | node a =>
      cases hn : w.heap a with
      | none => simp [World.inorder, hn, (h.2 a).2 hn]
      | some n =>
        obtain ⟨m, hm, e1, e2, -⟩ := (h.2 a).1 n hn
        simp [World.inorder, hn, hm, e1, e2, ih]

theorem SameLinks.isSome_eq {w w1 : World K V} (h : SameLinks w w1) (a : Nat) :
    (w1.heap a).isSome = (w.heap a).isSome := by
  cases hn : w.heap a with
  | none => simp [(h.2 a).2 hn]
  | some n =>
    obtain ⟨m, hm, -⟩ := (h.2 a).1 n hn
    simp [hm]

theorem SameLinks.entries_eq {w w1 : World K V} (h : SameLinks w w1) {i j : Nat}
    (hr : (w1.objs i).header_.parent = (w.objs j).header_.parent) :
    w1.entries i = w.entries j := by
  unfold World.entries World.nodes
  rw [hr, h.1, h.inorder_eq]
  apply List.filterMap_congr
  intro a _
  cases hn : w.heap a with
  | none => simp [(h.2 a).2 hn]
  | some n =>
    obtain ⟨m, hm, -, -, e3, e4, -⟩ := (h.2 a).1 n hn
    simp [hm, e3, e4]

theorem SameLinks.sound_links {w w1 : World K V} (h : SameLinks w w1) {i j : Nat}
    (hr : (w1.objs i).header_.parent = (w.objs j).header_.parent)
    (hc : (w1.objs i).cnt_ = (w.objs j).cnt_) (hs : w.Sound j) : w1.Sound i := by
  unfold World.Sound at hs ⊢
  rw [hr, hc]
  cases hp : (w.objs j).header_.parent with
  | null => simpa [hp] using hs
  | sentinel k => simp [hp] at hs
  | node a =>
    rw [hp] at hs
    simp only at hs ⊢
    rw [h.isSome_eq]
    exact hs

/-- Effect of the statements shared by the two move operations when `other`
holds a live root. -/
theorem World.take_nodes_spec (w : World K V) {self other a : Nat} (hne : self ≠ other)
    (hp : (w.objs other).header_.parent = .node a) (ha : (w.heap a).isSome = true) :
    ∃ w1, w.take_nodes self other = .ok w1 ∧ SameLinks w w1 ∧
      (w1.objs self).header_.parent = .node a ∧ (w1.objs other).header_.parent = .null ∧
      (w1.objs self).cnt_ = (w.objs self).cnt_ ∧ (w1.objs other).cnt_ = (w.objs other).cnt_ ∧
      ∀ j, j ≠ self → j ≠ other → w1.objs j = w.objs j := by
  obtain ⟨n, hn⟩ := Option.isSome_iff_exists.mp ha
  have hne2 : other ≠ self := fun h => hne h.symm
  refine ⟨_, by simp [World.take_nodes, hp, World.setBase, hn, Except.map]; rfl, ?_, ?_, ?_, ?_, ?_,
    ?_⟩
  · refine ⟨rfl, fun x => ⟨fun m hm => ?_, fun hm => ?_⟩⟩
    · by_cases hx : x = a
      · subst hx
        rw [hn] at hm
        cases hm
        exact ⟨{ n with parent := .sentinel self }, by simp [World.setHeader], rfl, rfl, rfl,
          rfl, rfl⟩
      · exact ⟨m, by simp [World.setHeader, hx, hm], rfl, rfl, rfl, rfl, rfl⟩
    · have hx : x ≠ a := by
        rintro rfl
        rw [hn] at hm
        cases hm
      simp [World.setHeader, hx, hm]
  · simp [World.setHeader, hne, hne2]
  · simp [World.setHeader, hne, hne2]
  · simp [World.setHeader, hne, hne2]
  · simp [World.setHeader, hne, hne2]
  · intro j h1 h2
    simp [World.setHeader, h1, h2]

theorem World.Sound.hollow_or_root {w : World K V} {i : Nat} (h : w.Sound i) :
    w.Hollow i ∨ ∃ a, (w.objs i).header_.parent = .node a ∧ (w.heap a).isSome = true := by
  unfold World.Sound at h
  cases hp : (w.objs i).header_.parent with
  | null => rw [hp] at h; exact .inl ⟨hp, h⟩
  | sentinel k => rw [hp] at h; exact h.elim
  | node a => rw [hp] at h; exact .inr ⟨a, rfl, h⟩

/-- The move constructor hands the root and the count of `other` to the new
object and leaves `other` empty. -/
theorem World.move_construct_spec (w : World K V) {self other : Nat} (hne : self ≠ other)
    (hs : w.Sound other) :
    ∃ w1, w.move_construct self other = .ok w1 ∧ SameLinks w w1 ∧ Holds w w1 self other ∧
      w1.Hollow other ∧ ∀ j, j ≠ self → j ≠ other → w1.objs j = w.objs j := by
  have hne2 : other ≠ self := fun h => hne h.symm
  rcases hs.hollow_or_root with ⟨hp, hc⟩ | ⟨a, hp, ha⟩
  · refine ⟨_, by simp [World.move_construct, hne2, hp]; rfl, SameLinks.of_objs _, ?_, ?_, ?_⟩
    · simp [Holds, TreeObj.fresh, hp, hc]
    · simp [World.Hollow, hne2, hp, hc]
    · intro j h1 h2
      simp [h1]
  · obtain ⟨w1, h1, hl, hr, ho, hc1, hc2, hj⟩ :=
      World.take_nodes_spec { w with objs := fun j => if j = self then TreeObj.fresh self
                                                      else w.objs j } hne
        (by simpa [hne2] using hp) ha
    refine ⟨_, by simp [World.move_construct, hne2, hp, h1, Except.map]; rfl,
      (SameLinks.of_objs _).trans_links (hl.trans_links (SameLinks.of_objs _)), ?_, ?_, ?_⟩
    · simp [Holds, World.setCnt, hne, hne2, hr, hp]
      simpa [hne2] using hc2
    · simp [World.Hollow, World.setCnt, hne, hne2, ho]
      simpa [TreeObj.fresh] using hc1
    · intro j j1 j2
      simp [World.setCnt, j1, j2, hj j j1 j2]

/-- The move assignment to an empty object hands it the root and the count of
`other` and leaves `other` empty. -/
theorem World.move_assign_spec (w : World K V) {self other : Nat} (hne : self ≠ other)
    (hs : w.Sound other) (hh : w.Hollow self) :
    ∃ w1, w.move_assign self other = .ok w1 ∧ SameLinks w w1 ∧ Holds w w1 self other ∧
      w1.Hollow other ∧ ∀ j, j ≠ self → j ≠ other → w1.objs j = w.objs j := by
  have hne2 : other ≠ self := fun h => hne h.symm
  rcases hs.hollow_or_root with ⟨hp, hc⟩ | ⟨a, hp, ha⟩
  · exact ⟨w, by simp [World.move_assign, hne, hp], SameLinks.refl_links w,
      ⟨hh.1.trans hp.symm, hh.2.trans hc.symm⟩, ⟨hp, hc⟩, fun _ _ _ => rfl⟩
  · obtain ⟨w1, h1, hl, hr, ho, hc1, hc2, hj⟩ := World.take_nodes_spec w hne hp ha
    refine ⟨_, by simp [World.move_assign, hne, hp, h1, Except.map]; rfl,
      hl.trans_links (SameLinks.of_objs _), ?_, ?_, ?_⟩
    · simp [Holds, World.setCnt, hne, hne2, hr, hp, hc2]
    · simp [World.Hollow, World.setCnt, hne, hne2, ho]
    · intro j j1 j2
      simp [World.setCnt, j1, j2, hj j j1 j2]

/-- The destructor of an empty tree object deletes no node. -/
theorem World.destruct_hollow (w : World K V) {i : Nat} (hh : w.Hollow i) :
    ∃ w1, w.destruct i = .ok w1 ∧ SameLinks w w1 ∧ ∀ j, j ≠ i → w1.objs j = w.objs j := by
  refine ⟨_, by simp [World.destruct, World.clear, hh.1, World.clear_, Except.map]; rfl,
    SameLinks.of_objs _, ?_⟩
  intro j hj
  simp [World.setCnt, World.setHeader, hj]

theorem Holds.sound_of_holds {w w1 : World K V} {i j : Nat} (h : Holds w w1 i j) (hl : SameLinks w w1)
    (hs : w.Sound j) : w1.Sound i :=
  hl.sound_links h.1 h.2 hs

theorem Holds.of_objs_eq {w w1 : World K V} {i : Nat} (h : w1.objs i = w.objs i) :
    Holds w w1 i i := by
  simp [Holds, h]

theorem Holds.trans_holds {w w1 w2 : World K V} {i j k : Nat} (h1 : Holds w w1 j k)
    (h2 : Holds w1 w2 i j) : Holds w w2 i k :=
  ⟨h2.1.trans h1.1, h2.2.trans h1.2⟩

/-- Effect of `BMap::swap` on two sound tree objects: it returns, the nodes keep
their links, keys and values, and each object ends with the root and the count
of the other. -/
theorem BMap.swap_exchange (w : World K V) {a b tmp : Nat} (hta : tmp ≠ a) (htb : tmp ≠ b)
    (hsa : w.Sound a) (hsb : w.Sound b) :
    ∃ w1, BMap.swap w a b tmp = .ok w1 ∧ SameLinks w w1 ∧ Holds w w1 a b ∧ Holds w w1 b a := by
  have hat : a ≠ tmp := fun h => hta h.symm
  have hbt : b ≠ tmp := fun h => htb h.symm
  obtain ⟨w1, e1, l1, k1, o1, j1⟩ := w.move_construct_spec hta hsa
  have st1 : w1.Sound tmp := k1.sound_of_holds l1 hsa
  by_cases hab : a = b
  · subst hab
    obtain ⟨w3, e3, l3, k3, o3, j3⟩ := w1.move_assign_spec hat st1 o1
    obtain ⟨w4, e4, l4, j4⟩ := w3.destruct_hollow o3
    have ka : Holds w w4 a a := k1.trans_holds (k3.trans_holds (Holds.of_objs_eq (j4 a hat)))
    refine ⟨w4, ?_, l1.trans_links (l3.trans_links l4), ka, ka⟩
    have e2 : w1.move_assign a a = .ok w1 := by simp [World.move_assign]
    simp [BMap.swap, e1, e2, e3, e4, Except.bind]
  · have hba : b ≠ a := fun h => hab h.symm
    have sb1 : w1.Sound b := (Holds.of_objs_eq (j1 b hbt hba)).sound_of_holds l1 hsb
    obtain ⟨w2, e2, l2, k2, o2, j2⟩ := w1.move_assign_spec hab sb1 o1
    have st2 : w2.Sound tmp := (Holds.of_objs_eq (j2 tmp hta htb)).sound_of_holds l2 st1
    obtain ⟨w3, e3, l3, k3, o3, j3⟩ := w2.move_assign_spec hbt st2 o2
    obtain ⟨w4, e4, l4, j4⟩ := w3.destruct_hollow o3
    refine ⟨w4, by simp [BMap.swap, e1, e2, e3, e4, Except.bind],
      l1.trans_links (l2.trans_links (l3.trans_links l4)), ?_, ?_⟩
    · exact (Holds.of_objs_eq (j1 b hbt hba)).trans_holds (k2.trans_holds
        ((Holds.of_objs_eq (j3 a hab hat)).trans_holds (Holds.of_objs_eq (j4 a hat))))
    · exact k1.trans_holds ((Holds.of_objs_eq (j2 tmp hta htb)).trans_holds
        (k3.trans_holds (Holds.of_objs_eq (j4 b hbt))))

end BabySTL

namespace BabySTL

theorem get_getD {l : List Nat} {i : Nat} (h : i < l.length) : l[i]? = some (l.getD i 0) := by
  rw [List.getD_eq_getElem?_getD, List.getElem?_eq_getElem h]
  rfl

theorem chr_get {str : List Nat} {i : Nat} (h : i < str.length) : str[i]? = some (chr str i) :=
  get_getD h

theorem Border.zero (str : List Nat) (i : Nat) : Border str i 0 :=
  ⟨Nat.zero_le _, fun x hx => absurd hx (Nat.not_lt_zero x)⟩

theorem Border.extend {str : List Nat} {i k : Nat} (hi : 1 ≤ i) (h : Border str (i - 1) k)
    (hc : chr str k = chr str i) : Border str i (k + 1) := by
  refine ⟨by have := h.1; omega, fun x hx => ?_⟩
  have h1 := h.1
  by_cases hxk : x < k
  · have := h.2 x hxk
    rw [this]
    congr 1
    omega
  · have hxe : x = k := by omega
    subst hxe
    rw [hc]
    congr 1
    omega

theorem Border.shrink {str : List Nat} {i k : Nat} (h : Border str i (k + 1)) :
    1 ≤ i ∧ Border str (i - 1) k ∧ chr str k = chr str i := by
  have h1 := h.1
  refine ⟨by omega, ⟨by omega, fun x hx => ?_⟩, ?_⟩
  · rw [h.2 x (by omega)]
    congr 1
    omega
  · rw [h.2 k (by omega)]
    congr 1
    omega

theorem Border.of_border {str : List Nat} {i j k : Nat} (hj : 1 ≤ j) (h : Border str i j)
    (h2 : Border str (j - 1) k) : Border str i k := by
  have h1 := h.1
  have h3 := h2.1
  refine ⟨by omega, fun x hx => ?_⟩
  rw [h2.2 x hx, h.2 (j - 1 + 1 - k + x) (by omega)]
  congr 1
  omega

theorem Border.inner {str : List Nat} {i j k : Nat} (h : Border str i j) (h2 : Border str i k)
    (hk : k < j) : Border str (j - 1) k := by
  have h1 := h.1
  refine ⟨by omega, fun x hx => ?_⟩
  rw [h2.2 x hx, h.2 (j - 1 + 1 - k + x) (by omega)]
  congr 1
  omega

/-- The inner loop of the prefix function returns the longest border of the
previous index that the current character extends, or 0. -/
theorem fallback_spec {str pi : List Nat} {i : Nat} (hi : 1 ≤ i) (hlen : i < str.length)
    (hpl : pi.length = i) (hpi : PrefixTable str pi) :
    ∀ fuel j, j < fuel → Border str (i - 1) j →
      (∀ k, Border str (i - 1) k → chr str k = chr str i → k ≤ j) →
      ∃ j1, fallback str pi i fuel j = some j1 ∧ Border str (i - 1) j1 ∧
        (∀ k, Border str (i - 1) k → chr str k = chr str i → k ≤ j1) ∧
        (j1 = 0 ∨ chr str i = chr str j1) := by
  intro fuel
  induction fuel with
  | zero => intro j hj; omega
  | succ fuel ih =>
    intro j hj hb hmax
    by_cases hj0 : j = 0
    · subst hj0
      exact ⟨0, by simp [fallback], hb, hmax, .inl rfl⟩
    · have hji : j ≤ i - 1 := hb.1
      have hjl : j < str.length := by omega
      by_cases hc : chr str i = chr str j
      · exact ⟨j, by simp only [fallback, hj0, chr_get hlen, chr_get hjl, Option.some_bind,
          if_false, ne_eq, hc, not_true_eq_false], hb, hmax, .inr hc⟩
      · have hjp : j - 1 < pi.length := by omega
        have hl := hpi (j - 1) hjp
        have hb1 : Border str (i - 1) (pi.getD (j - 1) 0) :=
          Border.of_border (by omega) hb hl.1
        have hlt : pi.getD (j - 1) 0 < fuel := by
          have := hl.1.1
          omega
        obtain ⟨j1, e, r⟩ := ih (pi.getD (j - 1) 0) hlt hb1 (by
          intro k hk hkc
          have hkj := hmax k hk hkc
          have hne : k ≠ j := by
            rintro rfl
            exact hc hkc.symm
          exact hl.2 k (Border.inner hb hk (by omega)))
        refine ⟨j1, ?_, r⟩
        have hg : pi[j - 1]? = some (pi.getD (j - 1) 0) := get_getD hjp
        simp only [fallback, hj0, chr_get hlen, chr_get hjl, hg, e, Option.some_bind, if_false,
          ne_eq, hc, not_false_eq_true, if_true]

theorem getD_append_left {l : List Nat} (x : Nat) (v : Nat) (h : x < l.length) :
    (l ++ [v]).getD x 0 = l.getD x 0 := by
  simp [List.getD_eq_getElem?_getD, List.getElem?_append_left h]

theorem getD_append_last (l : List Nat) (v : Nat) : (l ++ [v]).getD l.length 0 = v := by
  simp [List.getD_eq_getElem?_getD]

/-- One iteration of the prefix function extends a correct table by a correct
slot. -/
theorem prefix_step_spec {str pi : List Nat} {i : Nat} (hi : 1 ≤ i) (hlen : i < str.length)
    (hpl : pi.length = i) (hpi : PrefixTable str pi) :
    ∃ pi1, prefix_step str pi i = some pi1 ∧ pi1.length = i + 1 ∧ PrefixTable str pi1 := by
  have hip : i - 1 < pi.length := by omega
  have hl := hpi (i - 1) hip
  have hg : pi[i - 1]? = some (pi.getD (i - 1) 0) := get_getD hip
  obtain ⟨j, e, hb, hmax, hz⟩ := fallback_spec hi hlen hpl hpi (i + 1) (pi.getD (i - 1) 0)
    (by have := hl.1.1; omega) hl.1 (fun k hk _ => hl.2 k hk)
  have hjl : j < str.length := by have := hb.1; omega
  refine ⟨pi ++ [if chr str i = chr str j then j + 1 else j],
    by simp only [prefix_step, hg, e, chr_get hlen, chr_get hjl, Option.some_bind],
    by simp [hpl], ?_⟩
  intro x hx
  simp only [List.length_append, List.length_singleton] at hx
  by_cases hxi : x < pi.length
  · rw [getD_append_left x _ hxi]
    exact hpi x hxi
  · have hxe : x = pi.length := by omega
    subst hxe
    rw [getD_append_last, hpl]
    by_cases hc : chr str i = chr str j
    · simp only [hc, if_true]
      refine ⟨Border.extend hi hb hc.symm, fun k1 hk1 => ?_⟩
      cases k1 with
      | zero => omega
      | succ k =>
        obtain ⟨_, hbk, hck⟩ := hk1.shrink
        have := hmax k hbk hck
        omega
    · simp only [hc, if_false]
      have hj0 : j = 0 := hz.resolve_right hc
      subst hj0
      refine ⟨Border.zero _ _, fun k1 hk1 => ?_⟩
      cases k1 with
      | zero => omega
      | succ k =>
        obtain ⟨_, hbk, hck⟩ := hk1.shrink
        have hk0 : k = 0 := by have := hmax k hbk hck; omega
        subst hk0
        exact absurd hck.symm hc

theorem prefix_loop_spec (str : List Nat) :
    ∀ k i pi, 1 ≤ i → i + k ≤ str.length → pi.length = i → PrefixTable str pi →
      ∃ pi1, prefix_loop str k i pi = some pi1 ∧ pi1.length = i + k ∧ PrefixTable str pi1 := by
  intro k
  induction k with
  | zero => intro i pi _ _ hpl hpi; exact ⟨pi, rfl, hpl, hpi⟩
  | succ k ih =>
    intro i pi hi hlen hpl hpi
    obtain ⟨pi1, e1, l1, t1⟩ := prefix_step_spec hi (by omega) hpl hpi
    obtain ⟨pi2, e2, l2, t2⟩ := ih (i + 1) pi1 (by omega) (by omega) l1 t1
    exact ⟨pi2, by simp [prefix_loop, e1, e2], by omega, t2⟩

/-- The prefix function returns the table of longest borders. -/
theorem prefix_func_spec (str : List Nat) (h : 1 ≤ str.length) :
    ∃ pi, prefix_func str str.length = some pi ∧ pi.length = str.length ∧ PrefixTable str pi := by
  obtain ⟨pi, e, l, t⟩ := prefix_loop_spec str (str.length - 1) 1 [0] (le_refl 1) (by omega) rfl (by
    intro x hx
    simp only [List.length_singleton] at hx
    have hx0 : x = 0 := by omega
    subst hx0
    exact ⟨Border.zero _ _, fun k1 hk1 => hk1.1⟩)
  refine ⟨pi, ?_, by omega, t⟩
  have : str.length ≠ 0 := by omega
  simp [prefix_func, this, e]

theorem chr_ne_zero {l : List Nat} (h0 : 0 ∉ l) {x : Nat} (hx : x < l.length) : chr l x ≠ 0 := by
  intro h
  apply h0
  rw [List.mem_iff_getElem?]
  exact ⟨x, by rw [chr_get hx, h]⟩

theorem chr_eq_zero {l : List Nat} {x : Nat} (hx : l.length ≤ x) : chr l x = 0 := by
  unfold chr
  rw [List.getD_eq_getElem?_getD, List.getElem?_eq_none hx]
  rfl

theorem chr_cur_left (s txt : List Nat) {x : Nat} (hx : x < s.length) :
    chr (s ++ [0] ++ txt) x = chr s x := by
  unfold chr
  rw [List.getD_eq_getElem?_getD, List.getD_eq_getElem?_getD, List.append_assoc,
    List.getElem?_append_left hx]

theorem chr_cur_sep (s txt : List Nat) : chr (s ++ [0] ++ txt) s.length = 0 := by
  unfold chr
  rw [List.getD_eq_getElem?_getD, List.append_assoc, List.getElem?_append_right (le_refl _)]
  simp

theorem chr_cur_right (s txt : List Nat) {y : Nat} (hy : s.length < y) :
    chr (s ++ [0] ++ txt) y = chr txt (y - s.length - 1) := by
  unfold chr
  rw [List.getD_eq_getElem?_getD, List.getD_eq_getElem?_getD,
    List.getElem?_append_right (by simp; omega)]
  simp only [List.length_append, List.length_singleton]
  congr 2

/-- No border of the search buffer is longer than the pattern: it would carry
the separator into the text. -/
theorem border_le_sep {s txt : List Nat} (h0 : 0 ∉ txt) {i v : Nat}
    (hi : i ≤ txt.length + s.length) (hb : Border (s ++ [0] ++ txt) i v) : v ≤ s.length := by
  by_contra hv
  have h1 := hb.1
  have h2 := hb.2 s.length (by omega)
  rw [chr_cur_sep, chr_cur_right s txt (by omega)] at h2
  exact chr_ne_zero h0 (by omega) h2.symm

/-- A border of the length of the pattern at index `i` of the search buffer is
an occurrence of the pattern in the text ending there. -/
theorem border_sep_iff {s txt : List Nat} (hs : 0 ∉ s) {i : Nat} (h1 : s.length + 1 ≤ i) :
    Border (s ++ [0] ++ txt) i s.length ↔
      2 * s.length ≤ i ∧ ∀ x, x < s.length → chr s x = chr txt (i - 2 * s.length + x) := by
  constructor
  · intro hb
    have h2 : 2 * s.length ≤ i := by
      by_contra hlt
      have h3 := hb.2 (2 * s.length - i - 1) (by omega)
      rw [chr_cur_left s txt (by omega),
        show i + 1 - s.length + (2 * s.length - i - 1) = s.length by omega, chr_cur_sep] at h3
      exact chr_ne_zero hs (by omega) h3
    refine ⟨h2, fun x hx => ?_⟩
    have h3 := hb.2 x hx
    rw [chr_cur_left s txt hx, chr_cur_right s txt (by omega)] at h3
    rw [h3]
    congr 1
    omega
  · rintro ⟨h2, h⟩
    refine ⟨by omega, fun x hx => ?_⟩
    rw [chr_cur_left s txt hx, chr_cur_right s txt (by omega), h x hx]
    congr 1
    omega

theorem prefix_drop_iff {s txt : List Nat} (hs : 0 ∉ s) (j : Nat) :
    s <+: txt.drop j ↔ ∀ x, x < s.length → chr s x = chr txt (j + x) := by
  rw [List.isPrefix_iff]
  constructor
  · intro h x hx
    have h1 := h x hx
    rw [List.getElem?_drop] at h1
    have h2 := chr_get hx
    rw [List.getElem?_eq_getElem hx] at h2
    unfold chr at h2 ⊢
    rw [List.getD_eq_getElem?_getD txt, h1]
    exact (Option.some.inj h2).symm
  · intro h x hx
    have h1 := h x hx
    have hlt : j + x < txt.length := by
      by_contra hge
      have hz : chr txt (j + x) = 0 := chr_eq_zero (by omega)
      rw [hz] at h1
      exact chr_ne_zero hs hx h1
    have h2 := chr_get hx
    rw [List.getElem?_eq_getElem hx] at h2
    rw [List.getElem?_drop, chr_get hlt, ← h1, ← Option.some.inj h2]

theorem strncpy_left {l : List Nat} (r : List Nat) (h0 : 0 ∉ l) :
    strncpy (l ++ r) l.length = l := by
  have h1 : (List.takeWhile (fun c => c != 0) l) = l := by
    rw [List.takeWhile_eq_self_iff]
    intro x hx
    have : x ≠ 0 := by
      rintro rfl
      exact h0 hx
    simpa using this
  unfold strncpy
  rw [List.take_left, h1]
  simp

theorem scan_spec (lps : List Nat) (n beg : Nat) :
    ∀ k i, i + k ≤ lps.length →
      ∃ r, scan lps n beg k i = some r ∧
        ((r = BString.npos ∧ ∀ y, i ≤ y → y < i + k → lps.getD y 0 ≠ n) ∨
         ∃ y, i ≤ y ∧ y < i + k ∧ lps.getD y 0 = n ∧ (∀ z, i ≤ z → z < y → lps.getD z 0 ≠ n) ∧
           r = (((y : Int) - 2 * (n : Int) + (beg : Int)) % 2 ^ 64).toNat) := by
  intro k
  induction k with
  | zero =>
    intro i _
    exact ⟨_, rfl, .inl ⟨rfl, fun y h1 h2 => by omega⟩⟩
  | succ k ih =>
    intro i hi
    have hg : lps[i]? = some (lps.getD i 0) := get_getD (by omega)
    by_cases hv : lps.getD i 0 = n
    · refine ⟨_, by simp only [scan, hg, Option.some_bind, hv, if_true], .inr ⟨i, le_refl _,
        by omega, hv, fun z h1 h2 => by omega, rfl⟩⟩
    · obtain ⟨r, e, h⟩ := ih (i + 1) (by omega)
      refine ⟨r, by simp only [scan, hg, Option.some_bind, hv, if_false, e], ?_⟩
      rcases h with ⟨hr, hn⟩ | ⟨y, h1, h2, h3, h4, h5⟩
      · refine .inl ⟨hr, fun y h1 h2 => ?_⟩
        by_cases hy : y = i
        · rw [hy]; exact hv
        · exact hn y (by omega) (by omega)
      · refine .inr ⟨y, by omega, by omega, h3, fun z z1 z2 => ?_, h5⟩
        by_cases hz : z = i
        · rw [hz]; exact hv
        · exact h4 z (by omega) z2

end BabySTL

namespace BabySTL

variable {K V : Type}

/-! ## Coloured shapes and the store -/

theorem CCtx.erase_plug (c : CCtx) (s : CShape) : (c.plug s).erase = c.erase.plug s.erase := by
  induction c generalizing s with
  | top => rfl
  | left up a k r ih => simp [CCtx.plug, CCtx.erase, Ctx.plug, ih, CShape.erase]
  | right up l a k ih => simp [CCtx.plug, CCtx.erase, Ctx.plug, ih, CShape.erase]

theorem CCtx.pairs_plug (c : CCtx) (s : CShape) :
    (c.plug s).pairs = c.pbefore ++ s.pairs ++ c.pafter := by
  induction c generalizing s with
  | top => simp [CCtx.plug, CCtx.pbefore, CCtx.pafter]
  | left up a k r ih => simp [CCtx.plug, CCtx.pbefore, CCtx.pafter, ih, CShape.pairs]
  | right up l a k ih => simp [CCtx.plug, CCtx.pbefore, CCtx.pafter, ih, CShape.pairs]

theorem CShape.ids_erase (s : CShape) : s.erase.ids = s.pairs.map Prod.fst := by
  induction s with
  | nil => rfl
  | node l a k r ihl ihr => simp [CShape.erase, Shape.ids, CShape.pairs, ihl, ihr]

theorem CCtx.before_erase (c : CCtx) : c.erase.before = c.pbefore.map Prod.fst := by
  induction c with
  | top => rfl
  | left up a k r ih => simp [CCtx.erase, Ctx.before, CCtx.pbefore, ih]
  | right up l a k ih =>
    simp [CCtx.erase, Ctx.before, CCtx.pbefore, ih, CShape.ids_erase]

theorem CCtx.after_erase (c : CCtx) : c.erase.after = c.pafter.map Prod.fst := by
  induction c with
  | top => rfl
  | left up a k r ih => simp [CCtx.erase, Ctx.after, CCtx.pafter, ih, CShape.ids_erase]
  | right up l a k ih => simp [CCtx.erase, Ctx.after, CCtx.pafter, ih]

theorem CRep.focus {t : RBTree K V} {c : CCtx} {X : CShape} (h : CRep t (c.plug X)) :
    Rep t (c.erase.plug X.erase) := by
  rw [← CCtx.erase_plug]
  exact h.1

theorem CRep.node_color {t : RBTree K V} {c : CCtx} {A B : CShape} {a : Nat} {k : RBTreeColor}
    (h : CRep t (c.plug (.node A a k B))) : ∃ n, t.heap a = some n ∧ n.color = k := by
  have h1 := h.2 (a, k) (by simp [CCtx.pairs_plug, CShape.pairs])
  simp only [RBTree.colorAt, Option.map_eq_some'] at h1
  exact h1

theorem CRep.colorOf_eq {t : RBTree K V} {c : CCtx} {A B : CShape} {a : Nat} {k : RBTreeColor}
    (h : CRep t (c.plug (.node A a k B))) : t.colorOf (.node a) = .ok k := by
  obtain ⟨n, hn, hk⟩ := h.node_color
  rw [RBTree.colorOf_node hn, hk]

/-- Painting the node in focus. -/
theorem CRep.recolor {t : RBTree K V} {c : CCtx} {A B : CShape} {a : Nat} {k : RBTreeColor}
    (h : CRep t (c.plug (.node A a k B))) (k1 : RBTreeColor) :
    ∃ t1, t.setColor (.node a) k1 = .ok t1 ∧ CRep t1 (c.plug (.node A a k1 B)) ∧
      SameEntries t t1 := by
  obtain ⟨n, hn, -⟩ := h.node_color
  have hs := h.1.store_color hn k1
  refine ⟨_, RBTree.setColor_node hn k1, ⟨?_, ?_⟩, hs.2⟩
  · have he : (c.plug (.node A a k1 B)).erase = (c.plug (.node A a k B)).erase := by
      simp [CCtx.erase_plug, CShape.erase]
    rw [he]
    exact hs.1
  · have hnd := h.1.2
    rw [CShape.ids_erase, CCtx.pairs_plug] at hnd
    have hcount := fun x => List.nodup_iff_count_le_one.mp hnd x
    simp only [CShape.pairs, List.map_append, List.map_cons, List.count_append,
      List.count_cons, beq_self_eq_true, if_true] at hcount
    have hc := hcount a
    simp only [beq_self_eq_true, if_true] at hc
    intro p hp
    rw [CCtx.pairs_plug] at hp
    simp only [CShape.pairs, List.mem_append, List.mem_cons] at hp
    by_cases hpa : p.1 = a
    · have hp1 : p = (a, k1) := by
        rcases hp with (hp | hp | hp | hp) | hp
        · have := List.count_pos_iff.mpr (List.mem_map_of_mem Prod.fst hp)
          rw [hpa] at this
          omega
        · have := List.count_pos_iff.mpr (List.mem_map_of_mem Prod.fst hp)
          rw [hpa] at this
          omega
        · exact hp
        · have := List.count_pos_iff.mpr (List.mem_map_of_mem Prod.fst hp)
          rw [hpa] at this
          omega
        · have := List.count_pos_iff.mpr (List.mem_map_of_mem Prod.fst hp)
          rw [hpa] at this
          omega
      rw [hp1]
      simp [RBTree.colorAt, RBTree.store]
    · have hold : p ∈ (c.plug (.node A a k B)).pairs := by
        rw [CCtx.pairs_plug]
        simp only [CShape.pairs, List.mem_append, List.mem_cons]
        rcases hp with (hp | hp | hp | hp) | hp
        · exact .inl (.inl hp)
        · exact .inl (.inr (.inl hp))
        · rw [hp] at hpa
          exact absurd rfl hpa
        · exact .inl (.inr (.inr (.inr hp)))
        · exact .inr hp
      have := h.2 p hold
      simpa [RBTree.colorAt, RBTree.store, hpa] using this

theorem CRep.of_same_data {t t1 : RBTree K V} {s s1 : CShape} (h : CRep t s)
    (hr : Rep t1 s1.erase) (hp : s1.pairs = s.pairs) (hd : SameData t t1) : CRep t1 s1 := by
  refine ⟨hr, fun p hp1 => ?_⟩
  rw [hp] at hp1
  have h1 := h.2 p hp1
  have h2 := hd.data p.1
  simp only [RBTree.dataAt, RBTree.colorAt] at h1 h2 ⊢
  cases ht : t.heap p.1 with
  | none => rw [ht] at h1; simp at h1
  | some n =>
    rw [ht] at h1 h2
    cases ht1 : t1.heap p.1 with
    | none => rw [ht1] at h2; simp at h2
    | some n1 =>
      rw [ht1] at h2
      simp only [Option.map_some', Option.some.injEq, Prod.mk.injEq] at h1 h2 ⊢
      rw [h2.1, h1]

/-- Left rotation about the node in focus keeps the colours. -/
theorem CRep.rot_left {t : RBTree K V} {c : CCtx} {A B C : CShape} {n r : Nat}
    {kn kr : RBTreeColor} (h : CRep t (c.plug (.node A n kn (.node B r kr C)))) :
    ∃ t1, rotate_left_ t (.node n) = .ok t1 ∧
      CRep t1 (c.plug (.node (.node A n kn B) r kr C)) ∧ SameData t t1 := by
  have h0 : Rep t (c.erase.plug (.node A.erase n (.node B.erase r C.erase))) := h.focus
  obtain ⟨t1, e1, r1, d1⟩ := rotate_left_spec h0
  refine ⟨t1, e1, h.of_same_data ?_ ?_ d1, d1⟩
  · rw [CCtx.erase_plug]
    exact r1
  · simp [CCtx.pairs_plug, CShape.pairs]

/-- Right rotation about the node in focus keeps the colours. -/
theorem CRep.rot_right {t : RBTree K V} {c : CCtx} {A B C : CShape} {n r : Nat}
    {kn kr : RBTreeColor} (h : CRep t (c.plug (.node (.node A r kr B) n kn C))) :
    ∃ t1, rotate_right_ t (.node n) = .ok t1 ∧
      CRep t1 (c.plug (.node A r kr (.node B n kn C))) ∧ SameData t t1 := by
  have h0 : Rep t (c.erase.plug (.node (.node A.erase r B.erase) n C.erase)) := h.focus
  obtain ⟨t1, e1, r1, d1⟩ := rotate_right_spec h0
  refine ⟨t1, e1, h.of_same_data ?_ ?_ d1, d1⟩
  · rw [CCtx.erase_plug]
    exact r1
  · simp [CCtx.pairs_plug, CShape.pairs]

/-- The test `p != nullptr && p->color == kRed` on the root of a subtree. -/
theorem CRep.isRed_eq {t : RBTree K V} {c : CCtx} {X : CShape} (h : CRep t (c.plug X)) :
    ∃ b, isRed t X.erase.root = .ok b ∧ (b = true ↔ ¬ X.isBlack) := by
  cases X with
  | nil => exact ⟨false, by simp [isRed, CShape.erase, Shape.root], by simp [CShape.isBlack]⟩
  | node l a k r =>
    refine ⟨decide (k = .kRed), by simp [isRed, CShape.erase, Shape.root, h.colorOf_eq,
      Except.map], ?_⟩
    cases k <;> simp [CShape.isBlack]

/-! ### Red-black validity of a plugged context -/

theorem CCtx.valid_plug {c : CCtx} : ∀ {X : CShape} {h : Nat}, c.OK h → X.RB → X.bh = h →
    (X.isBlack ∨ c.aboveBlack) → (c.plug X).Valid := by
  induction c with
  | top =>
    intro X h _ hX _ hb
    exact ⟨hX, hb.resolve_right (by simp [CCtx.aboveBlack])⟩
  | left up a k r ih =>
    intro X h hc hX hh hb
    obtain ⟨r1, r2, r3, r4⟩ := hc
    refine ih (X := .node X a k r) r4 ⟨hX, r1, by omega, fun hk => ⟨?_, (r3 hk).1⟩⟩
      (by simp [CShape.bh, hh]) ?_
    · rcases hb with hb | hb
      · exact hb
      · simp [CCtx.aboveBlack] at hb
        rw [hb] at hk
        cases hk
    · cases k with
      | kBlack => exact .inl rfl
      | kRed => exact .inr (r3 rfl).2
  | right up l a k ih =>
    intro X h hc hX hh hb
    obtain ⟨r1, r2, r3, r4⟩ := hc
    refine ih (X := .node l a k X) r4 ⟨r1, hX, by omega, fun hk => ⟨(r3 hk).1, ?_⟩⟩
      (by simp [CShape.bh, r2]) ?_
    · rcases hb with hb | hb
      · exact hb
      · simp [CCtx.aboveBlack] at hb
        rw [hb] at hk
        cases hk
    · cases k with
      | kBlack => exact .inl rfl
      | kRed => exact .inr (r3 rfl).2

theorem CCtx.valid_unplug {c : CCtx} : ∀ {X : CShape}, (c.plug X).Valid →
    c.OK X.bh ∧ X.RB ∧ (X.isBlack ∨ c.aboveBlack) := by
  induction c with
  | top =>
    intro X hv
    exact ⟨trivial, hv.1, .inl hv.2⟩
  | left up a k r ih =>
    intro X hv
    obtain ⟨h1, ⟨hX, hr, hbh, hk⟩, h3⟩ := ih (X := .node X a k r) hv
    refine ⟨⟨hr, hbh.symm, fun hk1 => ⟨(hk hk1).2, ?_⟩, by simpa [CShape.bh] using h1⟩, hX, ?_⟩
    · rcases h3 with h3 | h3
      · simp [CShape.isBlack] at h3
        rw [h3] at hk1
        cases hk1
      · exact h3
    · cases k with
      | kBlack => exact .inr rfl
      | kRed => exact .inl (hk rfl).1
  | right up l a k ih =>
    intro X hv
    obtain ⟨h1, ⟨hl, hX, hbh, hk⟩, h3⟩ := ih (X := .node l a k X) hv
    refine ⟨⟨hl, hbh, fun hk1 => ⟨(hk hk1).1, ?_⟩, by simpa [CShape.bh, hbh] using h1⟩, hX, ?_⟩
    · rcases h3 with h3 | h3
      · simp [CShape.isBlack] at h3
        rw [h3] at hk1
        cases hk1
      · exact h3
    · cases k with
      | kBlack => exact .inr rfl
      | kRed => exact .inl (hk rfl).2

end BabySTL

namespace BabySTL

variable {K V : Type}

/-! ## The remove fix-up restores the red-black invariants -/

theorem CShape.node_of_bh_pos {R : CShape} {h : Nat} (hb : R.bh = h + 1) :
    ∃ R1 s ks R2, R = .node R1 s ks R2 := by
  cases R with
  | nil => simp [CShape.bh] at hb
  | node R1 s ks R2 => exact ⟨R1, s, ks, R2, rfl⟩

theorem CShape.black_node_of {R : CShape} {h : Nat} (hb : R.bh = h + 1) (hk : R.isBlack) :
    ∃ R1 s R2, R = .node R1 s .kBlack R2 := by
  obtain ⟨R1, s, ks, R2, rfl⟩ := CShape.node_of_bh_pos hb
  simp only [CShape.isBlack] at hk
  subst hk
  exact ⟨R1, s, R2, rfl⟩

theorem CShape.red_node_of {R : CShape} (hk : ¬ R.isBlack) :
    ∃ R1 s R2, R = .node R1 s .kRed R2 := by
  cases R with
  | nil => simp [CShape.isBlack] at hk
  | node R1 s ks R2 =>
    cases ks with
    | kRed => exact ⟨R1, s, R2, rfl⟩
    | kBlack => simp [CShape.isBlack] at hk

theorem rar_step1_left_c {t : RBTree K V} {up : CCtx} {pa x : Nat} {kp kx : RBTreeColor}
    {R A B : CShape} {h : Nat}
    (hr : CRep t ((up.left pa kp R).plug (.node A x kx B)))
    (hok : (up.left pa kp R).OK (h + 1)) :
    ∃ (t1 : RBTree K V) (up4 : CCtx) (kp4 : RBTreeColor) (N1 : CShape) (s : Nat) (N2 : CShape),
      rar_step1 t (.node x) = .ok (t1, .node s) ∧
      CRep t1 ((up4.left pa kp4 (.node N1 s .kBlack N2)).plug (.node A x kx B)) ∧
      (up4.left pa kp4 (.node N1 s .kBlack N2)).OK (h + 1) ∧
      up4.erase.before = up.erase.before ∧
      (CShape.node N1 s .kBlack N2).erase.ids ++ up4.erase.after = R.erase.ids ++ up.erase.after ∧
      SameEntries t t1 ∧ (up4.erase.depth = up.erase.depth ∨ kp4 = .kRed) := by
  obtain ⟨hRB, hRh, hkp, hup⟩ := hok
  obtain ⟨R1, s, ks, R2, rfl⟩ := CShape.node_of_bh_pos hRh
  have h0 : Rep t ((up.erase.left pa (.node R1.erase s R2.erase)).plug
      (.node A.erase x B.erase)) := hr.focus
  have hs : CRep t ((up.right (.node A x kx B) pa kp).plug (.node R1 s ks R2)) := hr
  have hpa : CRep t (up.plug (.node (.node A x kx B) pa kp (.node R1 s ks R2))) := hr
  rw [rar_step1, get_sibling_left h0]
  simp only [Shape.root_node, hs.colorOf_eq, Except.bind]
  cases ks with
  | kBlack =>
    simp only [reduceCtorEq, if_false]
    exact ⟨t, up, kp, R1, s, R2, rfl, hr, ⟨hRB, hRh, hkp, hup⟩, rfl, rfl,
      SameEntries.refl_entries t, .inl rfl⟩
  | kRed =>
    simp only [if_true]
    obtain ⟨q1, q2, q3, q4⟩ := hRB
    obtain ⟨b1, b2⟩ := q4 rfl
    have hkb : kp = .kBlack := by
      cases kp with
      | kBlack => rfl
      | kRed => exact absurd (hkp rfl).1 (by simp [CShape.isBlack])
    subst hkb
    simp only [CShape.bh, reduceCtorEq, if_false, Nat.add_zero, if_true] at hRh hup
    obtain ⟨N1, s1, N2, rfl⟩ := CShape.black_node_of hRh b1
    have hpa0 : Rep t (up.erase.plug (.node (.node A.erase x B.erase) pa
        (.node (CShape.node N1 s1 .kBlack N2).erase s R2.erase))) := hpa.focus
    obtain ⟨t1, e1, r1, d1⟩ := hpa.rot_left
    have e1a : rotate_toward t (.node pa) (.node x) = .ok t1 := by
      simp only [rotate_toward, hpa0.leftOf, Shape.root_node, Except.bind, if_true]
      exact e1
    have r1a : CRep t1 ((up.left s .kRed R2).plug
        (.node (.node A x kx B) pa .kBlack (.node N1 s1 .kBlack N2))) := r1
    obtain ⟨t2, e2, r2, d2⟩ := r1a.recolor .kRed
    have r2a : CRep t2 (up.plug (.node (.node (.node A x kx B) pa .kRed
        (.node N1 s1 .kBlack N2)) s .kRed R2)) := r2
    obtain ⟨t3, e3, r3, d3⟩ := r2a.recolor .kBlack
    have r3a : CRep t3 (((up.left s .kBlack R2).left pa .kRed (.node N1 s1 .kBlack N2)).plug
        (.node A x kx B)) := r3
    have r30 : Rep t3 (((up.erase.left s R2.erase).left pa (.node N1.erase s1 N2.erase)).plug
        (.node A.erase x B.erase)) := r3a.focus
    simp only [h0.get_parent, Ctx.getParent, Except.bind, e1a, e2, e3, get_sibling_left r30,
      Except.map, Shape.root_node]
    refine ⟨t3, up.left s .kBlack R2, .kRed, N1, s1, N2, rfl, r3a, ?_, rfl, ?_,
      d1.toEntries.trans_entries (d2.trans_entries d3), .inr rfl⟩
    · simp only [CCtx.OK, CShape.bh, CCtx.aboveBlack, CShape.isBlack, reduceCtorEq, if_false,
        if_true, Nat.add_zero, implies_true, and_true, true_and, false_implies]
      simp only [CShape.bh, if_true] at hRh q3
      exact ⟨q1, hRh, q2, by omega, hup⟩
    · simp [CCtx.erase, Ctx.after, CShape.erase, Shape.ids]

theorem rar_fix_left_c {t : RBTree K V} {up : CCtx} {pa x s : Nat} {kp kx : RBTreeColor}
    {N1 N2 A B : CShape} {h : Nat}
    (hr : CRep t ((up.left pa kp (.node N1 s .kBlack N2)).plug (.node A x kx B)))
    (hok : (up.left pa kp (.node N1 s .kBlack N2)).OK (h + 1))
    (closeRed : Bool) (hcr : closeRed = true ↔ ¬ N1.isBlack)
    (hsome : ¬ N1.isBlack ∨ ¬ N2.isBlack) :
    ∃ (t1 : RBTree K V) (d : CCtx),
      rar_fix t (.node x) (.node pa) (.node s) (N1.erase.root, N2.erase.root) closeRed
        = .ok t1 ∧
      CRep t1 (d.plug (.node A x kx B)) ∧ d.OK h ∧
      d.erase.before = (up.left pa kp (.node N1 s .kBlack N2)).erase.before ∧
      d.erase.after = (up.left pa kp (.node N1 s .kBlack N2)).erase.after ∧
      SameEntries t t1 := by
  obtain ⟨⟨q1, q2, q3, -⟩, hRh, hkp, hup⟩ := hok
  simp only [CShape.bh, if_true] at hRh
  have h0 : Rep t ((up.erase.left pa (.node N1.erase s N2.erase)).plug
      (.node A.erase x B.erase)) := hr.focus
  have hxs : x ≠ s :=
    Rep.ne_of_mem (c := up.erase.right (.node A.erase x B.erase) pa) (A := N1.erase)
      (B := N2.erase) (x := x) h0 (Or.inl (by simp [Ctx.before, Shape.ids]))
  have hne : (Ptr.node x = Ptr.node s) = False := by simp [hxs]
  have hpa0 : Rep t (up.erase.plug (.node (.node A.erase x B.erase) pa
      (.node N1.erase s N2.erase))) := h0
  cases closeRed with
  | true =>
    obtain ⟨E, cn, F, rfl⟩ := CShape.red_node_of (hcr.mp rfl)
    obtain ⟨f1, f2, f3, f4⟩ := q1
    simp only [CShape.bh, reduceCtorEq, if_false, Nat.add_zero] at hRh q3
    have hs : CRep t ((up.right (.node A x kx B) pa kp).plug
        (.node (.node E cn .kRed F) s .kBlack N2)) := hr
    obtain ⟨t5, e5, r5, d5⟩ := hs.rot_right
    have r5a : CRep t5 (((up.right (.node A x kx B) pa kp).right E cn .kRed).plug
        (.node F s .kBlack N2)) := r5
    obtain ⟨t6, e6, r6, d6⟩ := r5a.recolor .kRed
    have r6a : CRep t6 ((up.right (.node A x kx B) pa kp).plug
        (.node E cn .kRed (.node F s .kRed N2))) := r6
    obtain ⟨t7, e7, r7, d7⟩ := r6a.recolor .kBlack
    have r7a : CRep t7 ((up.left pa kp (.node E cn .kBlack (.node F s .kRed N2))).plug
        (.node A x kx B)) := r7
    have r70 : Rep t7 ((up.erase.left pa (.node E.erase cn (.node F.erase s N2.erase))).plug
        (.node A.erase x B.erase)) := r7a.focus
    have r7b : CRep t7 (up.plug (.node (.node A x kx B) pa kp
        (.node E cn .kBlack (.node F s .kRed N2)))) := r7
    have r7b0 : Rep t7 (up.erase.plug (.node (.node A.erase x B.erase) pa
        (.node E.erase cn (.node F.erase s N2.erase)))) := r70
    obtain ⟨t9, e9, r9, d9⟩ := r7b.rot_left
    have e9a : rotate_toward t7 (.node pa) (.node x) = .ok t9 := by
      simp only [rotate_toward, r7b0.leftOf, Shape.root_node, Except.bind, if_true]
      exact e9
    have r9a : CRep t9 ((up.left cn .kBlack (.node F s .kRed N2)).plug
        (.node (.node A x kx B) pa kp E)) := r9
    have r9b : CRep t9 (up.plug (.node (.node (.node A x kx B) pa kp E) cn .kBlack
        (.node F s .kRed N2))) := r9
    obtain ⟨t10, e10, r10, d10⟩ := r9b.recolor kp
    have r10a : CRep t10 ((up.left cn kp (.node F s .kRed N2)).plug
        (.node (.node A x kx B) pa kp E)) := r10
    obtain ⟨t11, e11, r11, d11⟩ := r10a.recolor .kBlack
    have r11a : CRep t11 ((up.right (.node (.node A x kx B) pa .kBlack E) cn kp).plug
        (.node F s .kRed N2)) := r11
    obtain ⟨t12, e12, r12, d12⟩ := r11a.recolor .kBlack
    have r12a : CRep t12 (((up.left cn kp (.node F s .kBlack N2)).left pa .kBlack E).plug
        (.node A x kx B)) := r12
    refine ⟨t12, (up.left cn kp (.node F s .kBlack N2)).left pa .kBlack E, ?_, r12a, ?_, rfl,
      by simp [CCtx.erase, Ctx.after, CShape.erase, Shape.ids],
      d5.toEntries.trans_entries (d6.trans_entries (d7.trans_entries (d9.toEntries.trans_entries
        (d10.trans_entries (d11.trans_entries d12)))))⟩
    · simp only [rar_fix, if_true, hpa0.leftOf, Shape.root_node, hne, if_false, Except.bind,
        e5, e6, CShape.erase, e7, get_sibling_left r70, nephews_left r70, Except.map, e9a,
        r9a.colorOf_eq, e10, e11, ne_eq, reduceCtorEq, not_false_eq_true, e12]
    · simp only [CCtx.OK, CShape.RB, CShape.bh, CCtx.aboveBlack, CShape.isBlack, reduceCtorEq,
        if_false, if_true, Nat.add_zero, implies_true, and_true, true_and, false_implies]
      exact ⟨f1, by omega, ⟨f2, q2, by omega⟩, by omega, fun hk => (hkp hk).2, hup⟩
  | false =>
    have hN1 : N1.isBlack := by
      by_contra hc
      have := hcr.mpr hc
      cases this
    obtain ⟨G, d, H, rfl⟩ := CShape.red_node_of (hsome.resolve_left (not_not.mpr hN1))
    obtain ⟨g1, g2, g3, -⟩ := q2
    simp only [CShape.bh, reduceCtorEq, if_false, Nat.add_zero] at q3
    have hpa : CRep t (up.plug (.node (.node A x kx B) pa kp
        (.node N1 s .kBlack (.node G d .kRed H)))) := hr
    obtain ⟨t9, e9, r9, d9⟩ := hpa.rot_left
    have e9a : rotate_toward t (.node pa) (.node x) = .ok t9 := by
      simp only [rotate_toward, hpa0.leftOf, Shape.root_node, Except.bind, if_true]
      exact e9
    have r9a : CRep t9 ((up.left s .kBlack (.node G d .kRed H)).plug
        (.node (.node A x kx B) pa kp N1)) := r9
    have r9b : CRep t9 (up.plug (.node (.node (.node A x kx B) pa kp N1) s .kBlack
        (.node G d .kRed H))) := r9
    obtain ⟨t10, e10, r10, d10⟩ := r9b.recolor kp
    have r10a : CRep t10 ((up.left s kp (.node G d .kRed H)).plug
        (.node (.node A x kx B) pa kp N1)) := r10
    obtain ⟨t11, e11, r11, d11⟩ := r10a.recolor .kBlack
    have r11a : CRep t11 ((up.right (.node (.node A x kx B) pa .kBlack N1) s kp).plug
        (.node G d .kRed H)) := r11
    obtain ⟨t12, e12, r12, d12⟩ := r11a.recolor .kBlack
    have r12a : CRep t12 (((up.left s kp (.node G d .kBlack H)).left pa .kBlack N1).plug
        (.node A x kx B)) := r12
    refine ⟨t12, (up.left s kp (.node G d .kBlack H)).left pa .kBlack N1, ?_, r12a, ?_, rfl,
      by simp [CCtx.erase, Ctx.after, CShape.erase, Shape.ids],
      d9.toEntries.trans_entries (d10.trans_entries (d11.trans_entries d12))⟩
    · simp only [rar_fix, Bool.false_eq_true, if_false, Except.bind, e9a, r9a.colorOf_eq, e10,
        e11, CShape.erase, Shape.root_node, ne_eq, reduceCtorEq, not_false_eq_true, if_true,
        e12]
    · simp only [CCtx.OK, CShape.RB, CShape.bh, CCtx.aboveBlack, CShape.isBlack, reduceCtorEq,
        if_false, if_true, Nat.add_zero, implies_true, and_true, true_and, false_implies]
      exact ⟨q1, by omega, ⟨g1, g2, g3⟩, by omega, fun hk => (hkp hk).2, hup⟩

theorem rar_step2_left_c {again : RBTree K V → Ptr → Except Err (RBTree K V)} {fuel : Nat}
    (hrec : ∀ (t : RBTree K V) (c : CCtx) (A B : CShape) (a : Nat) (k : RBTreeColor) (h : Nat),
      CRep t (c.plug (.node A a k B)) → c.OK (h + 1) → c.erase.depth < fuel →
      ∃ (t1 : RBTree K V) (d : CCtx), again t (.node a) = .ok t1 ∧
        CRep t1 (d.plug (.node A a k B)) ∧ d.OK h ∧ d.erase.before = c.erase.before ∧
        d.erase.after = c.erase.after ∧ SameEntries t t1)
    {t : RBTree K V} {up : CCtx} {pa x s : Nat} {kp kx : RBTreeColor}
    {N1 N2 A B : CShape} {h : Nat}
    (hr : CRep t ((up.left pa kp (.node N1 s .kBlack N2)).plug (.node A x kx B)))
    (hok : (up.left pa kp (.node N1 s .kBlack N2)).OK (h + 1))
    (hd : up.erase.depth < fuel ∨ kp = .kRed) :
    ∃ (t1 : RBTree K V) (d : CCtx), rar_step2 again t (.node x) (.node s) = .ok t1 ∧
      CRep t1 (d.plug (.node A x kx B)) ∧ d.OK h ∧
      d.erase.before = (up.left pa kp (.node N1 s .kBlack N2)).erase.before ∧
      d.erase.after = (up.left pa kp (.node N1 s .kBlack N2)).erase.after ∧
      SameEntries t t1 := by
  have h0 : Rep t ((up.erase.left pa (.node N1.erase s N2.erase)).plug
      (.node A.erase x B.erase)) := hr.focus
  have hpa : CRep t (up.plug (.node (.node A x kx B) pa kp (.node N1 s .kBlack N2))) := hr
  have hs : CRep t ((up.right (.node A x kx B) pa kp).plug (.node N1 s .kBlack N2)) := hr
  have hn1 : CRep t (((up.right (.node A x kx B) pa kp).left s .kBlack N2).plug N1) := hr
  have hn2 : CRep t (((up.right (.node A x kx B) pa kp).right N1 s .kBlack).plug N2) := hr
  obtain ⟨cr, hcr, hcr1⟩ := hn1.isRed_eq
  obtain ⟨dr, hdr, hdr1⟩ := hn2.isRed_eq
  rw [rar_step2]
  simp only [h0.get_parent, Ctx.getParent, Except.bind, nephews_left h0, hcr, hdr]
  by_cases hb : (!cr && !dr) = true
  · rw [if_pos hb]
    have hcrf : cr = false := by
      cases cr with
      | false => rfl
      | true => simp at hb
    have hdrf : dr = false := by
      cases dr with
      | false => rfl
      | true => simp [hcrf] at hb
    have b1 : N1.isBlack := by
      by_contra hc
      have := hcr1.mpr hc
      rw [hcrf] at this
      cases this
    have b2 : N2.isBlack := by
      by_contra hc
      have := hdr1.mpr hc
      rw [hdrf] at this
      cases this
    obtain ⟨⟨q1, q2, q3, -⟩, hRh, hkp, hup⟩ := hok
    simp only [CShape.bh, if_true] at hRh
    simp only [hpa.colorOf_eq, Except.bind]
    cases kp with
    | kRed =>
      simp only [if_true]
      obtain ⟨t5, e5, r5, d5⟩ := hpa.recolor .kBlack
      have r5a : CRep t5 ((up.right (.node A x kx B) pa .kBlack).plug
          (.node N1 s .kBlack N2)) := r5
      obtain ⟨t6, e6, r6, d6⟩ := r5a.recolor .kRed
      have r6a : CRep t6 ((up.left pa .kBlack (.node N1 s .kRed N2)).plug (.node A x kx B)) := r6
      refine ⟨t6, up.left pa .kBlack (.node N1 s .kRed N2), by simp only [e5, e6, Except.bind],
        r6a, ?_, rfl, rfl, d5.trans_entries d6⟩
      simp only [CCtx.OK, CShape.RB, CShape.bh, reduceCtorEq, if_false, if_true, Nat.add_zero,
        implies_true, true_and, false_implies, and_true] at hup ⊢
      exact ⟨⟨q1, q2, q3, fun _ => ⟨b1, b2⟩⟩, by omega, hup⟩
    | kBlack =>
      simp only [reduceCtorEq, if_false]
      have hdepth : up.erase.depth < fuel := by
        rcases hd with hd | hd
        · exact hd
        · cases hd
      obtain ⟨t5, e5, r5, d5⟩ := hs.recolor .kRed
      have r5a : CRep t5 (up.plug (.node (.node A x kx B) pa .kBlack (.node N1 s .kRed N2))) :=
        r5
      simp only [if_true] at hup
      obtain ⟨t6, d, e6, r6, ok6, hb6, ha6, d6⟩ := hrec t5 up _ _ pa .kBlack (h + 1) r5a hup
        hdepth
      have r6a : CRep t6 ((d.left pa .kBlack (.node N1 s .kRed N2)).plug (.node A x kx B)) := r6
      refine ⟨t6, d.left pa .kBlack (.node N1 s .kRed N2), by simp only [e5, e6, Except.bind],
        r6a, ?_, by simpa [CCtx.erase, Ctx.before] using hb6,
        by simp [CCtx.erase, Ctx.after, ha6, CShape.erase], d5.trans_entries d6⟩
      simp only [CCtx.OK, CShape.RB, CShape.bh, reduceCtorEq, if_false, if_true, Nat.add_zero,
        implies_true, true_and, false_implies, and_true]
      exact ⟨⟨q1, q2, q3, fun _ => ⟨b1, b2⟩⟩, by omega, ok6⟩
  · rw [if_neg hb]
    refine rar_fix_left_c hr hok cr hcr1 ?_
    by_contra hc
    push_neg at hc
    apply hb
    have h1 : cr = false := by
      cases cr with
      | false => rfl
      | true => exact absurd hc.1 (hcr1.mp rfl)
    have h2 : dr = false := by
      cases dr with
      | false => rfl
      | true => exact absurd hc.2 (hdr1.mp rfl)
    simp [h1, h2]

/-! ### The mirror image: the node is a right child -/

theorem CRep.toward_right {t : RBTree K V} {up : CCtx} {pa s : Nat} {kp ks : RBTreeColor}
    {L1 L2 X : CShape}
    (h : CRep t (up.plug (.node (.node L1 s ks L2) pa kp X))) (x : Ptr) (hx : Ptr.node s ≠ x) :
    ∃ t1, rotate_toward t (.node pa) x = .ok t1 ∧
      CRep t1 (up.plug (.node L1 s ks (.node L2 pa kp X))) ∧ SameData t t1 := by
  have h0 : Rep t (up.erase.plug (.node (.node L1.erase s L2.erase) pa X.erase)) := h.focus
  simp only [rotate_toward, h0.leftOf, Shape.root_node, hx, Except.bind, if_false]
  exact h.rot_right

theorem rar_step1_right_c {t : RBTree K V} {up : CCtx} {pa x : Nat} {kp kx : RBTreeColor}
    {L A B : CShape} {h : Nat}
    (hr : CRep t ((up.right L pa kp).plug (.node A x kx B)))
    (hok : (up.right L pa kp).OK (h + 1)) :
    ∃ (t1 : RBTree K V) (up4 : CCtx) (kp4 : RBTreeColor) (N1 : CShape) (s : Nat) (N2 : CShape),
      rar_step1 t (.node x) = .ok (t1, .node s) ∧
      CRep t1 ((up4.right (.node N1 s .kBlack N2) pa kp4).plug (.node A x kx B)) ∧
      (up4.right (.node N1 s .kBlack N2) pa kp4).OK (h + 1) ∧
      up4.erase.before ++ (CShape.node N1 s .kBlack N2).erase.ids
        = up.erase.before ++ L.erase.ids ∧
      up4.erase.after = up.erase.after ∧
      SameEntries t t1 ∧ (up4.erase.depth = up.erase.depth ∨ kp4 = .kRed) := by
  obtain ⟨hRB, hRh, hkp, hup⟩ := hok
  obtain ⟨L1, s, ks, L2, rfl⟩ := CShape.node_of_bh_pos hRh
  have h0 : Rep t ((up.erase.right (.node L1.erase s L2.erase) pa).plug
      (.node A.erase x B.erase)) := hr.focus
  have hs : CRep t ((up.left pa kp (.node A x kx B)).plug (.node L1 s ks L2)) := hr
  have hpa : CRep t (up.plug (.node (.node L1 s ks L2) pa kp (.node A x kx B))) := hr
  have hsx : s ≠ x := Rep.ne_of_mem (x := s) h0 (Or.inl (by simp [Ctx.before, Shape.ids]))
  rw [rar_step1, get_sibling_right h0]
  simp only [Shape.root_node, hs.colorOf_eq, Except.bind]
  cases ks with
  | kBlack =>
    simp only [reduceCtorEq, if_false]
    exact ⟨t, up, kp, L1, s, L2, rfl, hr, ⟨hRB, hRh, hkp, hup⟩, rfl, rfl,
      SameEntries.refl_entries t, .inl rfl⟩
  | kRed =>
    simp only [if_true]
    obtain ⟨q1, q2, q3, q4⟩ := hRB
    obtain ⟨b1, b2⟩ := q4 rfl
    have hkb : kp = .kBlack := by
      cases kp with
      | kBlack => rfl
      | kRed => exact absurd (hkp rfl).1 (by simp [CShape.isBlack])
    subst hkb
    simp only [CShape.bh, reduceCtorEq, if_false, Nat.add_zero, if_true] at hRh hup
    have hL2 : L2.bh = h + 1 := by omega
    obtain ⟨N1, s1, N2, rfl⟩ := CShape.black_node_of hL2 b2
    obtain ⟨t1, e1, r1, d1⟩ := hpa.toward_right (.node x) (by simp [hsx])
    have r1a : CRep t1 ((up.right L1 s .kRed).plug
        (.node (.node N1 s1 .kBlack N2) pa .kBlack (.node A x kx B))) := r1
    obtain ⟨t2, e2, r2, d2⟩ := r1a.recolor .kRed
    have r2a : CRep t2 (up.plug (.node L1 s .kRed
        (.node (.node N1 s1 .kBlack N2) pa .kRed (.node A x kx B)))) := r2
    obtain ⟨t3, e3, r3, d3⟩ := r2a.recolor .kBlack
    have r3a : CRep t3 (((up.right L1 s .kBlack).right (.node N1 s1 .kBlack N2) pa .kRed).plug
        (.node A x kx B)) := r3
    have r30 : Rep t3 (((up.erase.right L1.erase s).right (.node N1.erase s1 N2.erase) pa).plug
        (.node A.erase x B.erase)) := r3a.focus
    simp only [h0.get_parent, Ctx.getParent, Except.bind, e1, e2, e3, get_sibling_right r30,
      Except.map, Shape.root_node]
    refine ⟨t3, up.right L1 s .kBlack, .kRed, N1, s1, N2, rfl, r3a, ?_, ?_, rfl,
      d1.toEntries.trans_entries (d2.trans_entries d3), .inr rfl⟩
    · simp only [CCtx.OK, CShape.bh, CCtx.aboveBlack, CShape.isBlack, reduceCtorEq, if_false,
        if_true, Nat.add_zero, implies_true, and_true, true_and, false_implies]
      simp only [CShape.bh, if_true] at hL2
      exact ⟨q2, hL2, q1, by omega, hup⟩
    · simp [CCtx.erase, Ctx.before, CShape.erase, Shape.ids]

theorem rar_fix_right_c {t : RBTree K V} {up : CCtx} {pa x s : Nat} {kp kx : RBTreeColor}
    {N1 N2 A B : CShape} {h : Nat}
    (hr : CRep t ((up.right (.node N1 s .kBlack N2) pa kp).plug (.node A x kx B)))
    (hok : (up.right (.node N1 s .kBlack N2) pa kp).OK (h + 1))
    (closeRed : Bool) (hcr : closeRed = true ↔ ¬ N2.isBlack)
    (hsome : ¬ N2.isBlack ∨ ¬ N1.isBlack) :
    ∃ (t1 : RBTree K V) (d : CCtx),
      rar_fix t (.node x) (.node pa) (.node s) (N2.erase.root, N1.erase.root) closeRed
        = .ok t1 ∧
      CRep t1 (d.plug (.node A x kx B)) ∧ d.OK h ∧
      d.erase.before = (up.right (.node N1 s .kBlack N2) pa kp).erase.before ∧
      d.erase.after = (up.right (.node N1 s .kBlack N2) pa kp).erase.after ∧
      SameEntries t t1 := by
  obtain ⟨⟨q1, q2, q3, -⟩, hRh, hkp, hup⟩ := hok
  simp only [CShape.bh, if_true] at hRh
  have h0 : Rep t ((up.erase.right (.node N1.erase s N2.erase) pa).plug
      (.node A.erase x B.erase)) := hr.focus
  have hsx : s ≠ x := Rep.ne_of_mem (x := s) h0 (Or.inl (by simp [Ctx.before, Shape.ids]))
  have hsx2 : Ptr.node s ≠ Ptr.node x := by simp [hsx]
  have hpa0 : Rep t (up.erase.plug (.node (.node N1.erase s N2.erase) pa
      (.node A.erase x B.erase))) := h0
  cases closeRed with
  | true =>
    obtain ⟨E, cn, F, rfl⟩ := CShape.red_node_of (hcr.mp rfl)
    obtain ⟨f1, f2, f3, f4⟩ := q2
    simp only [CShape.bh, reduceCtorEq, if_false, Nat.add_zero] at hRh q3
    have hs : CRep t ((up.left pa kp (.node A x kx B)).plug
        (.node N1 s .kBlack (.node E cn .kRed F))) := hr
    obtain ⟨t5, e5, r5, d5⟩ := hs.rot_left
    have r5a : CRep t5 (((up.left pa kp (.node A x kx B)).left cn .kRed F).plug
        (.node N1 s .kBlack E)) := r5
    obtain ⟨t6, e6, r6, d6⟩ := r5a.recolor .kRed
    have r6a : CRep t6 ((up.left pa kp (.node A x kx B)).plug
        (.node (.node N1 s .kRed E) cn .kRed F)) := r6
    obtain ⟨t7, e7, r7, d7⟩ := r6a.recolor .kBlack
    have r7a : CRep t7 ((up.right (.node (.node N1 s .kRed E) cn .kBlack F) pa kp).plug
        (.node A x kx B)) := r7
    have r70 : Rep t7 ((up.erase.right (.node (.node N1.erase s E.erase) cn F.erase) pa).plug
        (.node A.erase x B.erase)) := r7a.focus
    have r7b : CRep t7 (up.plug (.node (.node (.node N1 s .kRed E) cn .kBlack F) pa kp
        (.node A x kx B))) := r7
    have hcx : cn ≠ x :=
      Rep.ne_of_mem (x := cn) r70 (Or.inl (by simp [Ctx.before, Shape.ids]))
    obtain ⟨t9, e9, r9, d9⟩ := r7b.toward_right (.node x) (by simp [hcx])
    have r9a : CRep t9 ((up.right (.node N1 s .kRed E) cn .kBlack).plug
        (.node F pa kp (.node A x kx B))) := r9
    have r9b : CRep t9 (up.plug (.node (.node N1 s .kRed E) cn .kBlack
        (.node F pa kp (.node A x kx B)))) := r9
    obtain ⟨t10, e10, r10, d10⟩ := r9b.recolor kp
    have r10a : CRep t10 ((up.right (.node N1 s .kRed E) cn kp).plug
        (.node F pa kp (.node A x kx B))) := r10
    obtain ⟨t11, e11, r11, d11⟩ := r10a.recolor .kBlack
    have r11a : CRep t11 ((up.left cn kp (.node F pa .kBlack (.node A x kx B))).plug
        (.node N1 s .kRed E)) := r11
    obtain ⟨t12, e12, r12, d12⟩ := r11a.recolor .kBlack
    have r12a : CRep t12 (((up.right (.node N1 s .kBlack E) cn kp).right F pa .kBlack).plug
        (.node A x kx B)) := r12
    have nr := nephews_right r70
    simp only [Shape.root_node] at nr
    refine ⟨t12, (up.right (.node N1 s .kBlack E) cn kp).right F pa .kBlack, ?_, r12a, ?_,
      by simp [CCtx.erase, Ctx.before, CShape.erase, Shape.ids], rfl,
      d5.toEntries.trans_entries (d6.trans_entries (d7.trans_entries (d9.toEntries.trans_entries
        (d10.trans_entries (d11.trans_entries d12)))))⟩
    · simp only [rar_fix, if_true, hpa0.leftOf, Shape.root_node, Except.bind,
        e5, e6, CShape.erase, e7, get_sibling_right r70, nr, Except.map, e9,
        r9a.colorOf_eq, e10, e11, ne_eq, reduceCtorEq, not_false_eq_true, e12]
    · simp only [CCtx.OK, CShape.RB, CShape.bh, CCtx.aboveBlack, CShape.isBlack, reduceCtorEq,
        if_false, if_true, Nat.add_zero, implies_true, and_true, true_and, false_implies]
      exact ⟨f2, by omega, ⟨q1, f1, by omega⟩, by omega, fun hk => (hkp hk).2, hup⟩
  | false =>
    have hN2 : N2.isBlack := by
      by_contra hc
      have := hcr.mpr hc
      cases this
    obtain ⟨G, d, H, rfl⟩ := CShape.red_node_of (hsome.resolve_left (not_not.mpr hN2))
    obtain ⟨g1, g2, g3, -⟩ := q1
    simp only [CShape.bh, reduceCtorEq, if_false, Nat.add_zero] at q3 hRh
    have hpa : CRep t (up.plug (.node (.node (.node G d .kRed H) s .kBlack N2) pa kp
        (.node A x kx B))) := hr
    obtain ⟨t9, e9, r9, d9⟩ := hpa.toward_right (.node x) hsx2
    have r9a : CRep t9 ((up.right (.node G d .kRed H) s .kBlack).plug
        (.node N2 pa kp (.node A x kx B))) := r9
    have r9b : CRep t9 (up.plug (.node (.node G d .kRed H) s .kBlack
        (.node N2 pa kp (.node A x kx B)))) := r9
    obtain ⟨t10, e10, r10, d10⟩ := r9b.recolor kp
    have r10a : CRep t10 ((up.right (.node G d .kRed H) s kp).plug
        (.node N2 pa kp (.node A x kx B))) := r10
    obtain ⟨t11, e11, r11, d11⟩ := r10a.recolor .kBlack
    have r11a : CRep t11 ((up.left s kp (.node N2 pa .kBlack (.node A x kx B))).plug
        (.node G d .kRed H)) := r11
    obtain ⟨t12, e12, r12, d12⟩ := r11a.recolor .kBlack
    have r12a : CRep t12 (((up.right (.node G d .kBlack H) s kp).right N2 pa .kBlack).plug
        (.node A x kx B)) := r12
    refine ⟨t12, (up.right (.node G d .kBlack H) s kp).right N2 pa .kBlack, ?_, r12a, ?_,
      by simp [CCtx.erase, Ctx.before, CShape.erase, Shape.ids], rfl,
      d9.toEntries.trans_entries (d10.trans_entries (d11.trans_entries d12))⟩
    · simp only [rar_fix, Bool.false_eq_true, if_false, Except.bind, e9, r9a.colorOf_eq, e10,
        e11, CShape.erase, Shape.root_node, ne_eq, reduceCtorEq, not_false_eq_true, if_true,
        e12]
    · simp only [CCtx.OK, CShape.RB, CShape.bh, CCtx.aboveBlack, CShape.isBlack, reduceCtorEq,
        if_false, if_true, Nat.add_zero, implies_true, and_true, true_and, false_implies]
      exact ⟨q2, by omega, ⟨g1, g2, g3⟩, by omega, fun hk => (hkp hk).2, hup⟩

theorem rar_step2_right_c {again : RBTree K V → Ptr → Except Err (RBTree K V)} {fuel : Nat}
    (hrec : ∀ (t : RBTree K V) (c : CCtx) (A B : CShape) (a : Nat) (k : RBTreeColor) (h : Nat),
      CRep t (c.plug (.node A a k B)) → c.OK (h + 1) → c.erase.depth < fuel →
      ∃ (t1 : RBTree K V) (d : CCtx), again t (.node a) = .ok t1 ∧
        CRep t1 (d.plug (.node A a k B)) ∧ d.OK h ∧ d.erase.before = c.erase.before ∧
        d.erase.after = c.erase.after ∧ SameEntries t t1)
    {t : RBTree K V} {up : CCtx} {pa x s : Nat} {kp kx : RBTreeColor}
    {N1 N2 A B : CShape} {h : Nat}
    (hr : CRep t ((up.right (.node N1 s .kBlack N2) pa kp).plug (.node A x kx B)))
    (hok : (up.right (.node N1 s .kBlack N2) pa kp).OK (h + 1))
    (hd : up.erase.depth < fuel ∨ kp = .kRed) :
    ∃ (t1 : RBTree K V) (d : CCtx), rar_step2 again t (.node x) (.node s) = .ok t1 ∧
      CRep t1 (d.plug (.node A x kx B)) ∧ d.OK h ∧
      d.erase.before = (up.right (.node N1 s .kBlack N2) pa kp).erase.before ∧
      d.erase.after = (up.right (.node N1 s .kBlack N2) pa kp).erase.after ∧
      SameEntries t t1 := by
  have h0 : Rep t ((up.erase.right (.node N1.erase s N2.erase) pa).plug
      (.node A.erase x B.erase)) := hr.focus
  have hpa : CRep t (up.plug (.node (.node N1 s .kBlack N2) pa kp (.node A x kx B))) := hr
  have hs : CRep t ((up.left pa kp (.node A x kx B)).plug (.node N1 s .kBlack N2)) := hr
  have hn1 : CRep t (((up.left pa kp (.node A x kx B)).left s .kBlack N2).plug N1) := hr
  have hn2 : CRep t (((up.left pa kp (.node A x kx B)).right N1 s .kBlack).plug N2) := hr
  obtain ⟨cr, hcr, hcr1⟩ := hn2.isRed_eq
  obtain ⟨dr, hdr, hdr1⟩ := hn1.isRed_eq
  rw [rar_step2]
  simp only [h0.get_parent, Ctx.getParent, Except.bind, nephews_right h0, hcr, hdr]
  by_cases hb : (!cr && !dr) = true
  · rw [if_pos hb]
    have hcrf : cr = false := by
      cases cr with
      | false => rfl
      | true => simp at hb
    have hdrf : dr = false := by
      cases dr with
      | false => rfl
      | true => simp [hcrf] at hb
    have b2 : N2.isBlack := by
      by_contra hc
      have := hcr1.mpr hc
      rw [hcrf] at this
      cases this
    have b1 : N1.isBlack := by
      by_contra hc
      have := hdr1.mpr hc
      rw [hdrf] at this
      cases this
    obtain ⟨⟨q1, q2, q3, -⟩, hRh, hkp, hup⟩ := hok
    simp only [CShape.bh, if_true] at hRh
    simp only [hpa.colorOf_eq, Except.bind]
    cases kp with
    | kRed =>
      simp only [if_true]
      obtain ⟨t5, e5, r5, d5⟩ := hpa.recolor .kBlack
      have r5a : CRep t5 ((up.left pa .kBlack (.node A x kx B)).plug
          (.node N1 s .kBlack N2)) := r5
      obtain ⟨t6, e6, r6, d6⟩ := r5a.recolor .kRed
      have r6a : CRep t6 ((up.right (.node N1 s .kRed N2) pa .kBlack).plug (.node A x kx B)) :=
        r6
      refine ⟨t6, up.right (.node N1 s .kRed N2) pa .kBlack, by simp only [e5, e6, Except.bind],
        r6a, ?_, rfl, rfl, d5.trans_entries d6⟩
      simp only [CCtx.OK, CShape.RB, CShape.bh, reduceCtorEq, if_false, if_true, Nat.add_zero,
        implies_true, true_and, false_implies, and_true] at hup ⊢
      exact ⟨⟨q1, q2, q3, fun _ => ⟨b1, b2⟩⟩, by omega, hup⟩
    | kBlack =>
      simp only [reduceCtorEq, if_false]
      have hdepth : up.erase.depth < fuel := by
        rcases hd with hd | hd
        · exact hd
        · cases hd
      obtain ⟨t5, e5, r5, d5⟩ := hs.recolor .kRed
      have r5a : CRep t5 (up.plug (.node (.node N1 s .kRed N2) pa .kBlack (.node A x kx B))) :=
        r5
      simp only [if_true] at hup
      obtain ⟨t6, d, e6, r6, ok6, hb6, ha6, d6⟩ := hrec t5 up _ _ pa .kBlack (h + 1) r5a hup
        hdepth
      have r6a : CRep t6 ((d.right (.node N1 s .kRed N2) pa .kBlack).plug (.node A x kx B)) := r6
      refine ⟨t6, d.right (.node N1 s .kRed N2) pa .kBlack, by simp only [e5, e6, Except.bind],
        r6a, ?_, by simp [CCtx.erase, Ctx.before, hb6, CShape.erase],
        by simpa [CCtx.erase, Ctx.after] using ha6, d5.trans_entries d6⟩
      simp only [CCtx.OK, CShape.RB, CShape.bh, reduceCtorEq, if_false, if_true, Nat.add_zero,
        implies_true, true_and, false_implies, and_true]
      exact ⟨⟨q1, q2, q3, fun _ => ⟨b1, b2⟩⟩, by omega, ok6⟩
  · rw [if_neg hb]
    refine rar_fix_right_c hr hok cr hcr1 ?_
    by_contra hc
    push_neg at hc
    apply hb
    have h1 : cr = false := by
      cases cr with
      | false => rfl
      | true => exact absurd hc.1 (hcr1.mp rfl)
    have h2 : dr = false := by
      cases dr with
      | false => rfl
      | true => exact absurd hc.2 (hdr1.mp rfl)
    simp [h1, h2]

/-- The remove fix-up started at a node whose subtree is one black node short
completes and leaves a context that is valid for the shortened subtree. -/
theorem rar_exact (fuel : Nat) : ∀ (t : RBTree K V) (c : CCtx) (A B : CShape) (a : Nat)
    (k : RBTreeColor) (h : Nat),
    CRep t (c.plug (.node A a k B)) → c.OK (h + 1) → c.erase.depth < fuel →
    ∃ (t1 : RBTree K V) (d : CCtx), rebalance_after_remove_ fuel t (.node a) = .ok t1 ∧
      CRep t1 (d.plug (.node A a k B)) ∧ d.OK h ∧ d.erase.before = c.erase.before ∧
      d.erase.after = c.erase.after ∧ SameEntries t t1 := by
  induction fuel with
  | zero => intro t c A B a k h _ _ hf; omega
  | succ fuel ih =>
    intro t c A B a k h hr hok hf
    have h0 := hr.focus
    rw [rar_unfold]
    cases c with
    | top =>
      rw [if_pos (Rep.root_top h0)]
      exact ⟨t, .top, rfl, hr, trivial, rfl, rfl, SameEntries.refl_entries t⟩
    | left up pa kp R =>
      rw [if_neg (Rep.root_ne h0 (by simp [CCtx.erase]))]
      obtain ⟨t4, up4, kp4, N1, s, N2, e4, r4, ok4, hb4, ha4, se4, hd4⟩ :=
        rar_step1_left_c hr hok
      obtain ⟨t5, d, e5, r5, ok5, hb5, ha5, se5⟩ := rar_step2_left_c ih r4 ok4 (by
        rcases hd4 with hd | hd
        · left
          simp only [CCtx.erase, Ctx.depth] at hf
          omega
        · exact .inr hd)
      refine ⟨t5, d, by simp only [e4, Except.bind, e5], r5, ok5, ?_, ?_, se4.trans_entries se5⟩
      · rw [hb5]
        simpa [CCtx.erase, Ctx.before] using hb4
      · rw [ha5]
        simp only [CCtx.erase, Ctx.after, List.cons_append, List.append_assoc] at ha4 ⊢
        rw [ha4]
    | right up L pa kp =>
      rw [if_neg (Rep.root_ne h0 (by simp [CCtx.erase]))]
      obtain ⟨t4, up4, kp4, N1, s, N2, e4, r4, ok4, hb4, ha4, se4, hd4⟩ :=
        rar_step1_right_c hr hok
      obtain ⟨t5, d, e5, r5, ok5, hb5, ha5, se5⟩ := rar_step2_right_c ih r4 ok4 (by
        rcases hd4 with hd | hd
        · left
          simp only [CCtx.erase, Ctx.depth] at hf
          omega
        · exact .inr hd)
      refine ⟨t5, d, by simp only [e4, Except.bind, e5], r5, ok5, ?_, ?_, se4.trans_entries se5⟩
      · rw [hb5]
        simp only [CCtx.erase, Ctx.before] at hb4 ⊢
        rw [hb4]
      · rw [ha5]
        simpa [CCtx.erase, Ctx.after] using ha4

end BabySTL

namespace BabySTL

variable {K V : Type}

/-! ## Erasing a node of a red-black tree: exact effect on shape, colours and caches -/

theorem CShape.lift_plug : ∀ (d : Ctx) (cs : CShape) (X : Shape), cs.erase = d.plug X →
    ∃ (cd : CCtx) (cX : CShape), cs = cd.plug cX ∧ cd.erase = d ∧ cX.erase = X := by
  intro d
  induction d with
  | top => intro cs X h; exact ⟨.top, cs, rfl, rfl, h⟩
  | left up a r ih =>
    intro cs X h
    obtain ⟨cd, cX, h1, h2, h3⟩ := ih cs (.node X a r) h
    cases cX with
    | nil => simp [CShape.erase] at h3
    | node l a1 k r1 =>
      simp only [CShape.erase, Shape.node.injEq] at h3
      obtain ⟨e1, e2, e3⟩ := h3
      subst e2
      exact ⟨cd.left a1 k r1, l, h1, by simp [CCtx.erase, h2, e3], e1⟩
  | right up l a ih =>
    intro cs X h
    obtain ⟨cd, cX, h1, h2, h3⟩ := ih cs (.node l a X) h
    cases cX with
    | nil => simp [CShape.erase] at h3
    | node l1 a1 k r1 =>
      simp only [CShape.erase, Shape.node.injEq] at h3
      obtain ⟨e1, e2, e3⟩ := h3
      subst e2
      exact ⟨cd.right l1 a1 k, r1, h1, by simp [CCtx.erase, h2, e1], e3⟩

theorem CShape.erase_eq_nil {X : CShape} (h : X.erase = .nil) : X = .nil := by
  cases X with
  | nil => rfl
  | node l a k r => simp [CShape.erase] at h

theorem CShape.erase_eq_node {X : CShape} {L R : Shape} {a : Nat} (h : X.erase = .node L a R) :
    ∃ cL k cR, X = .node cL a k cR ∧ cL.erase = L ∧ cR.erase = R := by
  cases X with
  | nil => simp [CShape.erase] at h
  | node l a1 k r =>
    simp only [CShape.erase, Shape.node.injEq] at h
    obtain ⟨e1, e2, e3⟩ := h
    subst e2
    exact ⟨l, k, r, rfl, e1, e3⟩

theorem swap_frame {t t1 : RBTree K V} {p q : Ptr} (e : swap t p q = .ok t1) :
    t1.header_ = t.header_ ∧ ∀ y, t1.colorAt y = t.colorAt y := by
  unfold swap at e
  cases p with
  | null => simp [RBTree.nodeAt, Except.bind] at e
  | header => simp [RBTree.nodeAt, Except.bind] at e
  | node a =>
    cases q with
    | null =>
      cases ha : t.heap a <;> simp [RBTree.nodeAt, Except.bind, ha] at e
    | header =>
      cases ha : t.heap a <;> simp [RBTree.nodeAt, Except.bind, ha] at e
    | node b =>
      cases ha : t.heap a with
      | none => simp [RBTree.nodeAt, Except.bind, ha] at e
      | some na =>
        cases hb : t.heap b with
        | none => simp [RBTree.nodeAt, Except.bind, ha, hb] at e
        | some nb =>
          by_cases hab : b = a
          · subst hab
            simp [RBTree.nodeAt, Except.bind, ha, RBTree.setNode, RBTree.store] at e
            subst e
            refine ⟨rfl, fun y => ?_⟩
            by_cases hy : y = b
            · subst hy
              simp [RBTree.colorAt, ha]
            · simp [RBTree.colorAt, hy]
          · simp [RBTree.nodeAt, Except.bind, ha, hb, RBTree.setNode, RBTree.store, hab] at e
            subst e
            refine ⟨rfl, fun y => ?_⟩
            by_cases hy : y = b
            · subst hy
              simp [RBTree.colorAt, hb]
            · by_cases hy2 : y = a
              · subst hy2
                simp [RBTree.colorAt, ha, hy]
              · simp [RBTree.colorAt, hy, hy2]

theorem remove_pick_frame {t t1 : RBTree K V} {p q : Ptr} (e : remove_pick t p = .ok (t1, q)) :
    t1.header_ = t.header_ ∧ ∀ y, t1.colorAt y = t.colorAt y := by
  unfold remove_pick at e
  cases h1 : t.leftOf p with
  | error x => simp [h1, Except.bind] at e
  | ok l0 =>
    simp only [h1, Except.bind] at e
    by_cases hl : l0 ≠ .null
    · rw [if_pos hl] at e
      cases h2 : t.rightOf p with
      | error x => simp [h2, Except.map] at e
      | ok r0 =>
        simp only [h2, Except.map] at e
        by_cases hr : r0 ≠ .null
        · have hd : decide (r0 ≠ Ptr.null) = true := by simp [hr]
          rw [if_pos hd] at e
          cases h3 : leftmost (t.next + 1) t r0 with
          | error x => simp [h3] at e
          | ok m =>
            simp only [h3] at e
            cases h4 : swap t m p with
            | error x => simp [h4] at e
            | ok t2 =>
              simp only [h4, Except.ok.injEq, Prod.mk.injEq] at e
              rw [← e.1]
              exact swap_frame h4
        · have hd : ¬ (decide (r0 ≠ Ptr.null) = true) := by simpa using hr
          rw [if_neg hd] at e
          simp only [Except.ok.injEq, Prod.mk.injEq] at e
          rw [← e.1]
          exact ⟨rfl, fun _ => rfl⟩
    · rw [if_neg hl] at e
      simp only [Bool.false_eq_true, if_false, Except.ok.injEq, Prod.mk.injEq] at e
      rw [← e.1]
      exact ⟨rfl, fun _ => rfl⟩

theorem unlink_leaf_frame {t u t1 : RBTree K V} {d : Ctx} {a : Nat}
    (h : Rep t (d.plug (.node .nil a .nil))) (hd : d ≠ .top)
    (hu : u.heap = t.heap) (e : destroy_node_ u (.node a) = .ok t1) :
    t1.header_ = u.header_ ∧ ∀ y, y ≠ a → t1.colorAt y = t.colorAt y := by
  obtain ⟨na, hna, hpa, -, -⟩ := h.node_at
  have key : ∀ q, d.parentPtr = .node q → q ≠ a → (∃ nq, t.heap q = some nq) →
      t1.header_ = u.header_ ∧ ∀ y, y ≠ a → t1.colorAt y = t.colorAt y := by
    intro q hq hqa ⟨nq, hnq⟩
    obtain ⟨t2, e2, -, hfr, hq1, hh, -⟩ := destroy_node_spec (t := u)
      (by rw [hu]; exact hna) (hpa.trans hq) (Or.inr ⟨q, nq, rfl, by rw [hu]; exact hnq, hqa⟩)
    rw [e] at e2
    cases e2
    refine ⟨hh, fun y hy => ?_⟩
    by_cases hyq : y = q
    · subst hyq
      obtain ⟨nq1, hnq1, -, -, -, hcol, -⟩ := hq1 y nq rfl (by rw [hu]; exact hnq)
      simp [RBTree.colorAt, hnq1, hnq, hcol]
    · simp only [RBTree.colorAt]
      rw [hfr y hy (by simp; exact fun e => hyq e.symm), hu]
  cases d with
  | top => exact absurd rfl hd
  | left up q R =>
    have h1 : Rep t (up.plug (.node (.node .nil a .nil) q R)) := h
    obtain ⟨nq, hnq, -⟩ := h1.node_at
    exact key q rfl (Rep.ne_of_mem (x := q) h (by simp [Ctx.after])) ⟨nq, hnq⟩
  | right up L q =>
    have h1 : Rep t (up.plug (.node L q (.node .nil a .nil))) := h
    obtain ⟨nq, hnq, -⟩ := h1.node_at
    exact key q rfl (Rep.ne_of_mem (x := q) h (by simp [Ctx.before])) ⟨nq, hnq⟩

/-- Case 3 of `remove_` on a red-black tree: a leaf below another node is
unlinked, after the fix-up when it is black; the result is a red-black tree
again, and a cache that pointed to the leaf points to its parent. -/
theorem remove_leaf_exact {t : RBTree K V} {c : CCtx} {a : Nat} {k : RBTreeColor}
    (hr : CRep t (c.plug (.node .nil a k .nil))) (hc : c ≠ .top)
    (hok : c.OK (CShape.node .nil a k .nil).bh)
    (hf : ∀ x ∈ (c.plug (.node .nil a k .nil)).erase.ids, x < t.next) :
    ∃ (t1 : RBTree K V) (d : CCtx), remove_leaf t (.node a) = .ok (t1, true) ∧
      CRep t1 (d.plug .nil) ∧ d.OK 0 ∧ d ≠ .top ∧
      d.erase.before = c.erase.before ∧ d.erase.after = c.erase.after ∧
      t1.header_.left = (if t.header_.left = .node a then d.erase.parentPtr
        else t.header_.left) ∧
      t1.header_.right = (if t.header_.right = .node a then d.erase.parentPtr
        else t.header_.right) := by
  have h0 := hr.focus
  have hce : c.erase ≠ .top := by
    cases c with
    | top => exact absurd rfl hc
    | left up q kq R => simp [CCtx.erase]
    | right up L q kq => simp [CCtx.erase]
  -- the fix-up
  have step : ∃ (t3 : RBTree K V) (d : CCtx),
      (if k = .kBlack then rebalance_after_remove_ (t.next + 1) t (.node a) else .ok t)
        = .ok t3 ∧
      CRep t3 (d.plug (.node .nil a k .nil)) ∧ d.OK 0 ∧ d.erase.before = c.erase.before ∧
      d.erase.after = c.erase.after ∧ SameEntries t t3 := by
    cases k with
    | kBlack =>
      rw [if_pos rfl]
      have hdep := Rep.depth_lt h0 (by rw [← CCtx.erase_plug]; exact hf)
      exact rar_exact (t.next + 1) t c .nil .nil a .kBlack 0 hr (by simpa [CShape.bh] using hok)
        (by omega)
    | kRed =>
      simp only [reduceCtorEq, if_false]
      exact ⟨t, c, rfl, hr, by simpa [CShape.bh] using hok, rfl, rfl,
        SameEntries.refl_entries t⟩
  obtain ⟨t3, d, e3, r3, ok3, hb, ha, se3⟩ := step
  have r30 := r3.focus
  have hde : d.erase ≠ .top := Ctx.ne_top_of_before_after hce hb ha
  have hd : d ≠ .top := by
    rintro rfl
    exact hde rfl
  have key : ∀ u : RBTree K V, u.heap = t3.heap → u.header_.parent = t3.header_.parent →
      ∃ t1, destroy_node_ u (.node a) = .ok t1 ∧ CRep t1 (d.plug .nil) ∧
        t1.header_ = u.header_ := by
    intro u hu hup
    obtain ⟨t1, e1, hr1, -⟩ := unlink_leaf_spec r30 hde hu hup
    obtain ⟨hh, hcol⟩ := unlink_leaf_frame r30 hde hu e1
    refine ⟨t1, e1, ⟨by rw [CCtx.erase_plug]; exact hr1, fun p hp => ?_⟩, hh⟩
    have hp3 : p ∈ (d.plug (.node .nil a k .nil)).pairs := by
      rw [CCtx.pairs_plug] at hp ⊢
      simp only [CShape.pairs, List.mem_append, List.append_nil, List.not_mem_nil, or_false]
        at hp ⊢
      rcases hp with hp | hp
      · exact .inl (.inl hp)
      · exact .inr hp
    have hpa : p.1 ≠ a := by
      have hnd := r3.1.2
      rw [CShape.ids_erase, CCtx.pairs_plug] at hnd
      have hcount := List.nodup_iff_count_le_one.mp hnd a
      simp only [CShape.pairs, List.map_append, List.map_cons, List.count_append,
        List.count_cons, beq_self_eq_true, if_true, List.map_nil, List.count_nil,
        List.nil_append] at hcount
      rw [CCtx.pairs_plug] at hp
      simp only [CShape.pairs, List.mem_append, List.append_nil, List.not_mem_nil, or_false]
        at hp
      intro hpe
      rcases hp with hp | hp
      · have := List.count_pos_iff.mpr (List.mem_map_of_mem Prod.fst hp)
        rw [hpe] at this
        omega
      · have := List.count_pos_iff.mpr (List.mem_map_of_mem Prod.fst hp)
        rw [hpe] at this
        omega
    rw [hcol p.1 hpa]
    exact r3.2 p hp3
  unfold remove_leaf
  rw [hr.colorOf_eq]
  simp only [Except.bind, e3, r30.parentOf]
  obtain ⟨t1, e1, r1, hh⟩ := key
    (if (if t3.header_.left = .node a
          then { t3 with header_ := { t3.header_ with left := d.erase.parentPtr } }
          else t3).header_.right = .node a
      then { (if t3.header_.left = .node a
          then { t3 with header_ := { t3.header_ with left := d.erase.parentPtr } }
          else t3) with header_ := { (if t3.header_.left = .node a
          then { t3 with header_ := { t3.header_ with left := d.erase.parentPtr } }
          else t3).header_ with right := d.erase.parentPtr } }
      else (if t3.header_.left = .node a
          then { t3 with header_ := { t3.header_ with left := d.erase.parentPtr } }
          else t3))
    (by split_ifs <;> rfl) (by split_ifs <;> rfl)
  refine ⟨t1, d, by rw [e1]; rfl, r1, ok3, hd, hb, ha, ?_, ?_⟩
  · rw [hh, ← se3.hleft]
    split_ifs <;> rfl
  · rw [hh, ← se3.hright]
    split_ifs <;> rfl

/-- Case 2 of `remove_`, exactly: the child takes the place of the node and is
painted black; a cache that pointed to the node points to the child. -/
theorem splice_at_exact {t : RBTree K V} {d : Ctx} {n r : Nat} {S1 S2 : Shape}
    {nn : RBTreeMapNode K V}
    (hc : ReprC t.heap t.header_.parent d (.node n)) (hn : t.heap n = some nn)
    (hnp : nn.parent = d.parentPtr)
    (hSub : Repr t.heap (.node n) (.node r) (.node S1 r S2))
    (hnd : (n :: (d.before ++ (Shape.node S1 r S2).ids ++ d.after)).Nodup) :
    ∃ t8, splice_at t (.node n) (.node r) = .ok (t8, true) ∧
      Rep t8 (d.plug (.node S1 r S2)) ∧
      t8.colorAt r = some .kBlack ∧ (∀ y, y ≠ n → y ≠ r → t8.colorAt y = t.colorAt y) ∧
      t8.header_.left = (if t.header_.left = .node n then .node r else t.header_.left) ∧
      t8.header_.right = (if t.header_.right = .node n then .node r else t.header_.right) := by
  obtain ⟨-, nr, hr, -, hS1, hS2⟩ := hSub
  have hcount := fun x => List.nodup_iff_count_le_one.mp hnd x
  simp only [Shape.ids, List.count_append, List.count_cons, List.count_nil] at hcount
  have hnr : n ≠ r := by rintro rfl; have := hcount n; simp at this
  have hnc : n ∉ d.before ∧ n ∉ d.after := by
    constructor <;> intro h <;> have h1 := List.count_pos_iff.mpr h <;>
      have := hcount n <;> simp at this <;> omega
  have hrc : r ∉ d.before ∧ r ∉ d.after := by
    constructor <;> intro h <;> have h1 := List.count_pos_iff.mpr h <;>
      have := hcount r <;> simp at this <;> omega
  have hcnd : (d.before ++ d.after).Nodup := by
    rw [List.nodup_iff_count_le_one]; intro x
    have := hcount x; simp only [List.count_append]; omega
  have hSfr : ∀ x, x ∈ S1.ids ∨ x ∈ S2.ids → x ≠ n ∧ x ≠ r ∧ x ∉ d.before ∧ x ∉ d.after := by
    intro x hx
    have hc := hcount x
    have hx1 : 0 < List.count x S1.ids + List.count x S2.ids := by
      rcases hx with hx | hx <;> have := List.count_pos_iff.mpr hx <;> omega
    refine ⟨?_, ?_, ?_, ?_⟩
    · rintro rfl; simp at hc; omega
    · rintro rfl; simp at hc; omega
    all_goals intro h; have h1 := List.count_pos_iff.mpr h; omega
  have hz : ((d.plug (.node S1 r S2)).ids).Nodup := by
    rw [Ctx.ids_plug, List.nodup_iff_count_le_one]; intro x
    have := hcount x
    simp only [Shape.ids, List.count_append, List.count_cons]
    omega
  obtain ⟨t4, e4, hc4, hr4, hfr4, hsd4⟩ := relink_spec hc hr hcnd hnc hrc
  have gp : get_parent t (.node n) = .ok d.getParent := by
    rw [get_parent_node hn, hnp, Ctx.getParent_eq]
  have e5 := RBTree.setColor_node hr4 .kBlack
  obtain ⟨t5, ht5⟩ : ∃ t5, t5 = t4.store r
      { nr with parent := d.parentPtr, color := .kBlack } := ⟨_, rfl⟩
  have e5a : t4.setColor (.node r) .kBlack = .ok t5 := by rw [ht5]; exact e5
  have hn4 : t4.heap n = some nn := by rw [hfr4 n hnr hnc.1 hnc.2]; exact hn
  have hdet : ∀ (u : RBTree K V), u.heap = t5.heap →
      ∃ t1, destroy_node_ u (.node n) = .ok t1 ∧ t1.heap n = none ∧
        (∀ y, y ≠ n → t1.heap y = u.heap y) ∧ t1.header_ = u.header_ ∧ t1.next = u.next ∧
        t1.cmp_ = u.cmp_ ∧ t1.cnt_ = (if u.cnt_ = 0 then 2 ^ 64 - 1 else u.cnt_ - 1) := by
    intro u hu
    have hun : u.heap n = some nn := by rw [hu, ht5]; simp [hnr, hn4]
    refine destroy_node_detached hun ?_
    rw [hnp]
    cases d with
    | top => exact Or.inl rfl
    | left up pa R =>
      obtain ⟨npa, hpa, hl, -, hR, -⟩ := hc4
      have hpr : pa ≠ r := by rintro rfl; simp [Ctx.after] at hrc
      refine Or.inr ⟨pa, npa, rfl, by rw [hu, ht5]; simp [hpr, hpa], by rw [hl]; simp [hnr.symm],
        ?_⟩
      rw [hR.root_eq]
      exact Shape.root_ne_of_not_mem (fun h => hnc.2 (by simp [Ctx.after, h]))
    | right up L pa =>
      obtain ⟨npa, hpa, hl, -, hL, -⟩ := hc4
      have hpr : pa ≠ r := by rintro rfl; simp [Ctx.before] at hrc
      refine Or.inr ⟨pa, npa, rfl, by rw [hu, ht5]; simp [hpr, hpa], ?_,
        by rw [hl]; simp [hnr.symm]⟩
      rw [hL.root_eq]
      exact Shape.root_ne_of_not_mem (fun h => hnc.1 (by simp [Ctx.before, h]))
  have key : ∀ u : RBTree K V, u.heap = t5.heap → u.header_.parent = t4.header_.parent →
      ∃ t8, destroy_node_ u (.node n) = .ok t8 ∧ Rep t8 (d.plug (.node S1 r S2)) ∧
        t8.colorAt r = some .kBlack ∧ (∀ y, y ≠ n → y ≠ r → t8.colorAt y = t.colorAt y) ∧
        t8.header_ = u.header_ := by
    intro u hu hup
    obtain ⟨t8, e8, -, h8f, h8h, -⟩ := hdet u hu
    have hfr8 : ∀ y, y ≠ n → y ≠ r → t8.heap y = t4.heap y := by
      intro y h1 h2; rw [h8f y h1, hu, ht5]; simp [h2]
    have h8r : t8.heap r = some { nr with parent := d.parentPtr, color := .kBlack } := by
      rw [h8f r hnr.symm, hu, ht5]; simp
    refine ⟨t8, e8, ⟨?_, hz⟩, by simp [RBTree.colorAt, h8r], ?_, h8h⟩
    · rw [Repr.plug_iff]
      refine ⟨.node r, ?_, rfl, { nr with parent := d.parentPtr, color := .kBlack }, h8r, rfl,
        ?_, ?_⟩
      · rw [h8h, hup]
        refine hc4.congr_ctx fun x hx => ?_
        have h1 : x ≠ n := by rintro rfl; tauto
        have h2 : x ≠ r := by rintro rfl; tauto
        exact hfr8 x h1 h2
      · refine hS1.congr fun x hx => ?_
        obtain ⟨h1, h2, h3, h4⟩ := hSfr x (Or.inl hx)
        rw [hfr8 x h1 h2, hfr4 x h2 h3 h4]
      · refine hS2.congr fun x hx => ?_
        obtain ⟨h1, h2, h3, h4⟩ := hSfr x (Or.inr hx)
        rw [hfr8 x h1 h2, hfr4 x h2 h3 h4]
    · intro y hy hyr
      have := hsd4.data y
      simp only [RBTree.dataAt, RBTree.colorAt] at this ⊢
      rw [hfr8 y hy hyr]
      cases h4 : t4.heap y with
      | none =>
        rw [h4] at this
        cases h0 : t.heap y with
        | none => rfl
        | some m => rw [h0] at this; simp at this
      | some m4 =>
        rw [h4] at this
        cases h0 : t.heap y with
        | none => rw [h0] at this; simp at this
        | some m =>
          rw [h0] at this
          simp only [Option.map_some', Option.some.injEq, Prod.mk.injEq] at this ⊢
          exact this.1
  have h5l : t5.header_ = t4.header_ := by rw [ht5]; rfl
  simp only [splice_at, gp, e4, e5a, Except.bind]
  obtain ⟨t8, e8, r8, c8, f8, hh8⟩ := key
    (if (if t5.header_.left = .node n
          then { t5 with header_ := { t5.header_ with left := .node r } }
          else t5).header_.right = .node n
      then { (if t5.header_.left = .node n
          then { t5 with header_ := { t5.header_ with left := .node r } }
          else t5) with header_ := { (if t5.header_.left = .node n
          then { t5 with header_ := { t5.header_ with left := .node r } }
          else t5).header_ with right := .node r } }
      else (if t5.header_.left = .node n
          then { t5 with header_ := { t5.header_ with left := .node r } }
          else t5))
    (by split_ifs <;> rfl) (by split_ifs <;> simp [h5l])
  refine ⟨t8, by rw [e8]; rfl, r8, c8, f8, ?_, ?_⟩
  · rw [hh8, ← hsd4.hleft, ← h5l]
    split_ifs <;> rfl
  · rw [hh8, ← hsd4.hright, ← h5l]
    split_ifs <;> rfl

theorem Caches.erase_one {t t1 : RBTree K V} {X Y : List Nat} {a : Nat} {pl pr : Ptr}
    (h : Caches t (X ++ a :: Y)) (hnd : (X ++ a :: Y).Nodup)
    (hl : t1.header_.left = if t.header_.left = .node a then pl else t.header_.left)
    (hr : t1.header_.right = if t.header_.right = .node a then pr else t.header_.right)
    (hpl : X = [] → pl = ptrOf Y.head?) (hpr : Y = [] → pr = ptrOf X.getLast?) :
    Caches t1 (X ++ Y) := by
  obtain ⟨h1, h2⟩ := h
  have hcount := fun x => List.nodup_iff_count_le_one.mp hnd x
  simp only [List.count_append, List.count_cons] at hcount
  constructor
  · rw [hl, h1]
    cases X with
    | nil => simp [ptrOf, hpl rfl]
    | cons x X1 =>
      have hxa : x ≠ a := by
        rintro rfl
        have := hcount x
        simp at this
        omega
      simp [ptrOf, hxa]
  · rw [hr, h2]
    cases Y using List.reverseRecOn with
    | nil => simp [ptrOf, hpr rfl]
    | append_singleton Y1 y =>
      have hya : y ≠ a := by
        rintro rfl
        have := hcount y
        simp at this
        omega
      have e1 : X ++ a :: (Y1 ++ [y]) = (X ++ a :: Y1) ++ [y] := by simp
      have e2 : X ++ (Y1 ++ [y]) = (X ++ Y1) ++ [y] := by simp
      rw [e1, e2, List.getLast?_append, List.getLast?_append]
      simp [ptrOf, hya]

theorem CShape.nil_of_black_bh {X : CShape} (hb : X.isBlack) (h0 : X.bh = 0) : X = .nil := by
  cases X with
  | nil => rfl
  | node l a k r =>
    simp only [CShape.isBlack] at hb
    subst hb
    simp [CShape.bh] at h0

theorem CShape.red_leaf_of {X : CShape} (hrb : X.RB) (h0 : X.bh = 0) (hne : X ≠ .nil) :
    ∃ y, X = .node .nil y .kRed .nil := by
  cases X with
  | nil => exact absurd rfl hne
  | node l a k r =>
    obtain ⟨h1, h2, h3, h4⟩ := hrb
    cases k with
    | kBlack => simp [CShape.bh] at h0
    | kRed =>
      simp only [CShape.bh, reduceCtorEq, if_false, Nat.add_zero] at h0
      obtain ⟨b1, b2⟩ := h4 rfl
      have e1 := CShape.nil_of_black_bh b1 h0
      have e2 := CShape.nil_of_black_bh b2 (by omega)
      subst e1 e2
      exact ⟨a, rfl⟩

theorem Ctx.parent_of_before_nil {d : Ctx} (hd : d ≠ .top) (h : d.before = []) :
    d.parentPtr = ptrOf d.after.head? := by
  cases d with
  | top => exact absurd rfl hd
  | left up q R => simp [Ctx.parentPtr, Ctx.after, ptrOf]
  | right up L q => simp [Ctx.before] at h

theorem Ctx.parent_of_after_nil {d : Ctx} (hd : d ≠ .top) (h : d.after = []) :
    d.parentPtr = ptrOf d.before.getLast? := by
  cases d with
  | top => exact absurd rfl hd
  | left up q R => simp [Ctx.after] at h
  | right up L q => simp [Ctx.parentPtr, Ctx.before, ptrOf]

theorem CCtx.ids_plug_erase (c : CCtx) (X : CShape) :
    (c.plug X).erase.ids = c.erase.before ++ X.erase.ids ++ c.erase.after := by
  rw [CCtx.erase_plug, Ctx.ids_plug]

/-- After the splice the remaining nodes carry the colours of the shape in which
the child, painted black, has taken the place of the node. -/
theorem CRep.of_splice {t t8 : RBTree K V} {c : CCtx} {old : CShape} {a y : Nat}
    (hold : CRep t old) (hsub : ∀ p ∈ c.pbefore ++ c.pafter, p ∈ old.pairs)
    (hnd : (a :: (c.erase.before ++ [y] ++ c.erase.after)).Nodup)
    (hrep : Rep t8 (c.erase.plug (.node .nil y .nil)))
    (hcy : t8.colorAt y = some .kBlack)
    (hfr : ∀ z, z ≠ a → z ≠ y → t8.colorAt z = t.colorAt z) :
    CRep t8 (c.plug (.node .nil y .kBlack .nil)) := by
  refine ⟨by rw [CCtx.erase_plug]; exact hrep, fun p hp => ?_⟩
  rw [CCtx.pairs_plug] at hp
  simp only [CShape.pairs, List.nil_append, List.mem_append, List.mem_cons, List.mem_singleton,
    List.not_mem_nil, or_false] at hp
  have hcount := fun x => List.nodup_iff_count_le_one.mp hnd x
  simp only [List.count_cons, List.count_append, List.count_nil, CCtx.before_erase,
    CCtx.after_erase] at hcount
  have hmem : p ∈ c.pbefore ∨ p ∈ c.pafter → t8.colorAt p.1 = some p.2 := by
    intro hm
    have h1 : 0 < List.count p.1 (c.pbefore.map Prod.fst)
        + List.count p.1 (c.pafter.map Prod.fst) := by
      rcases hm with hm | hm
      · have := List.count_pos_iff.mpr (List.mem_map_of_mem Prod.fst hm)
        omega
      · have := List.count_pos_iff.mpr (List.mem_map_of_mem Prod.fst hm)
        omega
    have hpa : p.1 ≠ a := by
      intro e
      have := hcount p.1
      rw [e] at this h1
      simp at this
      omega
    have hpy : p.1 ≠ y := by
      intro e
      have := hcount p.1
      rw [e] at this h1
      simp at this
      omega
    rw [hfr p.1 hpa hpy]
    exact hold.2 p (hsub p (by simpa using hm))
  rcases hp with (hp | hp) | hp
  · exact hmem (.inl hp)
  · rw [hp]
    exact hcy
  · exact hmem (.inr hp)

/-- Second part of `remove_found` on a red-black tree: a node with at most one
child is unlinked, and the result is a red-black tree with exact caches. -/
theorem remove_node_exact {t : RBTree K V} {c : CCtx} {cL cR : CShape} {a : Nat}
    {k : RBTreeColor}
    (hr : CRep t (c.plug (.node cL a k cR))) (hv : (c.plug (.node cL a k cR)).Valid)
    (hLR : cL = .nil ∨ cR = .nil) (hc : cL = .nil → cR = .nil → c ≠ .top)
    (hf : ∀ x ∈ (c.plug (.node cL a k cR)).erase.ids, x < t.next)
    (hca : Caches t (c.plug (.node cL a k cR)).erase.ids) :
    ∃ (t1 : RBTree K V) (cs1 : CShape), remove_node t (.node a) = .ok (t1, true) ∧
      CRep t1 cs1 ∧ cs1.Valid ∧ Caches t1 cs1.erase.ids := by
  obtain ⟨hok, ⟨x1, x2, x3, x4⟩, -⟩ := CCtx.valid_unplug hv
  have h0 : Rep t (c.erase.plug (.node cL.erase a cR.erase)) := hr.focus
  obtain ⟨p, hC, hS⟩ := (Repr.plug_iff c.erase _).mp h0.1
  obtain ⟨hp, na, hna, hpar, hL, hR⟩ := hS
  subst hp
  have hnd0 := hr.1.2
  rw [CCtx.ids_plug_erase] at hnd0 hca hf
  simp only [CShape.erase, Shape.ids] at hnd0 hca hf
  unfold remove_node
  rw [h0.leftOf, h0.rightOf]
  by_cases hLn : cL = .nil
  · subst hLn
    by_cases hRn : cR = .nil
    · -- a leaf
      subst hRn
      simp only [CShape.erase, Shape.root_nil, Except.bind, Except.map, ne_eq,
        not_true_eq_false, if_false, decide_False, Bool.false_eq_true]
      obtain ⟨t1, d, e1, r1, ok1, hd, hb, ha, hl, hrr⟩ :=
        remove_leaf_exact hr (hc rfl rfl) hok (by
          rw [CCtx.ids_plug_erase]
          simpa [CShape.erase, Shape.ids] using hf)
      have hde : d.erase ≠ .top := by
        cases d with
        | top => exact absurd rfl hd
        | left up q kq R => simp [CCtx.erase]
        | right up L q kq => simp [CCtx.erase]
      refine ⟨t1, d.plug .nil, e1, r1, CCtx.valid_plug ok1 trivial rfl (.inl trivial), ?_⟩
      rw [CCtx.ids_plug_erase]
      simp only [CShape.erase, Shape.ids, List.append_nil]
      rw [hb, ha]
      refine Caches.erase_one (a := a) (by simpa using hca) (by simpa using hnd0) hl hrr ?_ ?_
      · intro hx
        rw [← ha]
        exact Ctx.parent_of_before_nil hde (hb.trans hx)
      · intro hy
        rw [← hb]
        exact Ctx.parent_of_after_nil hde (ha.trans hy)
    · -- only a right child
      obtain ⟨y, rfl⟩ := CShape.red_leaf_of x2 (by simpa [CShape.bh] using x3.symm) hRn
      have hkb : k = .kBlack := by
        cases k with
        | kBlack => rfl
        | kRed => exact absurd (x4 rfl).2 (by simp [CShape.isBlack])
      subst hkb
      have hrt : na.right = .node y := hR.1
      have hnd : (a :: (c.erase.before ++ (Shape.node .nil y .nil).ids ++ c.erase.after)).Nodup := by
        rw [List.nodup_iff_count_le_one] at hnd0 ⊢
        intro x
        have := hnd0 x
        simp only [Shape.ids, CShape.erase, List.count_append, List.count_cons,
          List.count_nil] at this ⊢
        omega
      obtain ⟨t8, e8, r8, c8, f8, l8, rr8⟩ := splice_at_exact hC hna hpar (hrt ▸ hR) hnd
      simp only [CShape.erase, Shape.root_node, Shape.root_nil, Except.bind, Except.map, ne_eq,
        reduceCtorEq, not_false_eq_true, not_true_eq_false, if_true, if_false, decide_True,
        remove_splice]
      rw [h0.leftOf, h0.rightOf]
      simp only [CShape.erase, Shape.root_node, Shape.root_nil, Except.bind, if_true]
      refine ⟨t8, c.plug (.node .nil y .kBlack .nil), e8, ?_, ?_, ?_⟩
      · refine CRep.of_splice hr (fun q hq => ?_) (by simpa [Shape.ids] using hnd) r8 c8 f8
        rw [CCtx.pairs_plug]
        simp only [List.mem_append] at hq ⊢
        rcases hq with hq | hq
        · exact .inl (.inl hq)
        · exact .inr hq
      · refine CCtx.valid_plug hok ⟨trivial, trivial, rfl, by simp⟩ (by simp [CShape.bh])
          (.inl rfl)
      · rw [CCtx.ids_plug_erase]
        simp only [CShape.erase, Shape.ids, List.nil_append, List.append_nil,
          List.append_assoc, List.singleton_append] at hca hnd0 ⊢
        refine Caches.erase_one (X := c.erase.before) (Y := y :: c.erase.after) (a := a)
          hca hnd0 l8 rr8 ?_ ?_
        · intro _
          simp [ptrOf]
        · intro hy
          cases hy
  · -- only a left child
    have hRn : cR = .nil := hLR.resolve_left hLn
    subst hRn
    obtain ⟨y, rfl⟩ := CShape.red_leaf_of x1 (by simpa [CShape.bh] using x3) hLn
    have hkb : k = .kBlack := by
      cases k with
      | kBlack => rfl
      | kRed => exact absurd (x4 rfl).1 (by simp [CShape.isBlack])
    subst hkb
    have hlt : na.left = .node y := hL.1
    have hnd : (a :: (c.erase.before ++ (Shape.node .nil y .nil).ids ++ c.erase.after)).Nodup := by
      rw [List.nodup_iff_count_le_one] at hnd0 ⊢
      intro x
      have := hnd0 x
      simp only [Shape.ids, CShape.erase, List.count_append, List.count_cons,
        List.count_nil] at this ⊢
      omega
    obtain ⟨t8, e8, r8, c8, f8, l8, rr8⟩ := splice_at_exact hC hna hpar (hlt ▸ hL) hnd
    simp only [CShape.erase, Shape.root_node, Except.bind, ne_eq, reduceCtorEq,
      not_false_eq_true, if_true, remove_splice]
    rw [h0.leftOf]
    simp only [CShape.erase, Shape.root_node, Except.bind, reduceCtorEq, if_false]
    refine ⟨t8, c.plug (.node .nil y .kBlack .nil), e8, ?_, ?_, ?_⟩
    · refine CRep.of_splice hr (fun q hq => ?_) (by simpa [Shape.ids] using hnd) r8 c8 f8
      rw [CCtx.pairs_plug]
      simp only [List.mem_append] at hq ⊢
      rcases hq with hq | hq
      · exact .inl (.inl hq)
      · exact .inr hq
    · refine CCtx.valid_plug hok ⟨trivial, trivial, rfl, by simp⟩ (by simp [CShape.bh])
        (.inl rfl)
    · rw [CCtx.ids_plug_erase]
      simp only [CShape.erase, Shape.ids, List.nil_append, List.append_nil,
        List.append_assoc, List.singleton_append] at hca hnd0 ⊢
      have hca1 : Caches t ((c.erase.before ++ [y]) ++ a :: c.erase.after) := by
        simpa using hca
      have hnd1 : ((c.erase.before ++ [y]) ++ a :: c.erase.after).Nodup := by
        simpa using hnd0
      have e2 : c.erase.before ++ y :: c.erase.after
          = (c.erase.before ++ [y]) ++ c.erase.after := by simp
      rw [e2]
      refine Caches.erase_one (a := a) hca1 hnd1 l8 rr8 ?_ ?_
      · intro hx
        simp at hx
      · intro _
        simp [ptrOf]

/-- Erasing the node in focus from a red-black tree with exact caches gives a
red-black tree with exact caches. -/
theorem remove_found_exact {t : RBTree K V} {c : CCtx} {cL cR : CShape} {a : Nat}
    {k : RBTreeColor}
    (hinv : Inv t (c.plug (.node cL a k cR)).erase)
    (hr : CRep t (c.plug (.node cL a k cR))) (hv : (c.plug (.node cL a k cR)).Valid)
    (hca : Caches t (c.plug (.node cL a k cR)).erase.ids) :
    ∃ (t1 : RBTree K V) (cs1 : CShape), remove_found t (.node a) = .ok (t1, true) ∧
      CRep t1 cs1 ∧ cs1.Valid ∧ Caches t1 cs1.erase.ids := by
  have hlen := hinv.cnt
  rw [remove_found_unfold]
  split
  · obtain ⟨t1, e1, hinv1, -, -, -, -, hh, -⟩ := clear_spec hinv
    refine ⟨t1, .nil, by rw [e1]; rfl, ⟨hinv1.rep, fun p hp => by simp [CShape.pairs] at hp⟩,
      ⟨trivial, trivial⟩, ?_⟩
    simp [Caches, CShape.erase, Shape.ids, hh, ptrOf]
  · next hc1 =>
    have h0 : Rep t (c.erase.plug (.node cL.erase a cR.erase)) := hr.focus
    have hfr : ∀ x ∈ (c.erase.plug (.node cL.erase a cR.erase)).ids, x < t.next := by
      have := hinv.fresh
      rwa [CCtx.erase_plug] at this
    obtain ⟨t1, d, m, L1, R1, X, Y, e, hr1, hs, hLR, hk, hx, -, -, -⟩ :=
      remove_pick_spec h0 hfr
    obtain ⟨hh, hcol⟩ := remove_pick_frame e
    have hse : (c.plug (.node cL a k cR)).erase = d.plug (.node L1 m R1) := by
      rw [CCtx.erase_plug, hs]
      rfl
    obtain ⟨cd, cX, e1, e2, e3⟩ := CShape.lift_plug d _ _ hse
    obtain ⟨cL1, km, cR1, rfl, e4, e5⟩ := CShape.erase_eq_node e3
    have hr1c : CRep t1 (cd.plug (.node cL1 m km cR1)) := by
      rw [← e1]
      refine ⟨by rw [hse]; exact hr1, fun p hp => ?_⟩
      rw [hcol]
      exact hr.2 p hp
    have hca1 : Caches t1 (cd.plug (.node cL1 m km cR1)).erase.ids := by
      rw [← e1]
      unfold Caches at hca ⊢
      rw [hh]
      exact hca
    obtain ⟨t2, cs1, e6, r6, v6, c6⟩ := remove_node_exact hr1c (by rw [← e1]; exact hv)
      (by
        rcases hLR with h | h
        · exact .inl (CShape.erase_eq_nil (e4.trans h))
        · exact .inr (CShape.erase_eq_nil (e5.trans h)))
      (by
        rintro rfl rfl rfl
        rw [e1] at hlen
        simp [CCtx.plug, CShape.erase, Shape.ids] at hlen
        exact hc1 hlen)
      (by
        rw [← e1, hx]
        exact hinv.fresh)
      hca1
    exact ⟨t2, cs1, by rw [e]; exact e6, r6, v6, c6⟩

/-- The descent of `remove_` on a red-black tree with exact caches: either the
key is not met and the tree is untouched, or a node is erased and the result is
a red-black tree with exact caches. -/
theorem remove__exact [DecidableEq K] (key : K) (fuel : Nat) :
    ∀ (t : RBTree K V) (c : CCtx) (X : CShape),
    Inv t (c.plug X).erase → CRep t (c.plug X) → (c.plug X).Valid →
    Caches t (c.plug X).erase.ids → X.erase.height < fuel →
    ∃ r, remove_ fuel t X.erase.root key = .ok r ∧
      (r = (t, false) ∨
        ∃ cs1, CRep r.1 cs1 ∧ cs1.Valid ∧ Caches r.1 cs1.erase.ids) := by
  induction fuel with
  | zero => intro t c X _ _ _ _ hh; omega
  | succ fuel ih =>
    intro t c X hinv hr hv hca hh
    cases X with
    | nil =>
      exact ⟨(t, false), by simp [CShape.erase, Shape.root_nil, remove_], .inl rfl⟩
    | node A a k B =>
      have h0 : Rep t (c.erase.plug (.node A.erase a B.erase)) := hr.focus
      obtain ⟨na, hna, -, hal, har⟩ := h0.node_at
      simp only [CShape.erase, Shape.height] at hh
      simp only [CShape.erase, Shape.root_node]
      rw [remove_]
      simp only [reduceCtorEq, if_false, RBTree.nodeAt_node hna, Except.bind]
      by_cases h1 : key = na.key
      · rw [if_neg (by simpa using h1)]
        obtain ⟨t1, cs1, e1, r1, v1, c1⟩ := remove_found_exact hinv hr hv hca
        exact ⟨(t1, true), e1, .inr ⟨cs1, r1, v1, c1⟩⟩
      · rw [if_pos h1]
        by_cases h2 : t.cmp_ key na.key = true
        · rw [if_pos h2, hal]
          exact ih t (c.left a k B) A hinv hr hv hca (by omega)
        · rw [if_neg h2, har]
          exact ih t (c.right A a k) B hinv hr hv hca (by omega)

/-- The public `remove(key)` on a red-black tree with exact caches. -/
theorem remove_exact [DecidableEq K] {t : RBTree K V} (cs : CShape) (hinv : Inv t cs.erase)
    (hr : CRep t cs) (hv : cs.Valid) (hca : Caches t cs.erase.ids) (key : K) :
    ∃ r, remove t key = .ok r ∧
      (r = (t, false) ∨
        ∃ cs1, CRep r.1 cs1 ∧ cs1.Valid ∧ Caches r.1 cs1.erase.ids) := by
  unfold remove
  rw [hinv.rep.1.root_eq]
  exact remove__exact key (t.next + 1) t .top cs hinv hr hv hca
    (Nat.lt_succ_of_le hinv.height_le)

end BabySTL

namespace BabySTL

variable {K V : Type}

/-! ## The invariant checks of a tree state and its coloured shape -/

theorem Shape.erase_paint (t : RBTree K V) (s : Shape) : (s.paint t).erase = s := by
  induction s with
  | nil => rfl
  | node l a r ihl ihr => simp [Shape.paint, CShape.erase, ihl, ihr]

theorem CRep.of_paint {t : RBTree K V} {s : Shape} (h : Rep t s) : CRep t (s.paint t) := by
  refine ⟨by rw [Shape.erase_paint]; exact h, ?_⟩
  have key : ∀ z : Shape, (∀ a ∈ z.ids, ∃ n, t.heap a = some n) →
      ∀ p ∈ (z.paint t).pairs, t.colorAt p.1 = some p.2 := by
    intro z
    induction z with
    | nil => intro _ p hp; simp [Shape.paint, CShape.pairs] at hp
    | node l a r ihl ihr =>
      intro hz p hp
      simp only [Shape.paint, CShape.pairs, List.mem_append, List.mem_cons] at hp
      rcases hp with hp | hp | hp
      · exact ihl (fun x hx => hz x (by simp [Shape.ids, hx])) p hp
      · obtain ⟨n, hn⟩ := hz a (by simp [Shape.ids])
        rw [hp]
        simp [RBTree.colorAt, hn]
      · exact ihr (fun x hx => hz x (by simp [Shape.ids, hx])) p hp
  exact key s fun a ha => h.heap_of_mem ha

theorem CRep.redAt_false_iff {t : RBTree K V} {c : CCtx} {X : CShape} (h : CRep t (c.plug X)) :
    t.redAt X.erase.root = false ↔ X.isBlack := by
  cases X with
  | nil => simp [CShape.erase, Shape.root, RBTree.redAt, CShape.isBlack]
  | node l a k r =>
    obtain ⟨n, hn, hk⟩ := h.node_color
    cases k <;> simp [CShape.erase, Shape.root, RBTree.redAt, hn, hk, CShape.isBlack]

/-- On a subtree satisfying invariants 2 and 3 the black-height computation
succeeds and no node fails the red-red test. -/
theorem CRep.blackHeight_of_RB {t : RBTree K V} : ∀ (X : CShape) (c : CCtx) (fuel : Nat),
    CRep t (c.plug X) → X.erase.height < fuel → X.RB →
    blackHeight fuel t X.erase.root = some X.bh ∧
      ∀ a ∈ X.erase.ids, ∀ n, t.heap a = some n → n.color = .kRed →
        t.redAt n.left = false ∧ t.redAt n.right = false := by
  intro X
  induction X with
  | nil =>
    intro c fuel _ hf _
    cases fuel with
    | zero => omega
    | succ f => exact ⟨rfl, fun a ha => by simp [CShape.erase, Shape.ids] at ha⟩
  | node A a k B ihA ihB =>
    intro c fuel h hf hrb
    obtain ⟨r1, r2, r3, r4⟩ := hrb
    cases fuel with
    | zero => omega
    | succ f =>
      simp only [CShape.erase, Shape.height] at hf
      have h0 : Rep t (c.erase.plug (.node A.erase a B.erase)) := h.focus
      obtain ⟨n, hn, -, hl, hr⟩ := h0.node_at
      obtain ⟨n1, hn1, hk⟩ := h.node_color
      rw [hn] at hn1
      cases hn1
      subst hk
      have hA : CRep t ((c.left a n.color B).plug A) := h
      have hB : CRep t ((c.right A a n.color).plug B) := h
      obtain ⟨a1, a2⟩ := ihA _ f hA (by omega) r1
      obtain ⟨b1, b2⟩ := ihB _ f hB (by omega) r2
      constructor
      · simp only [CShape.erase, Shape.root_node, blackHeight, hn, hl, hr, a1, b1, r3, if_true,
          CShape.bh]
      · intro x hx m hm hred
        simp only [CShape.erase, Shape.ids, List.mem_append, List.mem_cons] at hx
        rcases hx with hx | hx | hx
        · exact a2 x hx m hm hred
        · subst hx
          rw [hn] at hm
          cases hm
          obtain ⟨q1, q2⟩ := r4 hred
          rw [hl, hr]
          exact ⟨hA.redAt_false_iff.mpr q1, hB.redAt_false_iff.mpr q2⟩
        · exact b2 x hx m hm hred

/-- Conversely, when the black-height computation succeeds on a subtree and no
node fails the red-red test, the subtree satisfies invariants 2 and 3. -/
theorem CRep.RB_of_blackHeight {t : RBTree K V} : ∀ (X : CShape) (c : CCtx) (fuel h : Nat),
    CRep t (c.plug X) → blackHeight fuel t X.erase.root = some h →
    (∀ a ∈ X.erase.ids, ∀ n, t.heap a = some n → n.color = .kRed →
        t.redAt n.left = false ∧ t.redAt n.right = false) →
    X.RB ∧ X.bh = h := by
  intro X
  induction X with
  | nil =>
    intro c fuel h _ hb _
    cases fuel with
    | zero => simp [blackHeight] at hb
    | succ f =>
      simp only [CShape.erase, Shape.root_nil, blackHeight, Option.some.injEq] at hb
      exact ⟨trivial, by simp [CShape.bh, hb]⟩
  | node A a k B ihA ihB =>
    intro c fuel h hr hb hloc
    cases fuel with
    | zero => simp [blackHeight] at hb
    | succ f =>
      have h0 : Rep t (c.erase.plug (.node A.erase a B.erase)) := hr.focus
      obtain ⟨n, hn, -, hl, hrt⟩ := h0.node_at
      obtain ⟨n1, hn1, hk⟩ := hr.node_color
      rw [hn] at hn1
      cases hn1
      subst hk
      have hA : CRep t ((c.left a n.color B).plug A) := hr
      have hB : CRep t ((c.right A a n.color).plug B) := hr
      simp only [CShape.erase, Shape.root_node, blackHeight, hn, hl, hrt] at hb
      cases e1 : blackHeight f t A.erase.root with
      | none => simp [e1] at hb
      | some h1 =>
        cases e2 : blackHeight f t B.erase.root with
        | none => simp [e1, e2] at hb
        | some h2 =>
          simp only [e1, e2] at hb
          by_cases he : h1 = h2
          · rw [if_pos he] at hb
            simp only [Option.some.injEq] at hb
            obtain ⟨a1, a2⟩ := ihA _ f h1 hA e1
              (fun x hx => hloc x (by simp [CShape.erase, Shape.ids, hx]))
            obtain ⟨b1, b2⟩ := ihB _ f h2 hB e2
              (fun x hx => hloc x (by simp [CShape.erase, Shape.ids, hx]))
            refine ⟨⟨a1, b1, by omega, fun hred => ?_⟩, by simp only [CShape.bh, a2]; exact hb⟩
            obtain ⟨q1, q2⟩ := hloc a (by simp [CShape.erase, Shape.ids]) n hn hred
            rw [hl] at q1
            rw [hrt] at q2
            exact ⟨hA.redAt_false_iff.mp q1, hB.redAt_false_iff.mp q2⟩
          · rw [if_neg he] at hb
            cases hb

theorem RBTree.noRedRed_iff (t : RBTree K V) :
    t.noRedRed = true ↔ ∀ a ∈ t.nodes, ∀ n, t.heap a = some n → n.color = .kRed →
      t.redAt n.left = false ∧ t.redAt n.right = false := by
  unfold RBTree.noRedRed
  rw [List.all_eq_true]
  refine forall_congr' fun a => forall_congr' fun _ => ?_
  cases ha : t.heap a with
  | none => simp
  | some n =>
    simp only [Option.some.injEq, forall_eq']
    cases n.color <;> simp

theorem RBTree.cachesExact_iff (t : RBTree K V) : t.cachesExact = true ↔ Caches t t.nodes := by
  unfold RBTree.cachesExact Caches
  simp only [Bool.and_eq_true, decide_eq_true_eq]
  constructor
  · rintro ⟨h1, h2⟩
    constructor
    · rw [h1]; cases t.nodes.head? <;> rfl
    · rw [h2]; cases t.nodes.getLast? <;> rfl
  · rintro ⟨h1, h2⟩
    constructor
    · rw [h1]; cases t.nodes.head? <;> rfl
    · rw [h2]; cases t.nodes.getLast? <;> rfl

theorem keysSorted_iff_chain (cmp : K → K → Bool) (l : List K) :
    ((l.zip l.tail).all fun p => !cmp p.2 p.1) = true ↔
      List.Chain' (fun a b => cmp b a = false) l := by
  induction l with
  | nil => simp
  | cons x xs ih =>
    cases xs with
    | nil => simp
    | cons y ys =>
      simp only [List.tail_cons, List.zip_cons_cons, List.all_cons, Bool.and_eq_true,
        Bool.not_eq_true', List.chain'_cons] at ih ⊢
      rw [ih]

theorem StrictWeakOrder.not_less_trans {cmp : K → K → Bool} (hw : StrictWeakOrder cmp)
    {a b c : K} (h1 : cmp b a = false) (h2 : cmp c b = false) : cmp c a = false := by
  by_contra h
  have h3 : cmp c a = true := by simpa using h
  rcases hw.neg_trans b h3 with h4 | h4
  · rw [h4] at h2; cases h2
  · rw [h4] at h1; cases h1

/-- Invariant 4 as checked on neighbours gives, for a strict weak order, the
order of every pair of nodes. -/
theorem Inv.sorted_of_check {t : RBTree K V} {s : Shape} (h : Inv t s)
    (hw : StrictWeakOrder t.cmp_) (hs : t.keysSorted = true) : SortedIds t s.ids := by
  unfold RBTree.keysSorted at hs
  rw [keysSorted_iff_chain] at hs
  have hp : t.keys.Pairwise fun a b => t.cmp_ b a = false := by
    haveI : IsTrans K (fun a b => t.cmp_ b a = false) :=
      ⟨fun a b c h1 h2 => hw.not_less_trans h1 h2⟩
    exact List.chain'_iff_pairwise.mp hs
  rw [h.keys_eq, List.pairwise_filterMap] at hp
  refine hp.imp ?_
  intro x y hxy kx ky hx hy
  exact hxy kx (by simpa using hx) ky (by simpa using hy)

theorem Inv.check_of_sorted {t : RBTree K V} {s : Shape} (h : Inv t s)
    (hs : SortedIds t s.ids) : t.keysSorted = true := by
  unfold RBTree.keysSorted
  rw [keysSorted_iff_chain]
  exact (h.keys_sorted hs).chain'

end BabySTL

namespace BabySTL

variable {Tp : Type}

/-! ## The binary heap of `BPriorityQueue` -/

theorem set_set_get {l : List Tp} {i j : Nat} {a b : Tp} (hi : l[i]? = some a)
    (hj : l[j]? = some b) (m : Nat) :
    ((l.set i b).set j a)[m]? = if m = j then some a else if m = i then some b else l[m]? := by
  have hil : i < l.length := (List.getElem?_eq_some.mp hi).1
  have hjl : j < l.length := (List.getElem?_eq_some.mp hj).1
  by_cases h1 : m = j
  · subst h1
    simp [List.getElem?_set, hjl]
  · by_cases h2 : m = i
    · subst h2
      simp [List.getElem?_set, h1, hil, Ne.symm h1]
    · simp [List.getElem?_set, h1, h2, Ne.symm h1, Ne.symm h2]

theorem cons_set_perm : ∀ (l : List Tp) (j : Nat) (b x : Tp), l[j]? = some b →
    (b :: l.set j x).Perm (x :: l)
  | [], _, _, _, h => by simp at h
  | y :: l, 0, b, x, h => by
    simp at h
    subst h
    exact List.Perm.swap _ _ _
  | y :: l, j + 1, b, x, h => by
    simp at h
    have ih := cons_set_perm l j b x h
    simp only [List.set_cons_succ]
    exact (List.Perm.swap y b _).trans (((List.Perm.cons y ih)).trans (List.Perm.swap x y l))

theorem set_set_perm : ∀ (l : List Tp) (i j : Nat) (a b : Tp), l[i]? = some a →
    l[j]? = some b → ((l.set i b).set j a).Perm l
  | [], _, _, _, _, h, _ => by simp at h
  | x :: l, 0, 0, a, b, hi, hj => by
    simp at hi hj
    subst hi
    simp
  | x :: l, 0, j + 1, a, b, hi, hj => by
    simp at hi hj
    subst hi
    simpa using cons_set_perm l j b x hj
  | x :: l, i + 1, 0, a, b, hi, hj => by
    simp at hi hj
    subst hj
    simpa using cons_set_perm l i a x hi
  | x :: l, i + 1, j + 1, a, b, hi, hj => by
    simp at hi hj
    simpa using set_set_perm l i j a b hi hj


theorem BVector.subscript_of_get {v : BVector Tp} {i : Nat} {x : Tp} (h : v.elems[i]? = some x) :
    v.subscript i = .ok x := by
  simp [BVector.subscript, h]

theorem BVector.swap_elems_of_get {v : BVector Tp} {i j : Nat} {a b : Tp}
    (hi : v.elems[i]? = some a) (hj : v.elems[j]? = some b) :
    v.swap_elems i j = .ok { elems := (v.elems.set i b).set j a, spare := v.spare } := by
  simp [BVector.swap_elems, BVector.subscript_of_get hi, BVector.subscript_of_get hj, Except.bind]

theorem get_of_lt {l : List Tp} {i : Nat} (h : i < l.length) : ∃ x, l[i]? = some x :=
  ⟨l[i], List.getElem?_eq_getElem h⟩

theorem lt_of_get {l : List Tp} {i : Nat} {x : Tp} (h : l[i]? = some x) : i < l.length :=
  (List.getElem?_eq_some.mp h).1

/-- The root of a heap-ordered array is a greatest element. -/
theorem HeapOrdered.top_greatest {cmp : Tp → Tp → Bool} (hw : StrictWeakOrder cmp) {l : List Tp}
    (h : HeapOrdered cmp l) {m : Tp} (h0 : l[0]? = some m) :
    ∀ (i : Nat) (x : Tp), l[i]? = some x → cmp m x = false := by
  intro i
  induction i using Nat.strong_induction_on with
  | _ i ih =>
    intro x hx
    by_cases hi : i = 0
    · subst hi
      rw [h0] at hx
      cases hx
      exact hw.irrefl _
    · have hlt : i < l.length := lt_of_get hx
      obtain ⟨y, hy⟩ := get_of_lt (l := l) (i := (i - 1) / 2) (by omega)
      exact hw.not_less_trans (h i x y (by omega) hx hy) (ih _ (by omega) y hy)

theorem adjust_up_spec (fuel : Nat) : ∀ (q : BPriorityQueue Tp) (idx : Nat),
    StrictWeakOrder q.cmp_ → idx < fuel → idx < q.container_.elems.length →
    HeapAbove q.cmp_ q.container_.elems idx →
    ∃ q1, BPriorityQueue.adjust_up_ fuel q idx = .ok q1 ∧ q1.cmp_ = q.cmp_ ∧
      HeapOrdered q1.cmp_ q1.container_.elems ∧ q1.container_.elems.Perm q.container_.elems := by
  induction fuel with
  | zero => intro q idx _ hf; omega
  | succ fuel ih =>
    intro q idx hw hf hlen hinv
    obtain ⟨h1, h2⟩ := hinv
    unfold BPriorityQueue.adjust_up_
    by_cases h0 : idx > 0
    · rw [if_pos h0]
      obtain ⟨a, ha⟩ := get_of_lt hlen
      obtain ⟨b, hb⟩ := get_of_lt (l := q.container_.elems) (i := (idx - 1) / 2) (by omega)
      simp only [BVector.subscript_of_get ha, BVector.subscript_of_get hb, Except.bind]
      by_cases hc : q.cmp_ a b = true
      · rw [if_pos hc]
        refine ⟨q, rfl, rfl, ?_, List.Perm.refl _⟩
        intro i x p hi hx hp
        by_cases hik : i = idx
        · subst hik
          rw [ha] at hx; rw [hb] at hp
          cases hx; cases hp
          exact hw.asymm_weak hc
        · exact h1 i x p hi hik hx hp
      · rw [if_neg hc]
        have hc : q.cmp_ a b = false := by simpa using hc
        rw [BVector.swap_elems_of_get ha hb]
        simp only [Except.bind]
        have hg := set_set_get ha hb
        have hne : (idx - 1) / 2 ≠ idx := by omega
        obtain ⟨q1, e, hcmp, hheap, hperm⟩ := ih
          { container_ := { elems := (q.container_.elems.set idx b).set ((idx - 1) / 2) a,
                            spare := q.container_.spare }, cmp_ := q.cmp_ }
          ((idx - 1) / 2) hw (by omega) (by simp; omega) (by
            constructor
            · intro i x p hi hip hx hp
              simp only [hg, if_neg hip] at hx
              simp only [hg] at hp
              by_cases hii : i = idx
              · rw [if_pos hii] at hx
                subst hii
                rw [if_pos rfl] at hp
                cases hx; cases hp
                exact hc
              · rw [if_neg hii] at hx
                by_cases hp1 : (i - 1) / 2 = (idx - 1) / 2
                · rw [if_pos hp1] at hp
                  cases hp
                  exact hw.not_less_trans (h1 i x b hi hii hx (hp1 ▸ hb)) hc
                · rw [if_neg hp1] at hp
                  by_cases hp2 : (i - 1) / 2 = idx
                  · rw [if_pos hp2] at hp
                    cases hp
                    exact h2 i x b h0 hi hp2 hx hb
                  · rw [if_neg hp2] at hp
                    exact h1 i x p hi hii hx hp
            · intro c x g hp0 hc0 hcp hx hg1
              simp only [hg] at hx hg1
              have e1 : ¬ ((idx - 1) / 2 - 1) / 2 = (idx - 1) / 2 := by omega
              have e2 : ¬ ((idx - 1) / 2 - 1) / 2 = idx := by omega
              rw [if_neg e1, if_neg e2] at hg1
              have e3 : ¬ c = (idx - 1) / 2 := by omega
              rw [if_neg e3] at hx
              have hbg := h1 ((idx - 1) / 2) b g hp0 hne hb hg1
              by_cases hci : c = idx
              · rw [if_pos hci] at hx
                cases hx
                exact hbg
              · rw [if_neg hci] at hx
                exact hw.not_less_trans (h1 c x b hc0 hci hx (hcp ▸ hb)) hbg)
        exact ⟨q1, e, hcmp, hheap, hperm.trans (set_set_perm _ _ _ _ _ ha hb)⟩
    · rw [if_neg h0]
      refine ⟨q, rfl, rfl, ?_, List.Perm.refl _⟩
      intro i x p hi hx hp
      exact h1 i x p hi (by omega) hx hp


/-- The child that `adjust_down_` selects is a greatest child. -/
theorem select_child {q : BPriorityQueue Tp} (hw : StrictWeakOrder q.cmp_) {idx : Nat}
    (h0 : 2 * idx + 1 < q.container_.elems.length) :
    ∃ (r : Bool) (b : Tp),
      (if 2 * idx + 1 + 1 < q.container_.elems.length then
          (q.container_.subscript (2 * idx + 1)).bind fun a =>
          (q.container_.subscript (2 * idx + 1 + 1)).map fun b => q.cmp_ a b
        else .ok false) = .ok r ∧
      q.container_.elems[if r = true then 2 * idx + 1 + 1 else 2 * idx + 1]? = some b ∧
      ∀ (o : Nat) (y : Tp), o = 2 * idx + 1 ∨ o = 2 * idx + 1 + 1 →
        q.container_.elems[o]? = some y → q.cmp_ b y = false := by
  obtain ⟨cl, hl⟩ := get_of_lt h0
  by_cases hr : 2 * idx + 1 + 1 < q.container_.elems.length
  · obtain ⟨cr, hcr⟩ := get_of_lt hr
    rw [if_pos hr]
    simp only [BVector.subscript_of_get hl, BVector.subscript_of_get hcr, Except.bind, Except.map]
    cases hc : q.cmp_ cl cr with
    | true =>
      refine ⟨true, cr, rfl, by simpa using hcr, ?_⟩
      rintro o y (rfl | rfl) hy
      · rw [hl] at hy; cases hy
        exact hw.asymm_weak hc
      · rw [hcr] at hy; cases hy
        exact hw.irrefl _
    | false =>
      refine ⟨false, cl, rfl, by simpa using hl, ?_⟩
      rintro o y (rfl | rfl) hy
      · rw [hl] at hy; cases hy
        exact hw.irrefl _
      · rw [hcr] at hy; cases hy
        exact hc
  · rw [if_neg hr]
    refine ⟨false, cl, rfl, by simpa using hl, ?_⟩
    rintro o y (rfl | rfl) hy
    · rw [hl] at hy; cases hy
      exact hw.irrefl _
    · exact absurd (lt_of_get hy) hr

theorem adjust_down_loop_spec (fuel : Nat) : ∀ (q : BPriorityQueue Tp) (len idx : Nat),
    StrictWeakOrder q.cmp_ → len = q.container_.elems.length → len - idx < fuel →
    HeapBelow q.cmp_ q.container_.elems idx →
    ∃ q1, BPriorityQueue.adjust_down_loop fuel q len idx = .ok q1 ∧ q1.cmp_ = q.cmp_ ∧
      HeapOrdered q1.cmp_ q1.container_.elems ∧ q1.container_.elems.Perm q.container_.elems := by
  induction fuel with
  | zero =>
    intro q len idx hw hlen hf hinv
    exfalso
    omega
  | succ fuel ih =>
    intro q len idx hw hlen hf hinv
    obtain ⟨h1, h2⟩ := hinv
    subst hlen
    unfold BPriorityQueue.adjust_down_loop
    by_cases h0 : 2 * idx + 1 < q.container_.elems.length
    · rw [if_pos h0]
      obtain ⟨r, b, er, hb, hmax⟩ := select_child hw h0
      obtain ⟨a, ha⟩ := get_of_lt (l := q.container_.elems) (i := idx) (by omega)
      dsimp only
      rw [er]
      simp only [Except.bind, BVector.subscript_of_get ha, BVector.subscript_of_get hb]
      have hs : (if r = true then 2 * idx + 1 + 1 else 2 * idx + 1) = 2 * idx + 1 ∨
          (if r = true then 2 * idx + 1 + 1 else 2 * idx + 1) = 2 * idx + 1 + 1 := by
        cases r <;> simp
      generalize (if r = true then 2 * idx + 1 + 1 else 2 * idx + 1) = s at hb hs ⊢
      cases hc : q.cmp_ a b with
      | false =>
        rw [if_pos (by simp)]
        refine ⟨q, rfl, rfl, ?_, List.Perm.refl _⟩
        intro i x p hi hx hp
        by_cases hpi : (i - 1) / 2 = idx
        · rw [hpi, ha] at hp
          cases hp
          exact hw.not_less_trans (hmax i x (by omega) hx) hc
        · exact h1 i x p hi hpi hx hp
      | true =>
        rw [if_neg (by simp)]
        rw [BVector.swap_elems_of_get ha hb]
        simp only [Except.bind]
        have hg := set_set_get ha hb
        have hps : (s - 1) / 2 = idx := by omega
        obtain ⟨q1, e, hcmp, hheap, hperm⟩ := ih
          { container_ := { elems := (q.container_.elems.set idx b).set s a,
                            spare := q.container_.spare }, cmp_ := q.cmp_ }
          q.container_.elems.length s hw (by simp) (by omega) (by
            constructor
            · intro i x p hi hip hx hp
              simp only [hg, if_neg hip] at hp
              simp only [hg] at hx
              by_cases his : i = s
              · rw [if_pos his] at hx
                subst his
                have e1 : (i - 1) / 2 = idx := hps
                rw [if_pos e1] at hp
                cases hx; cases hp
                exact hw.asymm_weak hc
              · rw [if_neg his] at hx
                by_cases hii : i = idx
                · rw [if_pos hii] at hx
                  cases hx
                  subst hii
                  have e1 : ¬ (i - 1) / 2 = i := by omega
                  rw [if_neg e1] at hp
                  exact h2 s b p hi (by omega) hps hb hp
                · rw [if_neg hii] at hx
                  by_cases hpi : (i - 1) / 2 = idx
                  · rw [if_pos hpi] at hp
                    cases hp
                    exact hmax i x (by omega) hx
                  · rw [if_neg hpi] at hp
                    exact h1 i x p hi hpi hx hp
            · intro c x g hs0 hc0 hcp hx hg1
              simp only [hg] at hx hg1
              have e1 : ¬ (s - 1) / 2 = s := by omega
              rw [if_neg e1, if_pos hps] at hg1
              cases hg1
              have e2 : ¬ c = s := by omega
              have e3 : ¬ c = idx := by omega
              rw [if_neg e2, if_neg e3] at hx
              exact h1 c x b hc0 (by omega) hx (hcp ▸ hb))
        exact ⟨q1, e, hcmp, hheap, hperm.trans (set_set_perm _ _ _ _ _ ha hb)⟩
    · rw [if_neg h0]
      refine ⟨q, rfl, rfl, ?_, List.Perm.refl _⟩
      intro i x p hi hx hp
      by_cases hpi : (i - 1) / 2 = idx
      · have := lt_of_get hx
        omega
      · exact h1 i x p hi hpi hx hp


theorem dropLast_append_of_get {l : List Tp} {a : Tp} (h : l[l.length - 1]? = some a) :
    l.dropLast ++ [a] = l := by
  have hne : l ≠ [] := by
    intro e
    subst e
    simp at h
  have hl : l.getLast hne = a := by
    rw [List.getLast_eq_getElem]
    exact (List.getElem?_eq_some.mp h).2
  rw [← hl]
  exact List.dropLast_append_getLast hne

theorem get_dropLast (l : List Tp) (i : Nat) :
    l.dropLast[i]? = if i < l.length - 1 then l[i]? else none := by
  rw [List.dropLast_eq_take, List.getElem?_take]

theorem BVector.push_back_elems (v : BVector Tp) (x : Tp) :
    (v.push_back x).elems = v.elems ++ [x] := by
  unfold BVector.push_back BVector.adjust_capacity_
  dsimp only
  split <;> rfl

/-- The method `push` on a heap-ordered queue. -/
theorem BPriorityQueue.push_spec {q : BPriorityQueue Tp} (hw : StrictWeakOrder q.cmp_)
    (h : HeapOrdered q.cmp_ q.container_.elems) (x : Tp) :
    ∃ q1, q.push x = .ok q1 ∧ q1.cmp_ = q.cmp_ ∧ HeapOrdered q1.cmp_ q1.container_.elems ∧
      q1.container_.elems.Perm (x :: q.container_.elems) := by
  unfold BPriorityQueue.push
  dsimp only
  obtain ⟨q1, e, hc, hh, hp⟩ := adjust_up_spec ((q.container_.push_back x).size + 1)
    { container_ := q.container_.push_back x, cmp_ := q.cmp_ } ((q.container_.push_back x).size - 1)
    hw (by omega) (by simp [BVector.size, BVector.push_back_elems]) (by
      simp only [BVector.size, BVector.push_back_elems, List.length_append, List.length_singleton,
        Nat.add_sub_cancel]
      constructor
      · intro i y p hi hne hy hp
        have hlt : i < q.container_.elems.length := by
          have := lt_of_get hy
          simp at this
          omega
        rw [List.getElem?_append_left hlt] at hy
        rw [List.getElem?_append_left (by omega)] at hp
        exact h i y p hi hy hp
      · intro c y g _ hc0 hcp hy _
        have := lt_of_get hy
        simp at this
        omega)
  refine ⟨q1, e, hc, hh, hp.trans ?_⟩
  rw [BVector.push_back_elems]
  exact List.perm_append_singleton _ _

/-- The methods `top` and `pop` on a heap-ordered, non-empty queue. -/
theorem BPriorityQueue.pop_spec {q : BPriorityQueue Tp} (hw : StrictWeakOrder q.cmp_)
    (h : HeapOrdered q.cmp_ q.container_.elems) (hn : 0 < q.container_.elems.length) :
    ∃ m q1, q.top = .ok m ∧ (∀ y ∈ q.container_.elems, q.cmp_ m y = false) ∧
      q.pop = .ok q1 ∧ q1.cmp_ = q.cmp_ ∧ HeapOrdered q1.cmp_ q1.container_.elems ∧
      q.container_.elems.Perm (m :: q1.container_.elems) := by
  obtain ⟨a, ha⟩ := get_of_lt hn
  obtain ⟨b, hb⟩ := get_of_lt (l := q.container_.elems) (i := q.container_.elems.length - 1)
    (by omega)
  obtain ⟨l1, hl1⟩ : ∃ l1, l1 = (q.container_.elems.set 0 b).set (q.container_.elems.length - 1) a :=
    ⟨_, rfl⟩
  have hg : ∀ m, l1[m]? = if m = q.container_.elems.length - 1 then some a
      else if m = 0 then some b else q.container_.elems[m]? := by
    rw [hl1]
    exact set_set_get ha hb
  have hlen : l1.length = q.container_.elems.length := by simp [hl1]
  have hsw : l1.Perm q.container_.elems := by
    rw [hl1]
    exact set_set_perm _ _ _ _ _ ha hb
  have hlast : l1.dropLast ++ [a] = l1 := by
    apply dropLast_append_of_get
    rw [hlen, hg, if_pos rfl]
  have hgr : ∀ (i : Nat) (x : Tp), 0 < i → l1.dropLast[i]? = some x →
      q.container_.elems[i]? = some x := by
    intro i x hi hx
    rw [get_dropLast, hlen] at hx
    by_cases hlt : i < q.container_.elems.length - 1
    · rw [if_pos hlt, hg, if_neg (by omega), if_neg (by omega)] at hx
      exact hx
    · rw [if_neg hlt] at hx
      cases hx
  have htop : q.top = .ok a := BVector.subscript_of_get ha
  have hpop : (BVector.pop_back { elems := l1, spare := q.container_.spare }).elems
      = l1.dropLast := by
    unfold BVector.pop_back
    rw [if_neg (by simp only [BVector.size]; omega)]
  obtain ⟨q1, e, hc, hh, hp⟩ := adjust_down_loop_spec
    ((BVector.pop_back { elems := l1, spare := q.container_.spare }).size + 1)
    { container_ := BVector.pop_back { elems := l1, spare := q.container_.spare }, cmp_ := q.cmp_ }
    ((BVector.pop_back { elems := l1, spare := q.container_.spare }).size) 0 hw rfl (by omega) (by
      dsimp only
      rw [hpop]
      constructor
      · intro i x p hi hpi hx hp
        exact h i x p hi (hgr i x hi hx) (hgr _ p (by omega) hp)
      · intro c x g h0
        exact absurd h0 (lt_irrefl 0))
  refine ⟨a, q1, htop, ?_, ?_, hc, hh, ?_⟩
  · intro y hy
    obtain ⟨i, hi⟩ := List.getElem?_of_mem hy
    exact h.top_greatest hw ha i y hi
  · unfold BPriorityQueue.pop BPriorityQueue.adjust_down_
    dsimp only
    rw [show q.container_.size = q.container_.elems.length from rfl,
      BVector.swap_elems_of_get ha hb, ← hl1]
    exact e
  · have h1 : q1.container_.elems.Perm l1.dropLast := by
      rw [← hpop]
      exact hp
    have h2 : q.container_.elems.Perm (l1.dropLast ++ [a]) := by
      rw [hlast]
      exact hsw.symm
    exact h2.trans ((List.perm_append_singleton _ _).trans (List.Perm.cons a h1.symm))

/-- A sequence of calls whose pops meet a non-empty queue keeps the heap order. -/
theorem BPriorityQueue.runFrom_heap (ops : List (QueueOp Tp)) : ∀ (q : BPriorityQueue Tp),
    StrictWeakOrder q.cmp_ → HeapOrdered q.cmp_ q.container_.elems →
    QueueOp.popsNonEmpty q.container_.elems.length ops = true →
    ∃ q1, q.runFrom ops = .ok q1 ∧ q1.cmp_ = q.cmp_ ∧ HeapOrdered q1.cmp_ q1.container_.elems := by
  induction ops with
  | nil => intro q _ h _; exact ⟨q, rfl, rfl, h⟩
  | cons op ops ih =>
    intro q hw h hp
    cases op with
    | push x =>
      obtain ⟨q1, e, hc, hh, hperm⟩ := q.push_spec hw h x
      obtain ⟨q2, e2, hc2, hh2⟩ := ih q1 (hc ▸ hw) hh (by
        rw [hperm.length_eq]
        exact hp)
      exact ⟨q2, by simp [BPriorityQueue.runFrom, QueueOp.apply, e, Except.bind, e2],
        hc2.trans hc, hh2⟩
    | pop =>
      simp only [QueueOp.popsNonEmpty, Bool.and_eq_true, decide_eq_true_eq] at hp
      obtain ⟨m, q1, -, -, e, hc, hh, hperm⟩ := q.pop_spec hw h hp.1
      obtain ⟨q2, e2, hc2, hh2⟩ := ih q1 (hc ▸ hw) hh (by
        have := hperm.length_eq
        simp only [List.length_cons] at this
        rw [this] at hp
        exact hp.2)
      exact ⟨q2, by simp [BPriorityQueue.runFrom, QueueOp.apply, e, Except.bind, e2],
        hc2.trans hc, hh2⟩

end BabySTL

namespace BabySTL
variable {K V : Type}

/-! ## Heights, links and rotations -/

theorem heightFrom_eq (t : RBTree K V) : ∀ (s : Shape) (fuel : Nat) (par p : Ptr),
    Repr t.heap par p s → s.height ≤ fuel → heightFrom fuel t p = s.height := by
  intro s
  induction s with
  | nil =>
    intro fuel par p h _
    have hp : p = .null := h
    subst hp
    cases fuel <;> rfl
  | node l a r ihl ihr =>
    intro fuel par p h hf
    obtain ⟨hp, n, hn, -, hl, hr⟩ := h
    subst hp
    cases fuel with
    | zero => simp [Shape.height] at hf
    | succ fuel =>
      simp only [Shape.height] at hf ⊢
      simp only [heightFrom, hn]
      rw [ihl fuel _ _ hl (by omega), ihr fuel _ _ hr (by omega)]

theorem Inv.height_eq {t : RBTree K V} {s : Shape} (h : Inv t s) : t.height = s.height :=
  heightFrom_eq t s _ _ _ h.rep.1 (Nat.le_succ_of_le h.height_le)

theorem lower_bound__returns (key : K) (fuel : Nat) : ∀ (t : RBTree K V) (s : Shape)
    (par p sat : Ptr), Repr t.heap par p s → s.height < fuel →
    ∃ r, lower_bound_ fuel t p key sat = .ok r := by
  induction fuel with
  | zero => intro t s par p sat _ hf; omega
  | succ fuel ih =>
    intro t s par p sat h hf
    cases s with
    | nil =>
      have hp : p = .null := h
      subst hp
      exact ⟨sat, by simp [lower_bound_]⟩
    | node l a r =>
      obtain ⟨hp, n, hn, -, hl, hr⟩ := h
      subst hp
      simp only [Shape.height] at hf
      simp only [lower_bound_, reduceCtorEq, if_false, RBTree.nodeAt_node hn, Except.bind]
      split
      · exact ih t l _ _ _ hl (by omega)
      · exact ih t r _ _ _ hr (by omega)

theorem upper_bound__returns (key : K) (fuel : Nat) : ∀ (t : RBTree K V) (s : Shape)
    (par p sat : Ptr), Repr t.heap par p s → s.height < fuel →
    ∃ r, upper_bound_ fuel t p key sat = .ok r := by
  induction fuel with
  | zero => intro t s par p sat _ hf; omega
  | succ fuel ih =>
    intro t s par p sat h hf
    cases s with
    | nil =>
      have hp : p = .null := h
      subst hp
      exact ⟨sat, by simp [upper_bound_]⟩
    | node l a r =>
      obtain ⟨hp, n, hn, -, hl, hr⟩ := h
      subst hp
      simp only [Shape.height] at hf
      simp only [upper_bound_, reduceCtorEq, if_false, RBTree.nodeAt_node hn, Except.bind]
      split
      · exact ih t r _ _ _ hr (by omega)
      · exact ih t l _ _ _ hl (by omega)

/-- In a represented tree every child of a node names that node as its parent. -/
theorem Rep.child_links {t : RBTree K V} {s : Shape} (h : Rep t s) {a : Nat} (ha : a ∈ s.ids)
    (c : Nat) (hc : t.leftOf (.node a) = .ok (.node c) ∨ t.rightOf (.node a) = .ok (.node c)) :
    t.parentOf (.node c) = .ok (.node a) := by
  obtain ⟨ctx, A, B, rfl⟩ := Shape.exists_ctx_of_mem ha
  rcases hc with hc | hc
  · rw [h.leftOf] at hc
    cases A with
    | nil => cases hc
    | node A1 x A2 =>
      have hx : x = c := by simpa [Shape.root] using hc
      subst hx
      have h1 : Rep t ((Ctx.left ctx a B).plug (.node A1 x A2)) := h
      exact h1.parentOf
  · rw [h.rightOf] at hc
    cases B with
    | nil => cases hc
    | node B1 x B2 =>
      have hx : x = c := by simpa [Shape.root] using hc
      subst hx
      have h1 : Rep t ((Ctx.right ctx A a).plug (.node B1 x B2)) := h
      exact h1.parentOf

/-- In a represented tree every child of a node is a node of the tree. -/
theorem Rep.child_mem {t : RBTree K V} {s : Shape} (h : Rep t s) {a : Nat} (ha : a ∈ s.ids)
    (c : Nat) (hc : t.leftOf (.node a) = .ok (.node c) ∨ t.rightOf (.node a) = .ok (.node c)) :
    c ∈ s.ids := by
  obtain ⟨ctx, A, B, rfl⟩ := Shape.exists_ctx_of_mem ha
  rcases hc with hc | hc
  · rw [h.leftOf] at hc
    have hm : c ∈ A.ids := Shape.mem_of_root (by injection hc)
    simp [Ctx.ids_plug, Shape.ids, hm]
  · rw [h.rightOf] at hc
    have hm : c ∈ B.ids := Shape.mem_of_root (by injection hc)
    simp [Ctx.ids_plug, Shape.ids, hm]

/-- The slot that held the root of the subtree in the hole of a context holds
the root of whatever fills the hole afterwards. -/
theorem Rep.slot_of_plug {t t1 : RBTree K V} {c : Ctx} {A B A1 B1 : Shape} {n r : Nat}
    (h : Rep t (c.plug (.node A n B))) (h1 : Rep t1 (c.plug (.node A1 r B1))) :
    (t.header_.parent = .node n ∧ t1.header_.parent = .node r) ∨
    ∃ p, t.parentOf (.node n) = .ok (.node p) ∧
      ((t.leftOf (.node p) = .ok (.node n) ∧ t1.leftOf (.node p) = .ok (.node r)) ∨
       (t.rightOf (.node p) = .ok (.node n) ∧ t1.rightOf (.node p) = .ok (.node r))) := by
  cases c with
  | top =>
    left
    exact ⟨by rw [h.1.root_eq]; rfl, by rw [h1.1.root_eq]; rfl⟩
  | left up p R =>
    right
    refine ⟨p, ?_, Or.inl ⟨?_, ?_⟩⟩
    · exact h.parentOf
    · have h2 : Rep t (up.plug (.node (.node A n B) p R)) := h
      rw [h2.leftOf]; rfl
    · have h2 : Rep t1 (up.plug (.node (.node A1 r B1) p R)) := h1
      rw [h2.leftOf]; rfl
  | right up L p =>
    right
    refine ⟨p, ?_, Or.inr ⟨?_, ?_⟩⟩
    · exact h.parentOf
    · have h2 : Rep t (up.plug (.node L p (.node A n B))) := h
      rw [h2.rightOf]; rfl
    · have h2 : Rep t1 (up.plug (.node L p (.node A1 r B1))) := h1
      rw [h2.rightOf]; rfl

/-- The left rotation at a node of a well-formed tree that has a right child. -/
theorem rotate_left_relinks {t : RBTree K V} {s : Shape} (hinv : Inv t s) {n r : Nat}
    (hn : n ∈ t.nodes) (hr : t.rightOf (.node n) = .ok (.node r)) :
    ∃ t1 s1, rotate_left_ t (.node n) = .ok t1 ∧ Inv t1 s1 ∧ Rotated t t1 n r ∧
      t1.leftOf (.node r) = .ok (.node n) ∧ t1.rightOf (.node n) = t.leftOf (.node r) ∧
      t1.leftOf (.node n) = t.leftOf (.node n) ∧ t1.rightOf (.node r) = t.rightOf (.node r) := by
  rw [hinv.nodes_eq] at hn
  obtain ⟨c, A, X, rfl⟩ := Shape.exists_ctx_of_mem hn
  have hrep := hinv.rep
  rw [hrep.rightOf] at hr
  cases X with
  | nil => cases hr
  | node B x C =>
    have hx : x = r := by simpa [Shape.root] using hr
    subst hx
    obtain ⟨t1, e, hrep1, hsd⟩ := rotate_left_spec hrep
    have hids : (c.plug (.node (.node A n B) x C)).ids = (c.plug (.node A n (.node B x C))).ids := by
      simp [Ctx.ids_plug, Shape.ids]
    have hinv1 : Inv t1 (c.plug (.node (.node A n B) x C)) :=
      ⟨hrep1, by rw [hsd.cnt, hinv.cnt, hids], by
        intro a ha
        rw [hsd.next]
        exact hinv.fresh a (hids ▸ ha)⟩
    have hlow : Rep t1 ((Ctx.left c x C).plug (.node A n B)) := hrep1
    have hold : Rep t ((Ctx.right c A n).plug (.node B x C)) := hrep
    refine ⟨t1, _, e, hinv1, ⟨?_, hsd.data, hsd.next, hsd.cnt, ?_, ?_, ?_, ?_⟩, ?_, ?_, ?_, ?_⟩
    · rw [hinv1.nodes_eq, hinv.nodes_eq, hids]
    · rw [hrep1.parentOf, hrep.parentOf]
    · exact hlow.parentOf
    · exact Rep.slot_of_plug hrep hrep1
    · intro a ha
      rw [hinv1.nodes_eq] at ha
      exact hrep1.child_links ha
    · rw [hrep1.leftOf]; rfl
    · rw [hlow.rightOf, hold.leftOf]
    · rw [hlow.leftOf, hrep.leftOf]
    · rw [hrep1.rightOf, hold.rightOf]

/-- The right rotation at a node of a well-formed tree that has a left child. -/
theorem rotate_right_relinks {t : RBTree K V} {s : Shape} (hinv : Inv t s) {n l : Nat}
    (hn : n ∈ t.nodes) (hl : t.leftOf (.node n) = .ok (.node l)) :
    ∃ t1 s1, rotate_right_ t (.node n) = .ok t1 ∧ Inv t1 s1 ∧ Rotated t t1 n l ∧
      t1.rightOf (.node l) = .ok (.node n) ∧ t1.leftOf (.node n) = t.rightOf (.node l) ∧
      t1.rightOf (.node n) = t.rightOf (.node n) ∧ t1.leftOf (.node l) = t.leftOf (.node l) := by
  rw [hinv.nodes_eq] at hn
  obtain ⟨c, X, C, rfl⟩ := Shape.exists_ctx_of_mem hn
  have hrep := hinv.rep
  rw [hrep.leftOf] at hl
  cases X with
  | nil => cases hl
  | node A x B =>
    have hx : x = l := by simpa [Shape.root] using hl
    subst hx
    obtain ⟨t1, e, hrep1, hsd⟩ := rotate_right_spec hrep
    have hids : (c.plug (.node A x (.node B n C))).ids = (c.plug (.node (.node A x B) n C)).ids := by
      simp [Ctx.ids_plug, Shape.ids]
    have hinv1 : Inv t1 (c.plug (.node A x (.node B n C))) :=
      ⟨hrep1, by rw [hsd.cnt, hinv.cnt, hids], by
        intro a ha
        rw [hsd.next]
        exact hinv.fresh a (hids ▸ ha)⟩
    have hlow : Rep t1 ((Ctx.right c A x).plug (.node B n C)) := hrep1
    have hold : Rep t ((Ctx.left c n C).plug (.node A x B)) := hrep
    refine ⟨t1, _, e, hinv1, ⟨?_, hsd.data, hsd.next, hsd.cnt, ?_, ?_, ?_, ?_⟩, ?_, ?_, ?_, ?_⟩
    · rw [hinv1.nodes_eq, hinv.nodes_eq, hids]
    · rw [hrep1.parentOf, hrep.parentOf]
    · exact hlow.parentOf
    · exact Rep.slot_of_plug hrep hrep1
    · intro a ha
      rw [hinv1.nodes_eq] at ha
      exact hrep1.child_links ha
    · rw [hrep1.rightOf]; rfl
    · rw [hlow.leftOf, hold.rightOf]
    · rw [hlow.rightOf, hrep.rightOf]
    · rw [hrep1.leftOf, hold.leftOf]

end BabySTL

namespace BabySTL

variable {K V : Type}

/-! ## Concrete runs exhibiting the defects of the insert fix-up -/

/-- C2 (invariant 2, no red node has a red child): after the unique inserts
1, 2, 3 the tree is 1(black) → 2(red) → 3(red) along right links, so a red node
has a red child.  `get_uncle` returns `grandpa->right` in both branches, hence
for a parent that is a right child the "uncle" is the parent itself and
recolouring it twice leaves it red. -/
theorem C2_red_child_of_red_after_insert_1_2_3 :
    observe (run natLess [Op.insert true 1 0, .insert true 2 0, .insert true 3 0])
      (fun t => (t.keys, t.noRedRed)) = some ([1, 2, 3], false) := by
  decide

/-- C3 (invariant 3, equal black counts on all paths): after the unique inserts
1, 2, 3, 4 the tree is the right spine 1(black), 2(black), 3(red), 4(red); the
path to the absent left child of the root crosses one black node, the paths
below node 2 cross two. -/
theorem C3_black_heights_differ_after_insert_1_2_3_4 :
    observe (run natLess [Op.insert true 1 0, .insert true 2 0, .insert true 3 0,
                          .insert true 4 0])
      (fun t => (t.keys, t.blackBalanced)) = some ([1, 2, 3, 4], false) := by
  decide

/-- C4 (invariant 1, the root is black): after the unique inserts 3, 1, 2 the
left-right case recolours parent and grandparent and rotates the still red new
node 2 to the root, so the root is red. -/
theorem C4_red_root_after_insert_3_1_2 :
    observe (run natLess [Op.insert true 3 0, .insert true 1 0, .insert true 2 0])
      (fun t => (t.keys, t.rootBlack)) = some ([1, 2, 3], false) := by
  decide

/-- C5 (invariant 6, the cached minimum and maximum are exact): after the unique
inserts 1, 3, 2 and `remove(1)` the in-order sequence is 2, 3 but
`header_.left`, the node `begin()` designates, is the node holding 3. -/
theorem C5_begin_is_not_minimum_after_remove :
    observe (run natLess [Op.insert true 1 0, .insert true 3 0, .insert true 2 0,
                          .remove 1])
      (fun t => (t.keys, t.cachesExact, (t.keyOf t.header_.left).toOption))
      = some ([2, 3], false, some 3) := by
  decide

/-- C7 (insert then find yields the inserted pair): the tree produced by the
unique inserts 3, 1, 2 and `remove(3)` has a red root 2; `insert(true, 3, v)` on
it reaches the red-parent branch of `rebalance_after_insert_` with an absent
grandparent and dereferences it, so the insert does not complete and no
`find(3)` can follow. -/
theorem C7_insert_dereferences_absent_grandparent :
    failure (run natLess [Op.insert true 3 0, .insert true 1 0, .insert true 2 0,
                          .remove 3]) = none ∧
    failure (run natLess [Op.insert true 3 0, .insert true 1 0, .insert true 2 0,
                          .remove 3, .insert true 3 7]) = some Err.nullDeref := by
  decide

/-- C8 (remove then find yields end): on the tree produced by the unique
inserts 3, 1, 2 (red root 2, black leaf 1, red leaf 3) `remove(1)` runs
`rebalance_after_remove_` on the black leaf; after the red-sibling rotation the
recomputed sibling is absent and is dereferenced, so the remove does not
complete and no `find(1)` can follow. -/
theorem C8_remove_dereferences_absent_sibling :
    failure (run natLess [Op.insert true 3 0, .insert true 1 0, .insert true 2 0]) = none ∧
    failure (run natLess [Op.insert true 3 0, .insert true 1 0, .insert true 2 0,
                          .remove 1]) = some Err.nullDeref := by
  decide

/-- C9 (remove reports and erases exactly one matching node): the unique
inserts 1, 2, 3, 4 followed by `remove(3)` give the right spine 1, 2, 4 of black
nodes; key 4 is present, yet `remove(4)` dereferences the absent sibling of the
black leaf in `rebalance_after_remove_` instead of returning `true`. -/
theorem C9_remove_of_present_key_does_not_complete :
    observe (run natLess [Op.insert true 1 0, .insert true 2 0, .insert true 3 0,
                          .insert true 4 0, .remove 3]) (fun t => t.keys) = some [1, 2, 4] ∧
    failure (run natLess [Op.insert true 1 0, .insert true 2 0, .insert true 3 0,
                          .insert true 4 0, .remove 3, .remove 4]) = some Err.nullDeref := by
  decide

/-! ## Properties of every run -/

/-- C1 (invariant 4, the in-order key sequence never decreases): for every
comparator that is a strict weak order agreeing with `==` and every sequence of
public calls on the empty tree, the run either stops at a null dereference (the
defects shown for C7, C8 and C9) or yields a tree in whose in-order key sequence
no key is less than its predecessor, and indeed no key is less than any earlier
one.  As `ops` ranges over all sequences, this is the state after every
individual call. -/
theorem C1_inorder_keys_never_decrease [DecidableEq K] [Inhabited V] (cmp : K → K → Bool)
    (ho : StrictOrder cmp) (ops : List (Op K V)) :
    (∃ t, run cmp ops = .ok t ∧ t.keys.Chain' (fun a b => cmp b a = false) ∧
        t.keys.Pairwise (fun a b => cmp b a = false)) ∨
      run cmp ops = .error .nullDeref := by
  rcases (run_spec cmp ops).cases with ⟨t, e, ⟨s, hinv, hso⟩, hc⟩ | e
  · have hp := hinv.keys_sorted (hso (hc ▸ ho))
    rw [hc] at hp
    exact Or.inl ⟨t, e, hp.chain', hp⟩
  · exact Or.inr e

/-- Witness for C1: with `std::less` on small numbers, the calls unique
insert 5, multi insert 5, unique insert 3, `remove(5)`, unique insert 8 and
`get_or_insert(4)` complete, and the keys of the result are in order. -/
theorem C1_inorder_keys_never_decrease_witness :
    StrictOrder natLess ∧
      ∃ t, run natLess ([.insert true 5 0, .insert false 5 1, .insert true 3 0, .remove 5,
          .insert true 8 0, .get_or_insert 4] : List (Op Nat Nat)) = .ok t ∧
        t.keys.Chain' (fun a b => natLess b a = false) ∧
        t.keys.Pairwise (fun a b => natLess b a = false) :=
  ⟨strictOrder_natLess,
    (C1_inorder_keys_never_decrease natLess strictOrder_natLess _).resolve_right
      (ne_error_of_failure (by decide) _)⟩

/-- C6 (invariant 5, `size()` counts the nodes): for every comparator and every
sequence of `insert`, `get_or_insert`, `remove` and `clear` calls on the empty
tree, the run either stops at a null dereference or yields a tree whose `cnt_`
equals the number of nodes reachable from the root. -/
theorem C6_size_counts_reachable_nodes [DecidableEq K] [Inhabited V] (cmp : K → K → Bool)
    (ops : List (Op K V)) :
    (∃ t, run cmp ops = .ok t ∧ t.size = t.nodes.length) ∨
      run cmp ops = .error .nullDeref := by
  rcases (run_spec cmp ops).cases with ⟨t, e, ⟨s, hinv, -⟩, -⟩ | e
  · exact Or.inl ⟨t, e, hinv.size_eq⟩
  · exact Or.inr e

/-- C10 as stated fails for a comparator that is a strict weak order but calls
distinct keys equivalent: ordering by tens, the unique inserts 20, 10, 11 end
with 11 at the root above 10 and 20; `find(10)` compares 10 with 11, finds
neither less, descends right and returns `end()` although 10 is stored. -/
theorem C10_find_misses_stored_key_under_coarse_order :
    StrictWeakOrder tensLess ∧
      observe (run tensLess ([.insert true 20 0, .insert true 10 0, .insert true 11 0] :
          List (Op Nat Nat)))
        (fun t => (t.keys, (find t 10).toOption)) = some ([10, 11, 20], some Ptr.header) :=
  ⟨strictWeakOrder_tensLess, by decide⟩

/-- C10, amended (`find` is an exact-match search): for every comparator that
is a strict weak order agreeing with `==`, every sequence of public calls on
the empty tree that completes, and every key `k`, `find(k)` returns; it returns
`end()` exactly when no reachable node holds `k`, and otherwise a reachable
node whose key is `k`. -/
theorem C10_find_exact_match [DecidableEq K] [Inhabited V] (cmp : K → K → Bool)
    (ho : StrictOrder cmp) (ops : List (Op K V)) (k : K) :
    (∃ t, run cmp ops = .ok t ∧ ∃ it, find t k = .ok it ∧ (it = .header ↔ k ∉ t.keys) ∧
        (it ≠ .header → ∃ a n, it = .node a ∧ a ∈ t.nodes ∧ t.heap a = some n ∧ n.key = k)) ∨
      run cmp ops = .error .nullDeref := by
  rcases (run_spec cmp ops).cases with ⟨t, e, ⟨s, hinv, hso⟩, hc⟩ | e
  · exact Or.inl ⟨t, e, find_spec hinv (hc ▸ ho) (hso (hc ▸ ho)) k⟩
  · exact Or.inr e

/-- Witness for C10: with `std::less`, after unique insert 5, multi insert 5,
unique insert 3 and `remove(5)`, the call `find(3)` returns as described. -/
theorem C10_find_exact_match_witness :
    StrictOrder natLess ∧
      ∃ t, run natLess ([.insert true 5 0, .insert false 5 1, .insert true 3 0, .remove 5] :
          List (Op Nat Nat)) = .ok t ∧
        ∃ it, find t 3 = .ok it ∧ (it = .header ↔ 3 ∉ t.keys) ∧
          (it ≠ .header → ∃ a n, it = .node a ∧ a ∈ t.nodes ∧ t.heap a = some n ∧ n.key = 3) :=
  ⟨strictOrder_natLess,
    (C10_find_exact_match natLess strictOrder_natLess _ 3).resolve_right
      (ne_error_of_failure (by decide) _)⟩

/-! ## Bounds, iterators and duplicates -/

/-- C11 (`lower_bound` designates the first node whose key is not less than the
key): for every strict weak order, every sequence of public calls on the empty
tree that completes and every key `k`, `lower_bound(k)` returns; the in-order
sequence of nodes splits into a front part whose keys are all less than `k` and
the rest, and the result is the first node of the rest, whose key is not less
than `k`, or `end()` when the rest is empty. -/
theorem C11_lower_bound_first_not_less [DecidableEq K] [Inhabited V] (cmp : K → K → Bool)
    (hw : StrictWeakOrder cmp) (ops : List (Op K V)) (k : K) :
    (∃ t, run cmp ops = .ok t ∧ ∃ it pre post, lower_bound t k = .ok it ∧
        t.nodes = pre ++ post ∧
        (∀ x ∈ pre, ∃ n, t.heap x = some n ∧ cmp n.key k = true) ∧
        ((post = [] ∧ it = t.end_) ∨
          ∃ y rest n, post = y :: rest ∧ it = .node y ∧ t.heap y = some n ∧
            cmp n.key k = false)) ∨
      run cmp ops = .error .nullDeref := by
  rcases (run_sorted hw ops).cases with ⟨t, e, hc, s, hinv, hso⟩ | e
  · have := lower_bound_spec hinv (hc ▸ hw) hso k
    rw [hc] at this
    exact Or.inl ⟨t, e, this⟩
  · exact Or.inr e

/-- Witness for C11: with `std::less`, after the multi-mode inserts 5, 5, 3 and
8, `lower_bound(5)` returns as described. -/
theorem C11_lower_bound_first_not_less_witness :
    StrictWeakOrder natLess ∧
      ∃ t, run natLess ([.insert false 5 0, .insert false 5 1, .insert false 3 0,
          .insert false 8 0] : List (Op Nat Nat)) = .ok t ∧
        ∃ it pre post, lower_bound t 5 = .ok it ∧ t.nodes = pre ++ post ∧
          (∀ x ∈ pre, ∃ n, t.heap x = some n ∧ natLess n.key 5 = true) ∧
          ((post = [] ∧ it = t.end_) ∨
            ∃ y rest n, post = y :: rest ∧ it = .node y ∧ t.heap y = some n ∧
              natLess n.key 5 = false) :=
  ⟨strictOrder_natLess.toWeak,
    (C11_lower_bound_first_not_less natLess strictOrder_natLess.toWeak _ 5).resolve_right
      (ne_error_of_failure (by decide) _)⟩

/-- C12 (`upper_bound` designates the first node whose key is greater): on the
tree built by the unique inserts 10, 5, 20, 3, 7, 15, 25, `upper_bound(5)`
designates the node holding 5 itself, because the wrapper returns the node
found by `upper_bound_` unadvanced when its key equals the argument; and
`upper_bound(8)` is `end()`, because `operator++` at the node holding 7, a right
child without right subtree, goes to the sentinel instead of climbing to 10. -/
theorem C12_upper_bound_returns_equal_node_or_end :
    observe (run natLess [Op.insert true 10 0, .insert true 5 0, .insert true 20 0,
                          .insert true 3 0, .insert true 7 0, .insert true 15 0,
                          .insert true 25 0])
      (fun t => (t.keys, ((upper_bound t 5).bind t.keyOf).toOption,
                 (upper_bound t 8).toOption))
      = some ([3, 5, 7, 10, 15, 20, 25], some 5, some Ptr.header) := by
  decide

/-- C13 (a second unique insert overwrites): the unique inserts 3, 1, 2 and
`remove(3)` give a tree holding 1 and 2 with a red root; key 3 is not in it,
and the first `insert(true, 3, v1)` dereferences the absent grandparent in
`rebalance_after_insert_`, so neither insert of the pair completes. -/
theorem C13_first_insert_of_pair_does_not_complete :
    observe (run natLess [Op.insert true 3 0, .insert true 1 0, .insert true 2 0,
                          .remove 3]) (fun t => (t.keys, t.size)) = some ([1, 2], 2) ∧
    failure (run natLess [Op.insert true 3 0, .insert true 1 0, .insert true 2 0,
                          .remove 3, .insert true 3 1]) = some Err.nullDeref := by
  decide

/-- C14 (a multi-mode insert always creates a node): on the tree holding 1 and
2 produced by the unique inserts 3, 1, 2 and `remove(3)`, `insert(false, 3, 7)`
dereferences the absent grandparent in `rebalance_after_insert_`: the call does
not return, and the entry sequence is never the old one with (3, 7) added. -/
theorem C14_multi_insert_does_not_complete :
    observe (run natLess [Op.insert true 3 0, .insert true 1 0, .insert true 2 0,
                          .remove 3]) (fun t => t.entries) = some [(1, 0), (2, 0)] ∧
    failure (run natLess [Op.insert true 3 0, .insert true 1 0, .insert true 2 0,
                          .remove 3, .insert false 3 7]) = some Err.nullDeref := by
  decide

/-- C15 (both duplicates lie between `lower_bound` and `upper_bound`): after
`insert(false, 1, 10)` and `insert(false, 1, 11)` on the empty tree the size is
2 and the nodes, at addresses 0 and 1, both hold key 1; `lower_bound(1)` is node
0 and `upper_bound(1)` is node 1, the last node holding 1, so the loop from the
one up to, but not including, the other visits node 0 only. -/
theorem C15_second_duplicate_not_in_range :
    observe (run natLess ([.insert false 1 10, .insert false 1 11] : List (Op Nat Nat)))
      (fun t => (t.size, t.entries, t.nodes)) = some (2, [(1, 10), (1, 11)], [0, 1]) ∧
    observe (run natLess ([.insert false 1 10, .insert false 1 11] : List (Op Nat Nat)))
      (fun t => ((lower_bound t 1).toOption, (upper_bound t 1).toOption,
                 ((lower_bound t 1).bind fun lb => (upper_bound t 1).bind fun ub =>
                    visit_range (t.next + 2) t lb ub).toOption))
      = some (some (Ptr.node 0), some (Ptr.node 1), some [Ptr.node 0]) := by
  decide

/-- C16 as stated fails for a comparator that is a strict weak order but calls
distinct keys equivalent: ordering by tens, the unique inserts 20, 10, 11 put
11 at the root above 10 and 20; a further `insert(true, 10, 1)` compares 10 with
11, finds neither less, descends right and creates a second node holding 10. -/
theorem C16_equal_keys_under_coarse_order :
    StrictWeakOrder tensLess ∧
      observe (run tensLess ([.insert true 20 0, .insert true 10 0, .insert true 11 0,
          .insert true 10 1] : List (Op Nat Nat)))
        (fun t => t.entries) = some [(10, 0), (11, 0), (10, 1), (20, 0)] :=
  ⟨strictWeakOrder_tensLess, by decide⟩

/-- C16, amended (unique keys): for every comparator that is a strict weak
order agreeing with `==` and every sequence of `insert(true, ...)`,
`get_or_insert`, `remove` and `clear` calls on the empty tree that completes,
the in-order key sequence is strictly increasing, so no two nodes hold equal
keys. -/
theorem C16_unique_mode_keys_strictly_increase [DecidableEq K] [Inhabited V]
    (cmp : K → K → Bool) (ho : StrictOrder cmp) (ops : List (Op K V))
    (hu : ∀ op ∈ ops, op.uniqueMode = true) :
    (∃ t, run cmp ops = .ok t ∧ t.keys.Chain' (fun a b => cmp a b = true) ∧
        t.keys.Pairwise (fun a b => cmp a b = true) ∧ t.keys.Nodup) ∨
      run cmp ops = .error .nullDeref := by
  rcases (run_strict ho ops hu).cases with ⟨t, e, hc, s, hinv, hso⟩ | e
  · have hp := hinv.keys_rel hso
    rw [hc] at hp
    refine Or.inl ⟨t, e, hp.chain', hp, hp.imp ?_⟩
    intro a b hab e
    subst e
    rw [ho.irrefl] at hab
    cases hab
  · exact Or.inr e

/-- Witness for C16: with `std::less`, the calls unique insert 5, unique insert
5 again, unique insert 3, `get_or_insert(4)` and `remove(5)` complete and leave
strictly increasing keys. -/
theorem C16_unique_mode_keys_strictly_increase_witness :
    StrictOrder natLess ∧
      (∀ op ∈ ([.insert true 5 0, .insert true 5 1, .insert true 3 0, .get_or_insert 4,
          .remove 5] : List (Op Nat Nat)), op.uniqueMode = true) ∧
      ∃ t, run natLess ([.insert true 5 0, .insert true 5 1, .insert true 3 0,
          .get_or_insert 4, .remove 5] : List (Op Nat Nat)) = .ok t ∧
        t.keys.Chain' (fun a b => natLess a b = true) ∧
        t.keys.Pairwise (fun a b => natLess a b = true) ∧ t.keys.Nodup :=
  ⟨strictOrder_natLess, by decide,
    (C16_unique_mode_keys_strictly_increase natLess strictOrder_natLess _
      (by decide)).resolve_right (ne_error_of_failure (by decide) _)⟩

/-- C17 (`++` moves to the in-order successor): in the tree built by the unique
inserts 10, 5, 20, 7 the node holding 7 is the right child of the node holding
5 and has no right subtree; `operator++` looks one parent up only, finds that 7
is not its left child, and goes to the sentinel, although the in-order
successor of 7 is 10. -/
theorem C17_increment_skips_to_end :
    observe (run natLess [Op.insert true 10 0, .insert true 5 0, .insert true 20 0,
                          .insert true 7 0])
      (fun t => (t.keys, ((find t 7).bind (Iterator.increment t)).toOption))
      = some ([5, 7, 10, 20], some Ptr.header) := by
  decide

/-- C18 (a traversal from `begin()` to `end()` takes `size()` steps): in the
tree built by the unique inserts 10, 5, 20, 7, of size 4, the loop that applies
`++` from `begin()` until `end()` stops after 2 steps (5, then 7, then the
sentinel); same defect of `operator++` as in C17. -/
theorem C18_traversal_shorter_than_size :
    observe (run natLess [Op.insert true 10 0, .insert true 5 0, .insert true 20 0,
                          .insert true 7 0])
      (fun t => (t.size, t.keys, (t.keyOf t.begin).toOption,
                 (count_steps (t.next + 2) t t.begin t.end_).toOption))
      = some (4, [5, 7, 10, 20], some 5, some 2) := by
  decide

/-- C19 (`--` moves to the in-order predecessor, in both forms): in the tree
built by the unique inserts 10, 5, 20, 15 the node holding 15 is the left child
of the node holding 20 and has no left subtree, and its predecessor is 10.  The
prefix `operator--` looks one parent up only and goes to the sentinel; the
postfix `operator--(int)` executes `++*this` and leaves the iterator at the node
holding 20, the successor. -/
theorem C19_decrement_misses_predecessor :
    observe (run natLess [Op.insert true 10 0, .insert true 5 0, .insert true 20 0,
                          .insert true 15 0])
      (fun t => (t.keys, ((find t 15).bind (Iterator.decrement t)).toOption,
                 ((find t 15).bind fun it => (Iterator.post_decrement t it).bind fun r =>
                    t.keyOf r.2).toOption))
      = some ([5, 10, 15, 20], some Ptr.header, some 20) := by
  decide

/-- C20 (the concrete scenario of the specification): the unique inserts 10, 5,
20, 3, 7, 15, 25 give the in-order keys 3, 5, 7, 10, 15, 20, 25; after
`remove(5)` the keys are 3, 7, 10, 15, 20, 25, `find(5)` returns `end()`, the
root is black, no red node has a red child and all paths cross the same number
of black nodes. -/
theorem C20_scenario_seven_inserts_remove_five :
    observe (run natLess [Op.insert true 10 0, .insert true 5 0, .insert true 20 0,
                          .insert true 3 0, .insert true 7 0, .insert true 15 0,
                          .insert true 25 0]) (fun t => t.keys)
      = some [3, 5, 7, 10, 15, 20, 25] ∧
    observe (run natLess [Op.insert true 10 0, .insert true 5 0, .insert true 20 0,
                          .insert true 3 0, .insert true 7 0, .insert true 15 0,
                          .insert true 25 0, .remove 5])
      (fun t => (t.keys, (find t 5).toOption, t.rootBlack, t.noRedRed, t.blackBalanced))
      = some ([3, 7, 10, 15, 20, 25], some Ptr.header, true, true, true) := by
  decide

/-! ## Single node, height, rotation guards, counting -/

/-- C21 (removing the only node empties the tree): for every comparator, every
sequence of public calls on the empty tree that completes and every key `k`,
when the resulting tree holds exactly one node and its key is `k`, `remove(k)`
returns `true` and leaves `size() == 0`, `begin() == end()`, an absent root link
in the sentinel, both cache links at the sentinel itself, and no node. -/
theorem C21_remove_only_node_empties_tree [DecidableEq K] [Inhabited V] (cmp : K → K → Bool)
    (ops : List (Op K V)) (k : K) :
    (∃ t, run cmp ops = .ok t ∧ (t.keys = [k] →
        ∃ t1, remove t k = .ok (t1, true) ∧ t1.size = 0 ∧ t1.begin = t1.end_ ∧
          t1.header_.parent = .null ∧ t1.header_.left = .header ∧
          t1.header_.right = .header ∧ t1.nodes = [])) ∨
      run cmp ops = .error .nullDeref := by
  rcases (run_spec cmp ops).cases with ⟨t, e, ⟨s, hinv, -⟩, -⟩ | e
  · exact Or.inl ⟨t, e, fun hk => remove_single hinv hk⟩
  · exact Or.inr e

/-- Witness for C21: the tree made by `insert(true, 5, 7)` holds the single key
5, and `remove(5)` empties it. -/
theorem C21_remove_only_node_empties_tree_witness :
    ∃ t, run natLess ([.insert true 5 7] : List (Op Nat Nat)) = .ok t ∧ t.keys = [5] ∧
      ∃ t1, remove t 5 = .ok (t1, true) ∧ t1.size = 0 ∧ t1.begin = t1.end_ ∧
        t1.header_.parent = .null ∧ t1.header_.left = .header ∧
        t1.header_.right = .header ∧ t1.nodes = [] := by
  obtain ⟨t, e, h⟩ := (C21_remove_only_node_empties_tree natLess
    ([.insert true 5 7] : List (Op Nat Nat)) 5).resolve_right
    (ne_error_of_failure (by decide) _)
  have hk : observe (run natLess ([.insert true 5 7] : List (Op Nat Nat)))
      (fun t => t.keys) = some [5] := by decide
  rw [e] at hk
  have hk1 : t.keys = [5] := by simpa [observe] using hk
  exact ⟨t, e, hk1, h hk1⟩

/-- C22 (height bound `2^h <= (n+1)^2`): after the unique inserts 1, 2, 3, 4, 5,
6 the tree is a right spine: `size()` is 6 and the longest root-to-leaf path has
6 nodes, and `2^6 = 64 > 49 = (6+1)^2`.  `get_uncle` returns `grandpa->right`
in both branches, so no rotation happens when the parent is a right child (the
defect of C2 and C3). -/
theorem C22_right_spine_exceeds_height_bound :
    observe (run natLess [Op.insert true 1 0, .insert true 2 0, .insert true 3 0,
                          .insert true 4 0, .insert true 5 0, .insert true 6 0])
      (fun t => (t.keys, t.size, t.height, decide (2 ^ t.height ≤ (t.size + 1) ^ 2)))
      = some ([1, 2, 3, 4, 5, 6], 6, 6, false) := by
  decide

/-- C24 (the `std::invalid_argument` branches are unreachable): no sequence of
public calls on the empty tree ends with the `invalid_argument` thrown by
`rotate_left_`, `rotate_right_` (node or child to rotate up absent) or `insert_`;
since an error ends the run at once, the guard of a rotation never fires. -/
theorem C24_invalid_argument_never_thrown [DecidableEq K] [Inhabited V] (cmp : K → K → Bool)
    (ops : List (Op K V)) : run cmp ops ≠ .error .invalidArgument := by
  intro e
  have h := run_spec cmp ops
  rw [e] at h
  cases h

/-- C25 (`count(k)` returns the number of elements with key `k`): after the
multi-mode inserts of the keys 9, 5, 5, 3, 1 the tree holds two elements with
key 5, yet the counting loop of `count(5)` never ends: `++` at the first node
holding 5, a right child without right subtree, goes to the sentinel, `++` at
the sentinel goes to the node holding 9 and `++` there goes back to the
sentinel, so the iterator never meets `upper_bound(5)`.  Whatever the fuel, the
loop uses it up. -/
theorem C25_count_loops_forever (fuel : Nat) :
    observe (run natLess ([.insert false 9 0, .insert false 5 0, .insert false 5 1,
        .insert false 3 0, .insert false 1 0] : List (Op Nat Nat)))
      (fun t => t.keys) = some [1, 3, 5, 5, 9] ∧
    observe (run natLess ([.insert false 9 0, .insert false 5 0, .insert false 5 1,
        .insert false 3 0, .insert false 1 0] : List (Op Nat Nat)))
      (fun t => failure (BMultiMap.count fuel t 5)) = some (some Err.outOfFuel) := by
  refine ⟨by decide, ?_⟩
  have hf : observe (run natLess ([.insert false 9 0, .insert false 5 0, .insert false 5 1,
        .insert false 3 0, .insert false 1 0] : List (Op Nat Nat)))
      (fun t => ((lower_bound t 5).toOption, (upper_bound t 5).toOption,
        (t.keyOf (.node 1)).toOption))
      = some (some (.node 1), some (.node 2), some 5) := by decide
  have hg : observe (run natLess ([.insert false 9 0, .insert false 5 0, .insert false 5 1,
        .insert false 3 0, .insert false 1 0] : List (Op Nat Nat)))
      (fun t => ((Iterator.increment t (.node 1)).toOption,
        (Iterator.increment t .header).toOption, (Iterator.increment t (.node 0)).toOption))
      = some (some .header, some (.node 0), some .header) := by decide
  cases hr : run natLess ([.insert false 9 0, .insert false 5 0, .insert false 5 1,
        .insert false 3 0, .insert false 1 0] : List (Op Nat Nat)) with
  | error e => rw [hr] at hf; simp [observe] at hf
  | ok t =>
    rw [hr] at hf hg
    simp only [observe, Option.some.injEq, Prod.mk.injEq] at hf hg
    obtain ⟨h1, h2, h3⟩ := hf
    obtain ⟨h4, h5, h6⟩ := hg
    have h1 := eq_ok_of_toOption h1
    have h2 := eq_ok_of_toOption h2
    have h3 := eq_ok_of_toOption h3
    have h4 := eq_ok_of_toOption h4
    have h5 := eq_ok_of_toOption h5
    have h6 := eq_ok_of_toOption h6
    have loop : ∀ n, count_steps n t .header (.node 2) = .error .outOfFuel ∧
        count_steps n t (.node 0) (.node 2) = .error .outOfFuel := by
      intro n
      induction n with
      | zero => exact ⟨rfl, rfl⟩
      | succ n ih =>
        constructor
        · simp [count_steps, h5, Except.bind, ih.2, Except.map]
        · simp [count_steps, h6, Except.bind, ih.1, Except.map]
    have first : count_steps fuel t (.node 1) (.node 2) = .error .outOfFuel := by
      cases fuel with
      | zero => rfl
      | succ n => simp [count_steps, h4, Except.bind, (loop n).1, Except.map]
    simp [observe, BMultiMap.count, h1, h2, h3, RBTree.end_, Except.bind, Except.map, first,
      failure]

/-- C30 (case 3 of the insert fix-up restores invariants 1 to 3 in one step):
the tree holding 3 and 1 satisfies invariants 1 to 6, and inserting 2 puts the
new red node under the red parent 1 with an absent uncle (shape LR); the fix-up
leaves a red root.  The tree holding 1 and 2 satisfies invariants 1 to 6, and
inserting 3 gives the shape RR; the fix-up, misled by `get_uncle`, leaves the red
node 2 with the red child 3. -/
theorem C30_case3_leaves_red_root_or_red_pair :
    observe (run natLess [Op.insert true 3 0, .insert true 1 0]) (fun t => t.invariants)
      = some true ∧
    observe (run natLess [Op.insert true 3 0, .insert true 1 0, .insert true 2 0])
      (fun t => (t.keys, t.rootBlack)) = some ([1, 2, 3], false) ∧
    observe (run natLess [Op.insert true 1 0, .insert true 2 0]) (fun t => t.invariants)
      = some true ∧
    observe (run natLess [Op.insert true 1 0, .insert true 2 0, .insert true 3 0])
      (fun t => (t.keys, t.noRedRed)) = some ([1, 2, 3], false) := by
  decide

/-- C26 (`BList::sort` leaves a well-formed sorted ring): on the list 1, 3, 2, 4
with `std::less`, `sort` returns, but the node holding 4 is left with itself as
successor, so the forward traversal from `begin()` reads 1, 2, 3, 4, 4, 4, ...
and never gets back to the sentinel, whatever the number of steps allowed. -/
theorem C26_sort_leaves_self_loop (fuel : Nat) :
    StrictWeakOrder natLess ∧
    ((BList.ofList [1, 3, 2, 4]).bind fun l => l.traverse 5 l.head_.next).toOption
      = some [1, 3, 2, 4] ∧
    (((BList.ofList [1, 3, 2, 4]).bind fun l => BList.sort 8 natLess l).toOption.map fun l =>
      (l.walk 6 l.head_.next, (l.nextOf (.node 3)).toOption, l.size_))
      = some ([some 1, some 2, some 3, some 4, some 4, some 4], some (.node 3), 4) ∧
    failure (((BList.ofList [1, 3, 2, 4]).bind fun l => BList.sort 8 natLess l).bind fun l =>
      l.traverse fuel l.head_.next) = some Err.outOfFuel := by
  refine ⟨strictOrder_natLess.toWeak, by decide, by decide, ?_⟩
  have hf : (((BList.ofList [1, 3, 2, 4]).bind fun l => BList.sort 8 natLess l).toOption.map
      fun l => (l.head_.next, (l.nextOf (.node 0)).toOption, (l.nextOf (.node 2)).toOption,
        (l.nextOf (.node 1)).toOption, (l.nextOf (.node 3)).toOption))
      = some (.node 0, some (.node 2), some (.node 1), some (.node 3), some (.node 3)) := by
    decide
  have hd : (((BList.ofList [1, 3, 2, 4]).bind fun l => BList.sort 8 natLess l).toOption.map
      fun l => ((l.dataOf (.node 0)).toOption, (l.dataOf (.node 1)).toOption,
        (l.dataOf (.node 2)).toOption, (l.dataOf (.node 3)).toOption))
      = some (some 1, some 3, some 2, some 4) := by
    decide
  cases hr : (BList.ofList [1, 3, 2, 4]).bind fun l => BList.sort 8 natLess l with
  | error e => rw [hr] at hf; simp [Except.toOption] at hf
  | ok l =>
    rw [hr] at hf hd
    have hf : (l.head_.next, (l.nextOf (.node 0)).toOption, (l.nextOf (.node 2)).toOption,
        (l.nextOf (.node 1)).toOption, (l.nextOf (.node 3)).toOption)
        = (.node 0, some (.node 2), some (.node 1), some (.node 3), some (.node 3)) :=
      Option.some.inj hf
    have hd : ((l.dataOf (.node 0)).toOption, (l.dataOf (.node 1)).toOption,
        (l.dataOf (.node 2)).toOption, (l.dataOf (.node 3)).toOption)
        = (some 1, some 3, some 2, some 4) := Option.some.inj hd
    simp only [Prod.mk.injEq] at hf hd
    obtain ⟨h0, n0, n2, n1, n3⟩ := hf
    obtain ⟨d0, d1, d2, d3⟩ := hd
    have n0 := eq_ok_of_toOption n0
    have n1 := eq_ok_of_toOption n1
    have n2 := eq_ok_of_toOption n2
    have n3 := eq_ok_of_toOption n3
    have d0 := eq_ok_of_toOption d0
    have d1 := eq_ok_of_toOption d1
    have d2 := eq_ok_of_toOption d2
    have d3 := eq_ok_of_toOption d3
    have l3 : ∀ n, l.traverse n (.node 3) = .error .outOfFuel := by
      intro n
      induction n with
      | zero => rfl
      | succ n ih => simp [BList.traverse, d3, n3, Except.bind, ih, Except.map]
    have l1 : ∀ n, l.traverse n (.node 1) = .error .outOfFuel := by
      intro n
      cases n with
      | zero => rfl
      | succ n => simp [BList.traverse, d1, n1, Except.bind, l3 n, Except.map]
    have l2 : ∀ n, l.traverse n (.node 2) = .error .outOfFuel := by
      intro n
      cases n with
      | zero => rfl
      | succ n => simp [BList.traverse, d2, n2, Except.bind, l1 n, Except.map]
    have l0 : ∀ n, l.traverse n (.node 0) = .error .outOfFuel := by
      intro n
      cases n with
      | zero => rfl
      | succ n => simp [BList.traverse, d0, n0, Except.bind, l2 n, Except.map]
    simp [Except.bind, h0, l0, failure]

/-- C27 (`BForwardList::sort` is stable): on the list (1, 0), (1, 1) compared on
the first component only, the two elements are equivalent, and `sort` returns
them in the order (1, 1), (1, 0): the merge takes the element of the second run
whenever the one of the first run is not less. -/
theorem C27_sort_swaps_equivalent_elements :
    StrictWeakOrder byFirst ∧
    byFirst (1, 0) (1, 1) = false ∧ byFirst (1, 1) (1, 0) = false ∧
    (BForwardList.ofList [(1, 0), (1, 1)]).toList.toOption = some [(1, 0), (1, 1)] ∧
    ((BForwardList.sort 4 byFirst (BForwardList.ofList [(1, 0), (1, 1)])).bind fun l =>
      l.toList).toOption = some [(1, 1), (1, 0)] := by
  refine ⟨⟨?_, ?_, ?_⟩, by decide, by decide, by decide, by decide⟩
  · intro a
    simp [byFirst]
  · intro a b c
    simp only [byFirst, decide_eq_true_eq]
    omega
  · intro a b c
    simp only [byFirst, decide_eq_false_iff_not, not_lt]
    omega

/-- C23 (`BMap::swap` exchanges the two containers): for two maps `a` and `b`
whose trees are sound (empty with a zero count, or rooted at a live node; `a`
and `b` may be the same object), `a.swap(b)` returns; afterwards the in-order
(key, value) sequence and `size()` of `a` are those `b` had before and those of
`b` are those `a` had before; a second swap returns too and restores both. -/
theorem C23_swap_exchanges_contents (w : World K V) (a b tmp : Nat) (hta : tmp ≠ a)
    (htb : tmp ≠ b) (hsa : w.Sound a) (hsb : w.Sound b) :
    ∃ w1, BMap.swap w a b tmp = .ok w1 ∧
      w1.entries a = w.entries b ∧ w1.size a = w.size b ∧
      w1.entries b = w.entries a ∧ w1.size b = w.size a ∧
      ∃ w2, BMap.swap w1 a b tmp = .ok w2 ∧
        w2.entries a = w.entries a ∧ w2.size a = w.size a ∧
        w2.entries b = w.entries b ∧ w2.size b = w.size b := by
  obtain ⟨w1, e1, l1, ka, kb⟩ := BMap.swap_exchange w hta htb hsa hsb
  obtain ⟨w2, e2, l2, ka2, kb2⟩ := BMap.swap_exchange w1 hta htb (ka.sound_of_holds l1 hsb) (kb.sound_of_holds l1 hsa)
  have l12 := l1.trans_links l2
  have kaa := kb.trans_holds ka2
  have kbb := ka.trans_holds kb2
  exact ⟨w1, e1, l1.entries_eq ka.1, ka.2, l1.entries_eq kb.1, kb.2, w2, e2,
    l12.entries_eq kaa.1, kaa.2, l12.entries_eq kbb.1, kbb.2⟩

/-- Witness for C23: the map holding (1, 10), (2, 20) and the map holding
(5, 50), placed in one store as the objects 0 and 1, with the local of `swap`
as object 2. -/
theorem C23_swap_exchanges_contents_witness :
    (2 : Nat) ≠ 0 ∧ (2 : Nat) ≠ 1 ∧
    (World.ofPair (treeOf natLess (run natLess [Op.insert true 1 10, .insert true 2 20]))
      (treeOf natLess (run natLess [Op.insert true 5 50]))).Sound 0 ∧
    (World.ofPair (treeOf natLess (run natLess [Op.insert true 1 10, .insert true 2 20]))
      (treeOf natLess (run natLess [Op.insert true 5 50]))).Sound 1 ∧
    (World.ofPair (treeOf natLess (run natLess [Op.insert true 1 10, .insert true 2 20]))
      (treeOf natLess (run natLess [Op.insert true 5 50]))).entries 0 = [(1, 10), (2, 20)] ∧
    (World.ofPair (treeOf natLess (run natLess [Op.insert true 1 10, .insert true 2 20]))
      (treeOf natLess (run natLess [Op.insert true 5 50]))).entries 1 = [(5, 50)] ∧
    ∃ w1, BMap.swap (World.ofPair
        (treeOf natLess (run natLess [Op.insert true 1 10, .insert true 2 20]))
        (treeOf natLess (run natLess [Op.insert true 5 50]))) 0 1 2 = .ok w1 ∧
      w1.entries 0 = (World.ofPair
        (treeOf natLess (run natLess [Op.insert true 1 10, .insert true 2 20]))
        (treeOf natLess (run natLess [Op.insert true 5 50]))).entries 1 ∧
      w1.size 0 = (World.ofPair
        (treeOf natLess (run natLess [Op.insert true 1 10, .insert true 2 20]))
        (treeOf natLess (run natLess [Op.insert true 5 50]))).size 1 ∧
      w1.entries 1 = (World.ofPair
        (treeOf natLess (run natLess [Op.insert true 1 10, .insert true 2 20]))
        (treeOf natLess (run natLess [Op.insert true 5 50]))).entries 0 ∧
      w1.size 1 = (World.ofPair
        (treeOf natLess (run natLess [Op.insert true 1 10, .insert true 2 20]))
        (treeOf natLess (run natLess [Op.insert true 5 50]))).size 0 :=
  ⟨by decide, by decide, by decide, by decide, by decide, by decide,
    (C23_swap_exchanges_contents _ 0 1 2 (by decide) (by decide) (by decide) (by decide)).imp
      fun _ h => ⟨h.1, h.2.1, h.2.2.1, h.2.2.2.1, h.2.2.2.2.1⟩⟩

/-- C28, amended (`find` on a text without NUL): for every `BString` `t`
containing no NUL character, of size below `2^64`, every pattern `s` containing
no NUL character and every `idx < t.size()`, `t.find(s, idx)` returns; the
result is the least index `i >= idx` such that the characters of `t` from `i` on
start with `s` (`idx` itself for the empty pattern), and it is `npos` exactly
when there is no such index. -/
theorem C28_find_least_occurrence (t s : BString) (idx : Nat) (ht : 0 ∉ t.chars) (hs : 0 ∉ s.chars)
    (hlen : t.size < 2 ^ 64) (hidx : idx < t.size) :
    ∃ r, t.find s idx = some r ∧
      ((r = BString.npos ∧ ∀ i, idx ≤ i → ¬ s.chars <+: t.chars.drop i) ∨
       (idx ≤ r ∧ r + s.size ≤ t.size ∧ r ≠ BString.npos ∧ s.chars <+: t.chars.drop r ∧
          ∀ i, idx ≤ i → i < r → ¬ s.chars <+: t.chars.drop i)) := by
  obtain ⟨tc⟩ := t
  obtain ⟨sc⟩ := s
  simp only [BString.size] at hlen hidx ⊢
  simp only at ht hs ⊢
  have hnp : BString.npos = 2 ^ 64 - 1 := rfl
  have hfind : BString.find ⟨tc⟩ ⟨sc⟩ idx = BString.find_ ⟨tc⟩ idx tc.length (sc ++ [0]) sc.length := by
    simp [BString.find, BString.size, BString.ptr_, hidx]
  rw [hfind]
  by_cases hn0 : sc.length = 0
  · have hnil : sc = [] := List.length_eq_zero.mp hn0
    subst hnil
    refine ⟨idx, by simp [BString.find_], .inr ⟨le_refl _, by simp; omega, by omega,
      List.nil_prefix, fun i h1 h2 => by omega⟩⟩
  by_cases hbig : sc.length > tc.length - idx
  · refine ⟨BString.npos, by simp [BString.find_, hn0, hbig], .inl ⟨rfl, fun i hi hp => ?_⟩⟩
    have := hp.length_le
    simp only [List.length_drop] at this
    omega
  have htxt0 : 0 ∉ tc.drop idx := fun h => ht (List.mem_of_mem_drop h)
  have hcur : strncpy (sc ++ [0]) sc.length ++ [0] ++
      strncpy (List.drop idx (tc ++ [0])) (tc.length - idx) = sc ++ [0] ++ tc.drop idx := by
    rw [strncpy_left [0] hs, List.drop_append_of_le_length (by omega)]
    have h2 := strncpy_left [0] htxt0
    rw [List.length_drop] at h2
    rw [h2]
  have hcl : (sc ++ [0] ++ tc.drop idx).length = tc.length - idx + 1 + sc.length := by
    simp only [List.length_append, List.length_singleton, List.length_drop]
    omega
  obtain ⟨lps, e1, l1, tbl⟩ := prefix_func_spec (sc ++ [0] ++ tc.drop idx) (by omega)
  rw [hcl] at e1 l1
  have hml : (tc.drop idx).length = tc.length - idx := List.length_drop _ _
  -- an occurrence at `idx + j` shows as the value `|s|` in slot `j + 2 |s|`
  have occ : ∀ j, sc <+: tc.drop (idx + j) → lps.getD (j + 2 * sc.length) 0 = sc.length := by
    intro j hp
    have hle := hp.length_le
    simp only [List.length_drop] at hle
    have hy : j + 2 * sc.length < lps.length := by omega
    have hb : Border (sc ++ [0] ++ tc.drop idx) (j + 2 * sc.length) sc.length := by
      rw [border_sep_iff hs (by omega)]
      refine ⟨by omega, fun x hx => ?_⟩
      rw [← List.drop_drop] at hp
      rw [(prefix_drop_iff hs j).mp hp x hx]
      congr 1
      omega
    have h1 := (tbl _ hy).2 _ hb
    have h2 := border_le_sep htxt0 (by rw [hml]; omega) (tbl _ hy).1
    omega
  obtain ⟨r, e2, hr⟩ := scan_spec lps sc.length idx (tc.length - idx) (sc.length + 1) (by omega)
  have hfe : BString.find_ ⟨tc⟩ idx tc.length (sc ++ [0]) sc.length = some r := by
    simp only [BString.find_, hn0, if_false, hbig, BString.ptr_, hcur, e1, Option.some_bind, e2]
  refine ⟨r, hfe, ?_⟩
  rcases hr with ⟨hr, hn⟩ | ⟨y, y1, y2, y3, y4, y5⟩
  · refine .inl ⟨hr, fun i hi hp => ?_⟩
    have hle := hp.length_le
    simp only [List.length_drop] at hle
    have hi2 : idx + (i - idx) = i := by omega
    have := occ (i - idx) (by rw [hi2]; exact hp)
    exact hn (i - idx + 2 * sc.length) (by omega) (by omega) this
  · have hy : y < lps.length := by omega
    have hb : Border (sc ++ [0] ++ tc.drop idx) y sc.length := by
      have := (tbl y hy).1
      rwa [y3] at this
    rw [border_sep_iff hs y1] at hb
    obtain ⟨hy2, hm⟩ := hb
    have hp : sc <+: tc.drop (idx + (y - 2 * sc.length)) := by
      rw [← List.drop_drop]
      exact (prefix_drop_iff hs _).mpr hm
    have hrv : r = idx + (y - 2 * sc.length) := by
      rw [y5]
      have h1 : ((y : Int) - 2 * (sc.length : Int) + (idx : Int))
          = ((idx + (y - 2 * sc.length) : Nat) : Int) := by omega
      rw [h1, Int.emod_eq_of_lt (Int.ofNat_nonneg _) (by
        have : idx + (y - 2 * sc.length) < 2 ^ 64 := by omega
        exact_mod_cast this), Int.toNat_ofNat]
    rw [hrv]
    refine .inr ⟨by omega, by omega, by omega, hp, fun i i1 i2 hpi => ?_⟩
    have hi2 : idx + (i - idx) = i := by omega
    have := occ (i - idx) (by rw [hi2]; exact hpi)
    exact y4 (i - idx + 2 * sc.length) (by omega) (by omega) this

/-- Witness for C28: the pattern `ab` in the text `ababc` from index 1. -/
theorem C28_find_least_occurrence_witness :
    0 ∉ (BString.mk [97, 98, 97, 98, 99]).chars ∧ 0 ∉ (BString.mk [97, 98]).chars ∧
    (BString.mk [97, 98, 97, 98, 99]).size < 2 ^ 64 ∧ 1 < (BString.mk [97, 98, 97, 98, 99]).size ∧
    (BString.mk [97, 98, 97, 98, 99]).find (BString.mk [97, 98]) 1 = some 2 ∧
    ∃ r, (BString.mk [97, 98, 97, 98, 99]).find (BString.mk [97, 98]) 1 = some r ∧
      ((r = BString.npos ∧
          ∀ i, 1 ≤ i → ¬ (BString.mk [97, 98]).chars <+: (BString.mk [97, 98, 97, 98, 99]).chars.drop i) ∨
       (1 ≤ r ∧ r + (BString.mk [97, 98]).size ≤ (BString.mk [97, 98, 97, 98, 99]).size ∧
          r ≠ BString.npos ∧
          (BString.mk [97, 98]).chars <+: (BString.mk [97, 98, 97, 98, 99]).chars.drop r ∧
          ∀ i, 1 ≤ i → i < r →
            ¬ (BString.mk [97, 98]).chars <+: (BString.mk [97, 98, 97, 98, 99]).chars.drop i)) :=
  ⟨by decide, by decide, by norm_num [BString.size], by decide, by decide,
    C28_find_least_occurrence _ _ 1 (by decide) (by decide) (by norm_num [BString.size])
      (by decide)⟩

/-- C28 as stated (any text): the text `a`, NUL, `b` holds the pattern `b` at
index 2, the pattern contains no NUL and `idx = 0` is below the size, yet
`find` returns `npos`: `strncpy` stops copying the text at its NUL. -/
theorem C28_find_misses_occurrence_after_nul :
    0 ∉ (BString.mk [98]).chars ∧ 0 < (BString.mk [97, 0, 98]).size ∧
    (BString.mk [98]).chars <+: (BString.mk [97, 0, 98]).chars.drop 2 ∧
    (BString.mk [97, 0, 98]).find (BString.mk [98]) 0 = some BString.npos := by
  decide

/-- C29 (deletion repairs the tree): for every well-formed tree (its nodes form a
tree `s` with consistent parent links) whose comparator is a strict weak order
and which satisfies invariants 1 to 6 (black root, no red-red, equal black
heights, sorted in-order, correct count, correct min/max caches), and for every
key, `remove(key)` completes, and the resulting tree is well-formed and
satisfies invariants 1 to 6 again. -/
theorem C29_remove_keeps_invariants [DecidableEq K] [Inhabited V] (t : RBTree K V) (s : Shape)
    (key : K) (hinv : Inv t s) (hw : StrictWeakOrder t.cmp_) (h : t.invariants = true) :
    ∃ (t1 : RBTree K V) (b : Bool) (s1 : Shape), remove t key = .ok (t1, b) ∧ Inv t1 s1 ∧
      t1.invariants = true := by
  have hall := h
  simp only [RBTree.invariants, Bool.and_eq_true, decide_eq_true_eq] at h
  obtain ⟨⟨⟨⟨⟨i1, i2⟩, i3⟩, i4⟩, -⟩, i6⟩ := h
  have hcr : CRep t (s.paint t) := CRep.of_paint hinv.rep
  have hcr0 : CRep t (CCtx.top.plug (s.paint t)) := hcr
  have hroot := hinv.rep.1.root_eq
  have hv : (s.paint t).Valid := by
    rw [RBTree.noRedRed_iff, hinv.nodes_eq] at i2
    unfold RBTree.blackBalanced at i3
    obtain ⟨h3, e3⟩ := Option.isSome_iff_exists.mp i3
    rw [hroot] at e3
    have hrb := CRep.RB_of_blackHeight (s.paint t) .top (t.next + 1) h3 hcr0
      (by rw [Shape.erase_paint]; exact e3) (by rw [Shape.erase_paint]; exact i2)
    refine ⟨hrb.1, ?_⟩
    unfold RBTree.rootBlack at i1
    rw [hroot] at i1
    have hred := hcr0.redAt_false_iff
    rw [Shape.erase_paint] at hred
    exact hred.mp (by simpa using i1)
  have hca : Caches t (s.paint t).erase.ids := by
    rw [Shape.erase_paint, ← hinv.nodes_eq]
    exact (RBTree.cachesExact_iff t).mp i6
  obtain ⟨r, e, hres⟩ := remove_exact (s.paint t) (by rw [Shape.erase_paint]; exact hinv) hcr hv
    hca key
  have hso := Op.apply_sorted hw t (.remove key) ⟨rfl, s, hinv, hinv.sorted_of_check hw i4⟩
  simp only [Op.apply, e, Except.map, Outcome.ok_iff] at hso
  obtain ⟨-, s1, hinv1, hs1⟩ := hso
  refine ⟨r.1, r.2, s1, e, hinv1, ?_⟩
  rcases hres with rfl | ⟨cs1, r1, v1, c1⟩
  · exact hall
  · have hsh : cs1.erase = s1 := Rep.shape_unique r1.1 hinv1.rep
    have r10 : CRep r.1 (CCtx.top.plug cs1) := r1
    obtain ⟨b1, b2⟩ := CRep.blackHeight_of_RB cs1 .top (r.1.next + 1) r10
      (by rw [hsh]; exact Nat.lt_succ_of_le hinv1.height_le) v1.1
    have j1 : r.1.rootBlack = true := by
      unfold RBTree.rootBlack
      rw [hinv1.rep.1.root_eq, ← hsh, r10.redAt_false_iff.mpr v1.2]
      rfl
    have j2 : r.1.noRedRed = true := by
      rw [RBTree.noRedRed_iff, hinv1.nodes_eq, ← hsh]
      exact b2
    have j3 : r.1.blackBalanced = true := by
      unfold RBTree.blackBalanced
      rw [hinv1.rep.1.root_eq, ← hsh, b1]
      rfl
    have j4 : r.1.keysSorted = true := hinv1.check_of_sorted hs1
    have j5 : r.1.size = r.1.nodes.length := hinv1.size_eq
    have j6 : r.1.cachesExact = true := by
      rw [RBTree.cachesExact_iff, hinv1.nodes_eq, ← hsh]
      exact c1
    simp only [RBTree.invariants, j1, j2, j3, j4, j5, j6, decide_True, Bool.and_self]

/-- Witness for C29: the tree made by the unique inserts 2, 1, 3, 0 satisfies
invariants 1 to 6; removing the black leaf 3 goes through the fix-up and leaves a
tree that satisfies them again. -/
theorem C29_remove_keeps_invariants_witness :
    ∃ t, run natLess ([.insert true 2 0, .insert true 1 0, .insert true 3 0,
        .insert true 0 0] : List (Op Nat Nat)) = .ok t ∧
      StrictWeakOrder t.cmp_ ∧ t.invariants = true ∧ t.keys = [0, 1, 2, 3] ∧
      ∃ (t1 : RBTree Nat Nat) (b : Bool) (s1 : Shape), remove t 3 = .ok (t1, b) ∧ Inv t1 s1 ∧
        t1.invariants = true := by
  rcases (run_spec natLess ([.insert true 2 0, .insert true 1 0, .insert true 3 0,
      .insert true 0 0] : List (Op Nat Nat))).cases with ⟨t, e, ⟨s, hinv, -⟩, hcmp⟩ | e
  · have hi : observe (run natLess ([.insert true 2 0, .insert true 1 0, .insert true 3 0,
        .insert true 0 0] : List (Op Nat Nat))) (fun t => (t.invariants, t.keys))
        = some (true, [0, 1, 2, 3]) := by decide
    rw [e] at hi
    simp only [observe, Option.some.injEq, Prod.mk.injEq] at hi
    have hw : StrictWeakOrder t.cmp_ := by
      rw [hcmp]
      exact strictOrder_natLess.toWeak
    exact ⟨t, e, hw, hi.1, hi.2, C29_remove_keeps_invariants t s 3 hinv hw hi.1⟩
  · exact absurd e (ne_error_of_failure (by decide) _)

/-! ## Guards of the fix-ups, rotations, recursion depth, links -/

/-- C31 (the grandparent exists whenever the insert fix-up meets a red parent):
the unique inserts 3, 1, 2 and `remove(3)` complete and leave the keys 1, 2
under a red root, the node holding 2, for which `get_parent` yields no node.
`insert(true, 4, v)` links the new node below that root, so
`rebalance_after_insert_` reaches the red-parent branch with the root as the
parent and dereferences the absent grandparent. -/
theorem C31_red_root_parent_has_no_grandparent :
    observe (run natLess [Op.insert true 3 0, .insert true 1 0, .insert true 2 0, .remove 3])
      (fun t => (t.keys, (t.keyOf t.header_.parent).toOption, t.redAt t.header_.parent,
        (get_parent t t.header_.parent).toOption))
      = some ([1, 2], some 2, true, some Ptr.null) ∧
    failure (run natLess [Op.insert true 3 0, .insert true 1 0, .insert true 2 0, .remove 3,
                          .insert true 4 0]) = some Err.nullDeref := by
  decide

/-- C32 (the only child of a node erased in the one-child branch is a red
leaf): after the unique inserts 1, 3, 2 the root holds 1, has no left child,
and its right child, the red node holding 3, has the node holding 2 as its left
child.  `remove(1)` completes through the one-child branch of `remove_`, whose
only child is therefore not a leaf. -/
theorem C32_only_child_is_not_a_leaf :
    observe (run natLess [Op.insert true 1 0, .insert true 3 0, .insert true 2 0])
      (fun t => ((t.keyOf t.header_.parent).toOption, (t.leftOf t.header_.parent).toOption,
        (t.rightOf t.header_.parent).toOption, (t.keyOf (.node 1)).toOption,
        (t.leftOf (.node 1)).toOption))
      = some (some 1, some Ptr.null, some (Ptr.node 1), some 3, some (Ptr.node 2)) ∧
    observe (run natLess [Op.insert true 1 0, .insert true 3 0, .insert true 2 0])
      (fun t => (t.redAt (.node 1), (t.keyOf (.node 2)).toOption)) = some (true, some 2) ∧
    observe (run natLess [Op.insert true 1 0, .insert true 3 0, .insert true 2 0, .remove 1])
      (fun t => t.keys) = some [2, 3] := by
  decide

/-- C35 (the sibling is present whenever the delete fix-up runs on a non-root
node): the unique inserts 1, 2, 3, 4 followed by `remove(4)` and `remove(3)`
complete and leave the black root holding 1 with no left child and the black
leaf holding 2 as its right child, so that leaf has no sibling.  `remove(2)`
runs `rebalance_after_remove_` on it and dereferences the absent sibling. -/
theorem C35_black_leaf_without_sibling :
    observe (run natLess [Op.insert true 1 0, .insert true 2 0, .insert true 3 0,
                          .insert true 4 0, .remove 4, .remove 3])
      (fun t => (t.keys, (t.leftOf t.header_.parent).toOption,
        (t.rightOf t.header_.parent).toOption, (t.keyOf (.node 1)).toOption,
        t.redAt (.node 1)))
      = some ([1, 2], some Ptr.null, some (Ptr.node 1), some 2, false) ∧
    observe (run natLess [Op.insert true 1 0, .insert true 2 0, .insert true 3 0,
                          .insert true 4 0, .remove 4, .remove 3])
      (fun t => (get_sibling t (.node 1)).toOption) = some (some Ptr.null) ∧
    failure (run natLess [Op.insert true 1 0, .insert true 2 0, .insert true 3 0,
                          .insert true 4 0, .remove 4, .remove 3, .remove 2])
      = some Err.nullDeref := by
  decide

/-- C37 (`get_or_insert` always yields a node holding the key): on the empty
tree `get_or_insert(5)` returns `end()` and inserts nothing: `size()` stays 0,
no key is stored and `find(5)` is `end()` afterwards. -/
theorem C37_get_or_insert_on_empty_tree_returns_end :
    (get_or_insert (RBTree.empty natLess : RBTree Nat Nat) 5).toOption.map
      (fun r => (r.2, r.1.size, r.1.keys, (find r.1 5).toOption))
      = some (Ptr.header, 0, [], some Ptr.header) := by
  decide

/-- C33 (rotations are order-preserving local relinks): in every well-formed
tree, for every node `n` of it, when `n` has a right child `r` the call
`rotate_left_(n)` completes in a well-formed tree in which the in-order
sequence of nodes, every payload and colour, and the set of allocated nodes are
as before, `r` has the former parent of `n` and the former slot of `n` in that
parent (the root link of the sentinel when `n` was the root), `n` is the left
child of `r` with `r` as its parent, the former left subtree of `r` is the right
subtree of `n`, and every child of a node names that node as its parent; and
symmetrically for `rotate_right_(n)` when `n` has a left child. -/
theorem C33_rotations_are_local_relinks (t : RBTree K V) (s : Shape) (n : Nat)
    (hinv : Inv t s) (hn : n ∈ t.nodes) :
    (∀ r, t.rightOf (.node n) = .ok (.node r) →
      ∃ t1 s1, rotate_left_ t (.node n) = .ok t1 ∧ Inv t1 s1 ∧ Rotated t t1 n r ∧
        t1.leftOf (.node r) = .ok (.node n) ∧ t1.rightOf (.node n) = t.leftOf (.node r) ∧
        t1.leftOf (.node n) = t.leftOf (.node n) ∧
        t1.rightOf (.node r) = t.rightOf (.node r)) ∧
    (∀ l, t.leftOf (.node n) = .ok (.node l) →
      ∃ t1 s1, rotate_right_ t (.node n) = .ok t1 ∧ Inv t1 s1 ∧ Rotated t t1 n l ∧
        t1.rightOf (.node l) = .ok (.node n) ∧ t1.leftOf (.node n) = t.rightOf (.node l) ∧
        t1.rightOf (.node n) = t.rightOf (.node n) ∧
        t1.leftOf (.node l) = t.leftOf (.node l)) :=
  ⟨fun _ hr => rotate_left_relinks hinv hn hr, fun _ hl => rotate_right_relinks hinv hn hl⟩

/-- Witness for C33: in the tree made by the unique inserts 2, 1, 3 the root, at
address 0, has the right child at address 2 and the left child at address 1;
both rotations at the root complete as described. -/
theorem C33_rotations_are_local_relinks_witness :
    ∃ (t : RBTree Nat Nat) (s : Shape), run natLess ([.insert true 2 0, .insert true 1 0,
        .insert true 3 0] : List (Op Nat Nat)) = .ok t ∧ Inv t s ∧ 0 ∈ t.nodes ∧
      (∃ t1 s1, rotate_left_ t (.node 0) = .ok t1 ∧ Inv t1 s1 ∧ Rotated t t1 0 2 ∧
        t1.leftOf (.node 2) = .ok (.node 0) ∧ t1.rightOf (.node 0) = t.leftOf (.node 2) ∧
        t1.leftOf (.node 0) = t.leftOf (.node 0) ∧
        t1.rightOf (.node 2) = t.rightOf (.node 2)) ∧
      (∃ t1 s1, rotate_right_ t (.node 0) = .ok t1 ∧ Inv t1 s1 ∧ Rotated t t1 0 1 ∧
        t1.rightOf (.node 1) = .ok (.node 0) ∧ t1.leftOf (.node 0) = t.rightOf (.node 1) ∧
        t1.rightOf (.node 0) = t.rightOf (.node 0) ∧
        t1.leftOf (.node 1) = t.leftOf (.node 1)) := by
  rcases (run_spec natLess ([.insert true 2 0, .insert true 1 0,
      .insert true 3 0] : List (Op Nat Nat))).cases with ⟨t, e, ⟨s, hinv, -⟩, -⟩ | e
  · have hi : observe (run natLess ([.insert true 2 0, .insert true 1 0,
        .insert true 3 0] : List (Op Nat Nat)))
        (fun t => (decide (0 ∈ t.nodes), (t.rightOf (.node 0)).toOption,
          (t.leftOf (.node 0)).toOption))
        = some (true, some (Ptr.node 2), some (Ptr.node 1)) := by decide
    rw [e] at hi
    simp only [observe, Option.some.injEq, Prod.mk.injEq, decide_eq_true_eq] at hi
    obtain ⟨hn, hr, hl⟩ := hi
    have h := C33_rotations_are_local_relinks t s 0 hinv hn
    exact ⟨t, s, e, hinv, hn, h.1 2 (eq_ok_of_toOption hr), h.2 1 (eq_ok_of_toOption hl)⟩
  · exact absurd e (ne_error_of_failure (by decide) _)

/-- C34 (recursion depth bounded by the height): in every well-formed tree,
with room for more nested calls than the tree is high (`height + 1` suffices),
`find_`, `lower_bound_` and `upper_bound_` started at the root return a result,
`insert_` and `remove_` started at the root and `rebalance_after_insert_` and
`rebalance_after_remove_` started at any node of the tree end within that
depth: they return or stop at a null dereference, and never need a deeper
nesting. -/
theorem C34_recursion_depth_bounded_by_height [DecidableEq K] (t : RBTree K V) (s : Shape)
    (fuel : Nat) (hinv : Inv t s) (hf : t.height < fuel) (key : K) (val : V) (replace : Bool) :
    (∃ r, find_ fuel t t.header_.parent key = .ok r) ∧
    (∀ sat, ∃ r, lower_bound_ fuel t t.header_.parent key sat = .ok r) ∧
    (∀ sat, ∃ r, upper_bound_ fuel t t.header_.parent key sat = .ok r) ∧
    insert_ fuel t t.header_.parent replace key val ≠ .error .outOfFuel ∧
    remove_ fuel t t.header_.parent key ≠ .error .outOfFuel ∧
    ∀ a ∈ t.nodes, rebalance_after_insert_ fuel t (.node a) ≠ .error .outOfFuel ∧
      rebalance_after_remove_ fuel t (.node a) ≠ .error .outOfFuel := by
  rw [hinv.height_eq] at hf
  have hroot := hinv.rep.1.root_eq
  have hne : ∀ {α : Type} {r : Except Err α} {P : α → Prop}, Outcome r P →
      r ≠ .error .outOfFuel := by
    intro α r P h e
    rw [e] at h
    cases h
  refine ⟨?_, ?_, ?_, ?_, ?_, ?_⟩
  · obtain ⟨r, e, -⟩ := find__spec key fuel t .top s hinv.rep hf trivial
    exact ⟨r, hroot ▸ e⟩
  · intro sat
    exact lower_bound__returns key fuel t s _ _ sat hinv.rep.1 hf
  · intro sat
    exact upper_bound__returns key fuel t s _ _ sat hinv.rep.1 hf
  · cases s with
    | nil =>
      rw [hroot]
      cases fuel with
      | zero => omega
      | succ fuel => simp [insert_, Shape.root]
    | node A a B =>
      rw [hroot]
      exact hne (insert__spec replace key val fuel t .top A B a hinv.rep hinv.fresh
        (Nat.le_of_lt hf) trivial)
  · rw [hroot]
    exact hne (remove__spec key fuel t .top s hinv hf trivial)
  · intro a ha
    rw [hinv.nodes_eq] at ha
    obtain ⟨c, A, B, rfl⟩ := Shape.exists_ctx_of_mem ha
    have hd : c.depth < fuel := by
      have := Ctx.depth_add_height_le c (.node A a B)
      simp only [Shape.height] at this
      omega
    exact ⟨hne (rai_spec fuel t c A B a hinv.rep hd), hne (rar_spec fuel t c A B a hinv.rep hd)⟩

/-- Witness for C34: the tree made by the unique inserts 2, 1, 3, 0 has height
3; with room for 4 nested calls the searches for key 0 return, and the insert,
the removal and both fix-ups end. -/
theorem C34_recursion_depth_bounded_by_height_witness :
    ∃ (t : RBTree Nat Nat) (s : Shape), run natLess ([.insert true 2 0, .insert true 1 0,
        .insert true 3 0, .insert true 0 0] : List (Op Nat Nat)) = .ok t ∧ Inv t s ∧
      t.height < 4 ∧
      (∃ r, find_ 4 t t.header_.parent 0 = .ok r) ∧
      (∀ sat, ∃ r, lower_bound_ 4 t t.header_.parent 0 sat = .ok r) ∧
      (∀ sat, ∃ r, upper_bound_ 4 t t.header_.parent 0 sat = .ok r) ∧
      insert_ 4 t t.header_.parent true 0 7 ≠ .error .outOfFuel ∧
      remove_ 4 t t.header_.parent 0 ≠ .error .outOfFuel ∧
      ∀ a ∈ t.nodes, rebalance_after_insert_ 4 t (.node a) ≠ .error .outOfFuel ∧
        rebalance_after_remove_ 4 t (.node a) ≠ .error .outOfFuel := by
  rcases (run_spec natLess ([.insert true 2 0, .insert true 1 0, .insert true 3 0,
      .insert true 0 0] : List (Op Nat Nat))).cases with ⟨t, e, ⟨s, hinv, -⟩, -⟩ | e
  · have hi : observe (run natLess ([.insert true 2 0, .insert true 1 0, .insert true 3 0,
        .insert true 0 0] : List (Op Nat Nat))) (fun t => t.height) = some 3 := by decide
    rw [e] at hi
    have hh : t.height = 3 := by simpa [observe] using hi
    have hf : t.height < 4 := by omega
    exact ⟨t, s, e, hinv, hf, C34_recursion_depth_bounded_by_height t s 4 hinv hf 0 7 true⟩
  · exact absurd e (ne_error_of_failure (by decide) _)

/-- C36 (link well-formedness in every reachable state): for every comparator
and every sequence of `insert`, `get_or_insert`, `remove` and `clear` calls on
the empty tree, the run either stops at a null dereference or yields a tree in
which the parent link of the sentinel is absent exactly when `size()` is 0 and
otherwise designates a node, the root, whose parent link is the sentinel; every
node that is a child of a node of the tree names that node as its parent; and
the walk along the child links from the root meets no node twice. -/
theorem C36_links_well_formed_in_every_state [DecidableEq K] [Inhabited V] (cmp : K → K → Bool)
    (ops : List (Op K V)) :
    (∃ t, run cmp ops = .ok t ∧
      (t.header_.parent = .null ↔ t.size = 0) ∧ t.header_.parent ≠ .header ∧
      (∀ a, t.header_.parent = .node a → a ∈ t.nodes ∧ t.parentOf (.node a) = .ok .header) ∧
      (∀ a ∈ t.nodes, ∀ c,
        t.leftOf (.node a) = .ok (.node c) ∨ t.rightOf (.node a) = .ok (.node c) →
        c ∈ t.nodes ∧ t.parentOf (.node c) = .ok (.node a)) ∧
      (∀ a ∈ t.nodes, t.leftOf (.node a) ≠ .ok .header ∧ t.rightOf (.node a) ≠ .ok .header) ∧
      t.nodes.Nodup) ∨
      run cmp ops = .error .nullDeref := by
  rcases (run_spec cmp ops).cases with ⟨t, e, ⟨s, hinv, -⟩, -⟩ | e
  · refine Or.inl ⟨t, e, ?_, ?_, ?_, ?_, ?_, ?_⟩
    · rw [hinv.rep.1.root_eq, RBTree.size, hinv.cnt]
      cases s with
      | nil => simp [Shape.root, Shape.ids]
      | node A a B => simp [Shape.root, Shape.ids]
    · rw [hinv.rep.1.root_eq]
      exact Shape.root_ne_header s
    · intro a ha
      rw [hinv.rep.1.root_eq] at ha
      rw [hinv.nodes_eq]
      refine ⟨Shape.mem_of_root ha, ?_⟩
      cases s with
      | nil => cases ha
      | node A x B =>
        have hx : x = a := by simpa [Shape.root] using ha
        subst hx
        have h1 : Rep t (Ctx.plug .top (.node A x B)) := hinv.rep
        exact h1.parentOf
    · intro a ha c hc
      rw [hinv.nodes_eq] at ha ⊢
      exact ⟨hinv.rep.child_mem ha c hc, hinv.rep.child_links ha c hc⟩
    · intro a ha
      rw [hinv.nodes_eq] at ha
      obtain ⟨ctx, A, B, rfl⟩ := Shape.exists_ctx_of_mem ha
      rw [hinv.rep.leftOf, hinv.rep.rightOf]
      constructor
      · intro h
        exact Shape.root_ne_header A (by injection h)
      · intro h
        exact Shape.root_ne_header B (by injection h)
    · rw [hinv.nodes_eq]
      exact hinv.rep.2
  · exact Or.inr e

/-! ## Array-backed containers -/

/-- C38 (the heap order of `BPriorityQueue`): for every comparator that is a
strict weak order and every sequence of `push` and `pop` calls on the empty
queue in which each `pop` meets a non-empty queue, the run completes and leaves
an array in which no element at an index `i > 0` is greater than the element at
index `(i - 1) / 2`; a further `push` keeps that order and adds its element; and
when the queue is not empty `top()` returns an element that no stored element
exceeds, and `pop()` completes, keeps that order, and leaves exactly the
former elements less one occurrence of that top element. -/
theorem C38_heap_order_after_every_push_and_pop {Tp : Type} (cmp : Tp → Tp → Bool)
    (hw : StrictWeakOrder cmp) (ops : List (QueueOp Tp))
    (hops : QueueOp.popsNonEmpty 0 ops = true) :
    ∃ q, BPriorityQueue.run cmp ops = .ok q ∧ q.cmp_ = cmp ∧
      HeapOrdered cmp q.container_.elems ∧
      (∀ x, ∃ q1, q.push x = .ok q1 ∧ HeapOrdered cmp q1.container_.elems ∧
        q1.container_.elems.Perm (x :: q.container_.elems)) ∧
      (0 < q.size → ∃ m q1, q.top = .ok m ∧ (∀ y ∈ q.container_.elems, cmp m y = false) ∧
        q.pop = .ok q1 ∧ HeapOrdered cmp q1.container_.elems ∧
        q.container_.elems.Perm (m :: q1.container_.elems)) := by
  have h0 : HeapOrdered (BPriorityQueue.empty cmp).cmp_ (BPriorityQueue.empty cmp).container_.elems := by
    intro i x p _ hx
    simp [BPriorityQueue.empty, BVector.empty] at hx
  obtain ⟨q, e, hc, hh⟩ := BPriorityQueue.runFrom_heap ops (BPriorityQueue.empty cmp) hw h0 hops
  have hc1 : q.cmp_ = cmp := hc
  have hwq : StrictWeakOrder q.cmp_ := hc1 ▸ hw
  refine ⟨q, e, hc1, hc1 ▸ hh, ?_, ?_⟩
  · intro x
    obtain ⟨q1, e1, c1, h1, p1⟩ := BPriorityQueue.push_spec hwq hh x
    exact ⟨q1, e1, by rw [← hc1, ← c1]; exact h1, p1⟩
  · intro hn
    obtain ⟨m, q1, e1, hg, e2, c1, h1, p1⟩ := BPriorityQueue.pop_spec hwq hh hn
    exact ⟨m, q1, e1, by rw [← hc1]; exact hg, e2, by rw [← hc1, ← c1]; exact h1, p1⟩

/-- Witness for C38: under the usual order of the natural numbers the calls
push 3, push 1, push 4, pop, push 1, push 5 meet the conditions. -/
theorem C38_heap_order_after_every_push_and_pop_witness :
    StrictWeakOrder natLess ∧
    QueueOp.popsNonEmpty 0 [QueueOp.push 3, .push 1, .push 4, .pop, .push 1, .push 5] = true ∧
    ∃ q, BPriorityQueue.run natLess [QueueOp.push 3, .push 1, .push 4, .pop, .push 1, .push 5]
        = .ok q ∧ q.cmp_ = natLess ∧
      HeapOrdered natLess q.container_.elems ∧
      (∀ x, ∃ q1, q.push x = .ok q1 ∧ HeapOrdered natLess q1.container_.elems ∧
        q1.container_.elems.Perm (x :: q.container_.elems)) ∧
      (0 < q.size → ∃ m q1, q.top = .ok m ∧ (∀ y ∈ q.container_.elems, natLess m y = false) ∧
        q.pop = .ok q1 ∧ HeapOrdered natLess q1.container_.elems ∧
        q.container_.elems.Perm (m :: q1.container_.elems)) :=
  ⟨strictOrder_natLess.toWeak, by decide,
    C38_heap_order_after_every_push_and_pop natLess strictOrder_natLess.toWeak
      [QueueOp.push 3, .push 1, .push 4, .pop, .push 1, .push 5] (by decide)⟩

/-- C39 (`operator==` on `BDeque` compares element by element): the deques
built from the initializer lists `{1}` and `{2}`, of 4-byte elements, both have
size 1 and hold 1 and 2 at index 0, yet `operator==` returns `true`: its loop
tests `*iter1 != *iter1`, an element against itself. -/
theorem C39_unequal_deques_compare_equal :
    ((BDeque.ofList 4 [1]).bind fun x => (BDeque.ofList 4 [2]).bind fun y =>
      (x.operator_eq y).map fun r =>
        (x.size, y.size, (x.subscript 0).toOption, (y.subscript 0).toOption, r)).toOption
      = some (1, 1, some 1, some 2, true) := by
  set_option maxRecDepth 8192 in decide

/-- C40 (`back()` designates the element at index `Nm - 1`): for every array,
`front()` designates offset 0, but `back()` designates offset `Nm`, one past
the last element, which is not the object `operator[](Nm - 1)` designates when
`Nm > 0`, and reading through it leaves the array; on the array 10, 20, 30 the
last element is 30 at index 2 and `back()` designates index 3. -/
theorem C40_back_designates_one_past_the_end :
    (∀ (Nm : Nat) (a : BArray Nat Nm), a.front = 0 ∧ a.back = Nm ∧
      a.read a.back = .error .outOfRange ∧ (0 < Nm → a.back ≠ a.subscript (Nm - 1))) ∧
    (((⟨fun i => 10 * (i.val + 1)⟩ : BArray Nat 3).read 2).toOption = some 30 ∧
     (⟨fun i => 10 * (i.val + 1)⟩ : BArray Nat 3).subscript (3 - 1) = 2 ∧
     (⟨fun i => 10 * (i.val + 1)⟩ : BArray Nat 3).back = 3 ∧
     ((⟨fun i => 10 * (i.val + 1)⟩ : BArray Nat 3).read
        (⟨fun i => 10 * (i.val + 1)⟩ : BArray Nat 3).back).toOption = none) := by
  refine ⟨fun Nm a => ⟨rfl, by simp [BArray.back, BArray.data], ?_, ?_⟩, by decide⟩
  · simp [BArray.read, BArray.back, BArray.data]
  · intro h
    simp only [BArray.back, BArray.subscript, BArray.data]
    omega

end BabySTL
